import Mathlib

/-!
# socow_vector: small-object, copy-on-write vector

A shallow embedding of `src/socow-vector.h`.

* A heap is a list of cells, one per allocation, addressed by position; a freed
  cell is `none`.  A `dynamic_buffer` holds its `capacity`, its `cntRef` and the
  constructed elements, which always occupy the leading slots of the block.
* A container is its `SZ` field plus the live member of the union
  (`staticBuffer` or `dynamicBuffer`); `is_static` is the tag of that union.
* Iterators are element offsets from `begin()`.
* Every function threads the memory explicitly and returns an `Outcome`: either
  it returns normally, or it leaves by an exception, and in both cases the state
  at that moment is given.  Element copy constructions and allocations are
  counted, and an `Env` says which of them throw.
* `size_t` is 64 bits wide.  The byte count that `allocate_buffer` passes to
  `operator new` is computed modulo `2 ^ 64` and recorded in the memory, so that a
  block can be compared with the bytes it was given.
* A program is a sequence of calls on several containers; a call that exits by an
  exception is caught, and the program goes on in the state the call left.
-/

namespace Socow

/-! ## Data model -/

/-- The heap block `dynamic_buffer`: `capacity`, `cntRef` and the constructed elements. -/
structure dynamic_buffer (T : Type) where
  capacity : Nat
  cntRef : Nat
  elements : List T
deriving DecidableEq, Repr

/-- The anonymous union of `socow_vector`: exactly one member is live. -/
inductive storage (T : Type) where
  | staticBuffer (elems : List T)
  | dynamicBuffer (ptr : Nat)
deriving DecidableEq, Repr

/-- The container object: `SZ` and the union; `is_static` is the union tag. -/
structure socow_vector (T : Type) where
  SZ : Nat
  store : storage T
deriving DecidableEq, Repr

/-- The template parameter `SMALL_SIZE` together with the behaviour of the element
type and of the allocator: `copyThrows k` says whether the `k`-th invocation of the
element copy constructor throws, `allocThrows k` whether the `k`-th `operator new`
throws, `swapCopies` whether `std::swap` on elements goes through the copy
constructor (an element type without move operations), and `sizeof_value` is
`sizeof(value_type)`. -/
structure Env where
  SMALL_SIZE : Nat
  copyThrows : Nat → Bool
  allocThrows : Nat → Bool
  swapCopies : Bool
  sizeof_value : Nat

/-- The heap: one cell per allocation, addressed by position; `none` is a freed cell. -/
abbrev Heap (T : Type) := List (Option (dynamic_buffer T))

/-- The memory: the heap cells, the event counters (copy-constructor invocations,
elements constructed, elements destroyed, allocations), and the number of bytes that
each successful `operator new` was asked for, in the order of the allocations. -/
structure Mem (T : Type) where
  heap : Heap T
  copies : Nat
  constructed : Nat
  destroyed : Nat
  allocs : Nat
  sizes : List Nat
deriving DecidableEq, Repr

/-- Result of a call: normal return with a value, or exit by exception. Both carry the state. -/
inductive Outcome (α σ : Type) where
  | ok (val : α) (st : σ)
  | thrown (st : σ)
deriving DecidableEq, Repr

/-- The state a call ends in, however it ends. -/
def Outcome.state {α σ : Type} : Outcome α σ → σ
  | .ok _ s => s
  | .thrown s => s

/-- Whether the call returned normally. -/
def Outcome.isOk {α σ : Type} : Outcome α σ → Bool
  | .ok _ _ => true
  | .thrown _ => false

/-- An element type whose copies never throw, with an allocator that never fails. -/
def Env.nothrow (E : Env) : Prop :=
  (∀ k, E.copyThrows k = false) ∧ (∀ k, E.allocThrows k = false)

variable {T : Type}

/-- The live block in cell `p`, if any. -/
def Heap.cell (h : Heap T) (p : Nat) : Option (dynamic_buffer T) :=
  h.getD p none

/-- Update of the live block in cell `p` in place. -/
def Heap.upd (h : Heap T) (p : Nat) (f : dynamic_buffer T → dynamic_buffer T) : Heap T :=
  match h.cell p with
  | some b => h.set p (some (f b))
  | none => h

/-- The empty memory. -/
def Mem.empty : Mem T := ⟨[], 0, 0, 0, 0, []⟩

/-- The live block at address `p`, if any. -/
def Mem.get? (m : Mem T) (p : Nat) : Option (dynamic_buffer T) :=
  m.heap.cell p

/-- Dereference of a buffer pointer (a dangling pointer reads an empty block). -/
def Mem.buf (m : Mem T) (p : Nat) : dynamic_buffer T :=
  (m.get? p).getD ⟨0, 0, []⟩

/-- Update of the live block at `p` in place. -/
def Mem.update (m : Mem T) (p : Nat) (f : dynamic_buffer T → dynamic_buffer T) : Mem T :=
  { m with heap := m.heap.upd p f }

/-- The call `operator delete` on the block at `p`; the byte count it is passed is
computed from the capacity of the block as in `allocate_buffer`. -/
def Mem.free (m : Mem T) (p : Nat) : Mem T :=
  { m with heap := m.heap.set p none }

/-- Constructing the objects `ys` in the slots starting at offset `k` of a block
whose constructed elements are `buf`. -/
def place (buf : List T) (k : Nat) (ys : List T) : List T :=
  buf.take k ++ ys ++ buf.drop (k + ys.length)

/-- Exchange of the values in slots `i` and `j`. -/
def exchange (xs : List T) (i j : Nat) : List T :=
  match xs.get? i, xs.get? j with
  | some a, some b => (xs.set i b).set j a
  | _, _ => xs

/-! ## Element-level operations -/

/-- One invocation of the element copy constructor. -/
def copy_construct (E : Env) (m : Mem T) : Outcome Unit (Mem T) :=
  if E.copyThrows m.copies then .thrown { m with copies := m.copies + 1 }
  else .ok () { m with copies := m.copies + 1, constructed := m.constructed + 1 }

/-- The loop of `std::uninitialized_copy_n`: copies one element after the other; when a
copy throws, the `done` objects already constructed are destroyed and the exception
leaves the loop. -/
def uninitialized_copy_loop (E : Env) : List T → Nat → Mem T → Outcome (List T) (Mem T)
  | [], _, m => .ok [] m
  | x :: xs, done, m =>
    match copy_construct E m with
    | .thrown m1 => .thrown { m1 with destroyed := m1.destroyed + done }
    | .ok _ m1 =>
      match uninitialized_copy_loop E xs (done + 1) m1 with
      | .ok ys m2 => .ok (x :: ys) m2
      | .thrown m2 => .thrown m2

/-- The call `std::uninitialized_copy_n(src, cnt, dest)`: the returned list is what has
been constructed at `dest`. -/
def uninitialized_copy_n (E : Env) (m : Mem T) (src : List T) (cnt : Nat) :
    Outcome (List T) (Mem T) :=
  uninitialized_copy_loop E (src.take cnt) 0 m

/-- The call `std::destroy_n(first, n)`, as far as the counters go. -/
def destroy_n (m : Mem T) (n : Nat) : Mem T :=
  { m with destroyed := m.destroyed + n }

/-- The call `std::swap(a, b)` on two elements, as far as the counters go: with an element
type that only copies, the temporary is copy-constructed (which may throw, before
anything is exchanged) and destroyed at the end. -/
def std_swap (E : Env) (m : Mem T) : Outcome Unit (Mem T) :=
  if E.swapCopies then
    match copy_construct E m with
    | .thrown m1 => .thrown m1
    | .ok _ m1 => .ok () (destroy_n m1 1)
  else .ok () m

/-! ## Observers -/

/-- The field `is_static`. -/
def socow_vector.is_static (v : socow_vector T) : Bool :=
  match v.store with
  | .staticBuffer _ => true
  | .dynamicBuffer _ => false

/-- The member `size()`. -/
def size (v : socow_vector T) : Nat := v.SZ

/-- The member `capacity()`. -/
def capacity (E : Env) (m : Mem T) (v : socow_vector T) : Nat :=
  match v.store with
  | .staticBuffer _ => E.SMALL_SIZE
  | .dynamicBuffer p => (m.buf p).capacity

/-- The member `empty()`. -/
def empty (v : socow_vector T) : Bool := size v == 0

/-- The const member `data()`: the elements the returned pointer points at. -/
def const_data (m : Mem T) (v : socow_vector T) : List T :=
  match v.store with
  | .staticBuffer buf => buf
  | .dynamicBuffer p => (m.buf p).elements

/-- The expression `dynamicBuffer->cntRef` (0 for an inline container). -/
def cntRef (m : Mem T) (v : socow_vector T) : Nat :=
  match v.store with
  | .staticBuffer _ => 0
  | .dynamicBuffer p => (m.buf p).cntRef

/-- The test `is_static || dynamicBuffer->cntRef == 1`. -/
def exclusive (m : Mem T) (v : socow_vector T) : Bool :=
  v.is_static || cntRef m v == 1

/-- The sequence a container holds: its first `size()` elements. -/
def contents (m : Mem T) (v : socow_vector T) : List T :=
  (const_data m v).take (size v)

/-- The container after the elements of its live storage became `xs`: an inline
container holds them itself, a heap-backed one is unchanged. -/
def socow_vector.with_elems (v : socow_vector T) (xs : List T) : socow_vector T :=
  match v.store with
  | .staticBuffer _ => { v with store := .staticBuffer xs }
  | .dynamicBuffer _ => v

/-- The heap after the elements of the live storage of `v` became `xs`. -/
def Heap.put (h : Heap T) (v : socow_vector T) (xs : List T) : Heap T :=
  match v.store with
  | .staticBuffer _ => h
  | .dynamicBuffer p => h.upd p (fun b => { b with elements := xs })

/-- A store through the pointer obtained from `data()`: the elements of the live
storage become `xs`. -/
def write_data (m : Mem T) (v : socow_vector T) (xs : List T) : Mem T × socow_vector T :=
  ({ m with heap := m.heap.put v xs }, v.with_elems xs)

/-! ## Buffer lifecycle -/

/-- The number of values of `size_t`: `SIZE_MAX + 1`, for a 64-bit `size_t`. -/
def SIZE_MODULUS : Nat := 2 ^ 64

/-- The constant `sizeof(dynamic_buffer)`: the two `size_t` fields; the trailing array
`elements[0]` adds nothing (for an element type aligned no more strictly than `size_t`). -/
def sizeof_dynamic_buffer : Nat := 16

/-- The member `allocate_buffer`: the byte count `cntBytes` is computed in `size_t`, so it
is taken modulo `SIZE_MODULUS`; `operator new(cntBytes)` returns a block of that many
bytes, in which the header `dynamic_buffer{newCapacity, 1}` is constructed. -/
def allocate_buffer (E : Env) (m : Mem T) (newCapacity : Nat) : Outcome Nat (Mem T) :=
  let cntBytes := (sizeof_dynamic_buffer + E.sizeof_value * newCapacity) % SIZE_MODULUS
  if E.allocThrows m.allocs then .thrown { m with allocs := m.allocs + 1 }
  else .ok m.heap.length
    { m with heap := m.heap ++ [some ⟨newCapacity, 1, []⟩], allocs := m.allocs + 1,
             sizes := m.sizes ++ [cntBytes] }

/-- The member `getBufferViaCopy(capacity, from, cnt)`. -/
def getBufferViaCopy (E : Env) (m : Mem T) (cap : Nat) (src : List T) (cnt : Nat) :
    Outcome Nat (Mem T) :=
  match allocate_buffer E m cap with
  | .thrown m1 => .thrown m1
  | .ok newBuffer m1 =>
    match uninitialized_copy_n E m1 src cnt with
    | .thrown m2 => .thrown (m2.free newBuffer)
    | .ok ys m2 => .ok newBuffer (m2.update newBuffer (fun b => { b with elements := ys }))

/-- The member `dropDynamicBuffer(buffer, sz)`. -/
def dropDynamicBuffer (m : Mem T) (buffer : Nat) (sz : Nat) : Mem T :=
  match m.get? buffer with
  | none => m
  | some b =>
    if b.cntRef - 1 = 0 then destroy_n (m.free buffer) sz
    else m.update buffer (fun b => { b with cntRef := b.cntRef - 1 })

/-- The default constructor. -/
def ctor_default : socow_vector T := ⟨0, .staticBuffer []⟩

/-- The copy constructor. -/
def ctor_copy (E : Env) (m : Mem T) (other : socow_vector T) :
    Outcome (socow_vector T) (Mem T) :=
  match other.store with
  | .staticBuffer buf =>
    match uninitialized_copy_n E m buf (size other) with
    | .thrown m1 => .thrown m1
    | .ok ys m1 => .ok ⟨other.SZ, .staticBuffer ys⟩ m1
  | .dynamicBuffer p =>
    .ok ⟨other.SZ, .dynamicBuffer p⟩ (m.update p (fun b => { b with cntRef := b.cntRef + 1 }))

/-- The private constructor `socow_vector(size_t neededCapacity)`. -/
def ctor_capacity (E : Env) (m : Mem T) (neededCapacity : Nat) :
    Outcome (socow_vector T) (Mem T) :=
  if neededCapacity ≤ E.SMALL_SIZE then .ok ⟨0, .staticBuffer []⟩ m
  else
    match allocate_buffer E m neededCapacity with
    | .thrown m1 => .thrown m1
    | .ok p m1 => .ok ⟨0, .dynamicBuffer p⟩ m1

/-- The destructor. -/
def dtor (m : Mem T) (v : socow_vector T) : Mem T :=
  match v.store with
  | .staticBuffer _ => destroy_n m v.SZ
  | .dynamicBuffer p => dropDynamicBuffer m p v.SZ

/-! ## Copy-on-write access -/

/-- The member `unshare`. -/
def unshare (E : Env) (m : Mem T) (self : socow_vector T) :
    Outcome Unit (Mem T × socow_vector T) :=
  match self.store with
  | .staticBuffer _ => .ok () (m, self)
  | .dynamicBuffer p =>
    match getBufferViaCopy E m (capacity E m self) (m.buf p).elements (size self) with
    | .thrown m1 => .thrown (m1, self)
    | .ok newBuffer m1 =>
      .ok () (m1.update p (fun b => { b with cntRef := b.cntRef - 1 }),
              { self with store := .dynamicBuffer newBuffer })

/-- The non-const member `data()`; the pointer it returns is the live storage of the
container in the returned state. -/
def data (E : Env) (m : Mem T) (self : socow_vector T) :
    Outcome Unit (Mem T × socow_vector T) :=
  if !self.is_static && cntRef m self > 1 then unshare E m self
  else .ok () (m, self)

/-- Sequencing of two calls on the same state: an exception in the first leaves at once. -/
def Outcome.bind {α β σ : Type} (o : Outcome α σ) (f : α → σ → Outcome β σ) : Outcome β σ :=
  match o with
  | .ok a s => f a s
  | .thrown s => .thrown s

/-- The accessors that come in a non-const and a const overload: `data()`,
`operator[](i)`, `front()`, `back()`, `begin()` and `end()`. -/
inductive Accessor where
  | data
  | subscript (i : Nat)
  | front
  | back
  | begin
  | finish
deriving DecidableEq, Repr

/-- The offset from `data()` of the position an accessor returns: `data() + i` for
`operator[]`, `data()` for `front()` and `begin()`, `data() + size() - 1` for `back()`,
`data() + size()` for `end()`. -/
def Accessor.offset (v : socow_vector T) : Accessor → Nat
  | .data => 0
  | .subscript i => i
  | .front => 0
  | .back => size v - 1
  | .begin => 0
  | .finish => size v

/-- A non-const accessor: it calls the non-const `data()` and returns a position in
the storage that is live afterwards. -/
def access (E : Env) (m : Mem T) (self : socow_vector T) (a : Accessor) :
    Outcome Nat (Mem T × socow_vector T) :=
  (data E m self).bind fun _ s => .ok (a.offset s.2) s

/-- A const accessor: it goes through the const `data()`, which only reads the tag and
the pointer, and returns a position in the live storage. -/
def access_const (m : Mem T) (self : socow_vector T) (a : Accessor) :
    Outcome Nat (Mem T × socow_vector T) :=
  .ok (a.offset self) (m, self)

/-- The statement `v[i] = x` on a non-const container. -/
def store_at (E : Env) (m : Mem T) (self : socow_vector T) (i : Nat) (x : T) :
    Outcome Unit (Mem T × socow_vector T) :=
  (access E m self (.subscript i)).bind fun k s =>
    .ok () (write_data s.1 s.2 ((const_data s.1 s.2).set k x))

/-- The const `operator[]`: reads through the const `data()`. -/
def index_const (m : Mem T) (self : socow_vector T) (i : Nat) : Option T :=
  (const_data m self).get? i

/-- The const member `front()`. -/
def front_const (m : Mem T) (self : socow_vector T) : Option T :=
  (const_data m self).get? 0

/-- The const member `back()`. -/
def back_const (m : Mem T) (self : socow_vector T) : Option T :=
  (const_data m self).get? (size self - 1)

/-- The const member `begin()`, as an offset. -/
def begin_const (_m : Mem T) (_self : socow_vector T) : Nat := 0

/-- The const member `end()`, as an offset. -/
def end_const (_m : Mem T) (self : socow_vector T) : Nat := size self

/-! ## Mutators -/

/-- The member `pop_back`. -/
def pop_back (E : Env) (m : Mem T) (self : socow_vector T) :
    Outcome Unit (Mem T × socow_vector T) :=
  if exclusive m self then
    (data E m { self with SZ := self.SZ - 1 }).bind fun _ s =>
      .ok () (write_data (destroy_n s.1 1) s.2 ((const_data s.1 s.2).eraseIdx s.2.SZ))
  else
    match getBufferViaCopy E m (capacity E m self) (const_data m self) (size self - 1) with
    | .thrown m1 => .thrown (m1, self)
    | .ok newBuffer m1 =>
      match self.store with
      | .staticBuffer _ => .ok () (m1, self)
      | .dynamicBuffer p =>
        .ok () (dropDynamicBuffer m1 p (self.SZ - 1), ⟨self.SZ - 1, .dynamicBuffer newBuffer⟩)

/-- The member `reserve`. -/
def reserve (E : Env) (m : Mem T) (self : socow_vector T) (newCapacity : Nat) :
    Outcome Unit (Mem T × socow_vector T) :=
  match self.store with
  | .staticBuffer buf =>
    if newCapacity ≤ E.SMALL_SIZE then .ok () (m, self)
    else
      match getBufferViaCopy E m newCapacity buf (size self) with
      | .thrown m1 => .thrown (m1, self)
      | .ok newBuffer m1 =>
        .ok () (destroy_n m1 (size self), { self with store := .dynamicBuffer newBuffer })
  | .dynamicBuffer p =>
    if newCapacity > E.SMALL_SIZE ∧
        (((m.buf p).cntRef = 1 ∧ capacity E m self < newCapacity) ∨
         ((m.buf p).cntRef > 1 ∧ size self < newCapacity)) then
      match getBufferViaCopy E m newCapacity (m.buf p).elements (size self) with
      | .thrown m1 => .thrown (m1, self)
      | .ok newBuffer m1 =>
        .ok () (dropDynamicBuffer m1 p (size self), { self with store := .dynamicBuffer newBuffer })
    else if newCapacity ≤ E.SMALL_SIZE ∧ size self ≤ E.SMALL_SIZE ∧ (m.buf p).cntRef > 1 then
      match uninitialized_copy_n E m (m.buf p).elements (size self) with
      | .thrown m1 => .thrown (m1, self)
      | .ok ys m1 =>
        .ok () (dropDynamicBuffer m1 p (size self), { self with store := .staticBuffer ys })
    else .ok () (m, self)

/-- The member `shrink_to_fit`. -/
def shrink_to_fit (E : Env) (m : Mem T) (self : socow_vector T) :
    Outcome Unit (Mem T × socow_vector T) :=
  match self.store with
  | .staticBuffer _ => .ok () (m, self)
  | .dynamicBuffer p =>
    if size self ≠ capacity E m self ∧ size self > E.SMALL_SIZE then
      match getBufferViaCopy E m (size self) (m.buf p).elements (size self) with
      | .thrown m1 => .thrown (m1, self)
      | .ok newBuffer m1 =>
        .ok () (dropDynamicBuffer m1 p (size self), { self with store := .dynamicBuffer newBuffer })
    else if size self ≠ capacity E m self ∧ size self ≤ E.SMALL_SIZE then
      match uninitialized_copy_n E m (m.buf p).elements (size self) with
      | .thrown m1 => .thrown (m1, self)
      | .ok ys m1 =>
        .ok () (dropDynamicBuffer m1 p (size self), { self with store := .staticBuffer ys })
    else .ok () (m, self)

/-- The statement `std::swap(data()[i], data()[j])` on a non-const container. -/
def swap_data (E : Env) (s : Mem T × socow_vector T) (i j : Nat) :
    Outcome Unit (Mem T × socow_vector T) :=
  (data E s.1 s.2).bind fun _ s1 =>
  (data E s1.1 s1.2).bind fun _ s2 =>
    match std_swap E s2.1 with
    | .thrown m3 => .thrown (m3, s2.2)
    | .ok _ m3 => .ok () (write_data m3 s2.2 (exchange (const_data m3 s2.2) i j))

/-- The loop `for (i = 0; i < bound; i++) std::swap(a[i], b[i])` over two inline
buffers; the first argument bounds the number of iterations. -/
def swap_ranges (E : Env) (bound : Nat) :
    Nat → Nat → Mem T → List T → List T → Outcome Unit (Mem T × List T × List T)
  | 0, _, m, a, b => .ok () (m, a, b)
  | fuel + 1, i, m, a, b =>
    if i < bound then
      match std_swap E m with
      | .thrown m1 => .thrown (m1, a, b)
      | .ok _ m1 =>
        match a.get? i, b.get? i with
        | some x, some y => swap_ranges E bound fuel (i + 1) m1 (a.set i y) (b.set i x)
        | _, _ => swap_ranges E bound fuel (i + 1) m1 a b
    else .ok () (m, a, b)

/-- The inline/inline branch of `swap` when `size() <= other.size()`. -/
def swap_static (E : Env) (m : Mem T) (self other : socow_vector T) (sb ob : List T) :
    Outcome Unit (Mem T × socow_vector T × socow_vector T) :=
  match uninitialized_copy_n E m (ob.drop (size self)) (size other - size self) with
  | .thrown m1 => .thrown (m1, self, other)
  | .ok ys m1 =>
    let backUpSize := size self
    match swap_ranges E backUpSize backUpSize 0 m1 (place sb (size self) ys) ob with
    | .thrown (m2, a, b) =>
      .thrown (m2, ⟨size other, .staticBuffer a⟩, ⟨other.SZ, .staticBuffer b⟩)
    | .ok _ (m2, a, b) =>
      .ok () (destroy_n m2 (size other - backUpSize), ⟨size other, .staticBuffer a⟩,
        ⟨backUpSize, .staticBuffer (b.take backUpSize ++ b.drop (backUpSize + (size other - backUpSize)))⟩)

/-- The mixed branch of `swap` when `*this` is inline and `other` is heap-backed. -/
def swap_static_dynamic (E : Env) (m : Mem T) (self other : socow_vector T)
    (sb : List T) (backUpBuffer : Nat) :
    Outcome Unit (Mem T × socow_vector T × socow_vector T) :=
  match uninitialized_copy_n E m sb (size self) with
  | .thrown m1 => .thrown (m1, self, other)
  | .ok ys m1 =>
    .ok () (destroy_n m1 (size self), ⟨other.SZ, .dynamicBuffer backUpBuffer⟩,
      ⟨self.SZ, .staticBuffer ys⟩)

/-- The member `swap`; `this_eq_other` is the outcome of the test `this == &other`.
The state is the memory, `*this` and `other`. -/
def swap (E : Env) (m : Mem T) (self other : socow_vector T) (this_eq_other : Bool) :
    Outcome Unit (Mem T × socow_vector T × socow_vector T) :=
  if this_eq_other then .ok () (m, self, other)
  else
    match self.store, other.store with
    | .staticBuffer sb, .staticBuffer ob =>
      if size self > size other then
        match swap_static E m other self ob sb with
        | .ok _ (m1, o1, s1) => .ok () (m1, s1, o1)
        | .thrown (m1, o1, s1) => .thrown (m1, s1, o1)
      else swap_static E m self other sb ob
    | .staticBuffer sb, .dynamicBuffer q => swap_static_dynamic E m self other sb q
    | .dynamicBuffer p, .staticBuffer ob =>
      match swap_static_dynamic E m other self ob p with
      | .ok _ (m1, o1, s1) => .ok () (m1, s1, o1)
      | .thrown (m1, o1, s1) => .thrown (m1, s1, o1)
    | .dynamicBuffer p, .dynamicBuffer q =>
      .ok () (m, ⟨other.SZ, .dynamicBuffer q⟩, ⟨self.SZ, .dynamicBuffer p⟩)

/-- The call `std::uninitialized_copy_n(src, cnt, dst.data() + off)` with the
non-const `data()` of the destination container. -/
def copy_into (E : Env) (m : Mem T) (dst : socow_vector T) (off : Nat) (src : List T)
    (cnt : Nat) : Outcome Unit (Mem T × socow_vector T) :=
  (data E m dst).bind fun _ s =>
    match uninitialized_copy_n E s.1 src cnt with
    | .thrown m2 => .thrown (m2, s.2)
    | .ok ys m2 => .ok () (write_data m2 s.2 (place (const_data m2 s.2) off ys))

/-- The first loop of `erase`: `for (i = ind; i + cnt < size(); ++i)
std::swap(data()[i], data()[i + cnt])`; the first argument bounds the iterations. -/
def erase_shift (E : Env) (cnt : Nat) :
    Nat → Nat → Mem T × socow_vector T → Outcome Unit (Mem T × socow_vector T)
  | 0, _, s => .ok () s
  | fuel + 1, i, s =>
    if i + cnt < size s.2 then
      (swap_data E s i (i + cnt)).bind fun _ s1 => erase_shift E cnt fuel (i + 1) s1
    else .ok () s

/-- The second loop of `erase`: `cnt` calls of `pop_back`. -/
def pop_back_n (E : Env) : Nat → Mem T × socow_vector T → Outcome Unit (Mem T × socow_vector T)
  | 0, s => .ok () s
  | n + 1, s => (pop_back E s.1 s.2).bind fun _ s1 => pop_back_n E n s1

/-- The member `erase(first, last)`, with the two positions given as offsets. -/
def erase (E : Env) (m : Mem T) (self : socow_vector T) (first last : Nat) :
    Outcome Nat (Mem T × socow_vector T) :=
  let ind := first
  let cnt := last - first
  if cnt = 0 then .ok ind (m, self)
  else if exclusive m self then
    (erase_shift E cnt (size self) ind (m, self)).bind fun _ s1 =>
    (pop_back_n E cnt s1).bind fun _ s2 =>
    (data E s2.1 s2.2).bind fun _ s3 => .ok ind s3
  else
    match ctor_capacity E m (capacity E m self) with
    | .thrown m1 => .thrown (m1, self)
    | .ok tmp m1 =>
      match copy_into E m1 tmp 0 (const_data m1 self) ind with
      | .thrown (m2, tmp2) => .thrown (dtor m2 tmp2, self)
      | .ok _ (m2, tmp2) =>
        match copy_into E m2 { tmp2 with SZ := ind } ind
            ((const_data m2 self).drop (ind + cnt)) (size self - cnt - ind) with
        | .thrown (m3, tmp3) => .thrown (dtor m3 tmp3, self)
        | .ok _ (m3, tmp3) =>
          match swap E m3 self { tmp3 with SZ := size self - cnt } false with
          | .thrown (m4, self4, tmp4) => .thrown (dtor m4 tmp4, self4)
          | .ok _ (m4, self4, tmp4) =>
            match data E m4 self4 with
            | .thrown (m5, self5) => .thrown (dtor m5 tmp4, self5)
            | .ok _ (m5, self5) => .ok ind (dtor m5 tmp4, self5)

/-- The member `erase(pos)`. -/
def erase_one (E : Env) (m : Mem T) (self : socow_vector T) (pos : Nat) :
    Outcome Nat (Mem T × socow_vector T) :=
  erase E m self pos (pos + 1)

/-- The member `clear`. -/
def clear (E : Env) (m : Mem T) (self : socow_vector T) :
    Outcome Unit (Mem T × socow_vector T) :=
  (erase E m self (begin_const m self) (end_const m self)).bind fun _ s => .ok () s

/-- The loop of `insert`: `for (i = size() - 1; i != ind; i--)
std::swap(data()[i], data()[i - 1])`, started at `i`. -/
def insert_walk (E : Env) (ind : Nat) :
    Nat → Mem T × socow_vector T → Outcome Unit (Mem T × socow_vector T)
  | 0, s => .ok () s
  | i + 1, s =>
    if i + 1 = ind then .ok () s
    else (swap_data E s (i + 1) i).bind fun _ s1 => insert_walk E ind i s1

/-- The first branch of `insert`: exclusive storage with room. -/
def insert_in_place (E : Env) (m : Mem T) (self : socow_vector T) (pos : Nat) (value : T) :
    Outcome Nat (Mem T × socow_vector T) :=
  (data E m self).bind fun _ s0 =>
  let ind := pos
  (data E s0.1 s0.2).bind fun _ s1 =>
    match copy_construct E s1.1 with
    | .thrown m2 => .thrown (m2, s1.2)
    | .ok _ m2 =>
      let s3 := write_data m2 s1.2 (place (const_data m2 s1.2) (size s1.2) [value])
      let s4 := (s3.1, { s3.2 with SZ := s3.2.SZ + 1 })
      (insert_walk E ind (size s4.2 - 1) s4).bind fun _ s5 =>
      (data E s5.1 s5.2).bind fun _ s6 => .ok ind s6

/-- The member `insert(pos, value)`, with the position given as an offset. The first
argument bounds the depth of the calls `insert -> push_back -> insert`; `none` means
that bound was reached. -/
def insert (E : Env) :
    Nat → Mem T → socow_vector T → Nat → T → Option (Outcome Nat (Mem T × socow_vector T))
  | 0, _, _, _, _ => none
  | fuel + 1, m, self, pos, value =>
    if exclusive m self && decide (size self < capacity E m self) then
      some (insert_in_place E m self pos value)
    else
      let ind := pos
      match ctor_capacity E m
          (if size self = capacity E m self then 2 * capacity E m self else capacity E m self) with
      | .thrown m1 => some (.thrown (m1, self))
      | .ok tmp m1 =>
        match copy_into E m1 tmp 0 (const_data m1 self) ind with
        | .thrown (m2, tmp2) => some (.thrown (dtor m2 tmp2, self))
        | .ok _ (m2, tmp2) =>
          match insert E fuel m2 { tmp2 with SZ := tmp2.SZ + ind }
              (end_const m2 { tmp2 with SZ := tmp2.SZ + ind }) value with
          | none => none
          | some (.thrown (m3, tmp3)) => some (.thrown (dtor m3 tmp3, self))
          | some (.ok _ (m3, tmp3)) =>
            match copy_into E m3 tmp3 (ind + 1) ((const_data m3 self).drop ind)
                (size self - ind) with
            | .thrown (m4, tmp4) => some (.thrown (dtor m4 tmp4, self))
            | .ok _ (m4, tmp4) =>
              let tmp5 := { tmp4 with SZ := tmp4.SZ + (size self - ind) }
              match (if self.is_static then clear E m4 self else .ok () (m4, self)) with
              | .thrown (m5, self5) => some (.thrown (dtor m5 tmp5, self5))
              | .ok _ (m5, self5) =>
                match swap E m5 self5 tmp5 false with
                | .thrown (m6, self6, tmp6) => some (.thrown (dtor m6 tmp6, self6))
                | .ok _ (m6, self6, tmp6) =>
                  match data E m6 self6 with
                  | .thrown (m7, self7) => some (.thrown (dtor m7 tmp6, self7))
                  | .ok _ (m7, self7) => some (.ok ind (dtor m7 tmp6, self7))

/-- The member `push_back`. -/
def push_back (E : Env) (fuel : Nat) (m : Mem T) (self : socow_vector T) (value : T) :
    Option (Outcome Unit (Mem T × socow_vector T)) :=
  (insert E fuel m self (end_const m self) value).map fun o => o.bind fun _ s => .ok () s

/-- The copy assignment `operator=`; `this_eq_other` is the outcome of the test
`this == &other`. The state is the memory and `*this` (`other` is const). -/
def operator_assign (E : Env) (m : Mem T) (self other : socow_vector T) (this_eq_other : Bool) :
    Outcome Unit (Mem T × socow_vector T) :=
  if this_eq_other then .ok () (m, self)
  else
    match self.store, other.store with
    | .staticBuffer _, .dynamicBuffer q =>
      .ok () ((destroy_n m (size self)).update q (fun b => { b with cntRef := b.cntRef + 1 }),
        ⟨size other, .dynamicBuffer q⟩)
    | .staticBuffer sb, .staticBuffer ob =>
      if size self ≥ size other then
        match ctor_copy E m other with
        | .thrown m1 => .thrown (m1, self)
        | .ok tmp m1 =>
          match swap E m1 self tmp false with
          | .thrown (m2, self2, tmp2) => .thrown (dtor m2 tmp2, self2)
          | .ok _ (m2, self2, tmp2) => .ok () (dtor m2 tmp2, self2)
      else
        match uninitialized_copy_n E m (ob.drop (size self)) (size other - size self) with
        | .thrown m1 => .thrown (m1, self)
        | .ok ys m1 =>
          let sb1 := place sb (size self) ys
          match uninitialized_copy_n E m1 ob (size self) with
          | .thrown m2 =>
            .thrown (destroy_n (dtor m2 ctor_default) (size other - size self),
              ⟨self.SZ, .staticBuffer
                (sb1.take (size self) ++ sb1.drop (size self + (size other - size self)))⟩)
          | .ok ts m2 =>
            match swap_ranges E (size self) (size self) 0 m2 sb1 ts with
            | .thrown (m3, a, t) =>
              .thrown (destroy_n (dtor m3 ⟨size self, .staticBuffer t⟩) (size other - size self),
                ⟨self.SZ, .staticBuffer
                  (a.take (size self) ++ a.drop (size self + (size other - size self)))⟩)
            | .ok _ (m3, a, t) =>
              .ok () (dtor m3 ⟨size self, .staticBuffer t⟩, ⟨size other, .staticBuffer a⟩)
    | .dynamicBuffer p, .staticBuffer ob =>
      match uninitialized_copy_n E m ob (size other) with
      | .thrown m1 => .thrown (m1, self)
      | .ok ys m1 => .ok () (dropDynamicBuffer m1 p (size self), ⟨size other, .staticBuffer ys⟩)
    | .dynamicBuffer _, .dynamicBuffer _ =>
      match ctor_copy E m other with
      | .thrown m1 => .thrown (m1, self)
      | .ok tmp m1 =>
        match swap E m1 self tmp false with
        | .thrown (m2, self2, tmp2) => .thrown (dtor m2 tmp2, self2)
        | .ok _ (m2, self2, tmp2) => .ok () (dtor m2 tmp2, self2)

/-! ## Calls on a container, as data -/

/-- The mutators of the public interface, with their arguments. -/
inductive Mutator (T : Type) where
  | push_back (value : T)
  | pop_back
  | insert (pos : Nat) (value : T)
  | erase_one (pos : Nat)
  | erase (first last : Nat)
  | clear
  | reserve (newCapacity : Nat)
  | shrink_to_fit
  | store (i : Nat) (x : T)
deriving DecidableEq, Repr

/-- The precondition of a mutator: positions in range, `pop_back` on a non-empty
container. -/
def Mutator.pre (v : socow_vector T) : Mutator T → Prop
  | .push_back _ => True
  | .pop_back => 0 < size v
  | .insert pos _ => pos ≤ size v
  | .erase_one pos => pos < size v
  | .erase first last => first ≤ last ∧ last ≤ size v
  | .clear => True
  | .reserve _ => True
  | .shrink_to_fit => True
  | .store i _ => i < size v

instance (v : socow_vector T) (c : Mutator T) : Decidable (c.pre v) := by
  cases c <;> simp only [Mutator.pre] <;> infer_instance

/-- Running a mutator on a container; `fuel` bounds the depth of the calls of `insert`. -/
def mutate (E : Env) (fuel : Nat) (m : Mem T) (v : socow_vector T) :
    Mutator T → Option (Outcome Unit (Mem T × socow_vector T))
  | .push_back value => push_back E fuel m v value
  | .pop_back => some (pop_back E m v)
  | .insert pos value => (insert E fuel m v pos value).map fun o => o.bind fun _ s => .ok () s
  | .erase_one pos => some ((erase_one E m v pos).bind fun _ s => .ok () s)
  | .erase first last => some ((erase E m v first last).bind fun _ s => .ok () s)
  | .clear => some (clear E m v)
  | .reserve newCapacity => some (reserve E m v newCapacity)
  | .shrink_to_fit => some (shrink_to_fit E m v)
  | .store i x => some (store_at E m v i x)

/-! ## Programs over several containers -/

/-- A program state: the memory and the container objects, named by position; `none` is
an object whose destructor has run. -/
structure World (T : Type) where
  mem : Mem T
  objs : List (Option (socow_vector T))
deriving DecidableEq, Repr

/-- A call of the public interface on the containers of a program. -/
inductive Call (T : Type) where
  | construct
  | copy_construct (src : Nat)
  | destroy (i : Nat)
  | assign (i j : Nat)
  | swap (i j : Nat)
  | mutate (i : Nat) (c : Mutator T)
  | access (i : Nat) (a : Accessor)
  | access_const (i : Nat) (a : Accessor)
deriving DecidableEq, Repr

/-- The live object at position `i`. -/
def World.obj (w : World T) (i : Nat) : Option (socow_vector T) :=
  w.objs.getD i none

/-- The program before any call. -/
def World.init : World T := ⟨Mem.empty, []⟩

/-- One call on the program, with the way it leaves. There is no call (`none`) when the
object is not alive, when the call is outside its precondition, or when `insert` exceeds
the call depth `fuel`. A call that exits by an exception leaves the memory and the
object as its function leaves them; a constructor that throws makes no object.
`construct` and `copy_construct` make a new object at the next free position;
`assign i j` is `objs[i] = objs[j]`. -/
def World.call (E : Env) (fuel : Nat) (w : World T) : Call T → Option (Outcome Unit (World T))
  | .construct => some (.ok () ⟨w.mem, w.objs ++ [some ctor_default]⟩)
  | .copy_construct src =>
    match w.obj src with
    | none => none
    | some v =>
      match ctor_copy E w.mem v with
      | .ok v' m' => some (.ok () ⟨m', w.objs ++ [some v']⟩)
      | .thrown m' => some (.thrown ⟨m', w.objs⟩)
  | .destroy i =>
    match w.obj i with
    | none => none
    | some v => some (.ok () ⟨dtor w.mem v, w.objs.set i none⟩)
  | .assign i j =>
    match w.obj i, w.obj j with
    | some a, some b =>
      match operator_assign E w.mem a b (decide (i = j)) with
      | .ok _ (m', a') => some (.ok () ⟨m', w.objs.set i (some a')⟩)
      | .thrown (m', a') => some (.thrown ⟨m', w.objs.set i (some a')⟩)
    | _, _ => none
  | .swap i j =>
    match w.obj i, w.obj j with
    | some a, some b =>
      match swap E w.mem a b (decide (i = j)) with
      | .ok _ (m', a', b') => some (.ok () ⟨m', (w.objs.set i (some a')).set j (some b')⟩)
      | .thrown (m', a', b') => some (.thrown ⟨m', (w.objs.set i (some a')).set j (some b')⟩)
    | _, _ => none
  | .mutate i c =>
    match w.obj i with
    | none => none
    | some v =>
      if c.pre v then
        match mutate E fuel w.mem v c with
        | some (.ok _ (m', v')) => some (.ok () ⟨m', w.objs.set i (some v')⟩)
        | some (.thrown (m', v')) => some (.thrown ⟨m', w.objs.set i (some v')⟩)
        | none => none
      else none
  | .access i a =>
    match w.obj i with
    | none => none
    | some v =>
      match access E w.mem v a with
      | .ok _ (m', v') => some (.ok () ⟨m', w.objs.set i (some v')⟩)
      | .thrown (m', v') => some (.thrown ⟨m', w.objs.set i (some v')⟩)
  | .access_const i a =>
    match w.obj i with
    | none => none
    | some v =>
      match access_const w.mem v a with
      | .ok _ (m', v') => some (.ok () ⟨m', w.objs.set i (some v')⟩)
      | .thrown (m', v') => some (.thrown ⟨m', w.objs.set i (some v')⟩)

/-- The state after one call, whether the call returned or the program caught the
exception it left by. -/
def World.step (E : Env) (fuel : Nat) (w : World T) (c : Call T) : Option (World T) :=
  (w.call E fuel c).map Outcome.state

/-- A sequence of calls, each returning or caught by the program. -/
def World.run (E : Env) (fuel : Nat) (w : World T) : List (Call T) → Option (World T)
  | [] => some w
  | c :: cs =>
    match w.step E fuel c with
    | none => none
    | some w' => w'.run E fuel cs

end Socow
namespace Socow
variable {T : Type}

/-! ## Specification vocabulary -/

/-- Giving up one reference to the block in cell `p`: the count goes down by one, and the
cell is freed when it reaches zero. -/
def Heap.release (h : Heap T) (p : Nat) : Heap T :=
  match h.cell p with
  | none => h
  | some b =>
    if b.cntRef - 1 = 0 then h.set p none
    else h.set p (some { b with cntRef := b.cntRef - 1 })

/-- Taking one more reference to the block in cell `p`. -/
def Heap.retain (h : Heap T) (p : Nat) : Heap T :=
  h.upd p (fun b => { b with cntRef := b.cntRef + 1 })

/-- Whether the handle of the container is the block in cell `q`. -/
def socow_vector.points_at (v : socow_vector T) (q : Nat) : Bool :=
  match v.store with
  | .staticBuffer _ => false
  | .dynamicBuffer p => p == q

/-- The heap after a container gives up its storage: nothing for an inline container,
one reference less for a heap-backed one. -/
def Heap.drop_storage (h : Heap T) (v : socow_vector T) : Heap T :=
  match v.store with
  | .staticBuffer _ => h
  | .dynamicBuffer p => h.release p

/-- The heap after one more container took the storage of `v` as its own: nothing for an
inline `v` (the elements are copied), one reference more for a heap-backed one. -/
def Heap.share_storage (h : Heap T) (v : socow_vector T) : Heap T :=
  match v.store with
  | .staticBuffer _ => h
  | .dynamicBuffer p => h.retain p

/-- The representation invariant of one container in a memory: an inline container has
`SZ` constructed elements and `SZ <= SMALL_SIZE`; a heap-backed one points at a live
block with `SZ` constructed elements, `SZ <= capacity`, `SMALL_SIZE < capacity` and
`cntRef >= 1`. -/
def WF (E : Env) (m : Mem T) (v : socow_vector T) : Prop :=
  match v.store with
  | .staticBuffer buf => buf.length = v.SZ ∧ v.SZ ≤ E.SMALL_SIZE
  | .dynamicBuffer p =>
    match m.get? p with
    | some b =>
      b.elements.length = v.SZ ∧ v.SZ ≤ b.capacity ∧ E.SMALL_SIZE < b.capacity ∧ 1 ≤ b.cntRef
    | none => False

instance (E : Env) (m : Mem T) (v : socow_vector T) : Decidable (WF E m v) := by
  unfold WF
  split
  · infer_instance
  · split <;> infer_instance

/-- Exclusive ownership of the storage: inline, or a live block with `cntRef == 1`. -/
def Owned (m : Mem T) (v : socow_vector T) : Prop :=
  match v.store with
  | .staticBuffer _ => True
  | .dynamicBuffer p =>
    match m.get? p with
    | some b => b.cntRef = 1
    | none => False

/-- The sequence `xs` with `x` put in front of position `k`. -/
def inserted (xs : List T) (k : Nat) (x : T) : List T :=
  xs.take k ++ x :: xs.drop k

/-- The sequence `xs` without the positions `[f, l)`. -/
def erased (xs : List T) (f l : Nat) : List T :=
  xs.take f ++ xs.drop l

/-- The ways a mutating call can leave its container `v`, which afterwards holds `xs`:
nothing changed; the exclusively owned storage was rewritten in place; a freshly
allocated block of capacity `cap` was adopted and the old storage given up; or the
elements moved into the inline storage and the old block was given up. -/
inductive Effect (E : Env) (m : Mem T) (v : socow_vector T) (m' : Mem T)
    (v' : socow_vector T) (xs : List T) : Prop where
  | same : m'.heap = m.heap → v' = v → xs = const_data m v → Effect E m v m' v' xs
  | in_place : Owned m v → xs.length ≤ capacity E m v →
      v' = { v.with_elems xs with SZ := xs.length } → m'.heap = m.heap.put v xs →
      Effect E m v m' v' xs
  | fresh (cap : Nat) : E.SMALL_SIZE < cap → xs.length ≤ cap →
      v' = ⟨xs.length, .dynamicBuffer m.heap.length⟩ →
      m'.heap = (m.heap ++ [some (dynamic_buffer.mk cap 1 xs)]).drop_storage v →
      Effect E m v m' v' xs
  | to_inline : xs.length ≤ E.SMALL_SIZE → v.is_static = false →
      v' = ⟨xs.length, .staticBuffer xs⟩ → m'.heap = m.heap.drop_storage v →
      Effect E m v m' v' xs

/-- The sequence a container holds after a mutator, when it held `xs` before. -/
def Mutator.result (xs : List T) : Mutator T → List T
  | .push_back value => xs ++ [value]
  | .pop_back => xs.take (xs.length - 1)
  | .insert pos value => inserted xs pos value
  | .erase_one pos => erased xs pos (pos + 1)
  | .erase first last => erased xs first last
  | .clear => []
  | .reserve _ => xs
  | .shrink_to_fit => xs
  | .store i x => xs.set i x

/-- The states a program can be in: those some sequence of calls of the public
interface, each within its precondition, leads to from the program without objects;
a call may return or exit by an exception that the program catches. -/
def Reachable (E : Env) (w : World T) : Prop :=
  ∃ fuel calls, World.run E fuel World.init calls = some w

/-- Whether an object slot holds a live container whose handle is the block in cell `q`. -/
def handle_is (o : Option (socow_vector T)) (q : Nat) : Bool :=
  match o with
  | some u => u.points_at q
  | none => false

/-- The number of live containers whose handle is the block in cell `q`. -/
def World.refs (w : World T) (q : Nat) : Nat :=
  w.objs.countP fun o => handle_is o q

/-- How one heap cell may change while one object slot changes: `D` says that the old
object pointed at the cell, `A` that the new one does. A dead cell stays dead or is a
fresh block of refcount 1 for the new object; a live block is freed only when the old
object was its last owner; otherwise it keeps its capacity, its refcount moves by the
references dropped and added, and its elements stay unless the old object owned it
exclusively. -/
def CellStep (D A : Bool) (c c' : Option (dynamic_buffer T)) : Prop :=
  match c, c' with
  | none, none => True
  | none, some b' => A = true ∧ D = false ∧ b'.cntRef = 1
  | some b, none => D = true ∧ A = false ∧ b.cntRef = 1
  | some b, some b' =>
    b'.capacity = b.capacity ∧ b'.cntRef + D.toNat = b.cntRef + A.toNat ∧ 1 ≤ b'.cntRef ∧
      (b'.elements = b.elements ∨ (b.cntRef = 1 ∧ D = true))

/-- What a call that exits by an exception leaves of its container `v`: a well-formed
container `v'` with the handle of `v`, the same live blocks with the same capacities and
refcounts (a block the call allocated is freed again), and elements changed at most in
the block that `v` owns exclusively. -/
def Aftermath (E : Env) (m : Mem T) (v : socow_vector T) (m' : Mem T) (v' : socow_vector T) :
    Prop :=
  WF E m' v' ∧ (∀ q, v'.points_at q = v.points_at q) ∧
    ∀ q, CellStep (v.points_at q) (v.points_at q) (m.heap.cell q) (m'.heap.cell q)

/-- The invariant of a program state: every live container satisfies the representation
invariant, and the `cntRef` of every live block is the number of live containers
pointing at it, which is at least one. -/
def World.Inv (E : Env) (w : World T) : Prop :=
  (∀ v, some v ∈ w.objs → WF E w.mem v) ∧
  (∀ q b, w.mem.heap.cell q = some b → b.cntRef = w.refs q ∧ 1 ≤ b.cntRef)

/-- The bytes a block takes from its start to the end of its `n`-th element slot. -/
def block_bytes (E : Env) (n : Nat) : Nat := sizeof_dynamic_buffer + E.sizeof_value * n

/-- The bytes that `operator new` was asked for when it made the block in cell `p`. -/
def Mem.bytes (m : Mem T) (p : Nat) : Nat := m.sizes.getD p 0

/-- Every live block lies inside its allocation: the memory has one byte count per heap
cell, each of them a value of `size_t`, and the header and the constructed elements of
every live block take no more bytes than `operator new` was asked for. -/
def Mem.in_bounds (E : Env) (m : Mem T) : Prop :=
  m.sizes.length = m.heap.length ∧ (∀ B ∈ m.sizes, B < SIZE_MODULUS) ∧
  ∀ p, p < m.heap.length →
    ∀ b ∈ m.heap.cell p, block_bytes E (dynamic_buffer.elements b).length ≤ m.bytes p

instance (E : Env) (m : Mem T) : Decidable (Mem.in_bounds E m) := by
  unfold Mem.in_bounds
  infer_instance

/-- The copy constructions numbered `a`, ..., `b - 1` were made and none of them threw:
what a call that returns has asked of the element type when the count of copy
constructions went from `a` to `b`. -/
def Ran (E : Env) (a b : Nat) : Prop :=
  a ≤ b ∧ ∀ j, a ≤ j → j < b → E.copyThrows j = false

/-- The environment `E` with every throw removed: the same inline capacity and the same
kind of `std::swap`, with copies that never throw and an allocator that never fails. A
call that returns normally under `E` consulted the environment only with the answer
`false`, so it runs the same way under `E.calm`. -/
def Env.calm (E : Env) : Env :=
  ⟨E.SMALL_SIZE, fun _ => false, fun _ => false, E.swapCopies, E.sizeof_value⟩

/-- An integer-like element type (copies never throw, `std::swap` does not copy,
`sizeof(value_type) == 4`) with an allocator that never fails, for the inline capacity
`n`. -/
def Env.ints (n : Nat) : Env := ⟨n, fun _ => false, fun _ => false, false, 4⟩

end Socow
namespace Socow
variable {T : Type}

/-! ## Heap cells -/

theorem Heap.cell_set_same {h : Heap T} {p : Nat} {x : Option (dynamic_buffer T)}
    (hp : p < h.length) : Heap.cell (h.set p x) p = x := by
  simp [Heap.cell, List.getD_eq_getElem?_getD, hp]

theorem Heap.cell_set_ne {h : Heap T} {p q : Nat} {x : Option (dynamic_buffer T)}
    (hq : q ≠ p) : Heap.cell (h.set p x) q = h.cell q := by
  simp [Heap.cell, List.getD_eq_getElem?_getD, List.getElem?_set, Ne.symm hq]

theorem Heap.cell_append_length {h : Heap T} {x : Option (dynamic_buffer T)} :
    Heap.cell (h ++ [x]) h.length = x := by
  simp [Heap.cell, List.getD_eq_getElem?_getD]

theorem Heap.cell_append_lt {h : Heap T} {q : Nat} {x : Option (dynamic_buffer T)}
    (hq : q < h.length) : Heap.cell (h ++ [x]) q = h.cell q := by
  simp [Heap.cell, List.getD_eq_getElem?_getD, List.getElem?_append_left hq]

theorem Heap.cell_ge {h : Heap T} {p : Nat} (hp : h.length ≤ p) : h.cell p = none := by
  simp [Heap.cell, List.getD_eq_getElem?_getD, List.getElem?_eq_none hp]

theorem Heap.cell_some_lt {h : Heap T} {p : Nat} {b : dynamic_buffer T}
    (hc : h.cell p = some b) : p < h.length := by
  by_contra hlt
  rw [Heap.cell_ge (Nat.le_of_not_lt hlt)] at hc
  cases hc

theorem Heap.upd_of_cell {h : Heap T} {p : Nat} {b : dynamic_buffer T}
    (f : dynamic_buffer T → dynamic_buffer T) (hc : h.cell p = some b) :
    h.upd p f = h.set p (some (f b)) := by
  simp [Heap.upd, hc]

theorem Heap.release_of_shared {h : Heap T} {p : Nat} {b : dynamic_buffer T}
    (hc : h.cell p = some b) (hr : 2 ≤ b.cntRef) :
    h.release p = h.set p (some { b with cntRef := b.cntRef - 1 }) := by
  have : ¬ (b.cntRef - 1 = 0) := by omega
  simp [Heap.release, hc, this]

theorem Heap.release_of_last {h : Heap T} {p : Nat} {b : dynamic_buffer T}
    (hc : h.cell p = some b) (hr : b.cntRef = 1) :
    h.release p = h.set p none := by
  simp [Heap.release, hc, hr]

@[simp] theorem Mem.update_heap (m : Mem T) (p : Nat) (f : dynamic_buffer T → dynamic_buffer T) :
    (m.update p f).heap = m.heap.upd p f := rfl

@[simp] theorem Mem.free_heap (m : Mem T) (p : Nat) : (m.free p).heap = m.heap.set p none := rfl

@[simp] theorem destroy_n_heap (m : Mem T) (n : Nat) : (destroy_n m n).heap = m.heap := rfl

theorem dropDynamicBuffer_heap (m : Mem T) (p sz : Nat) :
    (dropDynamicBuffer m p sz).heap = m.heap.release p := by
  unfold dropDynamicBuffer Heap.release Mem.get?
  cases hc : m.heap.cell p with
  | none => simp
  | some b =>
    by_cases h0 : b.cntRef - 1 = 0
    · simp [h0]
    · simp [h0, Heap.upd, hc]

theorem dtor_heap (m : Mem T) (v : socow_vector T) :
    (dtor m v).heap = m.heap.drop_storage v := by
  unfold dtor Heap.drop_storage
  cases v.store <;> simp [dropDynamicBuffer_heap]

/-! ## Element copies -/

theorem uninitialized_copy_loop_ok {E : Env} (hE : ∀ k, E.copyThrows k = false)
    (xs : List T) (done : Nat) (m : Mem T) :
    uninitialized_copy_loop E xs done m =
      .ok xs { m with copies := m.copies + xs.length,
                      constructed := m.constructed + xs.length } := by
  induction xs generalizing done m with
  | nil => simp [uninitialized_copy_loop]
  | cons x xs ih =>
    simp only [uninitialized_copy_loop, copy_construct, hE]
    simp [ih]
    omega

theorem uninitialized_copy_n_ok {E : Env} (hE : ∀ k, E.copyThrows k = false)
    (m : Mem T) (src : List T) (cnt : Nat) :
    uninitialized_copy_n E m src cnt =
      .ok (src.take cnt) { m with copies := m.copies + (src.take cnt).length,
                                  constructed := m.constructed + (src.take cnt).length } := by
  simp [uninitialized_copy_n, uninitialized_copy_loop_ok hE]

end Socow
namespace Socow
variable {T : Type}

/-! ## Observers and the invariant -/

theorem WF_static {E : Env} {m : Mem T} {n : Nat} {buf : List T} :
    WF E m ⟨n, .staticBuffer buf⟩ ↔ buf.length = n ∧ n ≤ E.SMALL_SIZE := by
  simp [WF]

theorem WF_dynamic {E : Env} {m : Mem T} {n p : Nat} :
    WF E m ⟨n, .dynamicBuffer p⟩ ↔
      ∃ b, m.heap.cell p = some b ∧ b.elements.length = n ∧ n ≤ b.capacity ∧
        E.SMALL_SIZE < b.capacity ∧ 1 ≤ b.cntRef := by
  simp only [WF, Mem.get?]
  cases hc : m.heap.cell p with
  | none => simp
  | some b => simp

theorem WF_congr {E : Env} {m m' : Mem T} (v : socow_vector T) (h : m'.heap = m.heap) :
    WF E m' v ↔ WF E m v := by
  obtain ⟨n, st⟩ := v
  cases st with
  | staticBuffer buf => simp [WF_static]
  | dynamicBuffer p => simp [WF_dynamic, h]

theorem Mem.buf_of_cell {m : Mem T} {p : Nat} {b : dynamic_buffer T}
    (hc : m.heap.cell p = some b) : m.buf p = b := by
  simp [Mem.buf, Mem.get?, hc]

theorem data_exclusive (E : Env) {m : Mem T} {v : socow_vector T}
    (h : exclusive m v = true) : data E m v = .ok () (m, v) := by
  unfold data
  unfold exclusive at h
  cases hs : v.is_static
  · simp [hs] at h
    simp [h]
  · simp

theorem data_static (E : Env) (m : Mem T) (n : Nat) (buf : List T) :
    data E m ⟨n, .staticBuffer buf⟩ = .ok () (m, ⟨n, .staticBuffer buf⟩) :=
  data_exclusive E (by simp [exclusive, socow_vector.is_static])

theorem data_dynamic_excl (E : Env) {m : Mem T} {p : Nat} {b : dynamic_buffer T} (n : Nat)
    (hc : m.heap.cell p = some b) (hr : b.cntRef = 1) :
    data E m ⟨n, .dynamicBuffer p⟩ = .ok () (m, ⟨n, .dynamicBuffer p⟩) :=
  data_exclusive E (by simp [exclusive, cntRef, Mem.buf_of_cell hc, hr])

/-! ## Buffer lifecycle -/

theorem allocate_buffer_ok {E : Env} (hE : E.nothrow) (m : Mem T) (cap : Nat) :
    allocate_buffer E m cap = .ok m.heap.length
      { m with heap := m.heap ++ [some ⟨cap, 1, []⟩], allocs := m.allocs + 1,
               sizes := m.sizes ++ [(sizeof_dynamic_buffer + E.sizeof_value * cap) % SIZE_MODULUS] } := by
  simp [allocate_buffer, hE.2]

theorem getBufferViaCopy_ok {E : Env} (hE : E.nothrow) (m : Mem T) (cap : Nat) (src : List T)
    (cnt : Nat) :
    ∃ m', getBufferViaCopy E m cap src cnt = .ok m.heap.length m' ∧
      m'.heap = m.heap ++ [some ⟨cap, 1, src.take cnt⟩] := by
  simp only [getBufferViaCopy, allocate_buffer_ok hE, uninitialized_copy_n_ok hE.1]
  refine ⟨_, rfl, ?_⟩
  simp [Heap.upd, Heap.cell_append_length]

theorem ctor_capacity_dynamic {E : Env} (hE : E.nothrow) (m : Mem T) {cap : Nat}
    (hc : E.SMALL_SIZE < cap) :
    ∃ m', ctor_capacity E m cap = .ok ⟨0, .dynamicBuffer m.heap.length⟩ m' ∧
      m'.heap = m.heap ++ [some ⟨cap, 1, []⟩] := by
  have : ¬ cap ≤ E.SMALL_SIZE := by omega
  simp only [ctor_capacity, this, allocate_buffer_ok hE]
  exact ⟨_, rfl, rfl⟩

theorem copy_into_dynamic_excl {E : Env} (hE : E.nothrow) {m : Mem T} {p : Nat}
    {b : dynamic_buffer T} (n off : Nat) (src : List T) (cnt : Nat)
    (hc : m.heap.cell p = some b) (hr : b.cntRef = 1) :
    ∃ m', copy_into E m ⟨n, .dynamicBuffer p⟩ off src cnt = .ok () (m', ⟨n, .dynamicBuffer p⟩) ∧
      m'.heap = m.heap.set p (some { b with elements := place b.elements off (src.take cnt) }) := by
  simp only [copy_into, data_dynamic_excl E n hc hr, Outcome.bind, uninitialized_copy_n_ok hE.1]
  refine ⟨_, rfl, ?_⟩
  simp [write_data, Heap.put, const_data, Mem.buf, Mem.get?, hc, Heap.upd]

end Socow
namespace Socow
variable {T : Type}

/-! ## Exclusive storage -/

theorem Heap.set_cell_self {h : Heap T} {p : Nat} {b : dynamic_buffer T}
    (hc : h.cell p = some b) : h.set p (some b) = h := by
  have hp := Heap.cell_some_lt hc
  apply List.ext_getElem?
  intro n
  by_cases hn : p = n
  · subst hn
    simp [Heap.cell, List.getD_eq_getElem?_getD, List.getElem?_eq_getElem hp] at hc
    simp [List.getElem?_set, hp, List.getElem?_eq_getElem hp, hc]
  · simp [List.getElem?_set, hn]

theorem Heap.set_set_same (h : Heap T) (p : Nat) (x y : Option (dynamic_buffer T)) :
    (h.set p x).set p y = h.set p y := by
  simp [List.set_set]

theorem Owned_static {m : Mem T} {n : Nat} {buf : List T} : Owned m ⟨n, .staticBuffer buf⟩ := by
  simp [Owned]

theorem Owned_dynamic {m : Mem T} {n p : Nat} :
    Owned m ⟨n, .dynamicBuffer p⟩ ↔ ∃ b, m.heap.cell p = some b ∧ b.cntRef = 1 := by
  simp only [Owned, Mem.get?]
  cases hc : m.heap.cell p with
  | none => simp
  | some b => simp

theorem Owned_congr {m m' : Mem T} (v : socow_vector T) (h : m'.heap = m.heap) :
    Owned m' v ↔ Owned m v := by
  obtain ⟨n, st⟩ := v
  cases st with
  | staticBuffer buf => simp [Owned_static]
  | dynamicBuffer p => simp [Owned_dynamic, h]

theorem Mem.buf_congr {m m' : Mem T} (h : m'.heap = m.heap) (p : Nat) : m'.buf p = m.buf p := by
  simp [Mem.buf, Mem.get?, h]

theorem const_data_congr {m m' : Mem T} (v : socow_vector T) (h : m'.heap = m.heap) :
    const_data m' v = const_data m v := by
  unfold const_data
  cases v.store <;> simp [Mem.buf_congr h]

theorem capacity_congr (E : Env) {m m' : Mem T} (v : socow_vector T) (h : m'.heap = m.heap) :
    capacity E m' v = capacity E m v := by
  unfold capacity
  cases v.store <;> simp [Mem.buf_congr h]

theorem cntRef_congr {m m' : Mem T} (v : socow_vector T) (h : m'.heap = m.heap) :
    cntRef m' v = cntRef m v := by
  unfold cntRef
  cases v.store <;> simp [Mem.buf_congr h]

theorem exclusive_congr {m m' : Mem T} (v : socow_vector T) (h : m'.heap = m.heap) :
    exclusive m' v = exclusive m v := by
  simp [exclusive, cntRef_congr v h]

theorem contents_congr {m m' : Mem T} (v : socow_vector T) (h : m'.heap = m.heap) :
    contents m' v = contents m v := by
  simp [contents, const_data_congr v h]

theorem Owned.exclusive {m : Mem T} {v : socow_vector T} (h : Owned m v) :
    exclusive m v = true := by
  obtain ⟨n, st⟩ := v
  cases st with
  | staticBuffer buf => simp [Socow.exclusive, socow_vector.is_static]
  | dynamicBuffer p =>
    obtain ⟨b, hc, hr⟩ := Owned_dynamic.mp h
    simp [Socow.exclusive, cntRef, Mem.buf_of_cell hc, hr]

theorem data_owned (E : Env) {m : Mem T} {v : socow_vector T} (h : Owned m v) :
    data E m v = .ok () (m, v) :=
  data_exclusive E h.exclusive

@[simp] theorem with_elems_SZ (v : socow_vector T) (xs : List T) : (v.with_elems xs).SZ = v.SZ := by
  unfold socow_vector.with_elems
  cases v.store <;> rfl

@[simp] theorem size_with_elems (v : socow_vector T) (xs : List T) :
    size (v.with_elems xs) = size v := by
  simp [size]

@[simp] theorem with_elems_with_elems (v : socow_vector T) (xs ys : List T) :
    (v.with_elems xs).with_elems ys = v.with_elems ys := by
  obtain ⟨n, st⟩ := v
  cases st <;> rfl

theorem with_elems_set_SZ (v : socow_vector T) (xs : List T) (k : Nat) :
    ({ v with SZ := k } : socow_vector T).with_elems xs = { v.with_elems xs with SZ := k } := by
  obtain ⟨n, st⟩ := v
  cases st <;> rfl

@[simp] theorem Heap.put_set_SZ (h : Heap T) (v : socow_vector T) (xs : List T) (k : Nat) :
    h.put { v with SZ := k } xs = h.put v xs := by
  obtain ⟨n, st⟩ := v
  cases st <;> rfl

theorem Heap.upd_upd_elements (h : Heap T) (p : Nat) (xs ys : List T) :
    (h.upd p (fun b => { b with elements := xs })).upd p (fun b => { b with elements := ys }) =
      h.upd p (fun b => { b with elements := ys }) := by
  cases hc : h.cell p with
  | none => simp [Heap.upd, hc]
  | some b =>
    have hp := Heap.cell_some_lt hc
    simp [Heap.upd, hc, Heap.cell_set_same hp, List.set_set]

@[simp] theorem Heap.put_put (h : Heap T) (v : socow_vector T) (xs ys : List T) :
    (h.put v xs).put (v.with_elems xs) ys = h.put v ys := by
  obtain ⟨n, st⟩ := v
  cases st with
  | staticBuffer buf => rfl
  | dynamicBuffer p => exact Heap.upd_upd_elements h p xs ys

theorem Heap.put_const_data (m : Mem T) (v : socow_vector T) :
    m.heap.put v (const_data m v) = m.heap := by
  obtain ⟨n, st⟩ := v
  cases st with
  | staticBuffer buf => rfl
  | dynamicBuffer p =>
    simp only [Heap.put, const_data, Heap.upd]
    cases hc : m.heap.cell p with
    | none => rfl
    | some b =>
      simp only [Mem.buf_of_cell hc]
      exact Heap.set_cell_self hc

theorem with_elems_const_data (m : Mem T) (v : socow_vector T) :
    v.with_elems (const_data m v) = v := by
  obtain ⟨n, st⟩ := v
  cases st <;> rfl

theorem const_data_put {m m' : Mem T} {v : socow_vector T} {xs : List T} (hO : Owned m v)
    (h : m'.heap = m.heap.put v xs) : const_data m' (v.with_elems xs) = xs := by
  obtain ⟨n, st⟩ := v
  cases st with
  | staticBuffer buf => rfl
  | dynamicBuffer p =>
    obtain ⟨b, hc, _⟩ := Owned_dynamic.mp hO
    have hp := Heap.cell_some_lt hc
    simp [const_data, socow_vector.with_elems, Mem.buf, Mem.get?, h, Heap.put, Heap.upd, hc,
      Heap.cell_set_same hp]

theorem Owned_put {m m' : Mem T} {v : socow_vector T} {xs : List T} (hO : Owned m v)
    (h : m'.heap = m.heap.put v xs) : Owned m' (v.with_elems xs) := by
  obtain ⟨n, st⟩ := v
  cases st with
  | staticBuffer buf => exact Owned_static
  | dynamicBuffer p =>
    obtain ⟨b, hc, hr⟩ := Owned_dynamic.mp hO
    have hp := Heap.cell_some_lt hc
    apply Owned_dynamic.mpr
    refine ⟨{ b with elements := xs }, ?_, hr⟩
    simp [h, Heap.put, Heap.upd, hc, Heap.cell_set_same hp]

theorem Owned_set_SZ {m : Mem T} {v : socow_vector T} (k : Nat) (hO : Owned m v) :
    Owned m { v with SZ := k } := by
  obtain ⟨n, st⟩ := v
  cases st <;> exact hO

/-! ## Element exchange -/

theorem std_swap_ok {E : Env} (hE : E.nothrow) (m : Mem T) :
    ∃ m', std_swap E m = .ok () m' ∧ m'.heap = m.heap := by
  unfold std_swap
  cases E.swapCopies
  · exact ⟨m, by simp, rfl⟩
  · simp [copy_construct, hE.1]

theorem swap_data_owned {E : Env} (hE : E.nothrow) {m : Mem T} {v : socow_vector T}
    (hO : Owned m v) (i j : Nat) :
    ∃ m', swap_data E (m, v) i j =
        .ok () (m', v.with_elems (exchange (const_data m v) i j)) ∧
      m'.heap = m.heap.put v (exchange (const_data m v) i j) := by
  obtain ⟨m1, h1, hh1⟩ := std_swap_ok hE m
  simp only [swap_data, data_owned E hO, Outcome.bind, h1, write_data, const_data_congr v hh1]
  exact ⟨_, rfl, by simp [hh1]⟩

end Socow
namespace Socow
variable {T : Type}

/-! ## Lists under exchange -/

theorem exchange_cons_succ (z : T) (l : List T) (i j : Nat) :
    exchange (z :: l) (i + 1) (j + 1) = z :: exchange l i j := by
  unfold exchange
  simp only [List.get?_cons_succ]
  cases l.get? i <;> cases l.get? j <;> simp

theorem exchange_adjacent (a : List T) (y x : T) (c : List T) :
    exchange (a ++ y :: x :: c) (a.length + 1) a.length = a ++ x :: y :: c := by
  induction a with
  | nil => simp [exchange]
  | cons z a ih =>
    simp only [List.cons_append, List.length_cons, exchange_cons_succ, ih]

theorem length_exchange (xs : List T) (i j : Nat) : (exchange xs i j).length = xs.length := by
  unfold exchange
  cases xs.get? i <;> cases xs.get? j <;> simp

theorem getElem?_exchange {xs : List T} {i j : Nat} (hi : i < xs.length) (hj : j < xs.length)
    (k : Nat) :
    (exchange xs i j)[k]? = if k = j then xs[i]? else if k = i then xs[j]? else xs[k]? := by
  unfold exchange
  simp only [List.get?_eq_getElem?, List.getElem?_eq_getElem hi, List.getElem?_eq_getElem hj,
    List.getElem?_set, List.length_set]
  by_cases hkj : k = j
  · subst hkj
    simp [hj]
  · by_cases hki : k = i
    · subst hki
      simp [hkj, hi, Ne.symm hkj]
    · simp [hkj, hki, Ne.symm hkj, Ne.symm hki]

theorem inserted_step (xs : List T) (x : T) {i : Nat} (hi : i < xs.length) :
    exchange (inserted xs (i + 1) x) (i + 1) i = inserted xs i x := by
  unfold inserted
  have h1 : xs.take (i + 1) = xs.take i ++ [xs[i]] := by
    rw [List.take_succ, List.getElem?_eq_getElem hi]
    rfl
  have h2 : xs.drop i = xs[i] :: xs.drop (i + 1) := by
    rw [List.drop_eq_getElem_cons hi]
  have hl : (xs.take i).length = i := by
    simp [List.length_take, Nat.min_eq_left (Nat.le_of_lt hi)]
  rw [h1, h2, List.append_assoc]
  simp only [List.singleton_append]
  have := exchange_adjacent (xs.take i) xs[i] x (xs.drop (i + 1))
  rw [hl] at this
  exact this

end Socow
namespace Socow
variable {T : Type}

/-! ## The in-place branch of insert -/

theorem insert_walk_owned {E : Env} (hE : E.nothrow) (xs : List T) (x : T) (ind : Nat) :
    ∀ (i : Nat) (m : Mem T) (v : socow_vector T), ind ≤ i → i ≤ xs.length → Owned m v →
      const_data m v = inserted xs i x →
      ∃ m', insert_walk E ind i (m, v) = .ok () (m', v.with_elems (inserted xs ind x)) ∧
        m'.heap = m.heap.put v (inserted xs ind x) := by
  intro i
  induction i with
  | zero =>
    intro m v h1 _ _ hc
    have : ind = 0 := by omega
    subst this
    refine ⟨m, ?_, ?_⟩
    · simp [insert_walk, ← hc, with_elems_const_data]
    · rw [← hc, Heap.put_const_data]
  | succ i ih =>
    intro m v h1 h2 hO hc
    by_cases hi : i + 1 = ind
    · subst hi
      refine ⟨m, ?_, ?_⟩
      · simp [insert_walk, ← hc, with_elems_const_data]
      · rw [← hc, Heap.put_const_data]
    · obtain ⟨m1, e1, hh1⟩ := swap_data_owned hE hO (i + 1) i
      rw [hc, inserted_step xs x (by omega)] at e1 hh1
      obtain ⟨m2, e2, hh2⟩ := ih m1 (v.with_elems (inserted xs i x)) (by omega) (by omega)
        (Owned_put hO hh1) (const_data_put hO hh1)
      refine ⟨m2, ?_, ?_⟩
      · simp only [insert_walk, hi, if_false, e1, Outcome.bind, e2, with_elems_with_elems]
      · rw [hh2, hh1, Heap.put_put]

theorem place_end (xs : List T) (n : Nat) (ys : List T) (h : xs.length = n) :
    place xs n ys = xs ++ ys := by
  subst h
  simp [place]

theorem inserted_end (xs : List T) (x : T) : inserted xs xs.length x = xs ++ [x] := by
  simp [inserted]

theorem insert_in_place_owned {E : Env} (hE : E.nothrow) {m : Mem T} {v : socow_vector T}
    (hO : Owned m v) (hl : (const_data m v).length = size v) {k : Nat} (hk : k ≤ size v) (x : T) :
    ∃ m', insert_in_place E m v k x =
        .ok k (m', { v.with_elems (inserted (const_data m v) k x) with SZ := v.SZ + 1 }) ∧
      m'.heap = m.heap.put v (inserted (const_data m v) k x) := by
  obtain ⟨m2, hc, hh2⟩ : ∃ m2, copy_construct E m = .ok () m2 ∧ m2.heap = m.heap := by
    simp [copy_construct, hE.1]
  have hpl : place (const_data m2 v) (size v) [x] = inserted (const_data m v) (size v) x := by
    rw [const_data_congr v hh2, place_end _ _ _ hl, ← hl, inserted_end]
  set xs := const_data m v with hxs
  set s3 := write_data m2 v (inserted xs (size v) x) with hs3
  have hh3 : s3.1.heap = m.heap.put v (inserted xs (size v) x) := by
    simp [hs3, write_data, hh2]
  have hO3 : Owned s3.1 ({ s3.2 with SZ := s3.2.SZ + 1 } : socow_vector T) :=
    Owned_set_SZ _ (Owned_put hO hh3)
  have hc3 : const_data s3.1 ({ s3.2 with SZ := s3.2.SZ + 1 } : socow_vector T) =
      inserted xs (size v) x := by
    have := const_data_put hO hh3
    simpa [const_data, hs3, write_data] using this
  obtain ⟨m4, e4, hh4⟩ := insert_walk_owned hE xs x k (size v) s3.1
    ({ s3.2 with SZ := s3.2.SZ + 1 }) hk (by omega) hO3 hc3
  have hO4 : Owned m4 (({ s3.2 with SZ := s3.2.SZ + 1 } : socow_vector T).with_elems
      (inserted xs k x)) := Owned_put hO3 hh4
  refine ⟨m4, ?_, ?_⟩
  · simp only [insert_in_place, data_owned E hO, Outcome.bind, hc, hpl]
    have hsz : size ({ s3.2 with SZ := s3.2.SZ + 1 } : socow_vector T) - 1 = size v := by
      simp [size, hs3, write_data]
    rw [← hs3, hsz, e4]
    simp only [data_owned E hO4]
    simp [hs3, write_data, with_elems_set_SZ]
  · rw [hh4, hh3]
    simp [hs3, write_data]

end Socow
namespace Socow
variable {T : Type}

/-! ## The in-place branches of pop_back and erase -/

theorem pop_back_owned (E : Env) {m : Mem T} {v : socow_vector T} (hO : Owned m v) :
    ∃ m', pop_back E m v =
        .ok () (m', { v.with_elems ((const_data m v).eraseIdx (v.SZ - 1)) with SZ := v.SZ - 1 }) ∧
      m'.heap = m.heap.put v ((const_data m v).eraseIdx (v.SZ - 1)) := by
  have hO1 : Owned m ({ v with SZ := v.SZ - 1 } : socow_vector T) := Owned_set_SZ _ hO
  have hcd : const_data m ({ v with SZ := v.SZ - 1 } : socow_vector T) = const_data m v := by
    obtain ⟨n, st⟩ := v
    cases st <;> rfl
  refine ⟨(write_data (destroy_n m 1) v ((const_data m v).eraseIdx (v.SZ - 1))).1, ?_, ?_⟩
  · simp only [pop_back, hO.exclusive, if_true, data_owned E hO1, Outcome.bind, write_data,
      hcd, with_elems_set_SZ, Heap.put_set_SZ]
  · simp [write_data]

theorem eraseIdx_last (L : List T) {n : Nat} (hl : L.length = n) :
    L.eraseIdx (n - 1) = L.take (n - 1) := by
  rw [List.eraseIdx_eq_take_drop_succ]
  have : L.drop (n - 1 + 1) = [] := by
    apply List.drop_eq_nil_of_le
    omega
  simp [this]

theorem pop_back_n_owned (E : Env) :
    ∀ (cnt : Nat) (m : Mem T) (v : socow_vector T), Owned m v →
      (const_data m v).length = v.SZ → cnt ≤ v.SZ →
      ∃ m', pop_back_n E cnt (m, v) =
          .ok () (m', { v.with_elems ((const_data m v).take (v.SZ - cnt)) with SZ := v.SZ - cnt }) ∧
        m'.heap = m.heap.put v ((const_data m v).take (v.SZ - cnt)) := by
  intro cnt
  induction cnt with
  | zero =>
    intro m v _ hl _
    have ht : (const_data m v).take (v.SZ - 0) = const_data m v :=
      List.take_of_length_le (by omega)
    refine ⟨m, ?_, ?_⟩
    · simp only [pop_back_n, ht, with_elems_const_data]
      rfl
    · rw [ht, Heap.put_const_data]
  | succ c ih =>
    intro m v hO hl hc
    obtain ⟨m1, e1, hh1⟩ := pop_back_owned E hO
    rw [eraseIdx_last _ hl] at e1 hh1
    have hO1 : Owned m1 ({ v.with_elems ((const_data m v).take (v.SZ - 1)) with SZ := v.SZ - 1 } :
        socow_vector T) := Owned_set_SZ _ (Owned_put hO hh1)
    have hc1 : const_data m1 ({ v.with_elems ((const_data m v).take (v.SZ - 1)) with
        SZ := v.SZ - 1 } : socow_vector T) = (const_data m v).take (v.SZ - 1) := by
      have := const_data_put hO hh1
      simpa [const_data] using this
    obtain ⟨m2, e2, hh2⟩ := ih m1 _ hO1 (by rw [hc1]; simp [hl]) (by simp; omega)
    rw [hc1] at e2 hh2
    refine ⟨m2, ?_, ?_⟩
    · simp only [pop_back_n, e1, Outcome.bind, e2]
      have h3 : v.SZ - 1 - c = v.SZ - (c + 1) := by omega
      have h4 : (v.SZ - (c + 1)) ⊓ (v.SZ - 1) = v.SZ - (c + 1) := by omega
      simp [with_elems_set_SZ, List.take_take, h3, h4]
    · rw [hh2, hh1]
      have h3 : v.SZ - 1 - c = v.SZ - (c + 1) := by omega
      have h4 : (v.SZ - (c + 1)) ⊓ (v.SZ - 1) = v.SZ - (c + 1) := by omega
      simp [List.take_take, h3, h4]

theorem getElem?_erased (X : List T) {f l : Nat} (hf : f ≤ X.length) (k : Nat) :
    (erased X f l)[k]? = if k < f then X[k]? else X[l + (k - f)]? := by
  unfold erased
  by_cases hk : k < f
  · rw [List.getElem?_append_left (by simp; omega)]
    simp [List.getElem?_take, hk]
  · rw [List.getElem?_append_right (by simp; omega)]
    simp [hk, Nat.min_eq_left hf]

theorem shift_exit (X L : List T) {ind cnt i : Nat} (hi : ind ≤ i) (hn : i + cnt = X.length)
    (hl : L.length = X.length)
    (ha : ∀ k, k < ind → L[k]? = X[k]?)
    (hb : ∀ k, ind ≤ k → k < i → L[k]? = X[k + cnt]?) :
    L.take (X.length - cnt) = erased X ind (ind + cnt) := by
  apply List.ext_getElem?
  intro k
  rw [getElem?_erased X (by omega), List.getElem?_take]
  by_cases hk : k < X.length - cnt
  · by_cases hk2 : k < ind
    · simp [hk, hk2, ha k hk2]
    · have : ind + cnt + (k - ind) = k + cnt := by omega
      simp [hk, hk2, hb k (by omega) (by omega), this]
  · have h1 : ¬ k < ind := by omega
    have h2 : X.length ≤ ind + cnt + (k - ind) := by omega
    simp [hk, h1, List.getElem?_eq_none h2]

theorem erase_shift_owned {E : Env} (hE : E.nothrow) (X : List T) (ind cnt : Nat)
    (hcnt : 0 < cnt) :
    ∀ (fuel i : Nat) (m : Mem T) (v : socow_vector T), Owned m v → size v = X.length →
      ind ≤ i → i + cnt ≤ X.length → X.length ≤ fuel + i + cnt →
      (const_data m v).length = X.length →
      (∀ k, k < ind → (const_data m v)[k]? = X[k]?) →
      (∀ k, ind ≤ k → k < i → (const_data m v)[k]? = X[k + cnt]?) →
      (∀ k, i + cnt ≤ k → (const_data m v)[k]? = X[k]?) →
      ∃ m' ys, erase_shift E cnt fuel i (m, v) = .ok () (m', v.with_elems ys) ∧
        m'.heap = m.heap.put v ys ∧ ys.length = X.length ∧
        ys.take (X.length - cnt) = erased X ind (ind + cnt) := by
  intro fuel
  induction fuel with
  | zero =>
    intro i m v _ _ hi hin hf hl ha hb _
    refine ⟨m, const_data m v, ?_, ?_, hl, ?_⟩
    · simp [erase_shift, with_elems_const_data]
    · rw [Heap.put_const_data]
    · exact shift_exit X _ hi (by omega) hl ha hb
  | succ fuel ih =>
    intro i m v hO hs hi hin hf hl ha hb hc
    by_cases hlt : i + cnt < size v
    · obtain ⟨m1, e1, hh1⟩ := swap_data_owned hE hO i (i + cnt)
      set L := const_data m v with hL
      have hO1 := Owned_put hO hh1
      have hc1 := const_data_put hO hh1
      have hg : ∀ k, (exchange L i (i + cnt))[k]? =
          if k = i + cnt then L[i]? else if k = i then L[i + cnt]? else L[k]? :=
        fun k => getElem?_exchange (by omega) (by omega) k
      obtain ⟨m2, ys, e2, hh2, hl2, ht2⟩ := ih (i + 1) m1 (v.with_elems (exchange L i (i + cnt)))
        hO1 (by simpa using hs) (by omega) (by omega) (by omega)
        (by rw [hc1, length_exchange]; exact hl)
        (by
          intro k hk
          rw [hc1, hg]
          have h1 : k ≠ i + cnt := by omega
          have h2 : k ≠ i := by omega
          simp [h1, h2, ha k hk])
        (by
          intro k hk1 hk2
          rw [hc1, hg]
          have h1 : k ≠ i + cnt := by omega
          by_cases h2 : k = i
          · subst h2
            simp [h1, hc (k + cnt) (by omega)]
          · simp [h1, h2, hb k hk1 (by omega)])
        (by
          intro k hk
          rw [hc1, hg]
          have h1 : k ≠ i + cnt := by omega
          have h2 : k ≠ i := by omega
          simp [h1, h2, hc k (by omega)])
      refine ⟨m2, ys, ?_, ?_, hl2, ht2⟩
      · simp only [erase_shift, hlt, if_true, e1, Outcome.bind, e2, with_elems_with_elems]
      · rw [hh2, hh1, Heap.put_put]
    · refine ⟨m, const_data m v, ?_, ?_, hl, ?_⟩
      · simp [erase_shift, hlt, with_elems_const_data]
      · rw [Heap.put_const_data]
      · exact shift_exit X _ hi (by omega) hl ha hb

end Socow
namespace Socow
variable {T : Type}

theorem erase_owned {E : Env} (hE : E.nothrow) {m : Mem T} {v : socow_vector T}
    (hO : Owned m v) (hl : (const_data m v).length = size v) {f l : Nat} (hfl : f < l)
    (hls : l ≤ size v) :
    ∃ m', erase E m v f l =
        .ok f (m', { v.with_elems (erased (const_data m v) f l) with SZ := size v - (l - f) }) ∧
      m'.heap = m.heap.put v (erased (const_data m v) f l) := by
  set X := const_data m v with hX
  have hcnt : ¬ (l - f = 0) := by omega
  obtain ⟨m1, ys, e1, hh1, hl1, ht1⟩ := erase_shift_owned hE X f (l - f) (by omega)
    (size v) f m v hO hl.symm (le_refl _) (by omega) (by omega) rfl
    (fun _ _ => rfl) (fun k h1 h2 => absurd h2 (by omega)) (fun _ _ => rfl)
  have hfl2 : f + (l - f) = l := by omega
  rw [hfl2] at ht1
  have hO1 : Owned m1 (v.with_elems ys) := Owned_put hO hh1
  have hc1 : const_data m1 (v.with_elems ys) = ys := const_data_put hO hh1
  have hsz : (v.with_elems ys).SZ = X.length := by
    simpa [size] using hl.symm
  obtain ⟨m2, e2, hh2⟩ := pop_back_n_owned E (l - f) m1 (v.with_elems ys) hO1
    (by rw [hc1, hl1, hsz]) (by rw [hsz, hl]; omega)
  rw [hc1, hsz, ht1] at e2 hh2
  have hO2 : Owned m2 ({ (v.with_elems ys).with_elems (erased X f l) with
      SZ := X.length - (l - f) } : socow_vector T) := Owned_set_SZ _ (Owned_put hO1 hh2)
  refine ⟨m2, ?_, ?_⟩
  · simp only [erase, hcnt, if_false, hO.exclusive, if_true, e1, Outcome.bind, e2,
      data_owned E hO2]
    simp [hl]
  · rw [hh2, hh1, Heap.put_put]

/-! ## swap -/

theorem swap_ranges_ok {E : Env} (hE : E.nothrow) (bound : Nat) :
    ∀ (fuel i : Nat) (m : Mem T) (a b : List T), bound ≤ a.length → bound ≤ b.length →
      bound ≤ fuel + i →
      ∃ m' a' b', swap_ranges E bound fuel i m a b = .ok () (m', a', b') ∧ m'.heap = m.heap ∧
        a'.length = a.length ∧ b'.length = b.length ∧
        (∀ k, a'[k]? = if i ≤ k ∧ k < bound then b[k]? else a[k]?) ∧
        (∀ k, b'[k]? = if i ≤ k ∧ k < bound then a[k]? else b[k]?) := by
  intro fuel
  induction fuel with
  | zero =>
    intro i m a b _ _ hf
    refine ⟨m, a, b, by simp [swap_ranges], rfl, rfl, rfl, ?_, ?_⟩ <;>
    · intro k
      have : ¬ (i ≤ k ∧ k < bound) := by omega
      simp [this]
  | succ fuel ih =>
    intro i m a b ha hb hf
    by_cases hi : i < bound
    · obtain ⟨m1, e1, hh1⟩ := std_swap_ok hE m
      have hia : i < a.length := by omega
      have hib : i < b.length := by omega
      obtain ⟨m2, a2, b2, e2, hh2, hla, hlb, hga, hgb⟩ :=
        ih (i + 1) m1 (a.set i b[i]) (b.set i a[i]) (by simpa using ha) (by simpa using hb)
          (by omega)
      refine ⟨m2, a2, b2, ?_, by rw [hh2, hh1], by simpa using hla, by simpa using hlb, ?_, ?_⟩
      · simp only [swap_ranges, hi, if_true, e1, List.get?_eq_getElem?,
          List.getElem?_eq_getElem hia, List.getElem?_eq_getElem hib, e2]
      · intro k
        rw [hga k]
        by_cases hk : k = i
        · subst hk
          have h1 : ¬ (k + 1 ≤ k ∧ k < bound) := by omega
          simp [h1, hi, hia, List.getElem?_eq_getElem hib]
        · by_cases hk2 : i + 1 ≤ k ∧ k < bound
          · have h1 : i ≤ k ∧ k < bound := by omega
            simp [hk2, h1, List.getElem?_set, Ne.symm hk]
          · have h1 : ¬ (i ≤ k ∧ k < bound) := by omega
            simp [hk2, h1, List.getElem?_set, Ne.symm hk]
      · intro k
        rw [hgb k]
        by_cases hk : k = i
        · subst hk
          have h1 : ¬ (k + 1 ≤ k ∧ k < bound) := by omega
          simp [h1, hi, hib, List.getElem?_eq_getElem hia]
        · by_cases hk2 : i + 1 ≤ k ∧ k < bound
          · have h1 : i ≤ k ∧ k < bound := by omega
            simp [hk2, h1, List.getElem?_set, Ne.symm hk]
          · have h1 : ¬ (i ≤ k ∧ k < bound) := by omega
            simp [hk2, h1, List.getElem?_set, Ne.symm hk]
    · refine ⟨m, a, b, by simp [swap_ranges, hi], rfl, rfl, rfl, ?_, ?_⟩ <;>
      · intro k
        have : ¬ (i ≤ k ∧ k < bound) := by omega
        simp [this]

end Socow
namespace Socow
variable {T : Type}

theorem uninitialized_copy_n_heap {E : Env} (hE : E.nothrow) (m : Mem T) (src : List T)
    (cnt : Nat) :
    ∃ m', uninitialized_copy_n E m src cnt = .ok (src.take cnt) m' ∧ m'.heap = m.heap :=
  ⟨_, uninitialized_copy_n_ok hE.1 m src cnt, rfl⟩

theorem swap_static_ok {E : Env} (hE : E.nothrow) (m : Mem T) {s o : Nat} {sb ob : List T}
    (hs : sb.length = s) (ho : ob.length = o) (hso : s ≤ o) :
    ∃ m', swap_static E m ⟨s, .staticBuffer sb⟩ ⟨o, .staticBuffer ob⟩ sb ob =
        .ok () (m', ⟨o, .staticBuffer ob⟩, ⟨s, .staticBuffer sb⟩) ∧ m'.heap = m.heap := by
  have htk : (ob.drop s).take (o - s) = ob.drop s :=
    List.take_of_length_le (by simp [ho])
  have hpl : place sb s (ob.drop s) = sb ++ ob.drop s := place_end _ _ _ hs
  obtain ⟨m1, e1, hh1⟩ := uninitialized_copy_n_heap hE m (ob.drop s) (o - s)
  rw [htk] at e1
  obtain ⟨m2, a2, b2, e2, hh2, hla, hlb, hga, hgb⟩ := swap_ranges_ok hE s s 0 m1
    (sb ++ ob.drop s) ob (by rw [List.length_append]; omega) (by omega) (by omega)
  have ha2 : a2 = ob := by
    apply List.ext_getElem?
    intro k
    rw [hga k]
    by_cases hk : k < s
    · simp [hk]
    · simp only [Nat.zero_le, true_and, hk, if_false]
      rw [List.getElem?_append_right (by omega), List.getElem?_drop, hs]
      congr 1
      omega
  have hb2 : b2.take s ++ b2.drop (s + (o - s)) = sb := by
    have h1 : b2.drop (s + (o - s)) = [] := List.drop_eq_nil_of_le (by omega)
    rw [h1, List.append_nil]
    apply List.ext_getElem?
    intro k
    rw [List.getElem?_take, hgb k]
    by_cases hk : k < s
    · simp [hk, List.getElem?_append_left (show k < sb.length by omega)]
    · simp [hk, List.getElem?_eq_none (show sb.length ≤ k by omega)]
  refine ⟨destroy_n m2 (o - s), ?_, by simp [hh2, hh1]⟩
  simp only [swap_static, size, e1, hpl, e2, ha2, hb2]

theorem swap_ok {E : Env} (hE : E.nothrow) {m : Mem T} {a b : socow_vector T}
    (ha : WF E m a) (hb : WF E m b) :
    ∃ m', swap E m a b false = .ok () (m', b, a) ∧ m'.heap = m.heap := by
  obtain ⟨s, sa⟩ := a
  obtain ⟨o, sb⟩ := b
  cases sa with
  | staticBuffer abuf =>
    cases sb with
    | staticBuffer bbuf =>
      obtain ⟨hla, _⟩ := WF_static.mp ha
      obtain ⟨hlb, _⟩ := WF_static.mp hb
      by_cases hgt : s > o
      · obtain ⟨m', e, hh⟩ := swap_static_ok hE m hlb hla (Nat.le_of_lt hgt)
        exact ⟨m', by simp [swap, size, hgt, e], hh⟩
      · obtain ⟨m', e, hh⟩ := swap_static_ok hE m hla hlb (Nat.le_of_not_lt hgt)
        exact ⟨m', by simp [swap, size, hgt, e], hh⟩
    | dynamicBuffer q =>
      obtain ⟨hla, _⟩ := WF_static.mp ha
      have htk : abuf.take s = abuf := List.take_of_length_le (by omega)
      obtain ⟨m1, e1, hh1⟩ := uninitialized_copy_n_heap hE m abuf s
      rw [htk] at e1
      exact ⟨destroy_n m1 s, by simp [swap, swap_static_dynamic, size, e1], by simp [hh1]⟩
  | dynamicBuffer p =>
    cases sb with
    | staticBuffer bbuf =>
      obtain ⟨hlb, _⟩ := WF_static.mp hb
      have htk : bbuf.take o = bbuf := List.take_of_length_le (by omega)
      obtain ⟨m1, e1, hh1⟩ := uninitialized_copy_n_heap hE m bbuf o
      rw [htk] at e1
      exact ⟨destroy_n m1 o, by simp [swap, swap_static_dynamic, size, e1], by simp [hh1]⟩
    | dynamicBuffer q =>
      exact ⟨m, by simp [swap], rfl⟩

end Socow
namespace Socow
variable {T : Type}

/-! ## Frame facts -/

theorem const_data_of_cell {m : Mem T} {n p : Nat} {b : dynamic_buffer T}
    (hc : m.heap.cell p = some b) : const_data m ⟨n, .dynamicBuffer p⟩ = b.elements := by
  simp [const_data, Mem.buf_of_cell hc]

theorem capacity_of_cell (E : Env) {m : Mem T} {n p : Nat} {b : dynamic_buffer T}
    (hc : m.heap.cell p = some b) : capacity E m ⟨n, .dynamicBuffer p⟩ = b.capacity := by
  simp [capacity, Mem.buf_of_cell hc]

theorem cntRef_of_cell {m : Mem T} {n p : Nat} {b : dynamic_buffer T}
    (hc : m.heap.cell p = some b) : cntRef m ⟨n, .dynamicBuffer p⟩ = b.cntRef := by
  simp [cntRef, Mem.buf_of_cell hc]

theorem exclusive_dynamic {m : Mem T} {n p : Nat} {b : dynamic_buffer T}
    (hc : m.heap.cell p = some b) :
    exclusive m ⟨n, .dynamicBuffer p⟩ = decide (b.cntRef = 1) := by
  by_cases h : b.cntRef = 1 <;> simp [exclusive, socow_vector.is_static, cntRef_of_cell hc, h]

theorem Heap.release_append {h : Heap T} {p : Nat} (x : Option (dynamic_buffer T))
    (hp : p < h.length) : (h ++ [x]).release p = h.release p ++ [x] := by
  unfold Heap.release
  rw [Heap.cell_append_lt hp]
  cases h.cell p with
  | none => rfl
  | some b =>
    simp only
    split <;> simp [List.set_append, hp]

theorem Heap.drop_storage_append {E : Env} {m : Mem T} {v : socow_vector T} (hv : WF E m v)
    (x : Option (dynamic_buffer T)) :
    (m.heap ++ [x]).drop_storage v = m.heap.drop_storage v ++ [x] := by
  obtain ⟨n, st⟩ := v
  cases st with
  | staticBuffer buf => rfl
  | dynamicBuffer p =>
    obtain ⟨b, hc, _⟩ := WF_dynamic.mp hv
    exact Heap.release_append x (Heap.cell_some_lt hc)

/-! ## Unsharing -/

theorem data_shared {E : Env} (hE : E.nothrow) {m : Mem T} {n p : Nat} {b : dynamic_buffer T}
    (hc : m.heap.cell p = some b) (hr : 2 ≤ b.cntRef) :
    ∃ m', data E m ⟨n, .dynamicBuffer p⟩ = .ok () (m', ⟨n, .dynamicBuffer m.heap.length⟩) ∧
      m'.heap = (m.heap ++ [some (dynamic_buffer.mk b.capacity 1 (b.elements.take n))]).release p := by
  have hp := Heap.cell_some_lt hc
  obtain ⟨m1, e1, hh1⟩ := getBufferViaCopy_ok hE m b.capacity b.elements n
  have hgt : decide (cntRef m (⟨n, .dynamicBuffer p⟩ : socow_vector T) > 1) = true := by
    simp [cntRef_of_cell hc]
    omega
  have hc1 : m1.heap.cell p = some b := by
    rw [hh1, Heap.cell_append_lt hp, hc]
  refine ⟨m1.update p (fun b => { b with cntRef := b.cntRef - 1 }), ?_, ?_⟩
  · simp only [data, socow_vector.is_static, hgt, Bool.not_false, Bool.and_self, if_true,
      unshare, capacity_of_cell E hc, Mem.buf_of_cell hc, size, e1]
  · rw [Mem.update_heap, Heap.upd_of_cell _ hc1, ← hh1, Heap.release_of_shared hc1 hr]

/-! ## The reallocating branch of pop_back -/

theorem pop_back_shared {E : Env} (hE : E.nothrow) {m : Mem T} {n p : Nat}
    {b : dynamic_buffer T} (hc : m.heap.cell p = some b) (hr : 2 ≤ b.cntRef) :
    ∃ m', pop_back E m ⟨n, .dynamicBuffer p⟩ =
        .ok () (m', ⟨n - 1, .dynamicBuffer m.heap.length⟩) ∧
      m'.heap = (m.heap ++ [some (dynamic_buffer.mk b.capacity 1 (b.elements.take (n - 1)))]).release p := by
  obtain ⟨m1, e1, hh1⟩ := getBufferViaCopy_ok hE m b.capacity b.elements (n - 1)
  have hex : exclusive m (⟨n, .dynamicBuffer p⟩ : socow_vector T) = false := by
    rw [exclusive_dynamic hc]
    simp
    omega
  refine ⟨dropDynamicBuffer m1 p (n - 1), ?_, ?_⟩
  · simp [pop_back, hex, capacity_of_cell E hc, const_data_of_cell hc, size, e1]
  · rw [dropDynamicBuffer_heap, hh1]

end Socow
namespace Socow
variable {T : Type}

/-! ## Facts from the invariant -/

theorem WF.length_const_data {E : Env} {m : Mem T} {v : socow_vector T} (hv : WF E m v) :
    (const_data m v).length = size v := by
  obtain ⟨n, st⟩ := v
  cases st with
  | staticBuffer buf => exact (WF_static.mp hv).1
  | dynamicBuffer p =>
    obtain ⟨b, hc, hl, _⟩ := WF_dynamic.mp hv
    rw [const_data_of_cell hc]
    exact hl

theorem WF.size_le_capacity {E : Env} {m : Mem T} {v : socow_vector T} (hv : WF E m v) :
    size v ≤ capacity E m v := by
  obtain ⟨n, st⟩ := v
  cases st with
  | staticBuffer buf => exact (WF_static.mp hv).2
  | dynamicBuffer p =>
    obtain ⟨b, hc, _, hl, _⟩ := WF_dynamic.mp hv
    rw [capacity_of_cell E hc]
    exact hl

theorem WF.contents_eq {E : Env} {m : Mem T} {v : socow_vector T} (hv : WF E m v) :
    contents m v = const_data m v := by
  unfold contents
  exact List.take_of_length_le (by rw [hv.length_const_data])

theorem WF_append {E : Env} {m m' : Mem T} {v : socow_vector T} (hv : WF E m v)
    {x : Option (dynamic_buffer T)} (hh : m'.heap = m.heap ++ [x]) : WF E m' v := by
  obtain ⟨n, st⟩ := v
  cases st with
  | staticBuffer buf => exact WF_static.mpr (WF_static.mp hv)
  | dynamicBuffer p =>
    obtain ⟨b, hc, h⟩ := WF_dynamic.mp hv
    exact WF_dynamic.mpr ⟨b, by rw [hh, Heap.cell_append_lt (Heap.cell_some_lt hc), hc], h⟩

theorem const_data_append {E : Env} {m m' : Mem T} {v : socow_vector T} (hv : WF E m v)
    {x : Option (dynamic_buffer T)} (hh : m'.heap = m.heap ++ [x]) :
    const_data m' v = const_data m v := by
  obtain ⟨n, st⟩ := v
  cases st with
  | staticBuffer buf => rfl
  | dynamicBuffer p =>
    obtain ⟨b, hc, h⟩ := WF_dynamic.mp hv
    have hc' : m'.heap.cell p = some b := by
      rw [hh, Heap.cell_append_lt (Heap.cell_some_lt hc), hc]
    rw [const_data_of_cell hc, const_data_of_cell hc']

theorem Heap.set_append_length (h : Heap T) (a x : Option (dynamic_buffer T)) :
    (h ++ [a]).set h.length x = h ++ [x] := by
  simp [List.set_append]

theorem Heap.put_append_length (h : Heap T) (n cap r : Nat) (ys xs : List T) :
    (h ++ [some (dynamic_buffer.mk cap r ys)]).put ⟨n, .dynamicBuffer h.length⟩ xs =
      h ++ [some (dynamic_buffer.mk cap r xs)] := by
  simp [Heap.put, Heap.upd, Heap.cell_append_length, List.set_append]

/-! ## insert with room -/

theorem insert_room {E : Env} (hE : E.nothrow) {m : Mem T} {v : socow_vector T}
    (hO : Owned m v) (hl : (const_data m v).length = size v) (hlt : size v < capacity E m v)
    {k : Nat} (hk : k ≤ size v) (x : T) (fuel : Nat) :
    ∃ m', insert E (fuel + 1) m v k x =
        some (.ok k (m', { v.with_elems (inserted (const_data m v) k x) with SZ := v.SZ + 1 })) ∧
      m'.heap = m.heap.put v (inserted (const_data m v) k x) := by
  obtain ⟨m', e, hh⟩ := insert_in_place_owned hE hO hl hk x
  exact ⟨m', by simp [insert, hO.exclusive, hlt, e], hh⟩

/-- Building the temporary of the reallocating branch of `insert`. -/
theorem insert_tmp {E : Env} (hE : E.nothrow) {m : Mem T} {v : socow_vector T} (hv : WF E m v)
    {cap : Nat} (hcap : E.SMALL_SIZE < cap) {k : Nat} (hk : k ≤ size v) (hkc : k < cap) (x : T)
    (fuel : Nat) :
    ∃ m1 m2 m3 m4 : Mem T,
      ctor_capacity E m cap = .ok ⟨0, .dynamicBuffer m.heap.length⟩ m1 ∧
      copy_into E m1 ⟨0, .dynamicBuffer m.heap.length⟩ 0 (const_data m1 v) k =
        .ok () (m2, ⟨0, .dynamicBuffer m.heap.length⟩) ∧
      insert E (fuel + 1) m2 ⟨0 + k, .dynamicBuffer m.heap.length⟩
          (end_const m2 ⟨0 + k, .dynamicBuffer m.heap.length⟩) x =
        some (.ok (end_const m2 ⟨0 + k, .dynamicBuffer m.heap.length⟩)
          (m3, ⟨0 + k + 1, .dynamicBuffer m.heap.length⟩)) ∧
      copy_into E m3 ⟨0 + k + 1, .dynamicBuffer m.heap.length⟩ (k + 1)
          ((const_data m3 v).drop k) (size v - k) =
        .ok () (m4, ⟨0 + k + 1, .dynamicBuffer m.heap.length⟩) ∧
      m4.heap = m.heap ++ [some (dynamic_buffer.mk cap 1 (inserted (const_data m v) k x))] := by
  have hlen := hv.length_const_data
  set xs := const_data m v with hxs
  set q := m.heap.length with hq
  obtain ⟨m1, e1, hh1⟩ := ctor_capacity_dynamic hE m hcap
  have hc1 : m1.heap.cell q = some (dynamic_buffer.mk cap 1 []) := by
    rw [hh1, Heap.cell_append_length]
  have hd1 : const_data m1 v = xs := const_data_append hv hh1
  obtain ⟨m2, e2, hh2⟩ := copy_into_dynamic_excl hE 0 0 (const_data m1 v) k hc1 rfl
  rw [hd1] at hh2
  have hh2' : m2.heap = m.heap ++ [some (dynamic_buffer.mk cap 1 (xs.take k))] := by
    rw [hh2, hh1, Heap.set_append_length]
    simp [place]
  have hlk : (xs.take k).length = k := by
    rw [List.length_take, hlen]
    exact Nat.min_eq_left hk
  have hc2 : m2.heap.cell q = some (dynamic_buffer.mk cap 1 (xs.take k)) := by
    rw [hh2', Heap.cell_append_length]
  have hO2 : Owned m2 (⟨0 + k, .dynamicBuffer q⟩ : socow_vector T) :=
    Owned_dynamic.mpr ⟨_, hc2, rfl⟩
  have hcd2 : const_data m2 (⟨0 + k, .dynamicBuffer q⟩ : socow_vector T) = xs.take k :=
    const_data_of_cell hc2
  obtain ⟨m3, e3, hh3⟩ := insert_room hE hO2 (by rw [hcd2, hlk]; simp [size])
    (by rw [capacity_of_cell E hc2]; simpa [size] using hkc) (k := k) (by simp [size]) x fuel
  rw [hcd2] at e3 hh3
  have hins : inserted (xs.take k) k x = xs.take k ++ [x] := by
    have := inserted_end (xs.take k) x
    rwa [hlk] at this
  rw [hins] at e3 hh3
  have hh3' : m3.heap = m.heap ++ [some (dynamic_buffer.mk cap 1 (xs.take k ++ [x]))] := by
    rw [hh3, hh2', Heap.put_append_length]
  have hc3 : m3.heap.cell q = some (dynamic_buffer.mk cap 1 (xs.take k ++ [x])) := by
    rw [hh3', Heap.cell_append_length]
  have hd3 : const_data m3 v = xs := const_data_append hv hh3'
  obtain ⟨m4, e4, hh4⟩ := copy_into_dynamic_excl hE (0 + k + 1) (k + 1)
    ((const_data m3 v).drop k) (size v - k) hc3 rfl
  rw [hd3] at hh4
  have htk : (xs.drop k).take (size v - k) = xs.drop k :=
    List.take_of_length_le (by simp [hlen])
  have hpl : place (xs.take k ++ [x]) (k + 1) (xs.drop k) = inserted xs k x := by
    rw [place_end _ _ _ (by simp [hlk])]
    simp [inserted]
  refine ⟨m1, m2, m3, m4, e1, e2, ?_, e4, ?_⟩
  · simpa [socow_vector.with_elems, end_const, size] using e3
  · rw [hh4, hh3', Heap.set_append_length]
    simp only [htk, hpl]

end Socow
namespace Socow
variable {T : Type}

/-! ## The reallocating branch of insert -/

theorem insert_realloc_static {E : Env} (hE : E.nothrow) (hS : 1 ≤ E.SMALL_SIZE) {m : Mem T}
    {n : Nat} {buf : List T} (hv : WF E m ⟨n, .staticBuffer buf⟩) (hfull : n = E.SMALL_SIZE)
    {k : Nat} (hk : k ≤ n) (x : T) (fuel : Nat) :
    ∃ m', insert E (fuel + 2) m ⟨n, .staticBuffer buf⟩ k x =
        some (.ok k (m', ⟨n + 1, .dynamicBuffer m.heap.length⟩)) ∧
      m'.heap = m.heap ++ [some (dynamic_buffer.mk (2 * E.SMALL_SIZE) 1 (inserted buf k x))] := by
  obtain ⟨hl, _⟩ := WF_static.mp hv
  generalize hvdef : (⟨n, .staticBuffer buf⟩ : socow_vector T) = v at hv ⊢
  have hvs : size v = n := by rw [← hvdef]; rfl
  have hvc : capacity E m v = E.SMALL_SIZE := by rw [← hvdef]; rfl
  have hvi : v.is_static = true := by rw [← hvdef]; rfl
  have hb : (exclusive m v && decide (size v < capacity E m v)) = false := by
    simp [exclusive, hvi, hvs, hvc, hfull]
  have hcapeq : (if size v = capacity E m v then 2 * capacity E m v else capacity E m v) =
      2 * E.SMALL_SIZE := by
    simp [hvs, hvc, hfull]
  obtain ⟨m1, m2, m3, m4, e1, e2, e3, e4, hh4⟩ := insert_tmp hE hv
    (show E.SMALL_SIZE < 2 * E.SMALL_SIZE by omega) (k := k) (by rw [hvs]; exact hk)
    (by omega) x fuel
  have hcd : const_data m v = buf := by rw [← hvdef]; rfl
  rw [hcd] at hh4
  -- clear()
  have hO4 : Owned m4 v := by rw [← hvdef]; exact Owned_static
  have hcd4 : const_data m4 v = buf := by rw [← hvdef]; rfl
  obtain ⟨m5, e5, hh5⟩ := erase_owned hE hO4 (by rw [hcd4, hvs]; exact hl)
    (f := 0) (l := size v) (by omega) (le_refl _)
  have her : erased (const_data m4 v) 0 (size v) = [] := by
    rw [hcd4, hvs]
    simp [erased, List.drop_eq_nil_of_le (Nat.le_of_eq hl)]
  rw [her] at e5 hh5
  have hh5' : m5.heap = m4.heap := by
    rw [hh5, ← hvdef]
    rfl
  have hself5 : ({ v.with_elems ([] : List T) with SZ := size v - (size v - 0) } :
      socow_vector T) = ⟨0, .staticBuffer []⟩ := by
    rw [← hvdef]
    simp [socow_vector.with_elems, size]
  rw [hself5] at e5
  -- swap(tmp)
  have hsz : 0 + k + 1 + (size v - k) = n + 1 := by
    rw [hvs]
    omega
  set q := m.heap.length with hq
  have hc5 : m5.heap.cell q = some (dynamic_buffer.mk (2 * E.SMALL_SIZE) 1 (inserted buf k x)) := by
    rw [hh5', hh4, Heap.cell_append_length]
  have hlen : (inserted buf k x).length = n + 1 := by
    simp [inserted, List.length_take, List.length_drop, hl]
    omega
  have hw5 : WF E m5 (⟨n + 1, .dynamicBuffer q⟩ : socow_vector T) :=
    WF_dynamic.mpr ⟨_, hc5, hlen, by simp; omega, by simp; omega, by simp⟩
  have hw5' : WF E m5 (⟨0, .staticBuffer []⟩ : socow_vector T) := WF_static.mpr ⟨rfl, by omega⟩
  obtain ⟨m6, e6, hh6⟩ := swap_ok hE hw5' hw5
  have hO6 : Owned m6 (⟨n + 1, .dynamicBuffer q⟩ : socow_vector T) :=
    Owned_dynamic.mpr ⟨_, by rw [hh6]; exact hc5, rfl⟩
  refine ⟨dtor m6 ⟨0, .staticBuffer []⟩, ?_, ?_⟩
  · rw [insert]
    simp only [hb, hcapeq, e1, e2, e3, e4, Bool.false_eq_true, if_false, hvi, if_true]
    simp only [clear, begin_const, end_const, e5, Outcome.bind, hsz, e6, data_owned E hO6]
  · rw [dtor_heap, hh6, hh5', hh4]
    rfl

end Socow
namespace Socow
variable {T : Type}

theorem insert_realloc_dynamic {E : Env} (hE : E.nothrow) {m : Mem T}
    {n p : Nat} {b : dynamic_buffer T} (hv : WF E m ⟨n, .dynamicBuffer p⟩)
    (hc : m.heap.cell p = some b)
    (hb : (exclusive m ⟨n, .dynamicBuffer p⟩ &&
      decide (size (⟨n, .dynamicBuffer p⟩ : socow_vector T) <
        capacity E m ⟨n, .dynamicBuffer p⟩)) = false)
    {k : Nat} (hk : k ≤ n) (x : T) (fuel : Nat) :
    ∃ m', insert E (fuel + 2) m ⟨n, .dynamicBuffer p⟩ k x =
        some (.ok k (m', ⟨n + 1, .dynamicBuffer m.heap.length⟩)) ∧
      m'.heap = (m.heap ++ [some (dynamic_buffer.mk
        (if n = b.capacity then 2 * b.capacity else b.capacity) 1
        (inserted b.elements k x))]).release p := by
  obtain ⟨b', hc', hl, hle, hsm, hr⟩ := WF_dynamic.mp hv
  have hbb : b' = b := by
    rw [hc] at hc'
    exact (Option.some.inj hc').symm
  subst hbb
  generalize hvdef : (⟨n, .dynamicBuffer p⟩ : socow_vector T) = v at hv hb ⊢
  have hvs : size v = n := by rw [← hvdef]; rfl
  have hvc : capacity E m v = b'.capacity := by rw [← hvdef]; exact capacity_of_cell E hc
  have hvi : v.is_static = false := by rw [← hvdef]; rfl
  have hcd : const_data m v = b'.elements := by rw [← hvdef]; exact const_data_of_cell hc
  have hcapeq : (if size v = capacity E m v then 2 * capacity E m v else capacity E m v) =
      (if n = b'.capacity then 2 * b'.capacity else b'.capacity) := by
    rw [hvs, hvc]
  have hcap1 : E.SMALL_SIZE < (if n = b'.capacity then 2 * b'.capacity else b'.capacity) := by
    split <;> omega
  have hcap2 : n + 1 ≤ (if n = b'.capacity then 2 * b'.capacity else b'.capacity) := by
    split <;> omega
  obtain ⟨m1, m2, m3, m4, e1, e2, e3, e4, hh4⟩ := insert_tmp hE hv hcap1 (k := k)
    (by rw [hvs]; exact hk) (by omega) x fuel
  rw [hcd] at hh4
  have hsz : 0 + k + 1 + (size v - k) = n + 1 := by
    rw [hvs]
    omega
  set q := m.heap.length with hq
  have hc4 : m4.heap.cell q = some (dynamic_buffer.mk
      (if n = b'.capacity then 2 * b'.capacity else b'.capacity) 1 (inserted b'.elements k x)) := by
    rw [hh4, Heap.cell_append_length]
  have hlen : (inserted b'.elements k x).length = n + 1 := by
    simp [inserted, List.length_take, List.length_drop, hl]
    omega
  have hw4 : WF E m4 (⟨n + 1, .dynamicBuffer q⟩ : socow_vector T) :=
    WF_dynamic.mpr ⟨_, hc4, hlen, hcap2, hcap1, by simp⟩
  have hw4' : WF E m4 v := WF_append hv hh4
  obtain ⟨m6, e6, hh6⟩ := swap_ok hE hw4' hw4
  have hO6 : Owned m6 (⟨n + 1, .dynamicBuffer q⟩ : socow_vector T) :=
    Owned_dynamic.mpr ⟨_, by rw [hh6]; exact hc4, rfl⟩
  refine ⟨dtor m6 v, ?_, ?_⟩
  · rw [insert]
    simp only [hb, hcapeq, e1, e2, e3, e4, Bool.false_eq_true, if_false, hvi]
    simp only [hsz, e6, data_owned E hO6]
  · rw [dtor_heap, hh6, hh4, ← hvdef]
    rfl

/-! ## The reallocating branch of erase -/

theorem erase_shared {E : Env} (hE : E.nothrow) {m : Mem T} {n p : Nat} {b : dynamic_buffer T}
    (hv : WF E m ⟨n, .dynamicBuffer p⟩) (hc : m.heap.cell p = some b) (hr : 2 ≤ b.cntRef)
    {f l : Nat} (hfl : f < l) (hln : l ≤ n) :
    ∃ m', erase E m ⟨n, .dynamicBuffer p⟩ f l =
        .ok f (m', ⟨n - (l - f), .dynamicBuffer m.heap.length⟩) ∧
      m'.heap = (m.heap ++ [some (dynamic_buffer.mk b.capacity 1 (erased b.elements f l))]).release p := by
  obtain ⟨b', hc', hl, hle, hsm, _⟩ := WF_dynamic.mp hv
  have hbb : b' = b := by
    rw [hc] at hc'
    exact (Option.some.inj hc').symm
  subst hbb
  have hex : exclusive m (⟨n, .dynamicBuffer p⟩ : socow_vector T) = false := by
    rw [exclusive_dynamic hc]
    simp
    omega
  generalize hvdef : (⟨n, .dynamicBuffer p⟩ : socow_vector T) = v at hv hex ⊢
  have hvs : size v = n := by rw [← hvdef]; rfl
  have hvc : capacity E m v = b'.capacity := by rw [← hvdef]; exact capacity_of_cell E hc
  have hcd : const_data m v = b'.elements := by rw [← hvdef]; exact const_data_of_cell hc
  have hcnt : ¬ (l - f = 0) := by omega
  set q := m.heap.length with hq
  obtain ⟨m1, e1, hh1⟩ := ctor_capacity_dynamic hE m hsm
  have hc1 : m1.heap.cell q = some (dynamic_buffer.mk b'.capacity 1 []) := by
    rw [hh1, Heap.cell_append_length]
  have hd1 : const_data m1 v = b'.elements := by rw [const_data_append hv hh1, hcd]
  obtain ⟨m2, e2, hh2⟩ := copy_into_dynamic_excl hE 0 0 (const_data m1 v) f hc1 rfl
  rw [hd1] at hh2
  have hh2' : m2.heap = m.heap ++ [some (dynamic_buffer.mk b'.capacity 1 (b'.elements.take f))] := by
    rw [hh2, hh1, Heap.set_append_length]
    simp [place]
  have hc2 : m2.heap.cell q = some (dynamic_buffer.mk b'.capacity 1 (b'.elements.take f)) := by
    rw [hh2', Heap.cell_append_length]
  have hd2 : const_data m2 v = b'.elements := by rw [const_data_append hv hh2', hcd]
  obtain ⟨m3, e3, hh3⟩ := copy_into_dynamic_excl hE f f ((const_data m2 v).drop (f + (l - f)))
    (size v - (l - f) - f) hc2 rfl
  rw [hd2] at hh3
  have hfl2 : f + (l - f) = l := by omega
  have htk : (b'.elements.drop l).take (size v - (l - f) - f) = b'.elements.drop l :=
    List.take_of_length_le (by rw [List.length_drop, hl, hvs]; omega)
  have hpl : place (b'.elements.take f) f (b'.elements.drop l) = erased b'.elements f l := by
    rw [place_end _ _ _ (by rw [List.length_take, hl]; omega)]
    rfl
  have hh3' : m3.heap = m.heap ++ [some (dynamic_buffer.mk b'.capacity 1 (erased b'.elements f l))] := by
    rw [hh3, hh2', Heap.set_append_length, hfl2, htk]
    simp only [hpl]
  have hc3 : m3.heap.cell q = some (dynamic_buffer.mk b'.capacity 1 (erased b'.elements f l)) := by
    rw [hh3', Heap.cell_append_length]
  have hlen : (erased b'.elements f l).length = n - (l - f) := by
    simp [erased, List.length_take, List.length_drop, hl]
    omega
  have hw3 : WF E m3 (⟨n - (l - f), .dynamicBuffer q⟩ : socow_vector T) :=
    WF_dynamic.mpr ⟨_, hc3, hlen, by simp; omega, hsm, by simp⟩
  have hw3' : WF E m3 v := WF_append hv hh3'
  obtain ⟨m4, e4, hh4⟩ := swap_ok hE hw3' hw3
  have hO4 : Owned m4 (⟨n - (l - f), .dynamicBuffer q⟩ : socow_vector T) :=
    Owned_dynamic.mpr ⟨_, by rw [hh4]; exact hc3, rfl⟩
  refine ⟨dtor m4 v, ?_, ?_⟩
  · simp only [erase, hcnt, if_false, hex, Bool.false_eq_true, hvc, e1, e2, e3]
    simp only [hvs, e4, data_owned E hO4]
  · rw [dtor_heap, hh4, hh3', ← hvdef]
    rfl

end Socow
namespace Socow
variable {T : Type}

/-! ## The three shapes of a result -/

@[simp] theorem Heap.length_release (h : Heap T) (p : Nat) : (h.release p).length = h.length := by
  unfold Heap.release
  cases h.cell p with
  | none => rfl
  | some b =>
    simp only
    split <;> simp

@[simp] theorem Heap.length_drop_storage (h : Heap T) (v : socow_vector T) :
    (h.drop_storage v).length = h.length := by
  unfold Heap.drop_storage
  cases v.store <;> simp

@[simp] theorem Heap.length_upd (h : Heap T) (p : Nat) (f : dynamic_buffer T → dynamic_buffer T) :
    (h.upd p f).length = h.length := by
  unfold Heap.upd
  cases h.cell p <;> simp

@[simp] theorem Heap.length_put (h : Heap T) (v : socow_vector T) (xs : List T) :
    (h.put v xs).length = h.length := by
  unfold Heap.put
  cases v.store <;> simp

theorem Heap.cell_fresh {E : Env} {m : Mem T} {v : socow_vector T} (hv : WF E m v)
    (x : Option (dynamic_buffer T)) :
    ((m.heap ++ [x]).drop_storage v).cell m.heap.length = x := by
  rw [Heap.drop_storage_append hv]
  have := Heap.cell_append_length (h := m.heap.drop_storage v) (x := x)
  simpa using this

/-- A container that adopted a freshly allocated block. -/
theorem fresh_facts {E : Env} {m m' : Mem T} {v : socow_vector T} (hv : WF E m v)
    {cap : Nat} {xs : List T}
    (hh : m'.heap = (m.heap ++ [some (dynamic_buffer.mk cap 1 xs)]).drop_storage v)
    (hcap : E.SMALL_SIZE < cap) (hlen : xs.length ≤ cap) :
    WF E m' ⟨xs.length, .dynamicBuffer m.heap.length⟩ ∧
    contents m' ⟨xs.length, .dynamicBuffer m.heap.length⟩ = xs ∧
    const_data m' ⟨xs.length, .dynamicBuffer m.heap.length⟩ = xs ∧
    capacity E m' ⟨xs.length, .dynamicBuffer m.heap.length⟩ = cap ∧
    cntRef m' ⟨xs.length, .dynamicBuffer m.heap.length⟩ = 1 := by
  have hc : m'.heap.cell m.heap.length = some (dynamic_buffer.mk cap 1 xs) := by
    rw [hh, Heap.cell_fresh hv]
  refine ⟨WF_dynamic.mpr ⟨_, hc, rfl, hlen, hcap, by simp⟩, ?_, const_data_of_cell hc,
    capacity_of_cell E hc, cntRef_of_cell hc⟩
  simp [contents, const_data_of_cell hc, size]

/-- A container that rewrote its own exclusive storage. -/
theorem put_facts {E : Env} {m m' : Mem T} {v : socow_vector T} (hv : WF E m v)
    (hO : Owned m v) {xs : List T} (hh : m'.heap = m.heap.put v xs)
    (hlen : xs.length ≤ capacity E m v) :
    WF E m' { v.with_elems xs with SZ := xs.length } ∧
    contents m' { v.with_elems xs with SZ := xs.length } = xs ∧
    const_data m' { v.with_elems xs with SZ := xs.length } = xs ∧
    capacity E m' { v.with_elems xs with SZ := xs.length } = capacity E m v ∧
    ({ v.with_elems xs with SZ := xs.length } : socow_vector T).is_static = v.is_static ∧
    Owned m' { v.with_elems xs with SZ := xs.length } := by
  obtain ⟨n, st⟩ := v
  cases st with
  | staticBuffer buf =>
    have h1 := (WF_static.mp hv).2
    refine ⟨WF_static.mpr ⟨rfl, hlen⟩, ?_, rfl, rfl, rfl, Owned_static⟩
    simp [contents, const_data, socow_vector.with_elems, size]
  | dynamicBuffer p =>
    obtain ⟨b, hc, hl, hle, hsm, hr⟩ := WF_dynamic.mp hv
    obtain ⟨b', hc', hr'⟩ := Owned_dynamic.mp hO
    have hbb : b' = b := by
      rw [hc] at hc'
      exact (Option.some.inj hc').symm
    subst hbb
    have hp := Heap.cell_some_lt hc
    have hcell : m'.heap.cell p = some { b' with elements := xs } := by
      simp [hh, Heap.put, Heap.upd, hc, Heap.cell_set_same hp]
    rw [capacity_of_cell E hc] at hlen
    refine ⟨WF_dynamic.mpr ⟨_, hcell, rfl, hlen, hsm, hr⟩, ?_, const_data_of_cell hcell, ?_, rfl,
      Owned_dynamic.mpr ⟨_, hcell, hr'⟩⟩
    · simp [contents, socow_vector.with_elems, const_data_of_cell hcell, size]
    · simp only [socow_vector.with_elems]
      rw [capacity_of_cell E hcell, capacity_of_cell E hc]

theorem length_inserted (xs : List T) {k : Nat} (hk : k ≤ xs.length) (x : T) :
    (inserted xs k x).length = xs.length + 1 := by
  simp [inserted, List.length_take, List.length_drop]
  omega

theorem length_erased (xs : List T) {f l : Nat} (hf : f ≤ l) (hl : l ≤ xs.length) :
    (erased xs f l).length = xs.length - (l - f) := by
  simp [erased, List.length_take, List.length_drop]
  omega

theorem WF.Owned_of_exclusive {E : Env} {m : Mem T} {v : socow_vector T} (hv : WF E m v)
    (hx : exclusive m v = true) : Owned m v := by
  obtain ⟨n, st⟩ := v
  cases st with
  | staticBuffer buf => exact Owned_static
  | dynamicBuffer p =>
    obtain ⟨b, hc, _⟩ := WF_dynamic.mp hv
    rw [exclusive_dynamic hc] at hx
    exact Owned_dynamic.mpr ⟨b, hc, by simpa using hx⟩

end Socow
namespace Socow
variable {T : Type}

/-! ## What an effect guarantees for the container itself -/

theorem Effect.facts {E : Env} {m m' : Mem T} {v v' : socow_vector T} {xs : List T}
    (hv : WF E m v) (he : Effect E m v m' v' xs) :
    WF E m' v' ∧ const_data m' v' = xs ∧ contents m' v' = xs ∧ size v' = xs.length := by
  cases he with
  | same hh hv' hx =>
    subst hv' hx
    refine ⟨(WF_congr v' hh).mpr hv, const_data_congr v' hh, ?_, hv.length_const_data.symm⟩
    rw [contents_congr v' hh, hv.contents_eq]
  | in_place hO hlen hv' hh =>
    subst hv'
    obtain ⟨h1, h2, h3, _⟩ := put_facts hv hO hh hlen
    exact ⟨h1, h3, h2, rfl⟩
  | fresh cap hcap hlen hv' hh =>
    subst hv'
    obtain ⟨h1, h2, h3, _⟩ := fresh_facts hv hh hcap hlen
    exact ⟨h1, h3, h2, rfl⟩
  | to_inline hlen _ hv' hh =>
    subst hv'
    refine ⟨WF_static.mpr ⟨rfl, hlen⟩, rfl, ?_, rfl⟩
    simp [contents, const_data, size]

/-! ## The effect of each mutator -/

theorem insert_Effect {E : Env} (hE : E.nothrow) {m : Mem T} {v : socow_vector T}
    (hS : 1 ≤ E.SMALL_SIZE ∨ v.is_static = false) (hv : WF E m v) {k : Nat} (hk : k ≤ size v)
    (x : T) (fuel : Nat) :
    ∃ m' v', insert E (fuel + 2) m v k x = some (.ok k (m', v')) ∧
      Effect E m v m' v' (inserted (const_data m v) k x) ∧
      capacity E m' v' =
        (if size v = capacity E m v then 2 * capacity E m v else capacity E m v) ∧
      (size v = capacity E m v → v'.is_static = false) := by
  have hlen := length_inserted (const_data m v) (k := k) (by rw [hv.length_const_data]; exact hk) x
  rw [hv.length_const_data] at hlen
  have hle := hv.size_le_capacity
  by_cases hb : exclusive m v = true ∧ size v < capacity E m v
  · have hO := hv.Owned_of_exclusive hb.1
    obtain ⟨m', e, hh⟩ := insert_room hE hO hv.length_const_data hb.2 hk x (fuel + 1)
    have heq : ({ v.with_elems (inserted (const_data m v) k x) with SZ := v.SZ + 1 } :
        socow_vector T) = { v.with_elems (inserted (const_data m v) k x) with
          SZ := (inserted (const_data m v) k x).length } := by
      rw [hlen]
      rfl
    rw [heq] at e
    obtain ⟨_, _, _, h4, h5, _⟩ := put_facts hv hO hh (by omega)
    refine ⟨m', _, e, Effect.in_place hO (by omega) rfl hh, ?_, ?_⟩
    · rw [h4, if_neg (by omega)]
    · intro h
      omega
  · have hb' : (exclusive m v && decide (size v < capacity E m v)) = false := by
      simpa using hb
    have hcap : E.SMALL_SIZE <
        (if size v = capacity E m v then 2 * capacity E m v else capacity E m v) ∧
        size v + 1 ≤
        (if size v = capacity E m v then 2 * capacity E m v else capacity E m v) := by
      obtain ⟨n, st⟩ := v
      cases st with
      | staticBuffer buf =>
        have h2 := (WF_static.mp hv).2
        simp [exclusive, socow_vector.is_static, size, capacity] at hb hS ⊢
        have : n = E.SMALL_SIZE := by omega
        simp [this]
        omega
      | dynamicBuffer p =>
        obtain ⟨b, hc, _, h2, h3, _⟩ := WF_dynamic.mp hv
        simp only [size, capacity_of_cell E hc]
        split <;> omega
    have hres : ∃ m', insert E (fuel + 2) m v k x =
        some (.ok k (m', ⟨size v + 1, .dynamicBuffer m.heap.length⟩)) ∧
        m'.heap = (m.heap ++ [some (dynamic_buffer.mk
          (if size v = capacity E m v then 2 * capacity E m v else capacity E m v) 1
          (inserted (const_data m v) k x))]).drop_storage v := by
      obtain ⟨n, st⟩ := v
      cases st with
      | staticBuffer buf =>
        have h2 := (WF_static.mp hv).2
        have hfull : n = E.SMALL_SIZE := by
          simp [exclusive, socow_vector.is_static, size, capacity] at hb
          omega
        have hS' : 1 ≤ E.SMALL_SIZE := by
          simpa [socow_vector.is_static] using hS
        obtain ⟨m', e, hh⟩ := insert_realloc_static hE hS' hv hfull hk x fuel
        refine ⟨m', e, ?_⟩
        simp [hh, Heap.drop_storage, size, capacity, hfull, const_data]
      | dynamicBuffer p =>
        obtain ⟨b, hc, _⟩ := WF_dynamic.mp hv
        obtain ⟨m', e, hh⟩ := insert_realloc_dynamic hE hv hc hb' hk x fuel
        refine ⟨m', e, ?_⟩
        simp only [hh, Heap.drop_storage, size, capacity_of_cell E hc, const_data_of_cell hc]
    obtain ⟨m', e, hh⟩ := hres
    rw [← hlen] at e
    obtain ⟨_, _, _, h4, _⟩ := fresh_facts hv hh hcap.1 (by rw [hlen]; exact hcap.2)
    refine ⟨m', _, e, Effect.fresh _ hcap.1 (by rw [hlen]; exact hcap.2) rfl hh, h4, ?_⟩
    intro _
    rfl

end Socow
namespace Socow
variable {T : Type}

theorem WF.shared_of_not_exclusive {E : Env} {m : Mem T} {v : socow_vector T} (hv : WF E m v)
    (hx : ¬ exclusive m v = true) :
    ∃ p b, v = ⟨v.SZ, .dynamicBuffer p⟩ ∧ m.heap.cell p = some b ∧ 2 ≤ b.cntRef := by
  obtain ⟨n, st⟩ := v
  cases st with
  | staticBuffer buf => simp [exclusive, socow_vector.is_static] at hx
  | dynamicBuffer p =>
    obtain ⟨b, hc, _, _, _, hr⟩ := WF_dynamic.mp hv
    rw [exclusive_dynamic hc] at hx
    refine ⟨p, b, rfl, hc, ?_⟩
    simp at hx
    omega

theorem push_back_Effect {E : Env} (hE : E.nothrow) {m : Mem T} {v : socow_vector T}
    (hS : 1 ≤ E.SMALL_SIZE ∨ v.is_static = false) (hv : WF E m v) (x : T) (fuel : Nat) :
    ∃ m' v', push_back E (fuel + 2) m v x = some (.ok () (m', v')) ∧
      Effect E m v m' v' (const_data m v ++ [x]) ∧
      capacity E m' v' =
        (if size v = capacity E m v then 2 * capacity E m v else capacity E m v) ∧
      (size v = capacity E m v → v'.is_static = false) := by
  obtain ⟨m', v', e, he, hc, hs⟩ := insert_Effect hE hS hv (le_refl (size v)) x fuel
  have : inserted (const_data m v) (size v) x = const_data m v ++ [x] := by
    rw [← hv.length_const_data, inserted_end]
  rw [this] at he
  exact ⟨m', v', by simp [push_back, end_const, e, Outcome.bind], he, hc, hs⟩

theorem pop_back_Effect {E : Env} (hE : E.nothrow) {m : Mem T} {v : socow_vector T}
    (hv : WF E m v) (hn : 0 < size v) :
    ∃ m' v', pop_back E m v = .ok () (m', v') ∧
      Effect E m v m' v' ((const_data m v).take (size v - 1)) ∧
      capacity E m' v' = capacity E m v ∧ v'.is_static = v.is_static := by
  have hl := hv.length_const_data
  have hle := hv.size_le_capacity
  have hlen : ((const_data m v).take (size v - 1)).length = size v - 1 := by
    rw [List.length_take, hl]
    omega
  by_cases hx : exclusive m v = true
  · have hO := hv.Owned_of_exclusive hx
    obtain ⟨m', e, hh⟩ := pop_back_owned E hO
    rw [eraseIdx_last _ (show (const_data m v).length = v.SZ from hl)] at e hh
    have hh2 : m'.heap = m.heap.put v ((const_data m v).take (size v - 1)) := hh
    have e2 : pop_back E m v = .ok () (m', { v.with_elems ((const_data m v).take (size v - 1))
        with SZ := ((const_data m v).take (size v - 1)).length }) := by
      rw [hlen]
      exact e
    obtain ⟨_, _, _, h4, h5, _⟩ := put_facts hv hO hh2 (by omega)
    exact ⟨m', _, e2, Effect.in_place hO (by omega) rfl hh2, h4, h5⟩
  · obtain ⟨p, b, hvp, hc, hr⟩ := hv.shared_of_not_exclusive hx
    obtain ⟨m', e, hh⟩ := pop_back_shared hE (n := v.SZ) hc hr
    rw [← hvp] at e
    have hcd : b.elements = const_data m v := by
      rw [hvp, const_data_of_cell hc]
    have hcap : b.capacity = capacity E m v := by
      rw [hvp, capacity_of_cell E hc]
    have hds : (m.heap ++ [some (dynamic_buffer.mk b.capacity 1 (b.elements.take (v.SZ - 1)))]).release p
        = (m.heap ++ [some (dynamic_buffer.mk (capacity E m v) 1
            ((const_data m v).take (size v - 1)))]).drop_storage v := by
      rw [hcd, hcap, hvp]
      rfl
    rw [hds] at hh
    have hsm : E.SMALL_SIZE < capacity E m v := by
      rw [hvp] at hv
      obtain ⟨b', hc', _, _, h3, _⟩ := WF_dynamic.mp hv
      rw [hc] at hc'
      cases hc'
      rw [← hcap]
      exact h3
    have heq : (⟨v.SZ - 1, .dynamicBuffer m.heap.length⟩ : socow_vector T) =
        ⟨((const_data m v).take (size v - 1)).length, .dynamicBuffer m.heap.length⟩ := by
      rw [hlen]
      rfl
    rw [heq] at e
    obtain ⟨_, _, _, h4, _⟩ := fresh_facts hv hh hsm (by omega)
    refine ⟨m', _, e, Effect.fresh _ hsm (by omega) rfl hh, h4, ?_⟩
    rw [hvp]
    rfl

theorem erased_self (xs : List T) (f : Nat) : erased xs f f = xs := by
  simp [erased]

theorem erase_Effect {E : Env} (hE : E.nothrow) {m : Mem T} {v : socow_vector T}
    (hv : WF E m v) {f l : Nat} (hfl : f ≤ l) (hls : l ≤ size v) :
    ∃ m' v', erase E m v f l = .ok f (m', v') ∧
      Effect E m v m' v' (erased (const_data m v) f l) ∧
      capacity E m' v' = capacity E m v ∧ v'.is_static = v.is_static ∧
      (f = l → m' = m ∧ v' = v) := by
  have hl := hv.length_const_data
  have hle := hv.size_le_capacity
  have hlen : (erased (const_data m v) f l).length = size v - (l - f) := by
    rw [length_erased _ hfl (by rw [hl]; exact hls), hl]
  by_cases heq : f = l
  · subst heq
    refine ⟨m, v, by simp [erase], Effect.same rfl rfl (erased_self _ _), rfl, rfl, fun _ => ⟨rfl, rfl⟩⟩
  have hlt : f < l := by omega
  by_cases hx : exclusive m v = true
  · have hO := hv.Owned_of_exclusive hx
    obtain ⟨m', e, hh⟩ := erase_owned hE hO hl hlt hls
    rw [← hlen] at e
    obtain ⟨_, _, _, h4, h5, _⟩ := put_facts hv hO hh (by omega)
    exact ⟨m', _, e, Effect.in_place hO (by omega) rfl hh, h4, h5, fun h => absurd h heq⟩
  · obtain ⟨p, b, hvp, hc, hr⟩ := hv.shared_of_not_exclusive hx
    have hv' := hv
    rw [hvp] at hv'
    obtain ⟨m', e, hh⟩ := erase_shared hE hv' hc hr hlt (by simpa [size] using hls)
    rw [← hvp] at e
    have hcd : b.elements = const_data m v := by
      rw [hvp, const_data_of_cell hc]
    have hcap : b.capacity = capacity E m v := by
      rw [hvp, capacity_of_cell E hc]
    have hds : (m.heap ++ [some (dynamic_buffer.mk b.capacity 1 (erased b.elements f l))]).release p
        = (m.heap ++ [some (dynamic_buffer.mk (capacity E m v) 1
            (erased (const_data m v) f l))]).drop_storage v := by
      rw [hcd, hcap, hvp]
      rfl
    rw [hds] at hh
    have hsm : E.SMALL_SIZE < capacity E m v := by
      obtain ⟨b', hc', _, _, h3, _⟩ := WF_dynamic.mp hv'
      rw [hc] at hc'
      cases hc'
      rw [← hcap]
      exact h3
    have heq2 : (⟨v.SZ - (l - f), .dynamicBuffer m.heap.length⟩ : socow_vector T) =
        ⟨(erased (const_data m v) f l).length, .dynamicBuffer m.heap.length⟩ := by
      rw [hlen]
      rfl
    rw [heq2] at e
    obtain ⟨_, _, _, h4, _⟩ := fresh_facts hv hh hsm (by omega)
    refine ⟨m', _, e, Effect.fresh _ hsm (by omega) rfl hh, h4, ?_, fun h => absurd h heq⟩
    rw [hvp]
    rfl

theorem clear_Effect {E : Env} (hE : E.nothrow) {m : Mem T} {v : socow_vector T}
    (hv : WF E m v) :
    ∃ m' v', clear E m v = .ok () (m', v') ∧ Effect E m v m' v' [] ∧
      capacity E m' v' = capacity E m v ∧ v'.is_static = v.is_static := by
  obtain ⟨m', v', e, he, hc, hs, _⟩ := erase_Effect hE hv (Nat.zero_le (size v)) (le_refl _)
  have : erased (const_data m v) 0 (size v) = [] := by
    simp [erased, List.drop_eq_nil_of_le (Nat.le_of_eq hv.length_const_data)]
  rw [this] at he
  exact ⟨m', v', by simp [clear, begin_const, end_const, e, Outcome.bind], he, hc, hs⟩

end Socow
namespace Socow
variable {T : Type}

theorem WF.cases {E : Env} {m : Mem T} {v : socow_vector T} (hv : WF E m v) :
    (∃ buf, v = ⟨v.SZ, .staticBuffer buf⟩ ∧ buf.length = v.SZ ∧ v.SZ ≤ E.SMALL_SIZE) ∨
    (∃ p b, v = ⟨v.SZ, .dynamicBuffer p⟩ ∧ m.heap.cell p = some b ∧ b.elements.length = v.SZ ∧
      v.SZ ≤ b.capacity ∧ E.SMALL_SIZE < b.capacity ∧ 1 ≤ b.cntRef) := by
  obtain ⟨n, st⟩ := v
  cases st with
  | staticBuffer buf =>
    obtain ⟨h1, h2⟩ := WF_static.mp hv
    exact Or.inl ⟨buf, rfl, h1, h2⟩
  | dynamicBuffer p =>
    obtain ⟨b, hc, h⟩ := WF_dynamic.mp hv
    exact Or.inr ⟨p, b, rfl, hc, h⟩

theorem reserve_Effect {E : Env} (hE : E.nothrow) {m : Mem T} {v : socow_vector T}
    (hv : WF E m v) (newCapacity : Nat) :
    ∃ m' v', reserve E m v newCapacity = .ok () (m', v') ∧
      Effect E m v m' v' (const_data m v) ∧ newCapacity ≤ capacity E m' v' := by
  obtain ⟨n, st⟩ := v
  cases st with
  | staticBuffer buf =>
    obtain ⟨hl, hle⟩ := WF_static.mp hv
    by_cases hc : newCapacity ≤ E.SMALL_SIZE
    · exact ⟨m, _, by simp [reserve, hc], Effect.same rfl rfl rfl, by simpa [capacity] using hc⟩
    · obtain ⟨m1, e1, hh1⟩ := getBufferViaCopy_ok hE m newCapacity buf n
      have htk : buf.take n = buf := List.take_of_length_le (by omega)
      rw [htk] at hh1
      have hh : (destroy_n m1 n).heap = (m.heap ++ [some (dynamic_buffer.mk newCapacity 1 buf)]).drop_storage
          (⟨n, .staticBuffer buf⟩ : socow_vector T) := hh1
      obtain ⟨_, _, _, h4, _⟩ := fresh_facts hv hh (by omega) (by omega)
      refine ⟨destroy_n m1 n, ⟨buf.length, .dynamicBuffer m.heap.length⟩, ?_,
        (show Effect E m ⟨n, .staticBuffer buf⟩ (destroy_n m1 n)
          ⟨buf.length, .dynamicBuffer m.heap.length⟩ buf from
          Effect.fresh newCapacity (by omega) (by omega) rfl hh), by rw [h4]⟩
      simp [reserve, hc, size, e1, hl]
  | dynamicBuffer p =>
    obtain ⟨b, hc, hl, hle, hsm, hr⟩ := WF_dynamic.mp hv
    have htk : b.elements.take n = b.elements := List.take_of_length_le (by omega)
    have hcap : capacity E m (⟨n, .dynamicBuffer p⟩ : socow_vector T) = b.capacity :=
      capacity_of_cell E hc
    by_cases h1 : newCapacity > E.SMALL_SIZE ∧
        ((b.cntRef = 1 ∧ b.capacity < newCapacity) ∨ (b.cntRef > 1 ∧ n < newCapacity))
    · obtain ⟨m1, e1, hh1⟩ := getBufferViaCopy_ok hE m newCapacity b.elements n
      rw [htk] at hh1
      have hh : (dropDynamicBuffer m1 p n).heap =
          (m.heap ++ [some (dynamic_buffer.mk newCapacity 1 b.elements)]).drop_storage
          (⟨n, .dynamicBuffer p⟩ : socow_vector T) := by
        rw [dropDynamicBuffer_heap, hh1]
        rfl
      have hlen : b.elements.length ≤ newCapacity := by omega
      obtain ⟨_, _, _, h4, _⟩ := fresh_facts hv hh (by omega) hlen
      refine ⟨dropDynamicBuffer m1 p n, ⟨b.elements.length, .dynamicBuffer m.heap.length⟩, ?_,
        ?_, by rw [h4]⟩
      · simp [reserve, Mem.buf_of_cell hc, hcap, size, h1, e1, hl]
      · rw [const_data_of_cell hc]
        exact Effect.fresh newCapacity (by omega) hlen rfl hh
    · by_cases h2 : newCapacity ≤ E.SMALL_SIZE ∧ n ≤ E.SMALL_SIZE ∧ b.cntRef > 1
      · obtain ⟨m1, e1, hh1⟩ := uninitialized_copy_n_heap hE m b.elements n
        rw [htk] at e1
        have hh : (dropDynamicBuffer m1 p n).heap =
            m.heap.drop_storage (⟨n, .dynamicBuffer p⟩ : socow_vector T) := by
          rw [dropDynamicBuffer_heap, hh1]
          rfl
        refine ⟨dropDynamicBuffer m1 p n, ⟨b.elements.length, .staticBuffer b.elements⟩, ?_,
          ?_, by simpa [capacity] using h2.1⟩
        · simp [reserve, Mem.buf_of_cell hc, hcap, size, h1, h2, e1, hl]
        · rw [const_data_of_cell hc]
          exact Effect.to_inline (by omega) rfl rfl hh
      · refine ⟨m, _, ?_, Effect.same rfl rfl rfl, ?_⟩
        · simp [reserve, Mem.buf_of_cell hc, hcap, size, h1, h2]
        · rw [hcap]
          by_contra hlt
          apply h1
          refine ⟨by omega, ?_⟩
          by_cases hr1 : b.cntRef = 1
          · exact Or.inl ⟨hr1, by omega⟩
          · right
            refine ⟨by omega, ?_⟩
            omega

theorem shrink_to_fit_Effect {E : Env} (hE : E.nothrow) {m : Mem T} {v : socow_vector T}
    (hv : WF E m v) :
    ∃ m' v', shrink_to_fit E m v = .ok () (m', v') ∧
      Effect E m v m' v' (const_data m v) ∧
      capacity E m' v' = (if size v ≤ E.SMALL_SIZE then E.SMALL_SIZE else size v) ∧
      (v'.is_static = true ↔ size v ≤ E.SMALL_SIZE) := by
  obtain ⟨n, st⟩ := v
  cases st with
  | staticBuffer buf =>
    obtain ⟨hl, hle⟩ := WF_static.mp hv
    exact ⟨m, _, by simp [shrink_to_fit], Effect.same rfl rfl rfl, by simp [capacity, size, hle],
      by simp [socow_vector.is_static, size, hle]⟩
  | dynamicBuffer p =>
    obtain ⟨b, hc, hl, hle, hsm, hr⟩ := WF_dynamic.mp hv
    have htk : b.elements.take n = b.elements := List.take_of_length_le (by omega)
    have hcap : capacity E m (⟨n, .dynamicBuffer p⟩ : socow_vector T) = b.capacity :=
      capacity_of_cell E hc
    by_cases h1 : n ≠ b.capacity ∧ n > E.SMALL_SIZE
    · obtain ⟨m1, e1, hh1⟩ := getBufferViaCopy_ok hE m n b.elements n
      rw [htk] at hh1
      have hh : (dropDynamicBuffer m1 p n).heap =
          (m.heap ++ [some (dynamic_buffer.mk n 1 b.elements)]).drop_storage
          (⟨n, .dynamicBuffer p⟩ : socow_vector T) := by
        rw [dropDynamicBuffer_heap, hh1]
        rfl
      obtain ⟨_, _, _, h4, _⟩ := fresh_facts hv hh (by omega) (by omega)
      have hn : ¬ n ≤ E.SMALL_SIZE := by omega
      refine ⟨dropDynamicBuffer m1 p n, ⟨b.elements.length, .dynamicBuffer m.heap.length⟩, ?_,
        ?_, by simp [h4, size, hn], by simp [socow_vector.is_static, size, hn]⟩
      · simp [shrink_to_fit, Mem.buf_of_cell hc, hcap, size, h1, e1, hl]
      · rw [const_data_of_cell hc]
        exact Effect.fresh n (by omega) (by omega) rfl hh
    · by_cases h2 : n ≠ b.capacity ∧ n ≤ E.SMALL_SIZE
      · obtain ⟨m1, e1, hh1⟩ := uninitialized_copy_n_heap hE m b.elements n
        rw [htk] at e1
        have hh : (dropDynamicBuffer m1 p n).heap =
            m.heap.drop_storage (⟨n, .dynamicBuffer p⟩ : socow_vector T) := by
          rw [dropDynamicBuffer_heap, hh1]
          rfl
        refine ⟨dropDynamicBuffer m1 p n, ⟨b.elements.length, .staticBuffer b.elements⟩, ?_,
          ?_, by simp [capacity, size, h2.2], by simp [socow_vector.is_static, size, h2.2]⟩
        · simp [shrink_to_fit, Mem.buf_of_cell hc, hcap, size, h1, h2, e1, hl]
        · rw [const_data_of_cell hc]
          exact Effect.to_inline (by omega) rfl rfl hh
      · have hn : n = b.capacity := by
          by_contra hne
          by_cases hs : n ≤ E.SMALL_SIZE
          · exact h2 ⟨hne, hs⟩
          · exact h1 ⟨hne, by omega⟩
        have hn2 : ¬ n ≤ E.SMALL_SIZE := by omega
        refine ⟨m, _, ?_, Effect.same rfl rfl rfl, ?_,
          by simp [socow_vector.is_static, size, hn2]⟩
        · simp [shrink_to_fit, hcap, size, h1, h2]
        · rw [hcap]
          simp only [size]
          rw [if_neg hn2]
          exact hn.symm

end Socow
namespace Socow
variable {T : Type}

theorem data_Effect {E : Env} (hE : E.nothrow) {m : Mem T} {v : socow_vector T}
    (hv : WF E m v) :
    ∃ m' v', data E m v = .ok () (m', v') ∧ Effect E m v m' v' (const_data m v) ∧
      Owned m' v' ∧ capacity E m' v' = capacity E m v ∧ v'.is_static = v.is_static ∧
      (exclusive m v = true → m' = m ∧ v' = v) := by
  by_cases hx : exclusive m v = true
  · exact ⟨m, v, data_exclusive E hx, Effect.same rfl rfl rfl, hv.Owned_of_exclusive hx, rfl, rfl,
      fun _ => ⟨rfl, rfl⟩⟩
  · obtain ⟨p, b, hvp, hc, hr⟩ := hv.shared_of_not_exclusive hx
    have hv' := hv
    rw [hvp] at hv'
    obtain ⟨b', hc', hl, hle, hsm, _⟩ := WF_dynamic.mp hv'
    rw [hc] at hc'
    cases hc'
    obtain ⟨m', e, hh⟩ := data_shared hE (n := v.SZ) hc hr
    rw [← hvp] at e
    have htk : b.elements.take v.SZ = b.elements := List.take_of_length_le (by omega)
    have hcd : const_data m v = b.elements := by rw [hvp, const_data_of_cell hc]
    have hcap : capacity E m v = b.capacity := by rw [hvp, capacity_of_cell E hc]
    have hh' : m'.heap =
        (m.heap ++ [some (dynamic_buffer.mk b.capacity 1 (const_data m v))]).drop_storage v := by
      rw [hh, htk, hcd, hvp]
      rfl
    have heq : (⟨v.SZ, .dynamicBuffer m.heap.length⟩ : socow_vector T) =
        ⟨(const_data m v).length, .dynamicBuffer m.heap.length⟩ := by
      rw [hcd, hl]
    rw [heq] at e
    have hlen : (const_data m v).length ≤ b.capacity := by
      rw [hcd, hl]
      exact hle
    obtain ⟨h1, _, _, h4, h5⟩ := fresh_facts hv hh' hsm hlen
    have hO : Owned m' (⟨(const_data m v).length, .dynamicBuffer m.heap.length⟩ :
        socow_vector T) := by
      obtain ⟨b2, hc2, _⟩ := WF_dynamic.mp h1
      refine Owned_dynamic.mpr ⟨b2, hc2, ?_⟩
      rw [cntRef_of_cell hc2] at h5
      exact h5
    refine ⟨m', _, e, Effect.fresh _ hsm hlen rfl hh', hO, by rw [h4, hcap], ?_,
      fun h => absurd h hx⟩
    rw [hvp]
    rfl

theorem access_Effect {E : Env} (hE : E.nothrow) {m : Mem T} {v : socow_vector T}
    (hv : WF E m v) (a : Accessor) :
    ∃ m' v', access E m v a = .ok (a.offset v) (m', v') ∧
      Effect E m v m' v' (const_data m v) ∧
      Owned m' v' ∧ capacity E m' v' = capacity E m v ∧ v'.is_static = v.is_static ∧
      (exclusive m v = true → m' = m ∧ v' = v) := by
  obtain ⟨m', v', e, he, h⟩ := data_Effect hE hv
  have hs : size v' = size v := by
    rw [(he.facts hv).2.2.2, hv.length_const_data]
  refine ⟨m', v', ?_, he, h⟩
  simp only [access, e, Outcome.bind]
  cases a <;> simp [Accessor.offset, hs]

theorem store_at_Effect {E : Env} (hE : E.nothrow) {m : Mem T} {v : socow_vector T}
    (hv : WF E m v) (i : Nat) (x : T) :
    ∃ m' v', store_at E m v i x = .ok () (m', v') ∧
      Effect E m v m' v' ((const_data m v).set i x) ∧
      capacity E m' v' = capacity E m v ∧ v'.is_static = v.is_static := by
  obtain ⟨m1, v1, e1, he1, hO1, hc1, hs1, _⟩ := access_Effect hE hv (.subscript i)
  obtain ⟨hv1, hcd1, _, hsz1⟩ := he1.facts hv
  have hlen : ((const_data m v).set i x).length = (const_data m v).length := List.length_set _ _ _
  have hl := hv.length_const_data
  have hle := hv.size_le_capacity
  have hput : ({ m1 with heap := m1.heap.put v1 ((const_data m v).set i x) } : Mem T).heap =
      m1.heap.put v1 ((const_data m v).set i x) := rfl
  have hw1 : WF E m1 v1 := hv1
  obtain ⟨_, _, _, h4, h5, _⟩ := put_facts hw1 hO1 hput (by rw [hlen, hc1, hl]; exact hle)
  have hsz : v1.SZ = ((const_data m v).set i x).length := by
    rw [hlen]
    exact hsz1
  have hv1eq : v1.with_elems ((const_data m v).set i x) =
      { v1.with_elems ((const_data m v).set i x) with
        SZ := ((const_data m v).set i x).length } := by
    rw [← hsz]
    obtain ⟨n1, st1⟩ := v1
    cases st1 <;> rfl
  refine ⟨({ m1 with heap := m1.heap.put v1 ((const_data m v).set i x) } : Mem T),
    { v1.with_elems ((const_data m v).set i x) with
      SZ := ((const_data m v).set i x).length }, ?_, ?_, ?_, ?_⟩
  · simp only [store_at, e1, Outcome.bind, Accessor.offset, write_data, hcd1]
    rw [← hv1eq]
  · cases he1 with
    | same hh hv' _ =>
      subst hv'
      refine Effect.in_place ((Owned_congr v1 hh).mp hO1) (by rw [hlen, hl]; exact hle) rfl ?_
      simp [hh]
    | in_place hO hlen' hv' hh =>
      subst hv'
      refine Effect.in_place hO (by rw [hlen, hl]; exact hle) ?_ ?_
      · simp [with_elems_set_SZ]
      · simp [hh]
    | fresh cap hcap hlen' hv' hh =>
      subst hv'
      refine Effect.fresh cap hcap (by rw [hlen]; exact hlen') ?_ ?_
      · simp [socow_vector.with_elems, hlen]
      · simp only [hh, Heap.drop_storage_append hv, hlen]
        have := Heap.put_append_length (m.heap.drop_storage v) (const_data m v).length cap 1
          (const_data m v) ((const_data m v).set i x)
        simpa using this
    | to_inline hlen' hns hv' hh =>
      subst hv'
      refine Effect.to_inline (by rw [hlen]; exact hlen') hns ?_ ?_
      · simp [socow_vector.with_elems, hlen]
      · simp [hh, Heap.put]
  · rw [h4, hc1]
  · rw [h5, hs1]

end Socow
namespace Socow
variable {T : Type}

/-- Every mutator called within its precondition returns, and has one of the four effects. -/
theorem mutate_Effect {E : Env} (hE : E.nothrow) {m : Mem T} {v : socow_vector T}
    (hS : 1 ≤ E.SMALL_SIZE ∨ v.is_static = false) (hv : WF E m v) (c : Mutator T)
    (hpre : c.pre v) (fuel : Nat) :
    ∃ m' v', mutate E (fuel + 2) m v c = some (.ok () (m', v')) ∧
      Effect E m v m' v' (c.result (const_data m v)) := by
  have hl := hv.length_const_data
  cases c with
  | push_back value =>
    obtain ⟨m', v', e, he, _⟩ := push_back_Effect hE hS hv value fuel
    exact ⟨m', v', e, he⟩
  | pop_back =>
    obtain ⟨m', v', e, he, _⟩ := pop_back_Effect hE hv hpre
    refine ⟨m', v', by simp [mutate, e], ?_⟩
    simpa [Mutator.result, hl] using he
  | insert pos value =>
    obtain ⟨m', v', e, he, _⟩ := insert_Effect hE hS hv (k := pos) hpre value fuel
    exact ⟨m', v', by simp [mutate, e, Outcome.bind], he⟩
  | erase_one pos =>
    have hp : pos < size v := hpre
    obtain ⟨m', v', e, he, _⟩ := erase_Effect hE hv (Nat.le_succ pos) (show pos + 1 ≤ size v from hp)
    exact ⟨m', v', by simp [mutate, erase_one, e, Outcome.bind], he⟩
  | erase first last =>
    obtain ⟨m', v', e, he, _⟩ := erase_Effect hE hv hpre.1 hpre.2
    exact ⟨m', v', by simp [mutate, e, Outcome.bind], he⟩
  | clear =>
    obtain ⟨m', v', e, he, _⟩ := clear_Effect hE hv
    exact ⟨m', v', by simp [mutate, e], he⟩
  | reserve newCapacity =>
    obtain ⟨m', v', e, he, _⟩ := reserve_Effect hE hv newCapacity
    exact ⟨m', v', by simp [mutate, e], he⟩
  | shrink_to_fit =>
    obtain ⟨m', v', e, he, _⟩ := shrink_to_fit_Effect hE hv
    exact ⟨m', v', by simp [mutate, e], he⟩
  | store i x =>
    obtain ⟨m', v', e, he, _⟩ := store_at_Effect hE hv i x
    exact ⟨m', v', by simp [mutate, e], he⟩

end Socow
namespace Socow
variable {T : Type}

/-! ## Cells after the heap transformers -/

theorem Heap.cell_release_ne {h : Heap T} {p q : Nat} (hq : q ≠ p) :
    (h.release p).cell q = h.cell q := by
  unfold Heap.release
  cases h.cell p with
  | none => rfl
  | some b =>
    simp only
    split <;> exact Heap.cell_set_ne hq

theorem Heap.cell_release_shared {h : Heap T} {p : Nat} {b : dynamic_buffer T}
    (hc : h.cell p = some b) (hr : 2 ≤ b.cntRef) :
    (h.release p).cell p = some { b with cntRef := b.cntRef - 1 } := by
  rw [Heap.release_of_shared hc hr]
  exact Heap.cell_set_same (Heap.cell_some_lt hc)

theorem Heap.cell_release_last {h : Heap T} {p : Nat} {b : dynamic_buffer T}
    (hc : h.cell p = some b) (hr : b.cntRef = 1) :
    (h.release p).cell p = none := by
  rw [Heap.release_of_last hc hr]
  exact Heap.cell_set_same (Heap.cell_some_lt hc)

theorem Heap.cell_upd_ne {h : Heap T} {p q : Nat} (f : dynamic_buffer T → dynamic_buffer T)
    (hq : q ≠ p) : (h.upd p f).cell q = h.cell q := by
  unfold Heap.upd
  cases h.cell p with
  | none => rfl
  | some b => exact Heap.cell_set_ne hq


theorem Heap.cell_append (h : Heap T) (x : Option (dynamic_buffer T)) (q : Nat) :
    Heap.cell (h ++ [x]) q = if q = h.length then x else h.cell q := by
  by_cases hq : q = h.length
  · subst hq
    simp [Heap.cell_append_length]
  · simp only [hq, if_false]
    by_cases hlt : q < h.length
    · exact Heap.cell_append_lt hlt
    · rw [Heap.cell_ge (h := h) (by omega), Heap.cell_ge (by simp; omega)]

theorem Heap.cell_set (h : Heap T) (p : Nat) (x : Option (dynamic_buffer T)) (q : Nat) :
    Heap.cell (h.set p x) q = if q = p ∧ p < h.length then x else h.cell q := by
  by_cases hq : q = p
  · subst hq
    by_cases hlt : q < h.length
    · simp [hlt, Heap.cell_set_same hlt]
    · simp [hlt, List.set_eq_of_length_le (Nat.le_of_not_lt hlt)]
  · simp [hq, Heap.cell_set_ne hq]

theorem Heap.cell_release (h : Heap T) (p q : Nat) :
    (h.release p).cell q =
      if q = p then
        (h.cell q).bind fun b =>
          if b.cntRef - 1 = 0 then none else some { b with cntRef := b.cntRef - 1 }
      else h.cell q := by
  by_cases hq : q = p
  · subst hq
    simp only [if_true]
    unfold Heap.release
    cases hc : h.cell q with
    | none => simp [hc]
    | some b =>
      have hlt := Heap.cell_some_lt hc
      by_cases h0 : b.cntRef - 1 = 0
      · simp [h0, Heap.cell_set_same hlt]
      · simp [h0, Heap.cell_set_same hlt]
  · simp [hq, Heap.cell_release_ne hq]

theorem Heap.cell_upd (h : Heap T) (p : Nat) (f : dynamic_buffer T → dynamic_buffer T) (q : Nat) :
    (h.upd p f).cell q = if q = p then (h.cell q).map f else h.cell q := by
  by_cases hq : q = p
  · subst hq
    unfold Heap.upd
    cases hc : h.cell q with
    | none => simp [hc]
    | some b => simp [Heap.cell_set_same (Heap.cell_some_lt hc)]
  · simp [hq, Heap.cell_upd_ne f hq]

theorem points_at_dynamic (n p q : Nat) :
    (⟨n, .dynamicBuffer p⟩ : socow_vector T).points_at q = decide (p = q) := by
  by_cases h : p = q <;> simp [socow_vector.points_at, h]

theorem Heap.cell_drop_storage (h : Heap T) (v : socow_vector T) (q : Nat) :
    (h.drop_storage v).cell q =
      if v.points_at q = true then
        (h.cell q).bind fun b =>
          if b.cntRef - 1 = 0 then none else some { b with cntRef := b.cntRef - 1 }
      else h.cell q := by
  obtain ⟨n, st⟩ := v
  cases st with
  | staticBuffer buf => simp [Heap.drop_storage, socow_vector.points_at]
  | dynamicBuffer p =>
    simp only [Heap.drop_storage, Heap.cell_release, points_at_dynamic, decide_eq_true_eq]
    by_cases hq : q = p
    · simp [hq]
    · simp [hq, Ne.symm hq]

theorem Heap.cell_put (h : Heap T) (v : socow_vector T) (xs : List T) (q : Nat) :
    (h.put v xs).cell q =
      if v.points_at q = true then (h.cell q).map fun b => { b with elements := xs }
      else h.cell q := by
  obtain ⟨n, st⟩ := v
  cases st with
  | staticBuffer buf => simp [Heap.put, socow_vector.points_at]
  | dynamicBuffer p =>
    simp only [Heap.put, Heap.cell_upd, points_at_dynamic, decide_eq_true_eq]
    by_cases hq : q = p
    · simp [hq]
    · simp [hq, Ne.symm hq]

theorem Heap.cell_retain (h : Heap T) (p q : Nat) :
    (h.retain p).cell q =
      if q = p then (h.cell q).map fun b => { b with cntRef := b.cntRef + 1 } else h.cell q :=
  Heap.cell_upd h p _ q

theorem WF.points_at {E : Env} {m : Mem T} {v : socow_vector T} (hv : WF E m v) {q : Nat}
    (hp : v.points_at q = true) :
    ∃ b, v = ⟨v.SZ, .dynamicBuffer q⟩ ∧ m.heap.cell q = some b ∧ b.elements.length = v.SZ ∧
      v.SZ ≤ b.capacity ∧ E.SMALL_SIZE < b.capacity ∧ 1 ≤ b.cntRef := by
  obtain ⟨n, st⟩ := v
  cases st with
  | staticBuffer buf => simp [socow_vector.points_at] at hp
  | dynamicBuffer p =>
    rw [points_at_dynamic] at hp
    have : p = q := by simpa using hp
    subst this
    obtain ⟨b, h⟩ := WF_dynamic.mp hv
    exact ⟨b, rfl, h⟩

theorem WF_of_cell {E : Env} {m m' : Mem T} {u : socow_vector T} (hu : WF E m u)
    (h : ∀ q b, u.points_at q = true → m.heap.cell q = some b →
      ∃ b', m'.heap.cell q = some b' ∧ b'.capacity = b.capacity ∧ b'.elements = b.elements ∧
        1 ≤ b'.cntRef) :
    WF E m' u ∧ const_data m' u = const_data m u ∧ capacity E m' u = capacity E m u ∧
      contents m' u = contents m u := by
  obtain ⟨n, st⟩ := u
  cases st with
  | staticBuffer buf =>
    exact ⟨WF_static.mpr (WF_static.mp hu), rfl, rfl, rfl⟩
  | dynamicBuffer p =>
    obtain ⟨b, hc, hl, hle, hsm, hr⟩ := WF_dynamic.mp hu
    obtain ⟨b', hc', h1, h2, h3⟩ := h p b (by simp [points_at_dynamic]) hc
    refine ⟨WF_dynamic.mpr ⟨b', hc', by rw [h2]; exact hl, by rw [h1]; exact hle,
      by rw [h1]; exact hsm, h3⟩, ?_, ?_, ?_⟩
    · rw [const_data_of_cell hc, const_data_of_cell hc', h2]
    · rw [capacity_of_cell E hc, capacity_of_cell E hc', h1]
    · simp only [contents]
      rw [const_data_of_cell hc, const_data_of_cell hc', h2]

/-- A container `u` other than the one a call acts on keeps its representation, its
elements and its capacity, provided a block both point at has at least two references. -/
theorem Effect.frame {E : Env} {m m' : Mem T} {v v' : socow_vector T} {xs : List T}
    (hv : WF E m v) (he : Effect E m v m' v' xs) {u : socow_vector T} (hu : WF E m u)
    (hsh : ∀ q b, u.points_at q = true → v.points_at q = true → m.heap.cell q = some b →
      2 ≤ b.cntRef) :
    WF E m' u ∧ const_data m' u = const_data m u ∧ capacity E m' u = capacity E m u ∧
      contents m' u = contents m u := by
  apply WF_of_cell hu
  intro q b hpu hc
  obtain ⟨b2, _, hcu, _, _, _, hr⟩ := hu.points_at hpu
  rw [hc] at hcu
  cases hcu
  have hq := Heap.cell_some_lt hc
  have hdrop : ∀ h' : Heap T, h'.cell q = some b →
      ∃ b', (h'.drop_storage v).cell q = some b' ∧ b'.capacity = b.capacity ∧
        b'.elements = b.elements ∧ 1 ≤ b'.cntRef := by
    intro h' hc'
    rw [Heap.cell_drop_storage, hc']
    by_cases hpv : v.points_at q = true
    · have h2 := hsh q b hpu hpv hc
      have h0 : ¬ (b.cntRef - 1 = 0) := by omega
      refine ⟨{ b with cntRef := b.cntRef - 1 }, by simp [hpv, h0], rfl, rfl, ?_⟩
      show 1 ≤ b.cntRef - 1
      omega
    · exact ⟨b, by simp [hpv], rfl, rfl, hr⟩
  cases he with
  | same hh _ _ => exact ⟨b, by rw [hh, hc], rfl, rfl, hr⟩
  | in_place hO _ _ hh =>
    by_cases hpv : v.points_at q = true
    · exfalso
      have h2 := hsh q b hpu hpv hc
      obtain ⟨_, hvq, _⟩ := hv.points_at hpv
      rw [hvq] at hO
      obtain ⟨b2, hc2, hr2⟩ := Owned_dynamic.mp hO
      rw [hc] at hc2
      cases hc2
      omega
    · exact ⟨b, by rw [hh, Heap.cell_put]; simp [hpv, hc], rfl, rfl, hr⟩
  | fresh cap _ _ _ hh =>
    rw [hh]
    exact hdrop _ (by rw [Heap.cell_append_lt hq, hc])
  | to_inline _ _ _ hh =>
    rw [hh]
    exact hdrop _ hc

end Socow
namespace Socow
variable {T : Type}

/-! ## Copy construction and copy assignment -/

theorem WF_share {E : Env} {m m' : Mem T} {u : socow_vector T} (hu : WF E m u)
    (v : socow_vector T) (hh : m'.heap = m.heap.share_storage v) :
    WF E m' u ∧ const_data m' u = const_data m u ∧ capacity E m' u = capacity E m u ∧
      contents m' u = contents m u := by
  apply WF_of_cell hu
  intro q b hpu hc
  obtain ⟨n, st⟩ := v
  cases st with
  | staticBuffer buf => exact ⟨b, by rw [hh]; exact hc, rfl, rfl, (by
      obtain ⟨b2, _, hcu, _, _, _, hr⟩ := hu.points_at hpu
      rw [hc] at hcu
      cases hcu
      exact hr)⟩
  | dynamicBuffer p =>
    obtain ⟨b2, _, hcu, _, _, _, hr⟩ := hu.points_at hpu
    rw [hc] at hcu
    cases hcu
    simp only [hh, Heap.share_storage, Heap.cell_retain, hc]
    by_cases hq : q = p
    · refine ⟨{ b with cntRef := b.cntRef + 1 }, by simp [hq], rfl, rfl, ?_⟩
      show 1 ≤ b.cntRef + 1
      omega
    · exact ⟨b, by simp [hq], rfl, rfl, hr⟩

theorem ctor_copy_ok {E : Env} (hE : E.nothrow) {m : Mem T} {v : socow_vector T}
    (hv : WF E m v) :
    ∃ m', ctor_copy E m v = .ok v m' ∧ m'.heap = m.heap.share_storage v := by
  obtain ⟨n, st⟩ := v
  cases st with
  | staticBuffer buf =>
    obtain ⟨hl, _⟩ := WF_static.mp hv
    have htk : buf.take n = buf := List.take_of_length_le (by omega)
    obtain ⟨m1, e1, hh1⟩ := uninitialized_copy_n_heap hE m buf n
    rw [htk] at e1
    exact ⟨m1, by simp [ctor_copy, size, e1], hh1⟩
  | dynamicBuffer p =>
    exact ⟨m.update p (fun b => { b with cntRef := b.cntRef + 1 }), by simp [ctor_copy], rfl⟩

theorem assign_static_grow {E : Env} (hE : E.nothrow) (m : Mem T) {na nb : Nat}
    {abuf bbuf : List T} (ha : abuf.length = na) (hb : bbuf.length = nb) (hlt : na < nb) :
    ∃ m', operator_assign E m ⟨na, .staticBuffer abuf⟩ ⟨nb, .staticBuffer bbuf⟩ false =
        .ok () (m', ⟨nb, .staticBuffer bbuf⟩) ∧ m'.heap = m.heap := by
  have htk : (bbuf.drop na).take (nb - na) = bbuf.drop na :=
    List.take_of_length_le (by simp [hb])
  obtain ⟨m1, e1, hh1⟩ := uninitialized_copy_n_heap hE m (bbuf.drop na) (nb - na)
  rw [htk] at e1
  obtain ⟨m2, e2, hh2⟩ := uninitialized_copy_n_heap hE m1 bbuf na
  have hpl : place abuf na (bbuf.drop na) = abuf ++ bbuf.drop na := place_end _ _ _ ha
  obtain ⟨m3, a3, t3, e3, hh3, hla, hlt3, hga, hgt⟩ := swap_ranges_ok hE na na 0 m2
    (abuf ++ bbuf.drop na) (bbuf.take na) (by rw [List.length_append]; omega)
    (by rw [List.length_take]; omega) (by omega)
  have ha3 : a3 = bbuf := by
    apply List.ext_getElem?
    intro k
    rw [hga k]
    by_cases hk : k < na
    · simp [hk, List.getElem?_take]
    · simp only [Nat.zero_le, true_and, hk, if_false]
      rw [List.getElem?_append_right (by omega), List.getElem?_drop, ha]
      congr 1
      omega
  have hge : ¬ (na ≥ nb) := by omega
  refine ⟨dtor m3 ⟨na, .staticBuffer t3⟩, ?_, ?_⟩
  · simp only [operator_assign, Bool.false_eq_true, if_false, size, hge, e1, hpl, e2, e3, ha3]
  · rw [dtor_heap, hh3, hh2, hh1]
    rfl

theorem operator_assign_ok {E : Env} (hE : E.nothrow) {m : Mem T} {a b : socow_vector T}
    (ha : WF E m a) (hb : WF E m b) :
    ∃ m', operator_assign E m a b false = .ok () (m', b) ∧
      m'.heap = (m.heap.share_storage b).drop_storage a := by
  obtain ⟨na, sa⟩ := a
  obtain ⟨nb, sb⟩ := b
  cases sa with
  | staticBuffer abuf =>
    obtain ⟨hla, _⟩ := WF_static.mp ha
    cases sb with
    | dynamicBuffer q =>
      exact ⟨(destroy_n m na).update q (fun b => { b with cntRef := b.cntRef + 1 }),
        by simp [operator_assign, size], rfl⟩
    | staticBuffer bbuf =>
      obtain ⟨hlb, _⟩ := WF_static.mp hb
      by_cases hge : na ≥ nb
      · obtain ⟨m1, e1, hh1⟩ := ctor_copy_ok hE hb
        obtain ⟨m2, e2, hh2⟩ := swap_ok hE ((WF_congr _ hh1).mpr ha) ((WF_congr _ hh1).mpr hb)
        refine ⟨dtor m2 ⟨na, .staticBuffer abuf⟩, ?_, ?_⟩
        · simp only [operator_assign, Bool.false_eq_true, if_false, size, hge, if_true, e1, e2]
        · rw [dtor_heap, hh2, hh1]
      · exact assign_static_grow hE m hla hlb (by omega)
  | dynamicBuffer p =>
    cases sb with
    | staticBuffer bbuf =>
      obtain ⟨hlb, _⟩ := WF_static.mp hb
      have htk : bbuf.take nb = bbuf := List.take_of_length_le (by omega)
      obtain ⟨m1, e1, hh1⟩ := uninitialized_copy_n_heap hE m bbuf nb
      rw [htk] at e1
      refine ⟨dropDynamicBuffer m1 p na, by simp [operator_assign, size, e1], ?_⟩
      rw [dropDynamicBuffer_heap, hh1]
      rfl
    | dynamicBuffer q =>
      obtain ⟨m1, e1, hh1⟩ := ctor_copy_ok hE hb
      obtain ⟨m2, e2, hh2⟩ := swap_ok hE (WF_share ha _ hh1).1 (WF_share hb _ hh1).1
      refine ⟨dtor m2 ⟨na, .dynamicBuffer p⟩, ?_, ?_⟩
      · simp only [operator_assign, Bool.false_eq_true, if_false, e1, e2]
      · rw [dtor_heap, hh2, hh1]

end Socow
namespace Socow
variable {T : Type}

/-! ## A zero inline capacity -/

theorem insert_inline_zero {E : Env} (hE : E.nothrow) (h0 : E.SMALL_SIZE = 0) (x : T) :
    ∀ (fuel : Nat) (m : Mem T) (n : Nat) (buf : List T) (k : Nat),
      insert E fuel m ⟨n, .staticBuffer buf⟩ k x = none := by
  intro fuel
  induction fuel with
  | zero =>
    intro m n buf k
    rfl
  | succ fuel ih =>
    intro m n buf k
    have hb : (exclusive m (⟨n, .staticBuffer buf⟩ : socow_vector T) &&
        decide (size (⟨n, .staticBuffer buf⟩ : socow_vector T) <
          capacity E m ⟨n, .staticBuffer buf⟩)) = false := by
      simp [capacity, h0]
    have hcap : (if size (⟨n, .staticBuffer buf⟩ : socow_vector T) =
        capacity E m ⟨n, .staticBuffer buf⟩ then 2 * capacity E m ⟨n, .staticBuffer buf⟩
        else capacity E m ⟨n, .staticBuffer buf⟩) = 0 := by
      simp [capacity, h0]
    have hct : ctor_capacity E m 0 = .ok (⟨0, .staticBuffer []⟩ : socow_vector T) m := by
      simp [ctor_capacity]
    obtain ⟨m2, e2, _⟩ := uninitialized_copy_n_heap hE m
      (const_data m (⟨n, .staticBuffer buf⟩ : socow_vector T)) k
    rw [insert]
    simp only [hb, Bool.false_eq_true, if_false, hcap, hct, copy_into, data_static,
      Outcome.bind, e2, write_data, socow_vector.with_elems, ih]

end Socow
namespace Socow
variable {T : Type}

/-! ## Calls that leave by an exception -/

theorem uninitialized_copy_loop_thrown {E : Env} :
    ∀ (xs : List T) (done : Nat) (m m' : Mem T),
      uninitialized_copy_loop E xs done m = .thrown m' →
      m'.heap = m.heap ∧ m'.allocs = m.allocs ∧
        m'.constructed + m.destroyed + done = m.constructed + m'.destroyed := by
  intro xs
  induction xs with
  | nil =>
    intro done m m' h
    simp [uninitialized_copy_loop] at h
  | cons x xs ih =>
    intro done m m' h
    simp only [uninitialized_copy_loop, copy_construct] at h
    by_cases ht : E.copyThrows m.copies = true
    · simp only [ht, if_true] at h
      cases h
      exact ⟨rfl, rfl, by simp; omega⟩
    · simp only [ht, Bool.false_eq_true, if_false] at h
      cases hr : uninitialized_copy_loop E xs (done + 1)
          { m with copies := m.copies + 1, constructed := m.constructed + 1 } with
      | ok ys m2 =>
        rw [hr] at h
        simp at h
      | thrown m2 =>
        rw [hr] at h
        simp at h
        subst h
        obtain ⟨h1, h2, h3⟩ := ih _ _ _ hr
        exact ⟨h1, h2, by simp at h3; omega⟩

theorem uninitialized_copy_n_thrown {E : Env} {m m' : Mem T} {src : List T} {cnt : Nat}
    (h : uninitialized_copy_n E m src cnt = .thrown m') :
    m'.heap = m.heap ∧ m'.allocs = m.allocs ∧
      m'.constructed + m.destroyed = m.constructed + m'.destroyed := by
  obtain ⟨h1, h2, h3⟩ := uninitialized_copy_loop_thrown _ _ _ _ h
  exact ⟨h1, h2, by omega⟩

theorem getBufferViaCopy_thrown {E : Env} {m m' : Mem T} {cap : Nat} {src : List T} {cnt : Nat}
    (h : getBufferViaCopy E m cap src cnt = .thrown m') :
    (∀ q, m'.heap.cell q = m.heap.cell q) ∧
      m'.constructed + m.destroyed = m.constructed + m'.destroyed := by
  simp only [getBufferViaCopy, allocate_buffer] at h
  by_cases ha : E.allocThrows m.allocs = true
  · simp only [ha, if_true] at h
    cases h
    exact ⟨fun _ => rfl, rfl⟩
  · simp only [ha, Bool.false_eq_true, if_false] at h
    split at h
    · rename_i m2 hr
      cases h
      obtain ⟨h1, _, h3⟩ := uninitialized_copy_n_thrown hr
      refine ⟨?_, h3⟩
      intro q
      simp only [Mem.free_heap, h1]
      rw [Heap.set_append_length, Heap.cell_append]
      by_cases hq : q = m.heap.length
      · simp [hq, Heap.cell_ge (h := m.heap) (le_refl _)]
      · simp [hq]
    · cases h

theorem Mem.buf_of_cells {m m' : Mem T} (h : ∀ q, m'.heap.cell q = m.heap.cell q) (p : Nat) :
    m'.buf p = m.buf p := by
  simp [Mem.buf, Mem.get?, h]

theorem observers_of_cells (E : Env) {m m' : Mem T} (h : ∀ q, m'.heap.cell q = m.heap.cell q)
    (v : socow_vector T) :
    capacity E m' v = capacity E m v ∧ contents m' v = contents m v ∧
      cntRef m' v = cntRef m v ∧ const_data m' v = const_data m v := by
  obtain ⟨n, st⟩ := v
  cases st <;> simp [capacity, contents, cntRef, const_data, Mem.buf_of_cells h]

theorem reserve_thrown {E : Env} {m : Mem T} {v : socow_vector T} {n : Nat}
    {s : Mem T × socow_vector T} (h : reserve E m v n = .thrown s) :
    s.2 = v ∧ (∀ q, s.1.heap.cell q = m.heap.cell q) ∧
      s.1.constructed + m.destroyed = m.constructed + s.1.destroyed := by
  obtain ⟨sz, st⟩ := v
  cases st with
  | staticBuffer buf =>
    simp only [reserve] at h
    split at h
    · simp at h
    · cases hr : getBufferViaCopy E m n buf (size (⟨sz, .staticBuffer buf⟩ : socow_vector T)) with
      | ok p m1 =>
        rw [hr] at h
        simp at h
      | thrown m1 =>
        rw [hr] at h
        simp at h
        subst h
        exact ⟨rfl, getBufferViaCopy_thrown hr⟩
  | dynamicBuffer p =>
    simp only [reserve] at h
    split at h
    · cases hr : getBufferViaCopy E m n (m.buf p).elements
          (size (⟨sz, .dynamicBuffer p⟩ : socow_vector T)) with
      | ok q m1 =>
        rw [hr] at h
        simp at h
      | thrown m1 =>
        rw [hr] at h
        simp at h
        subst h
        exact ⟨rfl, getBufferViaCopy_thrown hr⟩
    · split at h
      · cases hr : uninitialized_copy_n E m (m.buf p).elements
            (size (⟨sz, .dynamicBuffer p⟩ : socow_vector T)) with
        | ok ys m1 =>
          rw [hr] at h
          simp at h
        | thrown m1 =>
          rw [hr] at h
          simp at h
          subst h
          obtain ⟨h1, _, h3⟩ := uninitialized_copy_n_thrown hr
          exact ⟨rfl, fun q => by simp [h1], h3⟩
      · simp at h

theorem shrink_to_fit_thrown {E : Env} {m : Mem T} {v : socow_vector T}
    {s : Mem T × socow_vector T} (h : shrink_to_fit E m v = .thrown s) :
    s.2 = v ∧ (∀ q, s.1.heap.cell q = m.heap.cell q) ∧
      s.1.constructed + m.destroyed = m.constructed + s.1.destroyed := by
  obtain ⟨sz, st⟩ := v
  cases st with
  | staticBuffer buf => simp [shrink_to_fit] at h
  | dynamicBuffer p =>
    simp only [shrink_to_fit] at h
    split at h
    · cases hr : getBufferViaCopy E m (size (⟨sz, .dynamicBuffer p⟩ : socow_vector T))
          (m.buf p).elements (size (⟨sz, .dynamicBuffer p⟩ : socow_vector T)) with
      | ok q m1 =>
        rw [hr] at h
        simp at h
      | thrown m1 =>
        rw [hr] at h
        simp at h
        subst h
        exact ⟨rfl, getBufferViaCopy_thrown hr⟩
    · split at h
      · cases hr : uninitialized_copy_n E m (m.buf p).elements
            (size (⟨sz, .dynamicBuffer p⟩ : socow_vector T)) with
        | ok ys m1 =>
          rw [hr] at h
          simp at h
        | thrown m1 =>
          rw [hr] at h
          simp at h
          subst h
          obtain ⟨h1, _, h3⟩ := uninitialized_copy_n_thrown hr
          exact ⟨rfl, fun q => by simp [h1], h3⟩
      · simp at h

end Socow
namespace Socow
variable {T : Type}

/-! ## Counting the owners of a block -/

theorem World.obj_some_lt {w : World T} {i : Nat} {v : socow_vector T}
    (h : w.obj i = some v) : i < w.objs.length := by
  by_contra hlt
  simp [World.obj, List.getD_eq_getElem?_getD, List.getElem?_eq_none (Nat.le_of_not_lt hlt)] at h

theorem World.obj_getElem {w : World T} {i : Nat} {v : socow_vector T}
    (h : w.obj i = some v) : ∃ hi : i < w.objs.length, w.objs[i] = some v := by
  have hi := World.obj_some_lt h
  refine ⟨hi, ?_⟩
  simpa [World.obj, List.getD_eq_getElem?_getD, List.getElem?_eq_getElem hi] using h

theorem World.obj_mem {w : World T} {i : Nat} {v : socow_vector T}
    (h : w.obj i = some v) : some v ∈ w.objs := by
  obtain ⟨hi, he⟩ := World.obj_getElem h
  rw [← he]
  exact List.getElem_mem hi

theorem refs_set (objs : List (Option (socow_vector T))) {i : Nat} (hi : i < objs.length)
    (o' : Option (socow_vector T)) (q : Nat) (m m' : Mem T) :
    World.refs ⟨m', objs.set i o'⟩ q + (handle_is objs[i] q).toNat =
      World.refs ⟨m, objs⟩ q + (handle_is o' q).toNat := by
  simp only [World.refs]
  rw [List.countP_set _ _ _ _ hi]
  have hge : handle_is objs[i] q = true → 1 ≤ List.countP (fun o => handle_is o q) objs :=
    fun hp => List.countP_pos_iff.mpr ⟨objs[i], List.getElem_mem hi, hp⟩
  generalize List.countP (fun o => handle_is o q) objs = c at hge ⊢
  generalize handle_is objs[i] q = d at hge ⊢
  generalize handle_is o' q = a
  cases d <;> cases a <;> simp at hge ⊢ <;> omega

theorem refs_append (objs : List (Option (socow_vector T))) (o' : Option (socow_vector T))
    (q : Nat) (m m' : Mem T) :
    World.refs ⟨m', objs ++ [o']⟩ q = World.refs ⟨m, objs⟩ q + (handle_is o' q).toNat := by
  simp only [World.refs, List.countP_append, List.countP_cons, List.countP_nil]
  cases handle_is o' q <;> simp

theorem refs_two (objs : List (Option (socow_vector T))) {i j : Nat} (hij : i ≠ j)
    (hi : i < objs.length) (hj : j < objs.length) (q : Nat) (m : Mem T)
    (h1 : handle_is objs[i] q = true) (h2 : handle_is objs[j] q = true) :
    2 ≤ World.refs ⟨m, objs⟩ q := by
  have h := refs_set objs hi none q m m
  have hj' : j < (objs.set i none).length := by simpa using hj
  have hmem : (objs.set i none)[j] ∈ objs.set i none := List.getElem_mem hj'
  have hget : (objs.set i none)[j] = objs[j] := by
    simp [List.getElem_set, hij]
  have hpos : 0 < World.refs ⟨m, objs.set i none⟩ q := by
    simp only [World.refs]
    exact List.countP_pos_iff.mpr ⟨_, hmem, by rw [hget]; exact h2⟩
  rw [h1] at h
  simp only [Bool.toNat_true, handle_is, Bool.toNat_false] at h
  omega

theorem World.Inv.no_dangling {E : Env} {w : World T} (hw : w.Inv E) {q : Nat}
    (hc : w.mem.heap.cell q = none) : w.refs q = 0 := by
  simp only [World.refs, List.countP_eq_zero]
  intro o ho hp
  cases o with
  | none => simp [handle_is] at hp
  | some u =>
    obtain ⟨b, _, hcu, _⟩ := (hw.1 u ho).points_at hp
    rw [hc] at hcu
    cases hcu

end Socow
namespace Socow
variable {T : Type}

/-! ## Replacing one object of a program -/

theorem World.Inv.replace {E : Env} {w : World T} (hw : w.Inv E) {i : Nat}
    (hi : i < w.objs.length) (o' : Option (socow_vector T)) (m' : Mem T)
    (h1 : ∀ v', o' = some v' → WF E m' v')
    (hcell : ∀ q, CellStep (handle_is w.objs[i] q) (handle_is o' q) (w.mem.heap.cell q)
      (m'.heap.cell q)) :
    World.Inv E ⟨m', w.objs.set i o'⟩ := by
  constructor
  · intro u hu
    obtain ⟨j, hj, hju⟩ := List.mem_iff_getElem.mp hu
    have hj' : j < w.objs.length := by simpa using hj
    by_cases hij : i = j
    · subst hij
      rw [List.getElem_set_self] at hju
      exact h1 u hju
    · rw [List.getElem_set_ne hij] at hju
      have hmem : some u ∈ w.objs := by
        rw [← hju]
        exact List.getElem_mem hj'
      have hwu := hw.1 u hmem
      refine (WF_of_cell hwu ?_).1
      intro q b hpu hc
      have hb := (hw.2 q b hc).1
      have hcs := hcell q
      rw [hc] at hcs
      have hju' : handle_is w.objs[j] q = true := by
        rw [hju]
        exact hpu
      have htwo : handle_is w.objs[i] q = true → 2 ≤ b.cntRef := by
        intro hD
        rw [hb]
        exact refs_two w.objs hij hi hj' q w.mem hD hju'
      cases hc' : m'.heap.cell q with
      | none =>
        rw [hc'] at hcs
        simp only [CellStep] at hcs
        have := htwo hcs.1
        omega
      | some b' =>
        rw [hc'] at hcs
        simp only [CellStep] at hcs
        obtain ⟨h2, _, h4, h5⟩ := hcs
        refine ⟨b', rfl, h2, ?_, h4⟩
        cases h5 with
        | inl h => exact h
        | inr h =>
          have := htwo h.2
          omega
  · intro q b' hc'
    have hcs := hcell q
    rw [hc'] at hcs
    have hrs := refs_set w.objs hi o' q w.mem m'
    cases hc : w.mem.heap.cell q with
    | none =>
      rw [hc] at hcs
      simp only [CellStep] at hcs
      have h0 : World.refs ⟨w.mem, w.objs⟩ q = 0 := hw.no_dangling hc
      rw [hcs.1, hcs.2.1, h0] at hrs
      simp at hrs
      exact ⟨by rw [hcs.2.2, hrs], by omega⟩
    | some b =>
      rw [hc] at hcs
      simp only [CellStep] at hcs
      have hb : b.cntRef = World.refs ⟨w.mem, w.objs⟩ q := (hw.2 q b hc).1
      exact ⟨by omega, hcs.2.2.1⟩

theorem World.Inv.append_none {E : Env} {w : World T} (hw : w.Inv E) :
    World.Inv E ⟨w.mem, w.objs ++ [none]⟩ := by
  constructor
  · intro u hu
    simp only [List.mem_append, List.mem_singleton] at hu
    cases hu with
    | inl h => exact hw.1 u h
    | inr h => cases h
  · intro q b hc
    have := hw.2 q b hc
    rw [refs_append w.objs none q w.mem w.mem]
    simpa [handle_is] using this

/-- A new object is a replacement of a destroyed one at the next free position. -/
theorem World.Inv.push {E : Env} {w : World T} (hw : w.Inv E) (v' : socow_vector T)
    (m' : Mem T) (h1 : WF E m' v')
    (hcell : ∀ q, CellStep false (v'.points_at q) (w.mem.heap.cell q) (m'.heap.cell q)) :
    World.Inv E ⟨m', w.objs ++ [some v']⟩ := by
  have h := World.Inv.replace (w := ⟨w.mem, w.objs ++ [none]⟩) hw.append_none
    (i := w.objs.length) (by simp) (some v') m' (fun u hu => by cases hu; exact h1)
    (by
      intro q
      simpa [handle_is] using hcell q)
  simpa [List.set_append] using h

end Socow
namespace Socow
variable {T : Type}

/-! ## How cells change under the heap transformers -/

theorem CellStep.refl (D : Bool) {c : Option (dynamic_buffer T)}
    (hpos : ∀ b, c = some b → 1 ≤ b.cntRef) : CellStep D D c c := by
  cases c with
  | none => simp [CellStep]
  | some b => exact ⟨rfl, rfl, hpos b rfl, Or.inl rfl⟩

theorem CellStep.dec {b : dynamic_buffer T} (hb : 1 ≤ b.cntRef) :
    CellStep true false (some b)
      ((some b).bind fun b =>
        if b.cntRef - 1 = 0 then none else some { b with cntRef := b.cntRef - 1 }) := by
  by_cases h0 : b.cntRef - 1 = 0
  · have : ((some b).bind fun b =>
        if b.cntRef - 1 = 0 then none else some { b with cntRef := b.cntRef - 1 }) = none := by
      simp [h0]
    rw [this]
    exact ⟨rfl, rfl, by omega⟩
  · have : ((some b).bind fun b =>
        if b.cntRef - 1 = 0 then none else some { b with cntRef := b.cntRef - 1 }) =
        some { b with cntRef := b.cntRef - 1 } := by
      simp [h0]
    rw [this]
    refine ⟨rfl, ?_, ?_, Or.inl rfl⟩
    · show b.cntRef - 1 + 1 = b.cntRef + 0
      omega
    · show 1 ≤ b.cntRef - 1
      omega

theorem CellStep.inc {b : dynamic_buffer T} :
    CellStep false true (some b) (some { b with cntRef := b.cntRef + 1 }) := by
  refine ⟨rfl, ?_, ?_, Or.inl rfl⟩
  · show b.cntRef + 1 + 0 = b.cntRef + 1
    omega
  · show 1 ≤ b.cntRef + 1
    omega

theorem cellStep_drop {E : Env} {m : Mem T} {v : socow_vector T} (hv : WF E m v)
    (hpos : ∀ q b, m.heap.cell q = some b → 1 ≤ b.cntRef) (q : Nat) :
    CellStep (v.points_at q) false (m.heap.cell q) ((m.heap.drop_storage v).cell q) := by
  rw [Heap.cell_drop_storage]
  by_cases hD : v.points_at q = true
  · obtain ⟨b, _, hc, _, _, _, hr⟩ := hv.points_at hD
    simp only [hD, if_true, hc]
    exact CellStep.dec hr
  · have hD' : v.points_at q = false := by simpa using hD
    simp only [hD', Bool.false_eq_true, if_false]
    exact CellStep.refl false (hpos q)

theorem cellStep_share {E : Env} {m : Mem T} {v : socow_vector T} (hv : WF E m v)
    (hpos : ∀ q b, m.heap.cell q = some b → 1 ≤ b.cntRef) (q : Nat) :
    CellStep false (v.points_at q) (m.heap.cell q) ((m.heap.share_storage v).cell q) := by
  by_cases hA : v.points_at q = true
  · obtain ⟨b, hvq, hc, _⟩ := hv.points_at hA
    rw [hA, hvq]
    simp only [Heap.share_storage, Heap.cell_retain, if_true, hc, Option.map_some']
    exact CellStep.inc
  · have hA' : v.points_at q = false := by simpa using hA
    have hsame : (m.heap.share_storage v).cell q = m.heap.cell q := by
      obtain ⟨n, st⟩ := v
      cases st with
      | staticBuffer buf => rfl
      | dynamicBuffer p =>
        rw [points_at_dynamic] at hA'
        have : q ≠ p := by
          intro h
          simp [h] at hA'
        simp [Heap.share_storage, Heap.cell_retain, this]
    rw [hA', hsame]
    exact CellStep.refl false (hpos q)

theorem cellStep_assign {E : Env} {m : Mem T} {a b : socow_vector T} (ha : WF E m a)
    (hb : WF E m b) (hpos : ∀ q c, m.heap.cell q = some c → 1 ≤ c.cntRef) (q : Nat) :
    CellStep (a.points_at q) (b.points_at q) (m.heap.cell q)
      (((m.heap.share_storage b).drop_storage a).cell q) := by
  rw [Heap.cell_drop_storage]
  have hsh := cellStep_share hb hpos q
  by_cases hD : a.points_at q = true
  · obtain ⟨c, _, hc, _, _, _, hr⟩ := ha.points_at hD
    simp only [hD, if_true]
    by_cases hA : b.points_at q = true
    · obtain ⟨c', hbq, hc', _⟩ := hb.points_at hA
      rw [hc] at hc'
      cases hc'
      have hs : (m.heap.share_storage b).cell q = some { c with cntRef := c.cntRef + 1 } := by
        rw [hbq]
        simp [Heap.share_storage, Heap.cell_retain, hc]
      have h0 : ¬ (c.cntRef + 1 - 1 = 0) := by omega
      have hs2 : ((some ({ c with cntRef := c.cntRef + 1 } : dynamic_buffer T)).bind fun b =>
          if b.cntRef - 1 = 0 then none else some { b with cntRef := b.cntRef - 1 }) =
          some c := by
        simp
        omega
      rw [hA, hs, hc, hs2]
      exact ⟨rfl, rfl, hr, Or.inl rfl⟩
    · have hA' : b.points_at q = false := by simpa using hA
      have hs : (m.heap.share_storage b).cell q = m.heap.cell q := by
        rw [hA', hc] at hsh
        cases hcs : (m.heap.share_storage b).cell q with
        | none =>
          rw [hcs] at hsh
          simp [CellStep] at hsh
        | some c2 =>
          obtain ⟨n, st⟩ := b
          cases st with
          | staticBuffer buf =>
            rw [← hcs]
            rfl
          | dynamicBuffer p =>
            rw [points_at_dynamic] at hA'
            have : q ≠ p := by
              intro h
              simp [h] at hA'
            rw [← hcs]
            simp [Heap.share_storage, Heap.cell_retain, this]
      rw [hA', hs, hc]
      exact CellStep.dec hr
  · have hD' : a.points_at q = false := by simpa using hD
    simp only [hD', Bool.false_eq_true, if_false]
    exact hsh

theorem Effect.cellStep {E : Env} {m m' : Mem T} {v v' : socow_vector T} {xs : List T}
    (hv : WF E m v) (he : Effect E m v m' v' xs)
    (hpos : ∀ q b, m.heap.cell q = some b → 1 ≤ b.cntRef) (q : Nat) :
    CellStep (v.points_at q) (v'.points_at q) (m.heap.cell q) (m'.heap.cell q) := by
  have hlt : v.points_at m.heap.length = false := by
    by_contra h
    obtain ⟨b, _, hc, _⟩ := hv.points_at (by simpa using h)
    have := Heap.cell_some_lt hc
    omega
  cases he with
  | same hh hv' _ =>
    subst hv'
    rw [hh]
    exact CellStep.refl _ (hpos q)
  | in_place hO _ hv' hh =>
    subst hv'
    have hpt : ({ v.with_elems xs with SZ := xs.length } : socow_vector T).points_at q =
        v.points_at q := by
      obtain ⟨n, st⟩ := v
      cases st <;> rfl
    rw [hpt, hh, Heap.cell_put]
    by_cases hD : v.points_at q = true
    · obtain ⟨b, hvq, hc, _, _, _, hr⟩ := hv.points_at hD
      rw [hvq] at hO
      obtain ⟨b2, hc2, hr2⟩ := Owned_dynamic.mp hO
      rw [hc] at hc2
      cases hc2
      simp only [hD, if_true, hc, Option.map_some']
      exact ⟨rfl, rfl, hr, Or.inr ⟨hr2, rfl⟩⟩
    · have hD' : v.points_at q = false := by simpa using hD
      simp only [hD', Bool.false_eq_true, if_false]
      exact CellStep.refl false (hpos q)
  | fresh cap _ _ hv' hh =>
    subst hv'
    rw [hh, Heap.drop_storage_append hv, Heap.cell_append, Heap.length_drop_storage,
      points_at_dynamic]
    by_cases hq : q = m.heap.length
    · subst hq
      simp only [hlt, if_true, decide_True, Heap.cell_ge (h := m.heap) (le_refl _)]
      exact ⟨rfl, rfl, rfl⟩
    · have hq' : ¬ m.heap.length = q := fun h => hq h.symm
      simp only [hq, if_false, hq', decide_False]
      exact cellStep_drop hv hpos q
  | to_inline _ _ hv' hh =>
    subst hv'
    rw [hh]
    exact cellStep_drop hv hpos q

end Socow
namespace Socow
variable {T : Type}

/-! ## The call depth of insert -/

theorem insert_mono {E : Env} (x : T) :
    ∀ (fuel : Nat) (m : Mem T) (v : socow_vector T) (k : Nat)
      (r : Outcome Nat (Mem T × socow_vector T)),
      insert E fuel m v k x = some r → insert E (fuel + 1) m v k x = some r := by
  intro fuel
  induction fuel with
  | zero =>
    intro m v k r h
    simp [insert] at h
  | succ fuel ih =>
    intro m v k r h
    rw [insert] at h ⊢
    by_cases hb : (exclusive m v && decide (size v < capacity E m v)) = true
    · simp only [hb, if_true] at h ⊢
      exact h
    · simp only [hb, if_false] at h ⊢
      cases h1 : ctor_capacity E m
          (if size v = capacity E m v then 2 * capacity E m v else capacity E m v) with
      | thrown m1 =>
        rw [h1] at h
        exact h
      | ok tmp m1 =>
        rw [h1] at h
        simp only at h ⊢
        cases h2 : copy_into E m1 tmp 0 (const_data m1 v) k with
        | thrown s2 =>
          rw [h2] at h
          exact h
        | ok u2 s2 =>
          obtain ⟨m2, tmp2⟩ := s2
          rw [h2] at h
          simp only at h ⊢
          cases h3 : insert E fuel m2 { tmp2 with SZ := tmp2.SZ + k }
              (end_const m2 { tmp2 with SZ := tmp2.SZ + k }) x with
          | none =>
            rw [h3] at h
            simp at h
          | some r3 =>
            rw [h3] at h
            rw [ih _ _ _ _ h3]
            exact h

theorem insert_mono_add {E : Env} (x : T) (j : Nat) :
    ∀ (fuel : Nat) (m : Mem T) (v : socow_vector T) (k : Nat)
      (r : Outcome Nat (Mem T × socow_vector T)),
      insert E fuel m v k x = some r → insert E (fuel + j) m v k x = some r := by
  induction j with
  | zero =>
    intro fuel m v k r h
    exact h
  | succ j ih =>
    intro fuel m v k r h
    exact insert_mono x _ _ _ _ _ (ih fuel m v k r h)

/-- A call of `insert` that returns normally has the effect of the specification,
whatever the bound on the call depth was. -/
theorem insert_ok_Effect {E : Env} (hE : E.nothrow) {m : Mem T} {v : socow_vector T}
    (hv : WF E m v) {k : Nat} (hk : k ≤ size v) (x : T) (fuel : Nat) {i : Nat}
    {s : Mem T × socow_vector T} (h : insert E fuel m v k x = some (.ok i s)) :
    Effect E m v s.1 s.2 (inserted (const_data m v) k x) := by
  by_cases hS : 1 ≤ E.SMALL_SIZE ∨ v.is_static = false
  · obtain ⟨m', v', e, he, _⟩ := insert_Effect hE hS hv hk x fuel
    have h2 := insert_mono_add x 2 fuel m v k _ h
    rw [e] at h2
    cases h2
    exact he
  · exfalso
    have h0 : E.SMALL_SIZE = 0 := by omega
    obtain ⟨n, st⟩ := v
    cases st with
    | staticBuffer buf =>
      rw [insert_inline_zero hE h0] at h
      cases h
    | dynamicBuffer p =>
      exact hS (Or.inr rfl)

theorem mutate_ok_Effect {E : Env} (hE : E.nothrow) {m : Mem T} {v : socow_vector T}
    (hv : WF E m v) (c : Mutator T) (hpre : c.pre v) (fuel : Nat)
    {s : Mem T × socow_vector T} (h : mutate E fuel m v c = some (.ok () s)) :
    Effect E m v s.1 s.2 (c.result (const_data m v)) := by
  have hl := hv.length_const_data
  cases c with
  | push_back value =>
    simp only [mutate, push_back, Option.map_eq_some'] at h
    obtain ⟨o, ho, hos⟩ := h
    cases o with
    | thrown s' => simp [Outcome.bind] at hos
    | ok i s' =>
      simp only [Outcome.bind, Outcome.ok.injEq, true_and] at hos
      subst hos
      have := insert_ok_Effect hE hv (le_refl _) value fuel ho
      have hi : inserted (const_data m v) (size v) value = const_data m v ++ [value] := by
        rw [← hl, inserted_end]
      rw [hi] at this
      exact this
  | insert pos value =>
    simp only [mutate, Option.map_eq_some'] at h
    obtain ⟨o, ho, hos⟩ := h
    cases o with
    | thrown s' => simp [Outcome.bind] at hos
    | ok i s' =>
      simp only [Outcome.bind, Outcome.ok.injEq, true_and] at hos
      subst hos
      exact insert_ok_Effect hE hv hpre value fuel ho
  | pop_back =>
    obtain ⟨m', v', e, he, _⟩ := pop_back_Effect hE hv hpre
    simp only [mutate, e, Option.some.injEq, Outcome.ok.injEq, true_and] at h
    subst h
    simpa [Mutator.result, hl] using he
  | erase_one pos =>
    have hp : pos < size v := hpre
    obtain ⟨m', v', e, he, _⟩ := erase_Effect hE hv (Nat.le_succ pos) (show pos + 1 ≤ size v from hp)
    simp only [mutate, erase_one, e, Outcome.bind, Option.some.injEq, Outcome.ok.injEq,
      true_and] at h
    subst h
    exact he
  | erase first last =>
    obtain ⟨m', v', e, he, _⟩ := erase_Effect hE hv hpre.1 hpre.2
    simp only [mutate, e, Outcome.bind, Option.some.injEq, Outcome.ok.injEq, true_and] at h
    subst h
    exact he
  | clear =>
    obtain ⟨m', v', e, he, _⟩ := clear_Effect hE hv
    simp only [mutate, e, Option.some.injEq, Outcome.ok.injEq, true_and] at h
    subst h
    exact he
  | reserve newCapacity =>
    obtain ⟨m', v', e, he, _⟩ := reserve_Effect hE hv newCapacity
    simp only [mutate, e, Option.some.injEq, Outcome.ok.injEq, true_and] at h
    subst h
    exact he
  | shrink_to_fit =>
    obtain ⟨m', v', e, he, _⟩ := shrink_to_fit_Effect hE hv
    simp only [mutate, e, Option.some.injEq, Outcome.ok.injEq, true_and] at h
    subst h
    exact he
  | store i x =>
    obtain ⟨m', v', e, he, _⟩ := store_at_Effect hE hv i x
    simp only [mutate, e, Option.some.injEq, Outcome.ok.injEq, true_and] at h
    subst h
    exact he

end Socow
namespace Socow
variable {T : Type}

/-! ## Every call preserves the invariant of the program state -/

theorem World.Inv.congr {E : Env} {w : World T} (hw : w.Inv E) {m' : Mem T}
    (hh : m'.heap = w.mem.heap) : World.Inv E ⟨m', w.objs⟩ := by
  constructor
  · intro u hu
    exact (WF_congr u hh).mpr (hw.1 u hu)
  · intro q b hc
    have hc' : w.mem.heap.cell q = some b := by
      rw [← hh]
      exact hc
    exact hw.2 q b hc'

theorem World.set_obj_self {w : World T} {i : Nat} {v : socow_vector T}
    (h : w.obj i = some v) : w.objs.set i (some v) = w.objs := by
  obtain ⟨hi, he⟩ := World.obj_getElem h
  apply List.ext_getElem (by simp)
  intro n h1 h2
  rw [List.getElem_set]
  by_cases hn : i = n
  · subst hn
    simp only [if_true]
    exact he.symm
  · simp only [hn, if_false]

theorem World.Inv.pos {E : Env} {w : World T} (hw : w.Inv E) :
    ∀ q b, w.mem.heap.cell q = some b → 1 ≤ b.cntRef :=
  fun q b hc => (hw.2 q b hc).2

theorem World.handle_obj {w : World T} {i : Nat} {v : socow_vector T}
    (h : w.obj i = some v) (hi : i < w.objs.length) (q : Nat) :
    handle_is w.objs[i] q = v.points_at q := by
  obtain ⟨_, he⟩ := World.obj_getElem h
  rw [he]
  rfl

theorem World.Inv.swap_objs {E : Env} {w : World T} (hw : w.Inv E) {i j : Nat}
    {a b : socow_vector T} (ha : w.obj i = some a) (hb : w.obj j = some b) (hij : i ≠ j)
    {m' : Mem T} (hh : m'.heap = w.mem.heap) :
    World.Inv E ⟨m', (w.objs.set i (some b)).set j (some a)⟩ := by
  obtain ⟨hi, hia⟩ := World.obj_getElem ha
  obtain ⟨hj, hjb⟩ := World.obj_getElem hb
  constructor
  · intro u hu
    apply (WF_congr u hh).mpr
    apply hw.1
    obtain ⟨k, hk, hku⟩ := List.mem_iff_getElem.mp hu
    simp only [List.length_set] at hk
    rw [List.getElem_set] at hku
    by_cases hjk : j = k
    · simp only [hjk, if_true] at hku
      cases hku
      exact World.obj_mem ha
    · simp only [hjk, if_false] at hku
      rw [List.getElem_set] at hku
      by_cases hik : i = k
      · simp only [hik, if_true] at hku
        cases hku
        exact World.obj_mem hb
      · simp only [hik, if_false] at hku
        rw [← hku]
        exact List.getElem_mem hk
  · intro q c hc
    have hc' : w.mem.heap.cell q = some c := by
      rw [← hh]
      exact hc
    obtain ⟨h1, h2⟩ := hw.2 q c hc'
    refine ⟨?_, h2⟩
    rw [h1]
    have e1 := refs_set w.objs hi (some b) q w.mem w.mem
    have hj' : j < (w.objs.set i (some b)).length := by simpa using hj
    have e2 := refs_set (w.objs.set i (some b)) hj' (some a) q w.mem m'
    have hget : (w.objs.set i (some b))[j] = some b := by
      rw [List.getElem_set]
      simp only [hij, if_false]
      exact hjb
    rw [hget] at e2
    rw [hia] at e1
    show World.refs w q = _
    have hw' : World.refs w q = World.refs ⟨w.mem, w.objs⟩ q := rfl
    rw [hw']
    omega

theorem World.call_ok_Inv {E : Env} (hE : E.nothrow) {w w' : World T} (hw : w.Inv E)
    (fuel : Nat) (c : Call T) (h : w.call E fuel c = some (.ok () w')) : w'.Inv E := by
  have hpos := hw.pos
  cases c with
  | construct =>
    simp only [World.call, Option.some.injEq, Outcome.ok.injEq, true_and] at h
    subst h
    refine hw.push ctor_default w.mem ?_ ?_
    · exact WF_static.mpr ⟨rfl, Nat.zero_le _⟩
    · intro q
      exact CellStep.refl false (fun b hb => hpos q b hb)
  | copy_construct src =>
    simp only [World.call] at h
    cases ho : w.obj src with
    | none => simp [ho] at h
    | some v =>
      have hv := hw.1 v (World.obj_mem ho)
      obtain ⟨m', e, hh⟩ := ctor_copy_ok hE hv
      simp only [ho, e, Option.some.injEq, Outcome.ok.injEq, true_and] at h
      subst h
      refine hw.push v m' (WF_share hv v hh).1 ?_
      intro q
      rw [hh]
      exact cellStep_share hv hpos q
  | destroy i =>
    simp only [World.call] at h
    cases ho : w.obj i with
    | none => simp [ho] at h
    | some v =>
      have hv := hw.1 v (World.obj_mem ho)
      have hi := World.obj_some_lt ho
      simp only [ho, Option.some.injEq, Outcome.ok.injEq, true_and] at h
      subst h
      refine hw.replace hi none (dtor w.mem v) (fun v' hv' => by cases hv') ?_
      intro q
      rw [World.handle_obj ho hi, dtor_heap]
      exact cellStep_drop hv hpos q
  | assign i j =>
    simp only [World.call] at h
    cases hoi : w.obj i with
    | none => simp [hoi] at h
    | some a =>
      cases hoj : w.obj j with
      | none => simp [hoi, hoj] at h
      | some b =>
        have ha := hw.1 a (World.obj_mem hoi)
        have hb := hw.1 b (World.obj_mem hoj)
        have hi := World.obj_some_lt hoi
        have hj := World.obj_some_lt hoj
        by_cases hij : i = j
        · simp only [hoi, hoj, hij, decide_True, operator_assign, if_true,
            Option.some.injEq, Outcome.ok.injEq, true_and] at h
          subst h
          rw [World.set_obj_self hoj]
          exact hw
        · obtain ⟨m', e, hh⟩ := operator_assign_ok hE ha hb
          simp only [hoi, hoj, hij, decide_False, e, Option.some.injEq, Outcome.ok.injEq, true_and] at h
          subst h
          have hcs := cellStep_assign ha hb hpos
          refine hw.replace hi (some b) m' ?_ ?_
          · intro v' hv'
            cases hv'
            refine (WF_of_cell hb ?_).1
            intro q blk hpq hc
            have hq := hcs q
            rw [hpq, hc, ← hh] at hq
            cases hc' : m'.heap.cell q with
            | none =>
              rw [hc'] at hq
              simp [CellStep] at hq
            | some b' =>
              rw [hc'] at hq
              obtain ⟨h1, h2, h3, h4⟩ := hq
              refine ⟨b', rfl, h1, ?_, h3⟩
              cases h4 with
              | inl h4 => exact h4
              | inr h4 =>
                exfalso
                have hr := (hw.2 q blk hc).1
                have h2r := refs_two w.objs hij hi hj q w.mem
                  (by rw [World.handle_obj hoi hi]; exact h4.2)
                  (by rw [World.handle_obj hoj hj]; exact hpq)
                have : World.refs w q = World.refs ⟨w.mem, w.objs⟩ q := rfl
                omega
          · intro q
            rw [World.handle_obj hoi hi, hh]
            exact hcs q
  | swap i j =>
    simp only [World.call] at h
    cases hoi : w.obj i with
    | none => simp [hoi] at h
    | some a =>
      cases hoj : w.obj j with
      | none => simp [hoi, hoj] at h
      | some b =>
        have ha := hw.1 a (World.obj_mem hoi)
        have hb := hw.1 b (World.obj_mem hoj)
        by_cases hij : i = j
        · subst hij
          have hab : a = b := by
            rw [hoi] at hoj
            exact Option.some.inj hoj
          subst hab
          simp only [hoi, decide_True, swap, if_true, Option.some.injEq, Outcome.ok.injEq, true_and] at h
          subst h
          rw [World.set_obj_self hoi, World.set_obj_self hoi]
          exact hw
        · obtain ⟨m', e, hh⟩ := swap_ok hE ha hb
          simp only [hoi, hoj, hij, decide_False, e, Option.some.injEq, Outcome.ok.injEq, true_and] at h
          subst h
          exact hw.swap_objs hoi hoj hij hh
  | mutate i c =>
    simp only [World.call] at h
    cases ho : w.obj i with
    | none => simp [ho] at h
    | some v =>
      have hv := hw.1 v (World.obj_mem ho)
      have hi := World.obj_some_lt ho
      simp only [ho] at h
      by_cases hpre : c.pre v
      · simp only [hpre, if_true] at h
        cases hm : mutate E fuel w.mem v c with
        | none => simp [hm] at h
        | some r =>
          cases r with
          | thrown s => simp [hm] at h
          | ok u s =>
            obtain ⟨m', v'⟩ := s
            simp only [hm, Option.some.injEq, Outcome.ok.injEq, true_and] at h
            subst h
            have he := mutate_ok_Effect hE hv c hpre fuel hm
            refine hw.replace hi (some v') m' ?_ ?_
            · intro v2 hv2
              cases hv2
              exact (he.facts hv).1
            · intro q
              rw [World.handle_obj ho hi]
              exact he.cellStep hv hpos q
      · simp [hpre] at h
  | access i a =>
    simp only [World.call] at h
    cases ho : w.obj i with
    | none => simp [ho] at h
    | some v =>
      have hv := hw.1 v (World.obj_mem ho)
      have hi := World.obj_some_lt ho
      obtain ⟨m', v', e, he, _⟩ := access_Effect hE hv a
      simp only [ho, e, Option.some.injEq, Outcome.ok.injEq, true_and] at h
      subst h
      refine hw.replace hi (some v') m' ?_ ?_
      · intro v2 hv2
        cases hv2
        exact (he.facts hv).1
      · intro q
        rw [World.handle_obj ho hi]
        exact he.cellStep hv hpos q
  | access_const i a =>
    simp only [World.call] at h
    cases ho : w.obj i with
    | none => simp [ho] at h
    | some v =>
      simp only [ho, access_const, Option.some.injEq, Outcome.ok.injEq, true_and] at h
      subst h
      rw [World.set_obj_self ho]
      exact hw

theorem World.init_Inv (E : Env) : (World.init : World T).Inv E := by
  constructor
  · intro v hv
    simp [World.init] at hv
  · intro q b hc
    simp [World.init, Mem.empty, Heap.cell] at hc

end Socow
namespace Socow
variable {T : Type}

/-! ## Calls that return normally do not depend on what would have thrown -/

theorem Env.calm_nothrow (E : Env) : E.calm.nothrow := ⟨fun _ => rfl, fun _ => rfl⟩

theorem capacity_calm (E : Env) (m : Mem T) (v : socow_vector T) :
    capacity E.calm m v = capacity E m v := rfl

theorem WF_calm {E : Env} {m : Mem T} {v : socow_vector T} : WF E.calm m v ↔ WF E m v :=
  Iff.rfl

theorem copy_construct_calm {E : Env} {m m' : Mem T} {u : Unit}
    (h : copy_construct E m = .ok u m') : copy_construct E.calm m = .ok u m' := by
  unfold copy_construct at h ⊢
  cases ht : E.copyThrows m.copies with
  | true => simp [ht] at h
  | false =>
    simp only [ht, Bool.false_eq_true, if_false] at h
    simpa [Env.calm] using h

theorem uninitialized_copy_loop_calm {E : Env} :
    ∀ (xs : List T) (done : Nat) (m : Mem T) {ys : List T} {m' : Mem T},
      uninitialized_copy_loop E xs done m = .ok ys m' →
      uninitialized_copy_loop E.calm xs done m = .ok ys m' := by
  intro xs
  induction xs with
  | nil =>
    intro done m ys m' h
    simpa [uninitialized_copy_loop] using h
  | cons x xs ih =>
    intro done m ys m' h
    unfold uninitialized_copy_loop at h ⊢
    cases h1 : copy_construct E m with
    | thrown m1 => simp [h1] at h
    | ok u m1 =>
      rw [h1] at h
      rw [copy_construct_calm h1]
      simp only at h ⊢
      cases h2 : uninitialized_copy_loop E xs (done + 1) m1 with
      | thrown m2 => simp [h2] at h
      | ok zs m2 =>
        rw [h2] at h
        rw [ih _ _ h2]
        exact h

theorem uninitialized_copy_n_calm {E : Env} {m m' : Mem T} {src ys : List T} {cnt : Nat}
    (h : uninitialized_copy_n E m src cnt = .ok ys m') :
    uninitialized_copy_n E.calm m src cnt = .ok ys m' :=
  uninitialized_copy_loop_calm _ _ _ h

theorem std_swap_calm {E : Env} {m m' : Mem T} {u : Unit}
    (h : std_swap E m = .ok u m') : std_swap E.calm m = .ok u m' := by
  unfold std_swap at h ⊢
  cases hs : E.swapCopies with
  | false =>
    simp only [hs, Bool.false_eq_true, if_false] at h
    simpa [Env.calm, hs] using h
  | true =>
    have hc : E.calm.swapCopies = true := hs
    simp only [hs, if_true] at h
    simp only [hc, if_true]
    cases h1 : copy_construct E m with
    | thrown m1 => simp [h1] at h
    | ok u1 m1 =>
      rw [h1] at h
      rw [copy_construct_calm h1]
      exact h

theorem allocate_buffer_calm {E : Env} {m m' : Mem T} {cap p : Nat}
    (h : allocate_buffer E m cap = .ok p m') : allocate_buffer E.calm m cap = .ok p m' := by
  unfold allocate_buffer at h ⊢
  cases ht : E.allocThrows m.allocs with
  | true => simp [ht] at h
  | false =>
    simp only [ht, Bool.false_eq_true, if_false] at h
    simpa [Env.calm] using h

theorem getBufferViaCopy_calm {E : Env} {m m' : Mem T} {cap cnt p : Nat} {src : List T}
    (h : getBufferViaCopy E m cap src cnt = .ok p m') :
    getBufferViaCopy E.calm m cap src cnt = .ok p m' := by
  unfold getBufferViaCopy at h ⊢
  cases h1 : allocate_buffer E m cap with
  | thrown m1 => simp [h1] at h
  | ok q m1 =>
    rw [h1] at h
    rw [allocate_buffer_calm h1]
    simp only at h ⊢
    cases h2 : uninitialized_copy_n E m1 src cnt with
    | thrown m2 => simp [h2] at h
    | ok ys m2 =>
      rw [h2] at h
      rw [uninitialized_copy_n_calm h2]
      exact h

theorem ctor_copy_calm {E : Env} {m m' : Mem T} {v v' : socow_vector T}
    (h : ctor_copy E m v = .ok v' m') : ctor_copy E.calm m v = .ok v' m' := by
  obtain ⟨n, st⟩ := v
  cases st with
  | dynamicBuffer p => exact h
  | staticBuffer buf =>
    simp only [ctor_copy] at h ⊢
    cases h1 : uninitialized_copy_n E m buf (size ⟨n, .staticBuffer buf⟩) with
    | thrown m1 => simp [h1] at h
    | ok ys m1 =>
      rw [h1] at h
      rw [uninitialized_copy_n_calm h1]
      exact h

theorem ctor_capacity_calm {E : Env} {m m' : Mem T} {cap : Nat} {v' : socow_vector T}
    (h : ctor_capacity E m cap = .ok v' m') : ctor_capacity E.calm m cap = .ok v' m' := by
  unfold ctor_capacity at h ⊢
  have hs : E.calm.SMALL_SIZE = E.SMALL_SIZE := rfl
  rw [hs]
  by_cases hc : cap ≤ E.SMALL_SIZE
  · simp only [hc, if_true] at h ⊢
    exact h
  · simp only [hc, if_false] at h ⊢
    cases h1 : allocate_buffer E m cap with
    | thrown m1 => simp [h1] at h
    | ok q m1 =>
      rw [h1] at h
      rw [allocate_buffer_calm h1]
      exact h

theorem unshare_calm {E : Env} {m : Mem T} {v : socow_vector T} {u : Unit}
    {s : Mem T × socow_vector T} (h : unshare E m v = .ok u s) :
    unshare E.calm m v = .ok u s := by
  obtain ⟨n, st⟩ := v
  cases st with
  | staticBuffer buf => exact h
  | dynamicBuffer p =>
    simp only [unshare, capacity_calm] at h ⊢
    split at h
    · cases h
    · rename_i q m1 h1
      rw [getBufferViaCopy_calm h1]
      exact h

theorem data_calm {E : Env} {m : Mem T} {v : socow_vector T} {u : Unit}
    {s : Mem T × socow_vector T} (h : data E m v = .ok u s) :
    data E.calm m v = .ok u s := by
  unfold data at h ⊢
  by_cases hc : (!v.is_static && decide (cntRef m v > 1)) = true
  · simp only [hc, if_true] at h ⊢
    exact unshare_calm h
  · simp only [hc, if_false] at h ⊢
    exact h

theorem Outcome.bind_eq_ok {α β σ : Type} {o : Outcome α σ} {f : α → σ → Outcome β σ}
    {b : β} {s : σ} (h : o.bind f = .ok b s) : ∃ a s1, o = .ok a s1 ∧ f a s1 = .ok b s := by
  cases o with
  | thrown s1 => simp [Outcome.bind] at h
  | ok a s1 => exact ⟨a, s1, rfl, h⟩

theorem access_calm {E : Env} {m : Mem T} {v : socow_vector T} {a : Accessor} {k : Nat}
    {s : Mem T × socow_vector T} (h : access E m v a = .ok k s) :
    access E.calm m v a = .ok k s := by
  unfold access at h ⊢
  obtain ⟨u, s1, h1, h2⟩ := Outcome.bind_eq_ok h
  rw [data_calm h1]
  exact h2

theorem store_at_calm {E : Env} {m : Mem T} {v : socow_vector T} {i : Nat} {x : T} {u : Unit}
    {s : Mem T × socow_vector T} (h : store_at E m v i x = .ok u s) :
    store_at E.calm m v i x = .ok u s := by
  unfold store_at at h ⊢
  obtain ⟨k, s1, h1, h2⟩ := Outcome.bind_eq_ok h
  rw [access_calm h1]
  exact h2

theorem pop_back_calm {E : Env} {m : Mem T} {v : socow_vector T} {u : Unit}
    {s : Mem T × socow_vector T} (h : pop_back E m v = .ok u s) :
    pop_back E.calm m v = .ok u s := by
  unfold pop_back at h ⊢
  by_cases hx : exclusive m v = true
  · simp only [hx, if_true] at h ⊢
    obtain ⟨k, s1, h1, h2⟩ := Outcome.bind_eq_ok h
    rw [data_calm h1]
    exact h2
  · simp only [hx, if_false, capacity_calm, Bool.false_eq_true] at h ⊢
    cases h1 : getBufferViaCopy E m (capacity E m v) (const_data m v) (size v - 1) with
    | thrown m1 => simp [h1] at h
    | ok q m1 =>
      rw [h1] at h
      rw [getBufferViaCopy_calm h1]
      exact h

end Socow
namespace Socow
variable {T : Type}

theorem reserve_calm {E : Env} {m : Mem T} {v : socow_vector T} {n : Nat} {u : Unit}
    {s : Mem T × socow_vector T} (h : reserve E m v n = .ok u s) :
    reserve E.calm m v n = .ok u s := by
  have hs : E.calm.SMALL_SIZE = E.SMALL_SIZE := rfl
  obtain ⟨k, st⟩ := v
  cases st with
  | staticBuffer buf =>
    simp only [reserve, hs] at h ⊢
    split at h
    · rename_i hc
      rw [if_pos hc]
      exact h
    · rename_i hc
      rw [if_neg hc]
      split at h
      · cases h
      · rename_i q m1 h1
        rw [getBufferViaCopy_calm h1]
        exact h
  | dynamicBuffer p =>
    simp only [reserve, hs, capacity_calm] at h ⊢
    split at h
    · rename_i hc
      rw [if_pos hc]
      split at h
      · cases h
      · rename_i q m1 h1
        rw [getBufferViaCopy_calm h1]
        exact h
    · rename_i hc
      rw [if_neg hc]
      split at h
      · rename_i hc2
        rw [if_pos hc2]
        split at h
        · cases h
        · rename_i ys m1 h1
          rw [uninitialized_copy_n_calm h1]
          exact h
      · rename_i hc2
        rw [if_neg hc2]
        exact h

theorem shrink_to_fit_calm {E : Env} {m : Mem T} {v : socow_vector T} {u : Unit}
    {s : Mem T × socow_vector T} (h : shrink_to_fit E m v = .ok u s) :
    shrink_to_fit E.calm m v = .ok u s := by
  have hs : E.calm.SMALL_SIZE = E.SMALL_SIZE := rfl
  obtain ⟨k, st⟩ := v
  cases st with
  | staticBuffer buf => exact h
  | dynamicBuffer p =>
    simp only [shrink_to_fit, hs, capacity_calm] at h ⊢
    split at h
    · rename_i hc
      rw [if_pos hc]
      split at h
      · cases h
      · rename_i q m1 h1
        rw [getBufferViaCopy_calm h1]
        exact h
    · rename_i hc
      rw [if_neg hc]
      split at h
      · rename_i hc2
        rw [if_pos hc2]
        split at h
        · cases h
        · rename_i ys m1 h1
          rw [uninitialized_copy_n_calm h1]
          exact h
      · rename_i hc2
        rw [if_neg hc2]
        exact h

theorem swap_data_calm {E : Env} {s s' : Mem T × socow_vector T} {i j : Nat} {u : Unit}
    (h : swap_data E s i j = .ok u s') : swap_data E.calm s i j = .ok u s' := by
  unfold swap_data at h ⊢
  obtain ⟨u1, s1, h1, h⟩ := Outcome.bind_eq_ok h
  obtain ⟨u2, s2, h2, h⟩ := Outcome.bind_eq_ok h
  rw [data_calm h1]
  simp only [Outcome.bind]
  rw [data_calm h2]
  simp only
  split at h
  · cases h
  · rename_i u3 m3 h3
    rw [std_swap_calm h3]
    exact h

theorem swap_ranges_calm {E : Env} (bound : Nat) :
    ∀ (fuel i : Nat) (m : Mem T) (a b : List T) {u : Unit} {s : Mem T × List T × List T},
      swap_ranges E bound fuel i m a b = .ok u s →
      swap_ranges E.calm bound fuel i m a b = .ok u s := by
  intro fuel
  induction fuel with
  | zero =>
    intro i m a b u s h
    exact h
  | succ fuel ih =>
    intro i m a b u s h
    unfold swap_ranges at h ⊢
    split at h
    · rename_i hc
      rw [if_pos hc]
      split at h
      · cases h
      · rename_i u1 m1 h1
        rw [std_swap_calm h1]
        simp only
        split at h
        · exact ih _ _ _ _ h
        · exact ih _ _ _ _ h
    · rename_i hc
      rw [if_neg hc]
      exact h

theorem swap_static_calm {E : Env} {m : Mem T} {a b : socow_vector T} {sb ob : List T}
    {u : Unit} {s : Mem T × socow_vector T × socow_vector T}
    (h : swap_static E m a b sb ob = .ok u s) : swap_static E.calm m a b sb ob = .ok u s := by
  unfold swap_static at h ⊢
  split at h
  · cases h
  · rename_i ys m1 h1
    rw [uninitialized_copy_n_calm h1]
    simp only at h ⊢
    split at h
    · cases h
    · rename_i u2 m2 a2 b2 h2
      rw [swap_ranges_calm _ _ _ _ _ _ h2]
      exact h

theorem swap_static_dynamic_calm {E : Env} {m : Mem T} {a b : socow_vector T} {sb : List T}
    {q : Nat} {u : Unit} {s : Mem T × socow_vector T × socow_vector T}
    (h : swap_static_dynamic E m a b sb q = .ok u s) :
    swap_static_dynamic E.calm m a b sb q = .ok u s := by
  unfold swap_static_dynamic at h ⊢
  split at h
  · cases h
  · rename_i ys m1 h1
    rw [uninitialized_copy_n_calm h1]
    exact h

theorem swap_calm {E : Env} {m : Mem T} {a b : socow_vector T} {t : Bool}
    {u : Unit} {s : Mem T × socow_vector T × socow_vector T}
    (h : swap E m a b t = .ok u s) : swap E.calm m a b t = .ok u s := by
  cases t with
  | true => exact h
  | false =>
    obtain ⟨na, sa⟩ := a
    obtain ⟨nb, sb⟩ := b
    cases sa with
    | staticBuffer abuf =>
      cases sb with
      | staticBuffer bbuf =>
        simp only [swap, Bool.false_eq_true, if_false] at h ⊢
        split at h
        · rename_i hc
          rw [if_pos hc]
          split at h
          · rename_i u1 m1 o1 s1 h1
            rw [swap_static_calm h1]
            exact h
          · cases h
        · rename_i hc
          rw [if_neg hc]
          exact swap_static_calm h
      | dynamicBuffer q =>
        simp only [swap, Bool.false_eq_true, if_false] at h ⊢
        exact swap_static_dynamic_calm h
    | dynamicBuffer p =>
      cases sb with
      | staticBuffer bbuf =>
        simp only [swap, Bool.false_eq_true, if_false] at h ⊢
        split at h
        · rename_i u1 m1 o1 s1 h1
          rw [swap_static_dynamic_calm h1]
          exact h
        · cases h
      | dynamicBuffer q => exact h

theorem copy_into_calm {E : Env} {m : Mem T} {dst : socow_vector T} {off cnt : Nat}
    {src : List T} {u : Unit} {s : Mem T × socow_vector T}
    (h : copy_into E m dst off src cnt = .ok u s) :
    copy_into E.calm m dst off src cnt = .ok u s := by
  unfold copy_into at h ⊢
  obtain ⟨u1, s1, h1, h⟩ := Outcome.bind_eq_ok h
  rw [data_calm h1]
  simp only [Outcome.bind]
  split at h
  · cases h
  · rename_i ys m2 h2
    rw [uninitialized_copy_n_calm h2]
    exact h

theorem erase_shift_calm {E : Env} (cnt : Nat) :
    ∀ (fuel i : Nat) (s : Mem T × socow_vector T) {u : Unit} {s' : Mem T × socow_vector T},
      erase_shift E cnt fuel i s = .ok u s' → erase_shift E.calm cnt fuel i s = .ok u s' := by
  intro fuel
  induction fuel with
  | zero =>
    intro i s u s' h
    exact h
  | succ fuel ih =>
    intro i s u s' h
    unfold erase_shift at h ⊢
    split at h
    · rename_i hc
      rw [if_pos hc]
      obtain ⟨u1, s1, h1, h⟩ := Outcome.bind_eq_ok h
      rw [swap_data_calm h1]
      exact ih _ _ h
    · rename_i hc
      rw [if_neg hc]
      exact h

theorem pop_back_n_calm {E : Env} :
    ∀ (n : Nat) (s : Mem T × socow_vector T) {u : Unit} {s' : Mem T × socow_vector T},
      pop_back_n E n s = .ok u s' → pop_back_n E.calm n s = .ok u s' := by
  intro n
  induction n with
  | zero =>
    intro s u s' h
    exact h
  | succ n ih =>
    intro s u s' h
    unfold pop_back_n at h ⊢
    obtain ⟨u1, s1, h1, h⟩ := Outcome.bind_eq_ok h
    rw [pop_back_calm h1]
    exact ih _ h

theorem insert_walk_calm {E : Env} (ind : Nat) :
    ∀ (i : Nat) (s : Mem T × socow_vector T) {u : Unit} {s' : Mem T × socow_vector T},
      insert_walk E ind i s = .ok u s' → insert_walk E.calm ind i s = .ok u s' := by
  intro i
  induction i with
  | zero =>
    intro s u s' h
    exact h
  | succ i ih =>
    intro s u s' h
    unfold insert_walk at h ⊢
    split at h
    · rename_i hc
      rw [if_pos hc]
      exact h
    · rename_i hc
      rw [if_neg hc]
      obtain ⟨u1, s1, h1, h⟩ := Outcome.bind_eq_ok h
      rw [swap_data_calm h1]
      exact ih _ h

theorem insert_in_place_calm {E : Env} {m : Mem T} {v : socow_vector T} {pos : Nat} {x : T}
    {k : Nat} {s : Mem T × socow_vector T} (h : insert_in_place E m v pos x = .ok k s) :
    insert_in_place E.calm m v pos x = .ok k s := by
  unfold insert_in_place at h ⊢
  obtain ⟨u0, s0, h0, h⟩ := Outcome.bind_eq_ok h
  rw [data_calm h0]
  simp only [Outcome.bind] at h ⊢
  cases h1 : data E s0.1 s0.2 with
  | thrown s1 => simp [h1] at h
  | ok u1 s1 =>
    rw [h1] at h
    rw [data_calm h1]
    simp only at h ⊢
    split at h
    · cases h
    · rename_i u2 m2 h2
      rw [copy_construct_calm h2]
      simp only
      split at h
      · rename_i u5 s5 h5
        rw [insert_walk_calm _ _ _ h5]
        simp only
        split at h
        · rename_i u6 s6 h6
          rw [data_calm h6]
          exact h
        · cases h
      · cases h

end Socow
namespace Socow
variable {T : Type}

theorem erase_calm {E : Env} {m : Mem T} {v : socow_vector T} {first last : Nat}
    {k : Nat} {s : Mem T × socow_vector T} (h : erase E m v first last = .ok k s) :
    erase E.calm m v first last = .ok k s := by
  unfold erase at h ⊢
  simp only [capacity_calm] at h ⊢
  split at h
  · rename_i hc
    rw [if_pos hc]
    exact h
  · rename_i hc
    rw [if_neg hc]
    split at h
    · rename_i hx
      rw [if_pos hx]
      obtain ⟨u1, s1, h1, h⟩ := Outcome.bind_eq_ok h
      obtain ⟨u2, s2, h2, h⟩ := Outcome.bind_eq_ok h
      obtain ⟨u3, s3, h3, h⟩ := Outcome.bind_eq_ok h
      rw [erase_shift_calm _ _ _ _ h1]
      simp only [Outcome.bind]
      rw [pop_back_n_calm _ _ h2]
      simp only
      rw [data_calm h3]
      exact h
    · rename_i hx
      rw [if_neg hx]
      split at h
      · cases h
      · rename_i tmp m1 h1
        rw [ctor_capacity_calm h1]
        simp only
        split at h
        · cases h
        · rename_i u2 m2 tmp2 h2
          rw [copy_into_calm h2]
          simp only
          split at h
          · cases h
          · rename_i u3 m3 tmp3 h3
            rw [copy_into_calm h3]
            simp only
            split at h
            · cases h
            · rename_i u4 m4 self4 tmp4 h4
              rw [swap_calm h4]
              simp only
              split at h
              · cases h
              · rename_i u5 m5 self5 h5
                rw [data_calm h5]
                exact h

theorem clear_calm {E : Env} {m : Mem T} {v : socow_vector T} {u : Unit}
    {s : Mem T × socow_vector T} (h : clear E m v = .ok u s) : clear E.calm m v = .ok u s := by
  unfold clear at h ⊢
  obtain ⟨k1, s1, h1, h⟩ := Outcome.bind_eq_ok h
  rw [erase_calm h1]
  exact h

theorem insert_calm {E : Env} (x : T) :
    ∀ (fuel : Nat) (m : Mem T) (v : socow_vector T) (pos : Nat) {k : Nat}
      {s : Mem T × socow_vector T},
      insert E fuel m v pos x = some (.ok k s) → insert E.calm fuel m v pos x = some (.ok k s) := by
  intro fuel
  induction fuel with
  | zero =>
    intro m v pos k s h
    simp [insert] at h
  | succ fuel ih =>
    intro m v pos k s h
    rw [insert] at h ⊢
    simp only [capacity_calm] at h ⊢
    split at h
    · rename_i hc
      rw [if_pos hc]
      simp only [Option.some.injEq] at h ⊢
      exact insert_in_place_calm h
    · rename_i hc
      rw [if_neg hc]
      split at h
      · cases h
      · rename_i tmp m1 h1
        rw [ctor_capacity_calm h1]
        simp only
        split at h
        · cases h
        · rename_i u2 m2 tmp2 h2
          rw [copy_into_calm h2]
          simp only
          split at h
          · cases h
          · cases h
          · rename_i u3 m3 tmp3 h3
            rw [ih _ _ _ h3]
            simp only
            split at h
            · cases h
            · rename_i u4 m4 tmp4 h4
              rw [copy_into_calm h4]
              simp only
              split at h
              · cases h
              · rename_i u5 m5 self5 h5
                have h5c : (if v.is_static = true then clear E.calm m4 v
                    else Outcome.ok () (m4, v)) = .ok u5 (m5, self5) := by
                  by_cases hst : v.is_static = true
                  · rw [if_pos hst] at h5 ⊢
                    exact clear_calm h5
                  · rw [if_neg hst] at h5 ⊢
                    exact h5
                rw [h5c]
                simp only
                split at h
                · cases h
                · rename_i u6 m6 self6 tmp6 h6
                  rw [swap_calm h6]
                  simp only
                  split at h
                  · cases h
                  · rename_i u7 m7 self7 h7
                    rw [data_calm h7]
                    exact h

theorem push_back_calm {E : Env} {fuel : Nat} {m : Mem T} {v : socow_vector T} {x : T}
    {u : Unit} {s : Mem T × socow_vector T} (h : push_back E fuel m v x = some (.ok u s)) :
    push_back E.calm fuel m v x = some (.ok u s) := by
  unfold push_back at h ⊢
  simp only [Option.map_eq_some'] at h ⊢
  obtain ⟨o, ho, hos⟩ := h
  obtain ⟨k1, s1, h1, _⟩ := Outcome.bind_eq_ok hos
  subst h1
  exact ⟨_, insert_calm x _ _ _ _ ho, hos⟩

theorem operator_assign_calm {E : Env} {m : Mem T} {a b : socow_vector T} {t : Bool}
    {u : Unit} {s : Mem T × socow_vector T} (h : operator_assign E m a b t = .ok u s) :
    operator_assign E.calm m a b t = .ok u s := by
  cases t with
  | true => exact h
  | false =>
    obtain ⟨na, sa⟩ := a
    obtain ⟨nb, sb⟩ := b
    cases sa with
    | staticBuffer abuf =>
      cases sb with
      | dynamicBuffer q => exact h
      | staticBuffer bbuf =>
        simp only [operator_assign, Bool.false_eq_true, if_false] at h ⊢
        split at h
        · rename_i hc
          rw [if_pos hc]
          split at h
          · cases h
          · rename_i tmp m1 h1
            rw [ctor_copy_calm h1]
            simp only
            split at h
            · cases h
            · rename_i u2 m2 self2 tmp2 h2
              rw [swap_calm h2]
              exact h
        · rename_i hc
          rw [if_neg hc]
          split at h
          · cases h
          · rename_i ys m1 h1
            rw [uninitialized_copy_n_calm h1]
            simp only at h ⊢
            split at h
            · cases h
            · rename_i ts m2 h2
              rw [uninitialized_copy_n_calm h2]
              simp only
              split at h
              · cases h
              · rename_i u3 m3 a3 t3 h3
                rw [swap_ranges_calm _ _ _ _ _ _ h3]
                exact h
    | dynamicBuffer p =>
      cases sb with
      | staticBuffer bbuf =>
        simp only [operator_assign, Bool.false_eq_true, if_false] at h ⊢
        split at h
        · cases h
        · rename_i ys m1 h1
          rw [uninitialized_copy_n_calm h1]
          exact h
      | dynamicBuffer q =>
        simp only [operator_assign, Bool.false_eq_true, if_false] at h ⊢
        split at h
        · cases h
        · rename_i tmp m1 h1
          rw [ctor_copy_calm h1]
          simp only
          split at h
          · cases h
          · rename_i u2 m2 self2 tmp2 h2
            rw [swap_calm h2]
            exact h

theorem mutate_calm {E : Env} {fuel : Nat} {m : Mem T} {v : socow_vector T} {c : Mutator T}
    {u : Unit} {s : Mem T × socow_vector T} (h : mutate E fuel m v c = some (.ok u s)) :
    mutate E.calm fuel m v c = some (.ok u s) := by
  cases c with
  | push_back value => exact push_back_calm h
  | pop_back =>
    simp only [mutate, Option.some.injEq] at h ⊢
    exact pop_back_calm h
  | insert pos value =>
    simp only [mutate, Option.map_eq_some'] at h ⊢
    obtain ⟨o, ho, hos⟩ := h
    obtain ⟨k1, s1, h1, _⟩ := Outcome.bind_eq_ok hos
    subst h1
    exact ⟨_, insert_calm value _ _ _ _ ho, hos⟩
  | erase_one pos =>
    simp only [mutate, erase_one, Option.some.injEq] at h ⊢
    obtain ⟨k1, s1, h1, h⟩ := Outcome.bind_eq_ok h
    rw [erase_calm h1]
    exact h
  | erase first last =>
    simp only [mutate, Option.some.injEq] at h ⊢
    obtain ⟨k1, s1, h1, h⟩ := Outcome.bind_eq_ok h
    rw [erase_calm h1]
    exact h
  | clear =>
    simp only [mutate, Option.some.injEq] at h ⊢
    exact clear_calm h
  | reserve newCapacity =>
    simp only [mutate, Option.some.injEq] at h ⊢
    exact reserve_calm h
  | shrink_to_fit =>
    simp only [mutate, Option.some.injEq] at h ⊢
    exact shrink_to_fit_calm h
  | store i x =>
    simp only [mutate, Option.some.injEq] at h ⊢
    exact store_at_calm h

theorem World.call_calm {E : Env} {fuel : Nat} {w w' : World T} {c : Call T}
    (h : w.call E fuel c = some (.ok () w')) : w.call E.calm fuel c = some (.ok () w') := by
  cases c with
  | construct => exact h
  | copy_construct src =>
    simp only [World.call] at h ⊢
    split at h
    · cases h
    · split at h
      · rename_i v' m' h1
        rw [ctor_copy_calm h1]
        exact h
      · cases h
  | destroy i => exact h
  | assign i j =>
    simp only [World.call] at h ⊢
    split at h
    · split at h
      · rename_i u m' a' h1
        rw [operator_assign_calm h1]
        exact h
      · cases h
    · cases h
  | swap i j =>
    simp only [World.call] at h ⊢
    split at h
    · split at h
      · rename_i u m' a' b' h1
        rw [swap_calm h1]
        exact h
      · cases h
    · cases h
  | mutate i c =>
    simp only [World.call] at h ⊢
    split at h
    · cases h
    · split at h
      · rename_i hpre
        rw [if_pos hpre]
        split at h
        · rename_i u m' v' h1
          rw [mutate_calm h1]
          exact h
        · cases h
        · cases h
      · cases h
  | access i a =>
    simp only [World.call] at h ⊢
    split at h
    · cases h
    · split at h
      · rename_i k m' v' h1
        rw [access_calm h1]
        exact h
      · cases h
  | access_const i a => exact h

end Socow
namespace Socow
variable {T : Type}

/-! ## The branches of reserve -/

theorem reserve_static_small (E : Env) (m : Mem T) {k n : Nat} (buf : List T)
    (hn : n ≤ E.SMALL_SIZE) :
    reserve E m ⟨k, .staticBuffer buf⟩ n = .ok () (m, ⟨k, .staticBuffer buf⟩) := by
  simp [reserve, hn]

theorem reserve_static_grow {E : Env} (hE : E.nothrow) {m : Mem T} {k n : Nat} {buf : List T}
    (hv : WF E m ⟨k, .staticBuffer buf⟩) (hn : E.SMALL_SIZE < n) :
    ∃ m', reserve E m ⟨k, .staticBuffer buf⟩ n = .ok () (m', ⟨k, .dynamicBuffer m.heap.length⟩) ∧
      m'.heap = m.heap ++ [some (dynamic_buffer.mk n 1 buf)] := by
  obtain ⟨hl, hle⟩ := WF_static.mp hv
  obtain ⟨m1, e1, hh1⟩ := getBufferViaCopy_ok hE m n buf k
  have htk : buf.take k = buf := List.take_of_length_le (by omega)
  rw [htk] at hh1
  refine ⟨destroy_n m1 k, ?_, hh1⟩
  simp [reserve, Nat.not_le.mpr hn, size, e1]

theorem reserve_dynamic_grow {E : Env} (hE : E.nothrow) {m : Mem T} {k p n : Nat}
    {b : dynamic_buffer T} (hv : WF E m ⟨k, .dynamicBuffer p⟩) (hc : m.heap.cell p = some b)
    (hn : E.SMALL_SIZE < n)
    (hcond : (b.cntRef = 1 ∧ b.capacity < n) ∨ (1 < b.cntRef ∧ k < n)) :
    ∃ m', reserve E m ⟨k, .dynamicBuffer p⟩ n =
        .ok () (m', ⟨k, .dynamicBuffer m.heap.length⟩) ∧
      m'.heap = (m.heap ++ [some (dynamic_buffer.mk n 1 b.elements)]).release p := by
  obtain ⟨b', hc', hl, hle, hsm, hr⟩ := WF_dynamic.mp hv
  rw [hc] at hc'
  cases hc'
  have htk : b.elements.take k = b.elements := List.take_of_length_le (by omega)
  have hcap : capacity E m (⟨k, .dynamicBuffer p⟩ : socow_vector T) = b.capacity :=
    capacity_of_cell E hc
  obtain ⟨m1, e1, hh1⟩ := getBufferViaCopy_ok hE m n b.elements k
  rw [htk] at hh1
  refine ⟨dropDynamicBuffer m1 p k, ?_, ?_⟩
  · have h1 : n > E.SMALL_SIZE ∧
        ((b.cntRef = 1 ∧ b.capacity < n) ∨ (b.cntRef > 1 ∧ k < n)) := ⟨hn, hcond⟩
    simp [reserve, Mem.buf_of_cell hc, hcap, size, h1, e1]
  · rw [dropDynamicBuffer_heap, hh1]

theorem reserve_dynamic_inline {E : Env} (hE : E.nothrow) {m : Mem T} {k p n : Nat}
    {b : dynamic_buffer T} (hv : WF E m ⟨k, .dynamicBuffer p⟩) (hc : m.heap.cell p = some b)
    (hn : n ≤ E.SMALL_SIZE) (hk : k ≤ E.SMALL_SIZE) (hr : 1 < b.cntRef) :
    ∃ m', reserve E m ⟨k, .dynamicBuffer p⟩ n = .ok () (m', ⟨k, .staticBuffer b.elements⟩) ∧
      m'.heap = m.heap.release p := by
  obtain ⟨b', hc', hl, hle, hsm, _⟩ := WF_dynamic.mp hv
  rw [hc] at hc'
  cases hc'
  have htk : b.elements.take k = b.elements := List.take_of_length_le (by omega)
  have hcap : capacity E m (⟨k, .dynamicBuffer p⟩ : socow_vector T) = b.capacity :=
    capacity_of_cell E hc
  obtain ⟨m1, e1, hh1⟩ := uninitialized_copy_n_heap hE m b.elements k
  rw [htk] at e1
  refine ⟨dropDynamicBuffer m1 p k, ?_, ?_⟩
  · have h1 : ¬ (n > E.SMALL_SIZE ∧
        ((b.cntRef = 1 ∧ b.capacity < n) ∨ (b.cntRef > 1 ∧ k < n))) := by omega
    have h2 : n ≤ E.SMALL_SIZE ∧ k ≤ E.SMALL_SIZE ∧ b.cntRef > 1 := ⟨hn, hk, hr⟩
    simp [reserve, Mem.buf_of_cell hc, hcap, size, h1, h2, e1]
  · rw [dropDynamicBuffer_heap, hh1]

theorem reserve_dynamic_same (E : Env) {m : Mem T} {k p n : Nat}
    {b : dynamic_buffer T} (hc : m.heap.cell p = some b)
    (h1 : ¬ (E.SMALL_SIZE < n ∧ ((b.cntRef = 1 ∧ b.capacity < n) ∨ (1 < b.cntRef ∧ k < n))))
    (h2 : ¬ (n ≤ E.SMALL_SIZE ∧ k ≤ E.SMALL_SIZE ∧ 1 < b.cntRef)) :
    reserve E m ⟨k, .dynamicBuffer p⟩ n = .ok () (m, ⟨k, .dynamicBuffer p⟩) := by
  have hcap : capacity E m (⟨k, .dynamicBuffer p⟩ : socow_vector T) = b.capacity :=
    capacity_of_cell E hc
  have h1' : ¬ (n > E.SMALL_SIZE ∧
      ((b.cntRef = 1 ∧ b.capacity < n) ∨ (b.cntRef > 1 ∧ k < n))) := h1
  have h2' : ¬ (n ≤ E.SMALL_SIZE ∧ k ≤ E.SMALL_SIZE ∧ b.cntRef > 1) := h2
  simp only [reserve, Mem.buf_of_cell hc, hcap, size, h1', h2', if_false]

/-- The block a fresh allocation put at the end of the heap, after the old block `p` lost
one reference. -/
theorem fresh_after_release {E : Env} {m m' : Mem T} {k p : Nat}
    (hv : WF E m ⟨k, .dynamicBuffer p⟩) {cap : Nat} {xs : List T}
    (hh : m'.heap = (m.heap ++ [some (dynamic_buffer.mk cap 1 xs)]).release p)
    (hcap : E.SMALL_SIZE < cap) (hlen : xs.length ≤ cap) :
    WF E m' ⟨xs.length, .dynamicBuffer m.heap.length⟩ ∧
    contents m' ⟨xs.length, .dynamicBuffer m.heap.length⟩ = xs ∧
    const_data m' ⟨xs.length, .dynamicBuffer m.heap.length⟩ = xs ∧
    capacity E m' ⟨xs.length, .dynamicBuffer m.heap.length⟩ = cap ∧
    cntRef m' ⟨xs.length, .dynamicBuffer m.heap.length⟩ = 1 :=
  fresh_facts hv (show m'.heap = (m.heap ++ [some (dynamic_buffer.mk cap 1 xs)]).drop_storage
    (⟨k, .dynamicBuffer p⟩ : socow_vector T) from hh) hcap hlen

theorem fresh_after_static {E : Env} {m m' : Mem T} {k : Nat} {buf : List T}
    (hv : WF E m ⟨k, .staticBuffer buf⟩) {cap : Nat} {xs : List T}
    (hh : m'.heap = m.heap ++ [some (dynamic_buffer.mk cap 1 xs)])
    (hcap : E.SMALL_SIZE < cap) (hlen : xs.length ≤ cap) :
    WF E m' ⟨xs.length, .dynamicBuffer m.heap.length⟩ ∧
    contents m' ⟨xs.length, .dynamicBuffer m.heap.length⟩ = xs ∧
    const_data m' ⟨xs.length, .dynamicBuffer m.heap.length⟩ = xs ∧
    capacity E m' ⟨xs.length, .dynamicBuffer m.heap.length⟩ = cap ∧
    cntRef m' ⟨xs.length, .dynamicBuffer m.heap.length⟩ = 1 :=
  fresh_facts hv (show m'.heap = (m.heap ++ [some (dynamic_buffer.mk cap 1 xs)]).drop_storage
    (⟨k, .staticBuffer buf⟩ : socow_vector T) from hh) hcap hlen

end Socow
namespace Socow
variable {T : Type}

/-! ## How one call changes a heap cell -/

theorem World.Inv_calm {E : Env} {w : World T} : w.Inv E.calm ↔ w.Inv E := Iff.rfl

/-- Every call that returns preserves the invariant of the program state, whatever the
element type and the allocator do. -/
theorem World.call_ok_Inv_any {E : Env} {w w' : World T} (hw : w.Inv E) (fuel : Nat)
    (c : Call T) (h : w.call E fuel c = some (.ok () w')) : w'.Inv E :=
  World.Inv_calm.mp (World.call_ok_Inv E.calm_nothrow (World.Inv_calm.mpr hw) fuel c
    (World.call_calm h))

theorem World.call_ok_cells_nothrow {E : Env} (hE : E.nothrow) {w w' : World T}
    (hw : w.Inv E) (fuel : Nat) (c : Call T) (h : w.call E fuel c = some (.ok () w'))
    (q : Nat) :
    ∃ D A, CellStep D A (w.mem.heap.cell q) (w'.mem.heap.cell q) := by
  have hpos := hw.pos
  have hrefl : ∀ {m' : Mem T}, m'.heap = w.mem.heap →
      CellStep false false (w.mem.heap.cell q) (m'.heap.cell q) := by
    intro m' hh
    rw [hh]
    exact CellStep.refl false (fun b hb => hpos q b hb)
  cases c with
  | construct =>
    simp only [World.call, Option.some.injEq, Outcome.ok.injEq, true_and] at h
    subst h
    exact ⟨_, _, hrefl rfl⟩
  | copy_construct src =>
    simp only [World.call] at h
    cases ho : w.obj src with
    | none => simp [ho] at h
    | some v =>
      have hv := hw.1 v (World.obj_mem ho)
      obtain ⟨m', e, hh⟩ := ctor_copy_ok hE hv
      simp only [ho, e, Option.some.injEq, Outcome.ok.injEq, true_and] at h
      subst h
      have hcs : CellStep false (v.points_at q) (w.mem.heap.cell q) (m'.heap.cell q) := by
        rw [hh]
        exact cellStep_share hv hpos q
      exact ⟨_, _, hcs⟩
  | destroy i =>
    simp only [World.call] at h
    cases ho : w.obj i with
    | none => simp [ho] at h
    | some v =>
      have hv := hw.1 v (World.obj_mem ho)
      simp only [ho, Option.some.injEq, Outcome.ok.injEq, true_and] at h
      subst h
      have hcs : CellStep (v.points_at q) false (w.mem.heap.cell q)
          ((dtor w.mem v).heap.cell q) := by
        rw [dtor_heap]
        exact cellStep_drop hv hpos q
      exact ⟨_, _, hcs⟩
  | assign i j =>
    simp only [World.call] at h
    cases hoi : w.obj i with
    | none => simp [hoi] at h
    | some a =>
      cases hoj : w.obj j with
      | none => simp [hoi, hoj] at h
      | some b =>
        have ha := hw.1 a (World.obj_mem hoi)
        have hb := hw.1 b (World.obj_mem hoj)
        by_cases hij : i = j
        · simp only [hoi, hoj, hij, decide_True, operator_assign, if_true,
            Option.some.injEq, Outcome.ok.injEq, true_and] at h
          subst h
          exact ⟨_, _, hrefl rfl⟩
        · obtain ⟨m', e, hh⟩ := operator_assign_ok hE ha hb
          simp only [hoi, hoj, hij, decide_False, e, Option.some.injEq, Outcome.ok.injEq, true_and] at h
          subst h
          have hcs : CellStep (a.points_at q) (b.points_at q) (w.mem.heap.cell q)
              (m'.heap.cell q) := by
            rw [hh]
            exact cellStep_assign ha hb hpos q
          exact ⟨_, _, hcs⟩
  | swap i j =>
    simp only [World.call] at h
    cases hoi : w.obj i with
    | none => simp [hoi] at h
    | some a =>
      cases hoj : w.obj j with
      | none => simp [hoi, hoj] at h
      | some b =>
        have ha := hw.1 a (World.obj_mem hoi)
        have hb := hw.1 b (World.obj_mem hoj)
        by_cases hij : i = j
        · simp only [hoi, hoj, hij, decide_True, swap, if_true, Option.some.injEq, Outcome.ok.injEq, true_and] at h
          subst h
          exact ⟨_, _, hrefl rfl⟩
        · obtain ⟨m', e, hh⟩ := swap_ok hE ha hb
          simp only [hoi, hoj, hij, decide_False, e, Option.some.injEq, Outcome.ok.injEq, true_and] at h
          subst h
          exact ⟨_, _, hrefl hh⟩
  | mutate i c =>
    simp only [World.call] at h
    cases ho : w.obj i with
    | none => simp [ho] at h
    | some v =>
      have hv := hw.1 v (World.obj_mem ho)
      simp only [ho] at h
      by_cases hpre : c.pre v
      · simp only [hpre, if_true] at h
        cases hm : mutate E fuel w.mem v c with
        | none => simp [hm] at h
        | some r =>
          cases r with
          | thrown s => simp [hm] at h
          | ok u s =>
            obtain ⟨m', v'⟩ := s
            simp only [hm, Option.some.injEq, Outcome.ok.injEq, true_and] at h
            subst h
            have he := mutate_ok_Effect hE hv c hpre fuel hm
            exact ⟨_, _, he.cellStep hv hpos q⟩
      · simp [hpre] at h
  | access i a =>
    simp only [World.call] at h
    cases ho : w.obj i with
    | none => simp [ho] at h
    | some v =>
      have hv := hw.1 v (World.obj_mem ho)
      obtain ⟨m', v', e, he, _⟩ := access_Effect hE hv a
      simp only [ho, e, Option.some.injEq, Outcome.ok.injEq, true_and] at h
      subst h
      exact ⟨_, _, he.cellStep hv hpos q⟩
  | access_const i a =>
    simp only [World.call] at h
    cases ho : w.obj i with
    | none => simp [ho] at h
    | some v =>
      simp only [ho, access_const, Option.some.injEq, Outcome.ok.injEq, true_and] at h
      subst h
      exact ⟨_, _, hrefl rfl⟩

/-- A block that a returning call frees had refcount 1 before the call; a block that
stays keeps its capacity. -/
theorem World.call_ok_cells {E : Env} {w w' : World T} (hw : w.Inv E)
    (fuel : Nat) (c : Call T) (h : w.call E fuel c = some (.ok () w')) (q : Nat) :
    ∃ D A, CellStep D A (w.mem.heap.cell q) (w'.mem.heap.cell q) :=
  World.call_ok_cells_nothrow E.calm_nothrow (World.Inv_calm.mpr hw) fuel c (World.call_calm h) q

/-- The member `dropDynamicBuffer` on a live block: the last reference frees the block
and destroys `sz` elements, any other reference only decrements the count. -/
theorem dropDynamicBuffer_cell {m : Mem T} {p : Nat} {b : dynamic_buffer T}
    (hc : m.heap.cell p = some b) (sz : Nat) :
    (b.cntRef = 1 → (dropDynamicBuffer m p sz).heap.cell p = none ∧
      (dropDynamicBuffer m p sz).destroyed = m.destroyed + sz) ∧
    (2 ≤ b.cntRef →
      (dropDynamicBuffer m p sz).heap.cell p = some { b with cntRef := b.cntRef - 1 } ∧
      (dropDynamicBuffer m p sz).destroyed = m.destroyed) := by
  constructor
  · intro hr
    refine ⟨by rw [dropDynamicBuffer_heap]; exact Heap.cell_release_last hc hr, ?_⟩
    simp [dropDynamicBuffer, Mem.get?, hc, hr, destroy_n, Mem.free]
  · intro hr
    refine ⟨by rw [dropDynamicBuffer_heap]; exact Heap.cell_release_shared hc hr, ?_⟩
    have h0 : ¬ (b.cntRef - 1 = 0) := by omega
    simp [dropDynamicBuffer, Mem.get?, hc, h0, Mem.update]

end Socow
namespace Socow
variable {T : Type}

/-! ## Exclusive ownership after insert and erase -/

theorem Effect.leaves_exclusive {E : Env} {m m' : Mem T} {v v' : socow_vector T} {xs : List T}
    (hv : WF E m v) (he : Effect E m v m' v' xs)
    (h : exclusive m v = true ∨ xs.length ≠ size v) : exclusive m' v' = true := by
  cases he with
  | same hh hv' hx =>
    subst hv' hx
    cases h with
    | inl h =>
      rw [exclusive_congr v' hh]
      exact h
    | inr h => exact absurd hv.length_const_data h
  | in_place hO hlen hv' hh =>
    subst hv'
    exact (put_facts hv hO hh hlen).2.2.2.2.2.exclusive
  | fresh cap hcap hlen hv' hh =>
    subst hv'
    have h5 := (fresh_facts hv hh hcap hlen).2.2.2.2
    simp [Socow.exclusive, h5]
  | to_inline hlen hst hv' hh =>
    subst hv'
    rfl

/-- When `insert` returns, the container is exclusively owned. -/
theorem insert_leaves_exclusive {E : Env} {m : Mem T} {v : socow_vector T} (hv : WF E m v)
    {k : Nat} (hk : k ≤ size v) (x : T) (fuel : Nat) {i : Nat} {s : Mem T × socow_vector T}
    (h : insert E fuel m v k x = some (.ok i s)) : exclusive s.1 s.2 = true := by
  have he := insert_ok_Effect E.calm_nothrow (WF_calm.mpr hv) hk x fuel (insert_calm x _ _ _ _ h)
  refine he.leaves_exclusive (WF_calm.mpr hv) (Or.inr ?_)
  rw [length_inserted _ (by rw [hv.length_const_data]; exact hk), hv.length_const_data]
  omega

/-- When `erase` of a non-empty range returns, the container is exclusively owned. -/
theorem erase_leaves_exclusive {E : Env} {m : Mem T} {v : socow_vector T} (hv : WF E m v)
    {f l : Nat} (hfl : f < l) (hl : l ≤ size v) {i : Nat} {s : Mem T × socow_vector T}
    (h : erase E m v f l = .ok i s) : exclusive s.1 s.2 = true := by
  obtain ⟨m', v', e, he, _⟩ := erase_Effect E.calm_nothrow (WF_calm.mpr hv) (Nat.le_of_lt hfl) hl
  rw [erase_calm h] at e
  cases e
  refine he.leaves_exclusive (WF_calm.mpr hv) (Or.inr ?_)
  rw [length_erased _ (Nat.le_of_lt hfl) (by rw [hv.length_const_data]; exact hl),
    hv.length_const_data]
  omega

end Socow
namespace Socow
variable {T : Type}

/-! ## Outcomes of the steps of insert, whatever throws -/

theorem uninitialized_copy_n_ok_heap {E : Env} {m m' : Mem T} {src ys : List T} {cnt : Nat}
    (h : uninitialized_copy_n E m src cnt = .ok ys m') :
    ys = src.take cnt ∧ m'.heap = m.heap := by
  have hc := uninitialized_copy_n_calm h
  rw [uninitialized_copy_n_ok (E := E.calm) (fun _ => rfl)] at hc
  cases hc
  exact ⟨rfl, rfl⟩

theorem copy_construct_heap {E : Env} {m : Mem T} (o : Outcome Unit (Mem T))
    (h : copy_construct E m = o) : o.state.heap = m.heap := by
  subst h
  unfold copy_construct
  split <;> rfl

theorem ctor_capacity_any {E : Env} (m : Mem T) {cap : Nat} (hc : E.SMALL_SIZE < cap) :
    (∀ m1, ctor_capacity E m cap = .thrown m1 → m1.heap = m.heap) ∧
    (∀ t m1, ctor_capacity E m cap = .ok t m1 →
      t = ⟨0, .dynamicBuffer m.heap.length⟩ ∧
      m1.heap = m.heap ++ [some (dynamic_buffer.mk cap 1 [])]) := by
  constructor
  · intro m1 h
    simp only [ctor_capacity, Nat.not_le.mpr hc, if_false, allocate_buffer] at h
    split at h
    · rename_i m2 h2
      cases h
      split at h2
      · cases h2
        rfl
      · cases h2
    · cases h
  · intro t m1 h
    obtain ⟨m', e, hh⟩ := ctor_capacity_dynamic E.calm_nothrow m (show E.calm.SMALL_SIZE < cap from hc)
    rw [ctor_capacity_calm h] at e
    cases e
    exact ⟨rfl, hh⟩

theorem copy_into_excl_any {E : Env} {m : Mem T} {p : Nat} {b : dynamic_buffer T}
    (n off : Nat) (src : List T) (cnt : Nat) (hc : m.heap.cell p = some b) (hr : b.cntRef = 1) :
    (∀ s, copy_into E m ⟨n, .dynamicBuffer p⟩ off src cnt = .thrown s →
      s.2 = ⟨n, .dynamicBuffer p⟩ ∧ s.1.heap = m.heap) ∧
    (∀ u s, copy_into E m ⟨n, .dynamicBuffer p⟩ off src cnt = .ok u s →
      s.2 = ⟨n, .dynamicBuffer p⟩ ∧
      s.1.heap = m.heap.set p (some { b with elements := place b.elements off (src.take cnt) })) := by
  constructor
  · intro s h
    simp only [copy_into, data_dynamic_excl E n hc hr, Outcome.bind] at h
    split at h
    · rename_i m2 h2
      cases h
      exact ⟨rfl, (uninitialized_copy_n_thrown h2).1⟩
    · cases h
  · intro u s h
    obtain ⟨m', e, hh⟩ := copy_into_dynamic_excl E.calm_nothrow n off src cnt hc hr
    rw [copy_into_calm h] at e
    cases e
    exact ⟨rfl, hh⟩

/-- The destructor of the temporary of `insert`, whose block is the last cell of the heap
and exclusively owned: the cell is freed, and every cell is as it was before the
temporary was made. -/
theorem dtor_tmp_cells {m M : Mem T} {cap : Nat} {ys : List T} (j : Nat)
    (hM : M.heap = m.heap ++ [some (dynamic_buffer.mk cap 1 ys)]) (q : Nat) :
    (dtor M ⟨j, .dynamicBuffer m.heap.length⟩).heap.cell q = m.heap.cell q := by
  rw [dtor_heap]
  show (M.heap.release m.heap.length).cell q = _
  rw [Heap.cell_release, hM, Heap.cell_append]
  by_cases hq : q = m.heap.length
  · subst hq
    simp [Heap.cell_ge (le_refl _)]
  · simp [hq]

theorem cells_of_heap_eq {m m' : Mem T} (h : m'.heap = m.heap) (q : Nat) :
    m'.heap.cell q = m.heap.cell q := by rw [h]

/-- The swap walk of `insert` on exclusively owned storage returns when `std::swap` does
not copy, or when there is nothing to walk. -/
theorem insert_walk_any {E : Env} (ind : Nat) :
    ∀ (i : Nat) (m : Mem T) (v : socow_vector T), Owned m v →
      E.swapCopies = false ∨ i = ind →
      ∃ s, insert_walk E ind i (m, v) = .ok () s ∧ Owned s.1 s.2 := by
  intro i
  induction i with
  | zero =>
    intro m v hO _
    exact ⟨(m, v), rfl, hO⟩
  | succ i ih =>
    intro m v hO h
    by_cases hi : i + 1 = ind
    · exact ⟨(m, v), by simp [insert_walk, hi], hO⟩
    · have hs : E.swapCopies = false := by
        cases h with
        | inl h => exact h
        | inr h => exact absurd h hi
      have hsw : ∀ m0 : Mem T, std_swap E m0 = .ok () m0 := by
        intro m0
        simp [std_swap, hs]
      have e1 : swap_data E (m, v) (i + 1) i =
          .ok () (write_data m v (exchange (const_data m v) (i + 1) i)) := by
        simp only [swap_data, data_owned E hO, Outcome.bind, hsw]
      have hO1 : Owned (write_data m v (exchange (const_data m v) (i + 1) i)).1
          (write_data m v (exchange (const_data m v) (i + 1) i)).2 :=
        Owned_put hO rfl
      obtain ⟨s, e2, hO2⟩ := ih _ _ hO1 (Or.inl hs)
      refine ⟨s, ?_, hO2⟩
      simp only [insert_walk, hi, if_false, e1, Outcome.bind]
      exact e2

/-- The in-place branch of `insert` leaves the container and the heap as they were when
it exits by an exception, provided `std::swap` does not copy, or the position is the end,
or the copy that fails is the construction of the new element. -/
theorem insert_in_place_thrown {E : Env} {m : Mem T} {v : socow_vector T} (hO : Owned m v)
    {k : Nat} (x : T)
    (hsw : E.swapCopies = false ∨ k = size v ∨ E.copyThrows m.copies = true)
    {s : Mem T × socow_vector T} (h : insert_in_place E m v k x = .thrown s) :
    s.2 = v ∧ s.1.heap = m.heap := by
  simp only [insert_in_place, data_owned E hO, Outcome.bind] at h
  split at h
  · rename_i m2 h2
    cases h
    exact ⟨rfl, copy_construct_heap _ h2⟩
  · rename_i u2 m2 h2
    exfalso
    have hsw2 : E.swapCopies = false ∨ k = size v := by
      rcases hsw with h1 | h1 | h1
      · exact Or.inl h1
      · exact Or.inr h1
      · simp [copy_construct, h1] at h2
    have hh2 : m2.heap = m.heap := copy_construct_heap _ h2
    have hO3 : Owned (write_data m2 v (place (const_data m2 v) (size v) [x])).1
        ({ (write_data m2 v (place (const_data m2 v) (size v) [x])).2 with
          SZ := (write_data m2 v (place (const_data m2 v) (size v) [x])).2.SZ + 1 } :
          socow_vector T) :=
      Owned_set_SZ _ (Owned_put ((Owned_congr v hh2).mpr hO) rfl)
    have hsz : size ({ (write_data m2 v (place (const_data m2 v) (size v) [x])).2 with
          SZ := (write_data m2 v (place (const_data m2 v) (size v) [x])).2.SZ + 1 } :
          socow_vector T) - 1 = size v := by
      simp [size, write_data]
    obtain ⟨s5, e5, hO5⟩ := insert_walk_any (E := E) k (size v) _ _ hO3
      (hsw2.imp id (fun hk => hk.symm))
    rw [hsz, e5] at h
    simp only [data_owned E hO5] at h
    cases h

theorem insert_in_place_end_ok {E : Env} {m : Mem T} {v : socow_vector T} (hO : Owned m v)
    (hl : (const_data m v).length = size v) (x : T) {i : Nat}
    {s : Mem T × socow_vector T} (h : insert_in_place E m v (size v) x = .ok i s) :
    s.2 = { v.with_elems (const_data m v ++ [x]) with SZ := v.SZ + 1 } ∧
      s.1.heap = m.heap.put v (const_data m v ++ [x]) := by
  obtain ⟨m', e, hh⟩ := insert_in_place_owned E.calm_nothrow hO hl (le_refl (size v)) x
  rw [insert_in_place_calm h] at e
  cases e
  have hi : inserted (const_data m v) (size v) x = const_data m v ++ [x] := by
    rw [← hl, inserted_end]
  rw [hi] at hh
  exact ⟨by rw [hi], hh⟩

/-- The call `clear()` on an inline container returns, whatever the element type does. -/
theorem clear_static_any (E : Env) (m : Mem T) {n : Nat} {buf : List T} (hl : buf.length = n) :
    ∃ m', clear E m ⟨n, .staticBuffer buf⟩ = .ok () (m', ⟨0, .staticBuffer []⟩) ∧
      m'.heap = m.heap := by
  by_cases hn : n = 0
  · subst hn
    have hb : buf = [] := List.length_eq_zero.mp hl
    subst hb
    exact ⟨m, by simp [clear, erase, begin_const, end_const, size, Outcome.bind], rfl⟩
  · obtain ⟨n', rfl⟩ : ∃ n', n = n' + 1 := ⟨n - 1, by omega⟩
    have hO : Owned m (⟨n' + 1, .staticBuffer buf⟩ : socow_vector T) := Owned_static
    obtain ⟨m2, e2, hh2⟩ := pop_back_n_owned E (n' + 1) m ⟨n' + 1, .staticBuffer buf⟩ hO
      (by simpa [const_data] using hl) (le_refl _)
    have hv2 : ({ (⟨n' + 1, .staticBuffer buf⟩ : socow_vector T).with_elems
        ((const_data m (⟨n' + 1, .staticBuffer buf⟩ : socow_vector T)).take (n' + 1 - (n' + 1)))
        with SZ := n' + 1 - (n' + 1) } : socow_vector T) = ⟨0, .staticBuffer []⟩ := by
      simp [socow_vector.with_elems]
    rw [hv2] at e2
    refine ⟨m2, ?_, ?_⟩
    · simp only [clear, erase, begin_const, end_const, size, Nat.sub_zero, Nat.succ_ne_zero,
        if_false, hO.exclusive, if_true, erase_shift, Nat.zero_add, Nat.lt_irrefl,
        Outcome.bind, e2, data_static]
    · rw [hh2]
      rfl

theorem swap_empty_static_dynamic (E : Env) (m : Mem T) (j q : Nat) :
    swap E m ⟨0, .staticBuffer []⟩ ⟨j, .dynamicBuffer q⟩ false =
      .ok () (destroy_n m 0, ⟨j, .dynamicBuffer q⟩, ⟨0, .staticBuffer []⟩) := by
  simp [swap, swap_static_dynamic, uninitialized_copy_n, uninitialized_copy_loop, size]

theorem swap_dynamic_dynamic (E : Env) (m : Mem T) (i p j q : Nat) :
    swap E m ⟨i, .dynamicBuffer p⟩ ⟨j, .dynamicBuffer q⟩ false =
      .ok () (m, ⟨j, .dynamicBuffer q⟩, ⟨i, .dynamicBuffer p⟩) := by
  simp [swap]

end Socow
namespace Socow
variable {T : Type}

theorem realloc_capacity {E : Env} {m : Mem T} {v : socow_vector T} (hv : WF E m v)
    (hS : 1 ≤ E.SMALL_SIZE ∨ v.is_static = false) {k : Nat} (hk : k ≤ size v)
    (hb : (exclusive m v && decide (size v < capacity E m v)) = false) :
    E.SMALL_SIZE <
        (if size v = capacity E m v then 2 * capacity E m v else capacity E m v) ∧
      k < (if size v = capacity E m v then 2 * capacity E m v else capacity E m v) := by
  have hle := hv.size_le_capacity
  have hpos : E.SMALL_SIZE < capacity E m v ∨
      (E.SMALL_SIZE = capacity E m v ∧ 1 ≤ E.SMALL_SIZE ∧ size v = capacity E m v) := by
    obtain ⟨n, st⟩ := v
    cases st with
    | staticBuffer buf =>
      right
      have h1 : 1 ≤ E.SMALL_SIZE := by
        cases hS with
        | inl h => exact h
        | inr h => cases h
      refine ⟨rfl, h1, ?_⟩
      simp [exclusive, socow_vector.is_static] at hb
      omega
    | dynamicBuffer p =>
      left
      obtain ⟨b, hc, _, _, hsm, _⟩ := WF_dynamic.mp hv
      rw [capacity_of_cell E hc]
      exact hsm
  split <;> omega

/-- The reallocating branch of `insert`, whatever throws: the call returns or exits by
an exception within one nested call, and an exit by exception leaves the container and
every heap cell as they were. -/
theorem insert_realloc_any {E : Env} {m : Mem T} {v : socow_vector T} (hv : WF E m v)
    (hS : 1 ≤ E.SMALL_SIZE ∨ v.is_static = false) {k : Nat} (hk : k ≤ size v) (x : T)
    (fuel : Nat) (hb : (exclusive m v && decide (size v < capacity E m v)) = false) :
    ∃ r, insert E (fuel + 2) m v k x = some r ∧
      ∀ s, r = .thrown s → s.2 = v ∧ ∀ q, s.1.heap.cell q = m.heap.cell q := by
  obtain ⟨hcap, hkc⟩ := realloc_capacity hv hS hk hb
  have hlen := hv.length_const_data
  rw [insert]
  simp only [hb, Bool.false_eq_true, if_false]
  generalize (if size v = capacity E m v then 2 * capacity E m v else capacity E m v) = cap
    at hcap hkc ⊢
  obtain ⟨hct, hco⟩ := ctor_capacity_any (E := E) m hcap
  split
  · rename_i m1 h1
    exact ⟨_, rfl, fun s hs => by cases hs; exact ⟨rfl, cells_of_heap_eq (hct _ h1)⟩⟩
  · rename_i tmp m1 h1
    obtain ⟨rfl, hh1⟩ := hco _ _ h1
    have hc1 : m1.heap.cell m.heap.length = some (dynamic_buffer.mk cap 1 []) := by
      rw [hh1, Heap.cell_append_length]
    have hd1 : const_data m1 v = const_data m v := const_data_append hv hh1
    obtain ⟨hbt, hbo⟩ := copy_into_excl_any (E := E) 0 0 (const_data m1 v) k hc1 rfl
    split
    · rename_i m2 tmp2 h2
      obtain ⟨ht, hh2⟩ := hbt _ h2
      simp only at ht hh2
      subst ht
      exact ⟨_, rfl, fun s hs => by cases hs; exact ⟨rfl, dtor_tmp_cells 0 (hh2.trans hh1)⟩⟩
    · rename_i u2 m2 tmp2 h2
      obtain ⟨ht, hh2⟩ := hbo _ _ h2
      simp only at ht hh2
      subst ht
      rw [hh1, Heap.set_append_length, hd1] at hh2
      have hlk : (place ([] : List T) 0 ((const_data m v).take k)).length = k := by
        simp [place, List.length_take, hlen]
        exact hk
      generalize place ([] : List T) 0 ((const_data m v).take k) = ys2 at hh2 hlk
      have hc2 : m2.heap.cell m.heap.length = some (dynamic_buffer.mk cap 1 ys2) := by
        rw [hh2, Heap.cell_append_length]
      have hO2 : Owned m2 (⟨0 + k, .dynamicBuffer m.heap.length⟩ : socow_vector T) :=
        Owned_dynamic.mpr ⟨_, hc2, rfl⟩
      have hcd2 : const_data m2 (⟨0 + k, .dynamicBuffer m.heap.length⟩ : socow_vector T) = ys2 :=
        const_data_of_cell hc2
      have hnest : insert E (fuel + 1) m2 ⟨0 + k, .dynamicBuffer m.heap.length⟩
          (end_const m2 ⟨0 + k, .dynamicBuffer m.heap.length⟩) x =
          some (insert_in_place E m2 ⟨0 + k, .dynamicBuffer m.heap.length⟩
            (size (⟨0 + k, .dynamicBuffer m.heap.length⟩ : socow_vector T)) x) := by
        rw [insert]
        have hcnd : (exclusive m2 (⟨0 + k, .dynamicBuffer m.heap.length⟩ : socow_vector T) &&
            decide (size (⟨0 + k, .dynamicBuffer m.heap.length⟩ : socow_vector T) <
              capacity E m2 ⟨0 + k, .dynamicBuffer m.heap.length⟩)) = true := by
          rw [hO2.exclusive, capacity_of_cell E hc2]
          simpa [size] using hkc
        simp only [hcnd, if_true, end_const]
      simp only [hnest]
      split
      · rename_i h3
        cases h3
      · rename_i m3 tmp3 h3
        have h3' := Option.some.inj h3
        obtain ⟨ht, hh3⟩ := insert_in_place_thrown hO2 x (Or.inr (Or.inl rfl)) h3'
        simp only at ht hh3
        subst ht
        exact ⟨_, rfl, fun s hs => by cases hs; exact ⟨rfl, dtor_tmp_cells _ (hh3.trans hh2)⟩⟩
      · rename_i i3 m3 tmp3 h3
        have h3' := Option.some.inj h3
        obtain ⟨ht, hh3⟩ := insert_in_place_end_ok hO2 (by rw [hcd2, hlk]; simp [size]) x h3'
        simp only at ht hh3
        rw [hcd2, hh2, Heap.put_append_length] at hh3
        have ht' : tmp3 = ⟨0 + k + 1, .dynamicBuffer m.heap.length⟩ := by
          rw [ht]
          rfl
        subst ht'
        have hc3 : m3.heap.cell m.heap.length = some (dynamic_buffer.mk cap 1 (ys2 ++ [x])) := by
          rw [hh3, Heap.cell_append_length]
        obtain ⟨hdt, hdo⟩ := copy_into_excl_any (E := E) (0 + k + 1) (k + 1)
          ((const_data m3 v).drop k) (size v - k) hc3 rfl
        split
        · rename_i m4 tmp4 h4
          obtain ⟨ht, hh4⟩ := hdt _ h4
          simp only at ht hh4
          subst ht
          exact ⟨_, rfl, fun s hs => by cases hs; exact ⟨rfl, dtor_tmp_cells _ (hh4.trans hh3)⟩⟩
        · rename_i u4 m4 tmp4 h4
          obtain ⟨ht, hh4⟩ := hdo _ _ h4
          simp only at ht hh4
          subst ht
          rw [hh3, Heap.set_append_length] at hh4
          generalize place (ys2 ++ [x]) (k + 1) (((const_data m3 v).drop k).take (size v - k)) = ys4
            at hh4
          have hc4 : m4.heap.cell m.heap.length = some (dynamic_buffer.mk cap 1 ys4) := by
            rw [hh4, Heap.cell_append_length]
          clear h1 h2 h3 h3' h4 hnest hbt hbo hdt hdo hct hco
          obtain ⟨n, st⟩ := v
          cases st with
          | staticBuffer buf =>
            obtain ⟨hl, _⟩ := WF_static.mp hv
            obtain ⟨m5, e5, hh5⟩ := clear_static_any E m4 hl
            simp only [socow_vector.is_static, if_true, e5, swap_empty_static_dynamic]
            have hc6 : (destroy_n m5 0).heap.cell m.heap.length =
                some (dynamic_buffer.mk cap 1 ys4) := by
              rw [destroy_n_heap, hh5]
              exact hc4
            rw [data_dynamic_excl E _ hc6 rfl]
            exact ⟨_, rfl, fun s hs => by cases hs⟩
          | dynamicBuffer p =>
            simp only [socow_vector.is_static, Bool.false_eq_true, if_false,
              swap_dynamic_dynamic]
            rw [data_dynamic_excl E _ hc4 rfl]
            exact ⟨_, rfl, fun s hs => by cases hs⟩

end Socow
namespace Socow
variable {T : Type}

theorem insert_inline_zero_any {E : Env} (h0 : E.SMALL_SIZE = 0) (x : T) :
    ∀ (fuel : Nat) (m : Mem T), insert E fuel m ⟨0, .staticBuffer []⟩ 0 x = none := by
  intro fuel
  induction fuel with
  | zero =>
    intro m
    rfl
  | succ fuel ih =>
    intro m
    have hb : (exclusive m (⟨0, .staticBuffer []⟩ : socow_vector T) &&
        decide (size (⟨0, .staticBuffer []⟩ : socow_vector T) <
          capacity E m ⟨0, .staticBuffer []⟩)) = false := by
      simp [capacity, h0]
    have hcap : (if size (⟨0, .staticBuffer []⟩ : socow_vector T) =
        capacity E m ⟨0, .staticBuffer []⟩ then 2 * capacity E m ⟨0, .staticBuffer []⟩
        else capacity E m ⟨0, .staticBuffer []⟩) = 0 := by
      simp [capacity, h0]
    have hct : ctor_capacity E m 0 = .ok (⟨0, .staticBuffer []⟩ : socow_vector T) m := by
      simp [ctor_capacity]
    have hci : copy_into E m (⟨0, .staticBuffer []⟩ : socow_vector T) 0
        (const_data m (⟨0, .staticBuffer []⟩ : socow_vector T)) 0 =
        .ok () (m, ⟨0, .staticBuffer []⟩) := by
      simp [copy_into, data_static, Outcome.bind, uninitialized_copy_n,
        uninitialized_copy_loop, write_data, place, const_data, socow_vector.with_elems,
        Heap.put]
    have hnest : insert E fuel m (⟨0 + 0, .staticBuffer []⟩ : socow_vector T)
        (end_const m (⟨0 + 0, .staticBuffer []⟩ : socow_vector T)) x = none := ih m
    rw [insert]
    simp only [hb, Bool.false_eq_true, if_false, hcap, hct, hci, hnest]

/-- An exit of `insert` by an exception leaves the container and every heap cell as they
were, when the exception comes from the reallocating branch, or from the construction of
the new element in the in-place branch, or when `std::swap` does not copy, or when the
position is the end. -/
theorem insert_thrown_any {E : Env} {m : Mem T} {v : socow_vector T} (hv : WF E m v)
    {k : Nat} (hk : k ≤ size v) (x : T) (fuel : Nat)
    (hw : E.swapCopies = false ∨ k = size v ∨ E.copyThrows m.copies = true ∨
      (exclusive m v && decide (size v < capacity E m v)) = false)
    {s : Mem T × socow_vector T} (h : insert E fuel m v k x = some (.thrown s)) :
    s.2 = v ∧ ∀ q, s.1.heap.cell q = m.heap.cell q := by
  cases fuel with
  | zero => simp [insert] at h
  | succ fuel =>
    by_cases hb : (exclusive m v && decide (size v < capacity E m v)) = true
    · rw [insert] at h
      simp only [hb, if_true, Option.some.injEq] at h
      have hx : exclusive m v = true := by
        simp only [Bool.and_eq_true] at hb
        exact hb.1
      have hsw : E.swapCopies = false ∨ k = size v ∨ E.copyThrows m.copies = true := by
        rcases hw with h1 | h1 | h1 | h1
        · exact Or.inl h1
        · exact Or.inr (Or.inl h1)
        · exact Or.inr (Or.inr h1)
        · rw [hb] at h1
          cases h1
      obtain ⟨h1, h2⟩ := insert_in_place_thrown (hv.Owned_of_exclusive hx) x hsw h
      exact ⟨h1, cells_of_heap_eq h2⟩
    · have hb' : (exclusive m v && decide (size v < capacity E m v)) = false := by
        simpa using hb
      by_cases hS : 1 ≤ E.SMALL_SIZE ∨ v.is_static = false
      · obtain ⟨r, e, hr⟩ := insert_realloc_any hv hS hk x fuel hb'
        rw [insert_mono x _ _ _ _ _ h] at e
        cases e
        exact hr s rfl
      · exfalso
        have h0 : E.SMALL_SIZE = 0 := by omega
        obtain ⟨n, st⟩ := v
        cases st with
        | dynamicBuffer p => exact hS (Or.inr rfl)
        | staticBuffer buf =>
          obtain ⟨hl, hle⟩ := WF_static.mp hv
          have hn : n = 0 := by omega
          subst hn
          have hbuf : buf = [] := List.length_eq_zero.mp hl
          subst hbuf
          have hk0 : k = 0 := by
            simpa [size] using hk
          subst hk0
          rw [insert_inline_zero_any h0] at h
          cases h

/-- With `SMALL_SIZE >= 1` or a heap-backed container, `insert` returns or exits by an
exception within one nested call, whatever throws. -/
theorem insert_total_any {E : Env} {m : Mem T} {v : socow_vector T} (hv : WF E m v)
    (hS : 1 ≤ E.SMALL_SIZE ∨ v.is_static = false) {k : Nat} (hk : k ≤ size v) (x : T)
    (fuel : Nat) : ∃ r, insert E (fuel + 2) m v k x = some r := by
  by_cases hb : (exclusive m v && decide (size v < capacity E m v)) = true
  · refine ⟨insert_in_place E m v k x, ?_⟩
    rw [insert]
    simp only [hb, if_true]
  · obtain ⟨r, e, _⟩ := insert_realloc_any hv hS hk x fuel (by simpa using hb)
    exact ⟨r, e⟩

end Socow
namespace Socow
variable {T : Type}

/-- The temporary of the reallocating branch of `insert` at the nested call: it is
exclusively owned and holds `k` elements in a larger block, so the nested call takes the
in-place branch. -/
theorem insert_nested_in_place {E : Env} {m : Mem T} {v : socow_vector T} (hv : WF E m v)
    (hS : 1 ≤ E.SMALL_SIZE ∨ v.is_static = false) {k : Nat} (hk : k ≤ size v) (x : T)
    (hb : (exclusive m v && decide (size v < capacity E m v)) = false)
    {tmp tmp2 : socow_vector T} {m1 m2 : Mem T} {u : Unit}
    (h1 : ctor_capacity E m
      (if size v = capacity E m v then 2 * capacity E m v else capacity E m v) = .ok tmp m1)
    (h2 : copy_into E m1 tmp 0 (const_data m1 v) k = .ok u (m2, tmp2)) (fuel : Nat) :
    exclusive m2 { tmp2 with SZ := tmp2.SZ + k } = true ∧
      size ({ tmp2 with SZ := tmp2.SZ + k } : socow_vector T) = k ∧
      k < capacity E m2 { tmp2 with SZ := tmp2.SZ + k } ∧
      insert E (fuel + 1) m2 { tmp2 with SZ := tmp2.SZ + k }
          (end_const m2 { tmp2 with SZ := tmp2.SZ + k }) x =
        some (insert_in_place E m2 { tmp2 with SZ := tmp2.SZ + k } k x) := by
  obtain ⟨hcap, hkc⟩ := realloc_capacity hv hS hk hb
  generalize (if size v = capacity E m v then 2 * capacity E m v else capacity E m v) = cap
    at hcap hkc h1
  obtain ⟨rfl, hh1⟩ := (ctor_capacity_any (E := E) m hcap).2 _ _ h1
  have hc1 : m1.heap.cell m.heap.length = some (dynamic_buffer.mk cap 1 []) := by
    rw [hh1, Heap.cell_append_length]
  obtain ⟨ht, hh2⟩ := (copy_into_excl_any (E := E) 0 0 (const_data m1 v) k hc1 rfl).2 _ _ h2
  simp only at ht hh2
  subst ht
  rw [hh1, Heap.set_append_length] at hh2
  have hc2 : m2.heap.cell m.heap.length = some (dynamic_buffer.mk cap 1
      (place ([] : List T) 0 ((const_data m1 v).take k))) := by
    rw [hh2, Heap.cell_append_length]
  have hO2 : Owned m2 (⟨0 + k, .dynamicBuffer m.heap.length⟩ : socow_vector T) :=
    Owned_dynamic.mpr ⟨_, hc2, rfl⟩
  have hcp : capacity E m2 (⟨0 + k, .dynamicBuffer m.heap.length⟩ : socow_vector T) = cap :=
    capacity_of_cell E hc2
  have hsz : size (⟨0 + k, .dynamicBuffer m.heap.length⟩ : socow_vector T) = k := by
    simp [size]
  refine ⟨hO2.exclusive, hsz, by rw [hcp]; exact hkc, ?_⟩
  have hcnd : (exclusive m2 (⟨0 + k, .dynamicBuffer m.heap.length⟩ : socow_vector T) &&
      decide (size (⟨0 + k, .dynamicBuffer m.heap.length⟩ : socow_vector T) <
        capacity E m2 ⟨0 + k, .dynamicBuffer m.heap.length⟩)) = true := by
    rw [hO2.exclusive, hcp, hsz]
    simpa using hkc
  show insert E (fuel + 1) m2 ⟨0 + k, .dynamicBuffer m.heap.length⟩
    (end_const m2 ⟨0 + k, .dynamicBuffer m.heap.length⟩) x = _
  rw [insert]
  simp only [hcnd, if_true]
  simp only [end_const, hsz]

end Socow
namespace Socow
variable {T : Type}

/-! ## The copy constructions a returning call has made -/

theorem Ran.of_eq {E : Env} {a b : Nat} (h : b = a) : Ran E a b :=
  ⟨Nat.le_of_eq h.symm, fun j h1 h2 => absurd h2 (by omega)⟩

theorem Ran.trans {E : Env} {a b c : Nat} (h1 : Ran E a b) (h2 : Ran E b c) : Ran E a c := by
  refine ⟨Nat.le_trans h1.1 h2.1, fun j hj1 hj2 => ?_⟩
  by_cases hjb : j < b
  · exact h1.2 j hj1 hjb
  · exact h2.2 j (by omega) hj2

@[simp] theorem destroy_n_copies (m : Mem T) (n : Nat) : (destroy_n m n).copies = m.copies := rfl

@[simp] theorem Mem.update_copies (m : Mem T) (p : Nat) (f : dynamic_buffer T → dynamic_buffer T) :
    (m.update p f).copies = m.copies := rfl

@[simp] theorem Mem.free_copies (m : Mem T) (p : Nat) : (m.free p).copies = m.copies := rfl

@[simp] theorem write_data_copies (m : Mem T) (v : socow_vector T) (xs : List T) :
    (write_data m v xs).1.copies = m.copies := rfl

@[simp] theorem dropDynamicBuffer_copies (m : Mem T) (p sz : Nat) :
    (dropDynamicBuffer m p sz).copies = m.copies := by
  unfold dropDynamicBuffer
  split
  · rfl
  · split <;> rfl

@[simp] theorem dtor_copies (m : Mem T) (v : socow_vector T) : (dtor m v).copies = m.copies := by
  unfold dtor
  split
  · rfl
  · exact dropDynamicBuffer_copies _ _ _

theorem copy_construct_ran {E : Env} {m m' : Mem T} {u : Unit}
    (h : copy_construct E m = .ok u m') : Ran E m.copies m'.copies := by
  unfold copy_construct at h
  split at h
  · cases h
  · rename_i ht
    cases h
    refine ⟨Nat.le_succ _, fun j h1 h2 => ?_⟩
    have hj : j = m.copies := by
      have : j < m.copies + 1 := h2
      omega
    subst hj
    simpa using ht

theorem uninitialized_copy_loop_ran {E : Env} :
    ∀ (xs : List T) (done : Nat) (m : Mem T) {ys : List T} {m' : Mem T},
      uninitialized_copy_loop E xs done m = .ok ys m' → Ran E m.copies m'.copies := by
  intro xs
  induction xs with
  | nil =>
    intro done m ys m' h
    simp only [uninitialized_copy_loop] at h
    cases h
    exact Ran.of_eq rfl
  | cons x xs ih =>
    intro done m ys m' h
    unfold uninitialized_copy_loop at h
    split at h
    · cases h
    · rename_i u1 m1 h1
      split at h
      · rename_i zs m2 h2
        cases h
        have r := (copy_construct_ran h1).trans (ih _ _ h2)
        simpa using r
      · cases h

theorem uninitialized_copy_n_ran {E : Env} {m m' : Mem T} {src ys : List T} {cnt : Nat}
    (h : uninitialized_copy_n E m src cnt = .ok ys m') : Ran E m.copies m'.copies :=
  uninitialized_copy_loop_ran _ _ _ h

theorem std_swap_ran {E : Env} {m m' : Mem T} {u : Unit}
    (h : std_swap E m = .ok u m') : Ran E m.copies m'.copies := by
  unfold std_swap at h
  split at h
  · split at h
    · cases h
    · rename_i u1 m1 h1
      cases h
      have r := copy_construct_ran h1
      simpa using r
  · cases h
    exact Ran.of_eq rfl

theorem allocate_buffer_ran {E : Env} {m m' : Mem T} {cap p : Nat}
    (h : allocate_buffer E m cap = .ok p m') : Ran E m.copies m'.copies := by
  unfold allocate_buffer at h
  split at h
  · cases h
  · cases h
    exact Ran.of_eq rfl

theorem getBufferViaCopy_ran {E : Env} {m m' : Mem T} {cap cnt p : Nat} {src : List T}
    (h : getBufferViaCopy E m cap src cnt = .ok p m') : Ran E m.copies m'.copies := by
  unfold getBufferViaCopy at h
  split at h
  · cases h
  · rename_i q m1 h1
    split at h
    · cases h
    · rename_i ys m2 h2
      cases h
      have r := (allocate_buffer_ran h1).trans (uninitialized_copy_n_ran h2)
      simpa using r

theorem ctor_capacity_ran {E : Env} {m m' : Mem T} {cap : Nat} {v' : socow_vector T}
    (h : ctor_capacity E m cap = .ok v' m') : Ran E m.copies m'.copies := by
  unfold ctor_capacity at h
  split at h
  · cases h
    exact Ran.of_eq rfl
  · split at h
    · cases h
    · rename_i q m1 h1
      cases h
      have r := allocate_buffer_ran h1
      simpa using r

theorem unshare_ran {E : Env} {m : Mem T} {v : socow_vector T} {u : Unit}
    {s : Mem T × socow_vector T} (h : unshare E m v = .ok u s) :
    Ran E m.copies s.1.copies := by
  unfold unshare at h
  split at h
  · cases h
    exact Ran.of_eq rfl
  · split at h
    · cases h
    · rename_i q m1 h1
      cases h
      have r := getBufferViaCopy_ran h1
      simpa using r

theorem data_ran {E : Env} {m : Mem T} {v : socow_vector T} {u : Unit}
    {s : Mem T × socow_vector T} (h : data E m v = .ok u s) : Ran E m.copies s.1.copies := by
  unfold data at h
  split at h
  · exact unshare_ran h
  · cases h
    exact Ran.of_eq rfl

theorem swap_data_ran {E : Env} {s s' : Mem T × socow_vector T} {i j : Nat} {u : Unit}
    (h : swap_data E s i j = .ok u s') : Ran E s.1.copies s'.1.copies := by
  unfold swap_data at h
  obtain ⟨u1, s1, h1, h⟩ := Outcome.bind_eq_ok h
  obtain ⟨u2, s2, h2, h⟩ := Outcome.bind_eq_ok h
  split at h
  · cases h
  · rename_i u3 m3 h3
    cases h
    have r := (data_ran h1).trans ((data_ran h2).trans (std_swap_ran h3))
    simpa using r

theorem insert_walk_ran {E : Env} (ind : Nat) :
    ∀ (i : Nat) (s : Mem T × socow_vector T) {u : Unit} {s' : Mem T × socow_vector T},
      insert_walk E ind i s = .ok u s' → Ran E s.1.copies s'.1.copies := by
  intro i
  induction i with
  | zero =>
    intro s u s' h
    simp only [insert_walk] at h
    cases h
    exact Ran.of_eq rfl
  | succ i ih =>
    intro s u s' h
    unfold insert_walk at h
    split at h
    · cases h
      exact Ran.of_eq rfl
    · obtain ⟨u1, s1, h1, h⟩ := Outcome.bind_eq_ok h
      have r := (swap_data_ran h1).trans (ih _ h)
      simpa using r

theorem insert_in_place_ran {E : Env} {m : Mem T} {v : socow_vector T} {pos : Nat} {x : T}
    {k : Nat} {s : Mem T × socow_vector T} (h : insert_in_place E m v pos x = .ok k s) :
    Ran E m.copies s.1.copies := by
  unfold insert_in_place at h
  obtain ⟨u0, s0, h0, h⟩ := Outcome.bind_eq_ok h
  obtain ⟨u1, s1, h1, h⟩ := Outcome.bind_eq_ok h
  split at h
  · cases h
  · rename_i u2 m2 h2
    obtain ⟨u5, s5, h5, h⟩ := Outcome.bind_eq_ok h
    obtain ⟨u6, s6, h6, h⟩ := Outcome.bind_eq_ok h
    cases h
    have r5 := insert_walk_ran _ _ _ h5
    have r := (data_ran h0).trans ((data_ran h1).trans ((copy_construct_ran h2).trans
      (r5.trans (data_ran h6))))
    simpa using r

theorem copy_into_ran {E : Env} {m : Mem T} {dst : socow_vector T} {off cnt : Nat}
    {src : List T} {u : Unit} {s : Mem T × socow_vector T}
    (h : copy_into E m dst off src cnt = .ok u s) : Ran E m.copies s.1.copies := by
  unfold copy_into at h
  obtain ⟨u1, s1, h1, h⟩ := Outcome.bind_eq_ok h
  split at h
  · cases h
  · rename_i ys m2 h2
    cases h
    have r := (data_ran h1).trans (uninitialized_copy_n_ran h2)
    simpa using r

theorem pop_back_ran {E : Env} {m : Mem T} {v : socow_vector T} {u : Unit}
    {s : Mem T × socow_vector T} (h : pop_back E m v = .ok u s) :
    Ran E m.copies s.1.copies := by
  unfold pop_back at h
  split at h
  · obtain ⟨k, s1, h1, h⟩ := Outcome.bind_eq_ok h
    cases h
    have r := data_ran h1
    simpa using r
  · split at h
    · cases h
    · rename_i q m1 h1
      split at h
      · cases h
        have r := getBufferViaCopy_ran h1
        simpa using r
      · cases h
        have := getBufferViaCopy_ran h1
        simpa using this

theorem pop_back_n_ran {E : Env} :
    ∀ (n : Nat) (s : Mem T × socow_vector T) {u : Unit} {s' : Mem T × socow_vector T},
      pop_back_n E n s = .ok u s' → Ran E s.1.copies s'.1.copies := by
  intro n
  induction n with
  | zero =>
    intro s u s' h
    simp only [pop_back_n] at h
    cases h
    exact Ran.of_eq rfl
  | succ n ih =>
    intro s u s' h
    unfold pop_back_n at h
    obtain ⟨u1, s1, h1, h⟩ := Outcome.bind_eq_ok h
    have r := (pop_back_ran h1).trans (ih _ h)
    simpa using r

theorem erase_shift_ran {E : Env} (cnt : Nat) :
    ∀ (fuel i : Nat) (s : Mem T × socow_vector T) {u : Unit} {s' : Mem T × socow_vector T},
      erase_shift E cnt fuel i s = .ok u s' → Ran E s.1.copies s'.1.copies := by
  intro fuel
  induction fuel with
  | zero =>
    intro i s u s' h
    simp only [erase_shift] at h
    cases h
    exact Ran.of_eq rfl
  | succ fuel ih =>
    intro i s u s' h
    unfold erase_shift at h
    split at h
    · obtain ⟨u1, s1, h1, h⟩ := Outcome.bind_eq_ok h
      have r := (swap_data_ran h1).trans (ih _ _ h)
      simpa using r
    · cases h
      exact Ran.of_eq rfl

end Socow
namespace Socow
variable {T : Type}

theorem swap_ranges_ran {E : Env} (bound : Nat) :
    ∀ (fuel i : Nat) (m : Mem T) (a b : List T) {u : Unit} {s : Mem T × List T × List T},
      swap_ranges E bound fuel i m a b = .ok u s → Ran E m.copies s.1.copies := by
  intro fuel
  induction fuel with
  | zero =>
    intro i m a b u s h
    simp only [swap_ranges] at h
    cases h
    exact Ran.of_eq rfl
  | succ fuel ih =>
    intro i m a b u s h
    unfold swap_ranges at h
    split at h
    · split at h
      · cases h
      · rename_i u1 m1 h1
        split at h
        · exact (std_swap_ran h1).trans (ih _ _ _ _ h)
        · exact (std_swap_ran h1).trans (ih _ _ _ _ h)
    · cases h
      exact Ran.of_eq rfl

theorem swap_static_ran {E : Env} {m : Mem T} {a b : socow_vector T} {sb ob : List T}
    {u : Unit} {s : Mem T × socow_vector T × socow_vector T}
    (h : swap_static E m a b sb ob = .ok u s) : Ran E m.copies s.1.copies := by
  unfold swap_static at h
  split at h
  · cases h
  · rename_i ys m1 h1
    simp only at h
    split at h
    · cases h
    · rename_i u2 m2 a2 b2 h2
      cases h
      have r := (uninitialized_copy_n_ran h1).trans (swap_ranges_ran _ _ _ _ _ _ h2)
      simpa using r

theorem swap_static_dynamic_ran {E : Env} {m : Mem T} {a b : socow_vector T} {sb : List T}
    {q : Nat} {u : Unit} {s : Mem T × socow_vector T × socow_vector T}
    (h : swap_static_dynamic E m a b sb q = .ok u s) : Ran E m.copies s.1.copies := by
  unfold swap_static_dynamic at h
  split at h
  · cases h
  · rename_i ys m1 h1
    cases h
    have r := uninitialized_copy_n_ran h1
    simpa using r

theorem swap_ran {E : Env} {m : Mem T} {a b : socow_vector T} {t : Bool}
    {u : Unit} {s : Mem T × socow_vector T × socow_vector T}
    (h : swap E m a b t = .ok u s) : Ran E m.copies s.1.copies := by
  unfold swap at h
  split at h
  · cases h
    exact Ran.of_eq rfl
  · split at h
    · split at h
      · split at h
        · rename_i u1 m1 o1 s1 h1
          cases h
          have r := swap_static_ran h1
          simpa using r
        · cases h
      · exact swap_static_ran h
    · exact swap_static_dynamic_ran h
    · split at h
      · rename_i u1 m1 o1 s1 h1
        cases h
        have r := swap_static_dynamic_ran h1
        simpa using r
      · cases h
    · cases h
      exact Ran.of_eq rfl

theorem erase_ran {E : Env} {m : Mem T} {v : socow_vector T} {first last : Nat}
    {k : Nat} {s : Mem T × socow_vector T} (h : erase E m v first last = .ok k s) :
    Ran E m.copies s.1.copies := by
  unfold erase at h
  simp only at h
  split at h
  · cases h
    exact Ran.of_eq rfl
  · split at h
    · obtain ⟨u1, s1, h1, h⟩ := Outcome.bind_eq_ok h
      obtain ⟨u2, s2, h2, h⟩ := Outcome.bind_eq_ok h
      obtain ⟨u3, s3, h3, h⟩ := Outcome.bind_eq_ok h
      cases h
      have r1 := erase_shift_ran _ _ _ _ h1
      exact r1.trans ((pop_back_n_ran _ _ h2).trans (data_ran h3))
    · split at h
      · cases h
      · rename_i tmp m1 h1
        split at h
        · cases h
        · rename_i u2 m2 tmp2 h2
          split at h
          · cases h
          · rename_i u3 m3 tmp3 h3
            split at h
            · cases h
            · rename_i u4 m4 self4 tmp4 h4
              split at h
              · cases h
              · rename_i u5 m5 self5 h5
                cases h
                have r := (ctor_capacity_ran h1).trans ((copy_into_ran h2).trans
                  ((copy_into_ran h3).trans ((swap_ran h4).trans (data_ran h5))))
                simpa using r

theorem clear_ran {E : Env} {m : Mem T} {v : socow_vector T} {u : Unit}
    {s : Mem T × socow_vector T} (h : clear E m v = .ok u s) : Ran E m.copies s.1.copies := by
  unfold clear at h
  obtain ⟨k1, s1, h1, h⟩ := Outcome.bind_eq_ok h
  cases h
  exact erase_ran h1

theorem insert_ran {E : Env} (x : T) :
    ∀ (fuel : Nat) (m : Mem T) (v : socow_vector T) (pos : Nat) {k : Nat}
      {s : Mem T × socow_vector T},
      insert E fuel m v pos x = some (.ok k s) → Ran E m.copies s.1.copies := by
  intro fuel
  induction fuel with
  | zero =>
    intro m v pos k s h
    simp [insert] at h
  | succ fuel ih =>
    intro m v pos k s h
    rw [insert] at h
    split at h
    · simp only [Option.some.injEq] at h
      exact insert_in_place_ran h
    · by_cases hst : v.is_static = true
      · simp only [hst, if_true] at h
        split at h
        · cases h
        · rename_i tmp m1 h1
          split at h
          · cases h
          · rename_i u2 m2 tmp2 h2
            split at h
            · cases h
            · cases h
            · rename_i u3 m3 tmp3 h3
              split at h
              · cases h
              · rename_i u4 m4 tmp4 h4
                split at h
                · cases h
                · rename_i u5 m5 self5 h5
                  split at h
                  · cases h
                  · rename_i u6 m6 self6 tmp6 h6
                    split at h
                    · cases h
                    · rename_i u7 m7 self7 h7
                      cases h
                      have r := (ctor_capacity_ran h1).trans ((copy_into_ran h2).trans
                        ((ih _ _ _ h3).trans ((copy_into_ran h4).trans
                          ((clear_ran h5).trans ((swap_ran h6).trans (data_ran h7))))))
                      simpa using r
      · simp only [hst, if_false] at h
        split at h
        · cases h
        · rename_i tmp m1 h1
          split at h
          · cases h
          · rename_i u2 m2 tmp2 h2
            split at h
            · cases h
            · cases h
            · rename_i u3 m3 tmp3 h3
              split at h
              · cases h
              · rename_i u4 m4 tmp4 h4
                split at h
                · cases h
                · rename_i u5 m5 self5 h5
                  cases h5
                  split at h
                  · cases h
                  · rename_i u6 m6 self6 tmp6 h6
                    split at h
                    · cases h
                    · rename_i u7 m7 self7 h7
                      cases h
                      have r := (ctor_capacity_ran h1).trans ((copy_into_ran h2).trans
                        ((ih _ _ _ h3).trans ((copy_into_ran h4).trans
                          ((swap_ran h6).trans (data_ran h7)))))
                      simpa using r

/-- An `insert` whose run without exceptions would need a copy construction that throws
under `E` exits by an exception. -/
theorem insert_fails {E : Env} {m : Mem T} {v : socow_vector T} (hv : WF E m v)
    {k : Nat} (hk : k ≤ size v) (x : T) (fuel fuel0 : Nat) {i : Nat}
    {s0 : Mem T × socow_vector T}
    (h0 : insert E.calm fuel0 m v k x = some (.ok i s0)) {j : Nat} (hj1 : m.copies ≤ j)
    (hj2 : j < s0.1.copies) (hj : E.copyThrows j = true) :
    ∃ s, insert E (fuel + 2) m v k x = some (.thrown s) := by
  have hS : 1 ≤ E.SMALL_SIZE ∨ v.is_static = false := by
    by_contra hS
    have hz : E.calm.SMALL_SIZE = 0 := by
      show E.SMALL_SIZE = 0
      omega
    obtain ⟨n, st⟩ := v
    cases st with
    | dynamicBuffer p => exact hS (Or.inr rfl)
    | staticBuffer buf =>
      rw [insert_inline_zero E.calm_nothrow hz] at h0
      cases h0
  obtain ⟨r, e⟩ := insert_total_any hv hS hk x fuel
  cases r with
  | thrown s => exact ⟨s, e⟩
  | ok i' s' =>
    exfalso
    have e1 := insert_mono_add x fuel0 _ _ _ _ _ (insert_calm x _ _ _ _ e)
    have e2 := insert_mono_add x (fuel + 2) _ _ _ _ _ h0
    rw [Nat.add_comm fuel0 (fuel + 2), e1] at e2
    cases e2
    have hr := (insert_ran x _ _ _ _ e).2 j hj1 hj2
    rw [hj] at hr
    cases hr

end Socow
namespace Socow
variable {T : Type}

/-! ## The bytes asked of `operator new`, and the elements destroyed -/

@[simp] theorem destroy_n_sizes (m : Mem T) (n : Nat) : (destroy_n m n).sizes = m.sizes := rfl

@[simp] theorem Mem.update_sizes (m : Mem T) (p : Nat) (f : dynamic_buffer T → dynamic_buffer T) :
    (m.update p f).sizes = m.sizes := rfl

@[simp] theorem Mem.free_sizes (m : Mem T) (p : Nat) : (m.free p).sizes = m.sizes := rfl

@[simp] theorem Mem.update_destroyed (m : Mem T) (p : Nat)
    (f : dynamic_buffer T → dynamic_buffer T) : (m.update p f).destroyed = m.destroyed := rfl

@[simp] theorem dropDynamicBuffer_sizes (m : Mem T) (p sz : Nat) :
    (dropDynamicBuffer m p sz).sizes = m.sizes := by
  unfold dropDynamicBuffer
  split
  · rfl
  · split <;> rfl

@[simp] theorem dtor_sizes (m : Mem T) (v : socow_vector T) : (dtor m v).sizes = m.sizes := by
  unfold dtor
  split
  · rfl
  · exact dropDynamicBuffer_sizes _ _ _

theorem copy_construct_ok_frame {E : Env} {m m' : Mem T} {u : Unit}
    (h : copy_construct E m = .ok u m') :
    m'.heap = m.heap ∧ m'.sizes = m.sizes ∧ m'.destroyed = m.destroyed := by
  unfold copy_construct at h
  split at h
  · cases h
  · cases h
    exact ⟨rfl, rfl, rfl⟩

theorem uninitialized_copy_loop_ok_frame {E : Env} :
    ∀ (xs : List T) (done : Nat) (m : Mem T) {ys : List T} {m' : Mem T},
      uninitialized_copy_loop E xs done m = .ok ys m' →
      ys = xs ∧ m'.heap = m.heap ∧ m'.sizes = m.sizes ∧ m'.destroyed = m.destroyed := by
  intro xs
  induction xs with
  | nil =>
    intro done m ys m' h
    simp only [uninitialized_copy_loop] at h
    cases h
    exact ⟨rfl, rfl, rfl, rfl⟩
  | cons x xs ih =>
    intro done m ys m' h
    simp only [uninitialized_copy_loop] at h
    split at h
    · cases h
    · rename_i u m1 h1
      obtain ⟨a1, a2, a3⟩ := copy_construct_ok_frame h1
      split at h
      · rename_i zs m2 h2
        cases h
        obtain ⟨b1, b2, b3, b4⟩ := ih (done + 1) m1 h2
        exact ⟨by rw [b1], by rw [b2, a1], by rw [b3, a2], by rw [b4, a3]⟩
      · cases h

theorem uninitialized_copy_n_ok_frame {E : Env} {m m' : Mem T} {src ys : List T} {cnt : Nat}
    (h : uninitialized_copy_n E m src cnt = .ok ys m') :
    ys = src.take cnt ∧ m'.heap = m.heap ∧ m'.sizes = m.sizes ∧ m'.destroyed = m.destroyed :=
  uninitialized_copy_loop_ok_frame _ 0 m h

/-- What a returning `getBufferViaCopy` has done, whatever the element type and the
allocator do elsewhere: one block at the end of the heap, holding the copies, in an
allocation of the byte count computed in `size_t`; nothing destroyed. -/
theorem getBufferViaCopy_ok_any {E : Env} {m m' : Mem T} {cap p : Nat} {src : List T}
    {cnt : Nat} (h : getBufferViaCopy E m cap src cnt = .ok p m') :
    p = m.heap.length ∧ m'.heap = m.heap ++ [some (dynamic_buffer.mk cap 1 (src.take cnt))] ∧
      m'.sizes = m.sizes ++ [(sizeof_dynamic_buffer + E.sizeof_value * cap) % SIZE_MODULUS] ∧
      m'.destroyed = m.destroyed := by
  simp only [getBufferViaCopy, allocate_buffer] at h
  split at h
  · cases h
  · rename_i nb m1 h1
    split at h1
    · cases h1
    · cases h1
      split at h
      · cases h
      · rename_i ys m2 h2
        cases h
        obtain ⟨a1, a2, a3, a4⟩ := uninitialized_copy_n_ok_frame h2
        refine ⟨rfl, ?_, ?_, ?_⟩
        · simp [Mem.update, a2, a1, Heap.upd, Heap.cell_append_length]
        · simp [a3]
        · simp [a4]

theorem cell_after_getBufferViaCopy {m m' : Mem T} {cap : Nat} {xs : List T} {p : Nat}
    {b : dynamic_buffer T} (hh : m'.heap = m.heap ++ [some (dynamic_buffer.mk cap 1 xs)])
    (hc : m.heap.cell p = some b) : m'.heap.cell p = some b := by
  rw [hh, Heap.cell_append_lt (Heap.cell_some_lt hc)]
  exact hc

/-- The growing branch of `reserve` on an inline container, whenever it returns. -/
theorem reserve_static_grow_any {E : Env} {m : Mem T} {k n : Nat} {buf : List T}
    (hn : E.SMALL_SIZE < n) {s : Mem T × socow_vector T}
    (h : reserve E m ⟨k, .staticBuffer buf⟩ n = .ok () s) :
    s.2 = ⟨k, .dynamicBuffer m.heap.length⟩ ∧
      s.1.heap = m.heap ++ [some (dynamic_buffer.mk n 1 (buf.take k))] ∧
      s.1.sizes = m.sizes ++ [(sizeof_dynamic_buffer + E.sizeof_value * n) % SIZE_MODULUS] := by
  simp only [reserve, Nat.not_le.mpr hn, if_false, size] at h
  split at h
  · cases h
  · rename_i nb m1 h1
    cases h
    obtain ⟨a1, a2, a3, _⟩ := getBufferViaCopy_ok_any h1
    subst a1
    exact ⟨rfl, a2, a3⟩

/-- The growing branch of `reserve` on a heap-backed container, whenever it returns:
the last owner of the old block destroys exactly `size()` elements. -/
theorem reserve_dynamic_grow_any {E : Env} {m : Mem T} {k p n : Nat} {b : dynamic_buffer T}
    (hc : m.heap.cell p = some b) (hn : E.SMALL_SIZE < n)
    (hcond : (b.cntRef = 1 ∧ b.capacity < n) ∨ (1 < b.cntRef ∧ k < n))
    {s : Mem T × socow_vector T} (h : reserve E m ⟨k, .dynamicBuffer p⟩ n = .ok () s) :
    s.2 = ⟨k, .dynamicBuffer m.heap.length⟩ ∧
      s.1.heap = (m.heap ++ [some (dynamic_buffer.mk n 1 (b.elements.take k))]).release p ∧
      s.1.sizes = m.sizes ++ [(sizeof_dynamic_buffer + E.sizeof_value * n) % SIZE_MODULUS] ∧
      (b.cntRef = 1 → s.1.destroyed = m.destroyed + k) := by
  have hcap : capacity E m (⟨k, .dynamicBuffer p⟩ : socow_vector T) = b.capacity :=
    capacity_of_cell E hc
  have h1 : n > E.SMALL_SIZE ∧
      ((b.cntRef = 1 ∧ b.capacity < n) ∨ (b.cntRef > 1 ∧ k < n)) := ⟨hn, hcond⟩
  simp only [reserve, Mem.buf_of_cell hc, hcap, size] at h
  rw [if_pos h1] at h
  split at h
  · cases h
  · rename_i nb m1 h2
    cases h
    obtain ⟨a1, a2, a3, a4⟩ := getBufferViaCopy_ok_any h2
    subst a1
    refine ⟨rfl, by rw [dropDynamicBuffer_heap, a2], by simp [a3], ?_⟩
    intro hr
    rw [((dropDynamicBuffer_cell (cell_after_getBufferViaCopy a2 hc) k).1 hr).2, a4]

end Socow
namespace Socow
variable {T : Type}

/-! ## What a call that exits by an exception leaves behind -/

theorem Outcome.bind_eq_thrown {α β σ : Type} {o : Outcome α σ} {f : α → σ → Outcome β σ}
    {s : σ} (h : o.bind f = .thrown s) :
    o = .thrown s ∨ ∃ a s1, o = .ok a s1 ∧ f a s1 = .thrown s := by
  cases o with
  | ok a s1 => exact Or.inr ⟨a, s1, rfl, h⟩
  | thrown s1 =>
    simp only [Outcome.bind] at h
    cases h
    exact Or.inl rfl

theorem WF_cells {E : Env} {m m' : Mem T} (v : socow_vector T)
    (h : ∀ q, m'.heap.cell q = m.heap.cell q) : WF E m' v ↔ WF E m v := by
  obtain ⟨n, st⟩ := v
  cases st with
  | staticBuffer buf => simp [WF_static]
  | dynamicBuffer p => simp [WF_dynamic, h]

theorem points_at_with_elems (v : socow_vector T) (xs : List T) (k q : Nat) :
    ({ v.with_elems xs with SZ := k } : socow_vector T).points_at q = v.points_at q := by
  obtain ⟨n, st⟩ := v
  cases st <;> rfl

theorem with_elems_same_SZ (v : socow_vector T) (xs : List T) :
    ({ v.with_elems xs with SZ := v.SZ } : socow_vector T) = v.with_elems xs := by
  obtain ⟨n, st⟩ := v
  cases st <;> rfl

theorem Aftermath.of_same {E : Env} {m m' : Mem T} {v : socow_vector T} (hv : WF E m v)
    (hpos : ∀ q b, m.heap.cell q = some b → 1 ≤ b.cntRef)
    (h : ∀ q, m'.heap.cell q = m.heap.cell q) : Aftermath E m v m' v := by
  refine ⟨(WF_cells v h).mpr hv, fun _ => rfl, fun q => ?_⟩
  rw [h q]
  exact CellStep.refl _ (fun b hb => hpos q b hb)

theorem Aftermath.of_in_place {E : Env} {m m' : Mem T} {v : socow_vector T} (hv : WF E m v)
    (hpos : ∀ q b, m.heap.cell q = some b → 1 ≤ b.cntRef) (hO : Owned m v) {xs : List T}
    (hlen : xs.length ≤ capacity E m v) (hh : m'.heap = m.heap.put v xs) :
    Aftermath E m v m' { v.with_elems xs with SZ := xs.length } := by
  have he : Effect E m v m' { v.with_elems xs with SZ := xs.length } xs :=
    .in_place hO hlen rfl hh
  refine ⟨(put_facts hv hO hh hlen).1, fun q => points_at_with_elems v xs _ q, fun q => ?_⟩
  have h := he.cellStep hv hpos q
  rwa [points_at_with_elems] at h

theorem data_thrown {E : Env} {m : Mem T} {v : socow_vector T} {s : Mem T × socow_vector T}
    (h : data E m v = .thrown s) : s.2 = v ∧ ∀ q, s.1.heap.cell q = m.heap.cell q := by
  unfold data at h
  split at h
  · unfold unshare at h
    split at h
    · cases h
    · split at h
      · rename_i m1 h1
        cases h
        exact ⟨rfl, (getBufferViaCopy_thrown h1).1⟩
      · cases h
  · cases h

theorem access_thrown {E : Env} {m : Mem T} {v : socow_vector T} {a : Accessor}
    {s : Mem T × socow_vector T} (h : access E m v a = .thrown s) :
    s.2 = v ∧ ∀ q, s.1.heap.cell q = m.heap.cell q := by
  unfold access at h
  rcases Outcome.bind_eq_thrown h with h1 | ⟨u, s1, _, h2⟩
  · exact data_thrown h1
  · cases h2

theorem store_at_thrown {E : Env} {m : Mem T} {v : socow_vector T} {i : Nat} {x : T}
    {s : Mem T × socow_vector T} (h : store_at E m v i x = .thrown s) :
    s.2 = v ∧ ∀ q, s.1.heap.cell q = m.heap.cell q := by
  unfold store_at at h
  rcases Outcome.bind_eq_thrown h with h1 | ⟨u, s1, _, h2⟩
  · exact access_thrown h1
  · cases h2

theorem pop_back_thrown {E : Env} {m : Mem T} {v : socow_vector T} (hv : WF E m v)
    {s : Mem T × socow_vector T} (h : pop_back E m v = .thrown s) :
    s.2 = v ∧ ∀ q, s.1.heap.cell q = m.heap.cell q := by
  by_cases hx : exclusive m v = true
  · obtain ⟨m', e, _⟩ := pop_back_owned E (hv.Owned_of_exclusive hx)
    rw [e] at h
    cases h
  · unfold pop_back at h
    rw [if_neg hx] at h
    split at h
    · rename_i m1 h1
      cases h
      exact ⟨rfl, (getBufferViaCopy_thrown h1).1⟩
    · split at h <;> cases h

theorem ctor_copy_thrown {E : Env} {m m' : Mem T} {v : socow_vector T}
    (h : ctor_copy E m v = .thrown m') : m'.heap = m.heap := by
  unfold ctor_copy at h
  split at h
  · split at h
    · rename_i m1 h1
      cases h
      exact (uninitialized_copy_n_thrown h1).1
    · cases h
  · cases h

theorem std_swap_heap {E : Env} {m : Mem T} (o : Outcome Unit (Mem T))
    (h : std_swap E m = o) : o.state.heap = m.heap := by
  unfold std_swap at h
  split at h
  · split at h
    · rename_i m1 h1
      subst h
      exact copy_construct_heap _ h1
    · rename_i u m1 h1
      subst h
      exact copy_construct_heap (.ok u m1) h1
  · subst h
    rfl

/-- One `std::swap` of two elements of an exclusively owned storage, however it ends:
the storage holds a list of the same length. -/
theorem swap_data_any {E : Env} {m : Mem T} {v : socow_vector T} (hO : Owned m v) (i j : Nat)
    (o : Outcome Unit (Mem T × socow_vector T)) (h : swap_data E (m, v) i j = o) :
    ∃ xs, xs.length = (const_data m v).length ∧ o.state.2 = v.with_elems xs ∧
      o.state.1.heap = m.heap.put v xs := by
  simp only [swap_data, data_owned E hO, Outcome.bind] at h
  split at h
  · rename_i m3 h3
    subst h
    have hh := std_swap_heap _ h3
    simp only [Outcome.state] at hh ⊢
    exact ⟨const_data m v, rfl, (with_elems_const_data m v).symm,
      by rw [Heap.put_const_data, hh]⟩
  · rename_i u m3 h3
    subst h
    have hh := std_swap_heap _ h3
    simp only [Outcome.state] at hh ⊢
    refine ⟨exchange (const_data m3 v) i j, ?_, rfl, ?_⟩
    · rw [length_exchange, const_data_congr v hh]
    · simp only [write_data, hh]

theorem put_after_put {m m1 m2 : Mem T} {v : socow_vector T} {xs ys : List T}
    (h1 : m1.heap = m.heap.put v xs) (h2 : m2.heap = m1.heap.put (v.with_elems xs) ys) :
    m2.heap = m.heap.put v ys ∧ (v.with_elems xs).with_elems ys = v.with_elems ys := by
  obtain ⟨n, st⟩ := v
  cases st with
  | staticBuffer buf =>
    simp only [Heap.put, socow_vector.with_elems] at h1 h2 ⊢
    exact ⟨h2.trans h1, trivial⟩
  | dynamicBuffer p =>
    simp only [Heap.put, socow_vector.with_elems] at h1 h2 ⊢
    rw [h2, h1, Heap.upd_upd_elements]
    exact ⟨rfl, trivial⟩

/-- The swap walk of `insert` on an exclusively owned storage, however it ends: the
storage holds a list of the same length, and the size is not touched. -/
theorem insert_walk_outcome {E : Env} (ind : Nat) :
    ∀ (i : Nat) (m : Mem T) (v : socow_vector T), Owned m v →
      ∀ o, insert_walk E ind i (m, v) = o →
      ∃ xs, xs.length = (const_data m v).length ∧ o.state.2 = v.with_elems xs ∧
        o.state.1.heap = m.heap.put v xs := by
  intro i
  induction i with
  | zero =>
    intro m v hO o h
    simp only [insert_walk] at h
    subst h
    exact ⟨const_data m v, rfl, (with_elems_const_data m v).symm,
      by simp [Outcome.state, Heap.put_const_data]⟩
  | succ i ih =>
    intro m v hO o h
    simp only [insert_walk] at h
    split at h
    · subst h
      exact ⟨const_data m v, rfl, (with_elems_const_data m v).symm,
        by simp [Outcome.state, Heap.put_const_data]⟩
    · cases hr : swap_data E (m, v) (i + 1) i with
      | thrown s1 =>
        obtain ⟨xs, h1, h2, h3⟩ := swap_data_any hO (i + 1) i _ hr
        rw [hr] at h
        simp only [Outcome.bind] at h
        subst h
        exact ⟨xs, h1, h2, h3⟩
      | ok u s1 =>
        obtain ⟨xs, h1, h2, h3⟩ := swap_data_any hO (i + 1) i _ hr
        obtain ⟨m1, v1⟩ := s1
        simp only [Outcome.state] at h2 h3
        subst h2
        rw [hr] at h
        simp only [Outcome.bind] at h
        obtain ⟨ys, g1, g2, g3⟩ := ih m1 _ (Owned_put hO h3) o h
        obtain ⟨k1, k2⟩ := put_after_put h3 g3
        refine ⟨ys, ?_, by rw [g2, k2], k1⟩
        rw [g1, const_data_put hO h3, h1]

/-- The shifting loop of `erase` on an exclusively owned storage, however it ends. -/
theorem erase_shift_outcome {E : Env} (cnt : Nat) :
    ∀ (fuel i : Nat) (m : Mem T) (v : socow_vector T), Owned m v →
      ∀ o, erase_shift E cnt fuel i (m, v) = o →
      ∃ xs, xs.length = (const_data m v).length ∧ o.state.2 = v.with_elems xs ∧
        o.state.1.heap = m.heap.put v xs := by
  intro fuel
  induction fuel with
  | zero =>
    intro i m v hO o h
    simp only [erase_shift] at h
    subst h
    exact ⟨const_data m v, rfl, (with_elems_const_data m v).symm,
      by simp [Outcome.state, Heap.put_const_data]⟩
  | succ fuel ih =>
    intro i m v hO o h
    simp only [erase_shift] at h
    split at h
    · cases hr : swap_data E (m, v) i (i + cnt) with
      | thrown s1 =>
        obtain ⟨xs, h1, h2, h3⟩ := swap_data_any hO i (i + cnt) _ hr
        rw [hr] at h
        simp only [Outcome.bind] at h
        subst h
        exact ⟨xs, h1, h2, h3⟩
      | ok u s1 =>
        obtain ⟨xs, h1, h2, h3⟩ := swap_data_any hO i (i + cnt) _ hr
        obtain ⟨m1, v1⟩ := s1
        simp only [Outcome.state] at h2 h3
        subst h2
        rw [hr] at h
        simp only [Outcome.bind] at h
        obtain ⟨ys, g1, g2, g3⟩ := ih (i + 1) m1 _ (Owned_put hO h3) o h
        obtain ⟨k1, k2⟩ := put_after_put h3 g3
        refine ⟨ys, ?_, by rw [g2, k2], k1⟩
        rw [g1, const_data_put hO h3, h1]
    · subst h
      exact ⟨const_data m v, rfl, (with_elems_const_data m v).symm,
        by simp [Outcome.state, Heap.put_const_data]⟩

end Socow
namespace Socow
variable {T : Type}

/-- The in-place branch of `insert` when it exits by an exception: either nothing was
changed (the construction of the new element threw), or the new element is in the
storage, `size()` is one more, and the swap walk stopped half way. -/
theorem insert_in_place_thrown_any {E : Env} {m : Mem T} {v : socow_vector T} (hO : Owned m v)
    (hl : (const_data m v).length = size v) {k : Nat} (x : T)
    {s : Mem T × socow_vector T} (h : insert_in_place E m v k x = .thrown s) :
    (s.2 = v ∧ s.1.heap = m.heap) ∨
      ∃ ys, ys.length = size v + 1 ∧ s.2 = { v.with_elems ys with SZ := ys.length } ∧
        s.1.heap = m.heap.put v ys := by
  simp only [insert_in_place, data_owned E hO, Outcome.bind] at h
  split at h
  · rename_i m2 h2
    cases h
    exact Or.inl ⟨rfl, copy_construct_heap _ h2⟩
  · rename_i u2 m2 h2
    right
    have hh2 : m2.heap = m.heap := copy_construct_heap _ h2
    have hO2 : Owned m2 v := (Owned_congr v hh2).mpr hO
    have hcd : const_data m2 v = const_data m v := const_data_congr v hh2
    have hpl : (place (const_data m2 v) (size v) [x]).length = size v + 1 := by
      rw [hcd, place_end _ _ _ hl]
      simp [hl]
    generalize place (const_data m2 v) (size v) [x] = xs0 at h hpl
    have hO3 : Owned (write_data m2 v xs0).1
        ({ (write_data m2 v xs0).2 with SZ := (write_data m2 v xs0).2.SZ + 1 } :
          socow_vector T) :=
      Owned_set_SZ _ (Owned_put hO2 rfl)
    cases hw : insert_walk E k
        (size ({ (write_data m2 v xs0).2 with SZ := (write_data m2 v xs0).2.SZ + 1 } :
          socow_vector T) - 1)
        ((write_data m2 v xs0).1,
          { (write_data m2 v xs0).2 with SZ := (write_data m2 v xs0).2.SZ + 1 }) with
    | ok u5 s5 =>
      obtain ⟨ys, g1, g2, g3⟩ := insert_walk_outcome k _ _ _ hO3 _ hw
      rw [hw] at h
      simp only [Outcome.state] at g2 g3
      have hO5 : Owned s5.1 s5.2 := by
        rw [g2]
        exact Owned_put hO3 g3
      simp only [data_owned E hO5] at h
      cases h
    | thrown s5 =>
      obtain ⟨ys, g1, g2, g3⟩ := insert_walk_outcome k _ _ _ hO3 _ hw
      rw [hw] at h
      cases h
      simp only [Outcome.state] at g2 g3
      have hcd3 : const_data (write_data m2 v xs0).1
          ({ (write_data m2 v xs0).2 with SZ := (write_data m2 v xs0).2.SZ + 1 } :
            socow_vector T) = xs0 := by
        have := @const_data_put T m2 (write_data m2 v xs0).1 v xs0 hO2 rfl
        simpa [write_data, const_data] using this
      rw [hcd3, hpl] at g1
      refine ⟨ys, g1, ?_, ?_⟩
      · rw [g2, g1]
        obtain ⟨n, st⟩ := v
        cases st <;> rfl
      · rw [g3]
        obtain ⟨n, st⟩ := v
        cases st with
        | staticBuffer buf => simp [write_data, Heap.put, socow_vector.with_elems, hh2]
        | dynamicBuffer p =>
          simp [write_data, Heap.put, socow_vector.with_elems, hh2, Heap.upd_upd_elements]

/-- An `insert` that exits by an exception leaves a well-formed container with the same
handle, and no other block is touched. -/
theorem insert_thrown_aftermath {E : Env} {m : Mem T} {v : socow_vector T} (hv : WF E m v)
    (hpos : ∀ q b, m.heap.cell q = some b → 1 ≤ b.cntRef) {k : Nat} (hk : k ≤ size v) (x : T)
    (fuel : Nat) {s : Mem T × socow_vector T} (h : insert E fuel m v k x = some (.thrown s)) :
    Aftermath E m v s.1 s.2 := by
  cases hb : (exclusive m v && decide (size v < capacity E m v)) with
  | false =>
    obtain ⟨h1, h2⟩ := insert_thrown_any hv hk x fuel (Or.inr (Or.inr (Or.inr hb))) h
    rw [h1]
    exact Aftermath.of_same hv hpos h2
  | true =>
    cases fuel with
    | zero => simp [insert] at h
    | succ fuel =>
      rw [insert] at h
      simp only [hb, if_true, Option.some.injEq] at h
      simp only [Bool.and_eq_true, decide_eq_true_eq] at hb
      have hO := hv.Owned_of_exclusive hb.1
      rcases insert_in_place_thrown_any hO hv.length_const_data x h with ⟨h1, h2⟩ | ⟨ys, g1, g2, g3⟩
      · rw [h1]
        exact Aftermath.of_same hv hpos (cells_of_heap_eq h2)
      · rw [g2]
        exact Aftermath.of_in_place hv hpos hO (by rw [g1]; exact hb.2) g3


/-- An `erase` that exits by an exception leaves a well-formed container with the same
handle and the same size; the exclusively owned storage may hold its elements in another
order (the shifting loop stopped half way), and no other block is touched. -/
theorem erase_thrown_aftermath {E : Env} {m : Mem T} {v : socow_vector T} (hv : WF E m v)
    (hpos : ∀ q b, m.heap.cell q = some b → 1 ≤ b.cntRef) {f l : Nat} (hl : l ≤ size v)
    {s : Mem T × socow_vector T} (h : erase E m v f l = .thrown s) :
    Aftermath E m v s.1 s.2 := by
  unfold erase at h
  simp only at h
  by_cases hc0 : l - f = 0
  · rw [if_pos hc0] at h
    cases h
  · rw [if_neg hc0] at h
    by_cases hx : exclusive m v = true
    · rw [if_pos hx] at h
      have hO := hv.Owned_of_exclusive hx
      have hlen := hv.length_const_data
      cases hes : erase_shift E (l - f) (size v) f (m, v) with
      | thrown s1 =>
        obtain ⟨xs, g1, g2, g3⟩ := erase_shift_outcome (l - f) _ _ _ _ hO _ hes
        rw [hes] at h
        simp only [Outcome.bind] at h
        cases h
        simp only [Outcome.state] at g2 g3
        have hxl : xs.length = v.SZ := by rw [g1, hlen]; rfl
        have e : s.2 = { v.with_elems xs with SZ := xs.length } := by
          rw [g2, hxl, with_elems_same_SZ]
        rw [e]
        exact Aftermath.of_in_place hv hpos hO (by rw [hxl]; exact hv.size_le_capacity) g3
      | ok u s1 =>
        obtain ⟨xs, g1, g2, g3⟩ := erase_shift_outcome (l - f) _ _ _ _ hO _ hes
        rw [hes] at h
        simp only [Outcome.bind] at h
        simp only [Outcome.state] at g2 g3
        obtain ⟨m1, v1⟩ := s1
        simp only at g2 g3
        subst g2
        have hO1 : Owned m1 (v.with_elems xs) := Owned_put hO g3
        have hcd1 : const_data m1 (v.with_elems xs) = xs := const_data_put hO g3
        have hsz1 : (v.with_elems xs).SZ = v.SZ := by
          obtain ⟨n, st⟩ := v
          cases st <;> rfl
        obtain ⟨m2, e2, hh2⟩ := pop_back_n_owned E (l - f) m1 (v.with_elems xs) hO1
          (by rw [hcd1, g1, hlen, hsz1]; rfl)
          (by rw [hsz1]; exact Nat.le_trans (Nat.sub_le _ _) hl)
        rw [e2] at h
        simp only at h
        have hO2 := Owned_set_SZ ((v.with_elems xs).SZ - (l - f)) (Owned_put hO1 hh2)
        rw [data_owned E hO2] at h
        cases h
    · rw [if_neg hx] at h
      obtain ⟨n, st⟩ := v
      cases st with
      | staticBuffer buf => simp [exclusive, socow_vector.is_static] at hx
      | dynamicBuffer p =>
        obtain ⟨b, hc, hlen, hle, hsm, hr1⟩ := WF_dynamic.mp hv
        have hcap : capacity E m (⟨n, .dynamicBuffer p⟩ : socow_vector T) = b.capacity :=
          capacity_of_cell E hc
        rw [hcap] at h
        obtain ⟨hct, hco⟩ := ctor_capacity_any (E := E) m hsm
        split at h
        · rename_i m1 h1
          cases h
          exact Aftermath.of_same hv hpos (cells_of_heap_eq (hct _ h1))
        · rename_i tmp m1 h1
          obtain ⟨rfl, hh1⟩ := hco _ _ h1
          have hc1 : m1.heap.cell m.heap.length = some (dynamic_buffer.mk b.capacity 1 []) := by
            rw [hh1, Heap.cell_append_length]
          obtain ⟨hbt, hbo⟩ := copy_into_excl_any (E := E) 0 0
            (const_data m1 ⟨n, .dynamicBuffer p⟩) f hc1 rfl
          split at h
          · rename_i m2 tmp2 h2
            obtain ⟨ht, hh2⟩ := hbt _ h2
            simp only at ht hh2
            subst ht
            cases h
            exact Aftermath.of_same hv hpos (dtor_tmp_cells 0 (hh2.trans hh1))
          · rename_i u2 m2 tmp2 h2
            obtain ⟨ht, hh2⟩ := hbo _ _ h2
            simp only at ht hh2
            subst ht
            rw [hh1, Heap.set_append_length] at hh2
            generalize place ([] : List T) 0
              ((const_data m1 (⟨n, .dynamicBuffer p⟩ : socow_vector T)).take f) = ys2 at hh2
            have hc2 : m2.heap.cell m.heap.length =
                some (dynamic_buffer.mk b.capacity 1 ys2) := by
              rw [hh2, Heap.cell_append_length]
            obtain ⟨hdt, hdo⟩ := copy_into_excl_any (E := E) f f
              ((const_data m2 ⟨n, .dynamicBuffer p⟩).drop (f + (l - f)))
              (size (⟨n, .dynamicBuffer p⟩ : socow_vector T) - (l - f) - f) hc2 rfl
            split at h
            · rename_i m3 tmp3 h3
              obtain ⟨ht, hh3⟩ := hdt _ h3
              simp only at ht hh3
              subst ht
              cases h
              exact Aftermath.of_same hv hpos (dtor_tmp_cells _ (hh3.trans hh2))
            · rename_i u3 m3 tmp3 h3
              obtain ⟨ht, hh3⟩ := hdo _ _ h3
              simp only at ht hh3
              subst ht
              rw [hh2, Heap.set_append_length] at hh3
              have hc3 : m3.heap.cell m.heap.length = some (dynamic_buffer.mk b.capacity 1
                  (place ys2 f (((const_data m2 (⟨n, .dynamicBuffer p⟩ : socow_vector T)).drop
                    (f + (l - f))).take
                    (size (⟨n, .dynamicBuffer p⟩ : socow_vector T) - (l - f) - f)))) := by
                rw [hh3, Heap.cell_append_length]
              simp only [swap_dynamic_dynamic] at h
              rw [data_dynamic_excl E _ hc3 rfl] at h
              cases h

theorem erase_one_thrown_aftermath {E : Env} {m : Mem T} {v : socow_vector T} (hv : WF E m v)
    (hpos : ∀ q b, m.heap.cell q = some b → 1 ≤ b.cntRef) {k : Nat} (hk : k < size v)
    {s : Mem T × socow_vector T} (h : erase_one E m v k = .thrown s) :
    Aftermath E m v s.1 s.2 :=
  erase_thrown_aftermath hv hpos hk h

theorem clear_thrown_aftermath {E : Env} {m : Mem T} {v : socow_vector T} (hv : WF E m v)
    (hpos : ∀ q b, m.heap.cell q = some b → 1 ≤ b.cntRef)
    {s : Mem T × socow_vector T} (h : clear E m v = .thrown s) :
    Aftermath E m v s.1 s.2 := by
  unfold clear at h
  rcases Outcome.bind_eq_thrown h with h1 | ⟨u, s1, _, h2⟩
  · exact erase_thrown_aftermath hv hpos (le_refl _) h1
  · cases h2


/-- The exchange loop over two inline buffers, however it ends: the heap is untouched and
both buffers keep their lengths. -/
theorem swap_ranges_outcome {E : Env} (bound : Nat) :
    ∀ (fuel i : Nat) (m : Mem T) (a b : List T) (o : Outcome Unit (Mem T × List T × List T)),
      swap_ranges E bound fuel i m a b = o →
      o.state.1.heap = m.heap ∧ o.state.2.1.length = a.length ∧
        o.state.2.2.length = b.length := by
  intro fuel
  induction fuel with
  | zero =>
    intro i m a b o h
    simp only [swap_ranges] at h
    subst h
    exact ⟨rfl, rfl, rfl⟩
  | succ fuel ih =>
    intro i m a b o h
    simp only [swap_ranges] at h
    split at h
    · split at h
      · rename_i m1 h1
        subst h
        exact ⟨std_swap_heap _ h1, rfl, rfl⟩
      · rename_i u m1 h1
        have hh : m1.heap = m.heap := std_swap_heap (.ok u m1) h1
        split at h
        · obtain ⟨g1, g2, g3⟩ := ih _ _ _ _ _ h
          exact ⟨g1.trans hh, by simpa using g2, by simpa using g3⟩
        · obtain ⟨g1, g2, g3⟩ := ih _ _ _ _ _ h
          exact ⟨g1.trans hh, g2, g3⟩
    · subst h
      exact ⟨rfl, rfl, rfl⟩

theorem length_place_grow (sb ys : List T) {s : Nat} (hs : sb.length = s) :
    (place sb s ys).length = s + ys.length := by
  simp [place, hs]

/-- The inline/inline branch of `swap` when it exits by an exception: the heap is
untouched and both containers are well-formed inline containers. -/
theorem swap_static_thrown {E : Env} {m : Mem T} {s o : Nat} {sb ob : List T}
    (hs : sb.length = s) (ho : ob.length = o) (hso : s ≤ o) (hS : o ≤ E.SMALL_SIZE)
    {r : Mem T × socow_vector T × socow_vector T}
    (h : swap_static E m ⟨s, .staticBuffer sb⟩ ⟨o, .staticBuffer ob⟩ sb ob = .thrown r) :
    r.1.heap = m.heap ∧ WF E r.1 r.2.1 ∧ WF E r.1 r.2.2 ∧
      r.2.1.is_static = true ∧ r.2.2.is_static = true := by
  simp only [swap_static, size] at h
  split at h
  · rename_i m1 h1
    cases h
    exact ⟨(uninitialized_copy_n_thrown h1).1, WF_static.mpr ⟨hs, by omega⟩,
      WF_static.mpr ⟨ho, hS⟩, rfl, rfl⟩
  · rename_i ys m1 h1
    obtain ⟨e1, e2, _⟩ := uninitialized_copy_n_ok_frame h1
    have hys : ys.length = o - s := by
      rw [e1]
      simp [List.length_take, ho]
    split at h
    · rename_i m2 a b h2
      cases h
      obtain ⟨g1, g2, g3⟩ := swap_ranges_outcome s s 0 m1 (place sb s ys) ob _ h2
      simp only [Outcome.state] at g1 g2 g3
      refine ⟨g1.trans e2, WF_static.mpr ⟨?_, hS⟩, WF_static.mpr ⟨by rw [g3, ho], hS⟩, rfl, rfl⟩
      rw [g2, length_place_grow sb ys hs, hys]
      omega
    · cases h

theorem swap_static_dynamic_thrown {E : Env} {m : Mem T} {a b : socow_vector T}
    {sb : List T} {q : Nat} {r : Mem T × socow_vector T × socow_vector T}
    (h : swap_static_dynamic E m a b sb q = .thrown r) :
    r.1.heap = m.heap ∧ r.2.1 = a ∧ r.2.2 = b := by
  simp only [swap_static_dynamic] at h
  split at h
  · rename_i m1 h1
    cases h
    exact ⟨(uninitialized_copy_n_thrown h1).1, rfl, rfl⟩
  · cases h

theorem points_at_of_static {v : socow_vector T} (h : v.is_static = true) (q : Nat) :
    v.points_at q = false := by
  obtain ⟨n, st⟩ := v
  cases st with
  | staticBuffer buf => rfl
  | dynamicBuffer p => cases h

/-- A `swap` that exits by an exception leaves the heap untouched and both containers
well-formed, each with the handle it had. -/
theorem swap_thrown {E : Env} {m : Mem T} {a b : socow_vector T} (ha : WF E m a)
    (hb : WF E m b) {t : Bool} {r : Mem T × socow_vector T × socow_vector T}
    (h : swap E m a b t = .thrown r) :
    r.1.heap = m.heap ∧ WF E r.1 r.2.1 ∧ WF E r.1 r.2.2 ∧
      (∀ q, r.2.1.points_at q = a.points_at q) ∧ (∀ q, r.2.2.points_at q = b.points_at q) := by
  unfold swap at h
  split at h
  · cases h
  · obtain ⟨na, sa⟩ := a
    obtain ⟨nb, sb⟩ := b
    cases sa with
    | staticBuffer abuf =>
      obtain ⟨hla, hSa⟩ := WF_static.mp ha
      cases sb with
      | staticBuffer bbuf =>
        obtain ⟨hlb, hSb⟩ := WF_static.mp hb
        simp only [size] at h
        split at h
        · rename_i hgt
          split at h
          · cases h
          · rename_i m1 o1 s1 h1
            cases h
            obtain ⟨g1, g2, g3, g4, g5⟩ := swap_static_thrown hlb hla (Nat.le_of_lt hgt) hSa h1
            exact ⟨g1, g3, g2, fun q => by rw [points_at_of_static g5]; rfl,
              fun q => by rw [points_at_of_static g4]; rfl⟩
        · rename_i hle
          obtain ⟨g1, g2, g3, g4, g5⟩ := swap_static_thrown hla hlb (Nat.le_of_not_lt hle) hSb h
          exact ⟨g1, g2, g3, fun q => by rw [points_at_of_static g4]; rfl,
            fun q => by rw [points_at_of_static g5]; rfl⟩
      | dynamicBuffer q =>
        simp only at h
        obtain ⟨g1, g2, g3⟩ := swap_static_dynamic_thrown h
        rw [g2, g3]
        exact ⟨g1, (WF_congr _ g1).mpr ha, (WF_congr _ g1).mpr hb, fun _ => rfl, fun _ => rfl⟩
    | dynamicBuffer p =>
      cases sb with
      | staticBuffer bbuf =>
        simp only at h
        split at h
        · cases h
        · rename_i m1 o1 s1 h1
          cases h
          obtain ⟨g1, g2, g3⟩ := swap_static_dynamic_thrown h1
          simp only at g1 g2 g3
          rw [g2, g3]
          exact ⟨g1, (WF_congr _ g1).mpr ha, (WF_congr _ g1).mpr hb, fun _ => rfl, fun _ => rfl⟩
      | dynamicBuffer q =>
        simp only at h
        cases h


theorem drop_storage_of_no_handle (h : Heap T) {v : socow_vector T}
    (hp : ∀ q, v.points_at q = false) : h.drop_storage v = h := by
  obtain ⟨n, st⟩ := v
  cases st with
  | staticBuffer buf => rfl
  | dynamicBuffer p =>
    have := hp p
    simp [socow_vector.points_at] at this

theorem ctor_copy_static_ok {E : Env} {m m1 : Mem T} {n : Nat} {buf : List T}
    {tmp : socow_vector T} (h : ctor_copy E m ⟨n, .staticBuffer buf⟩ = .ok tmp m1) :
    tmp = ⟨n, .staticBuffer (buf.take n)⟩ ∧ m1.heap = m.heap := by
  simp only [ctor_copy, size] at h
  split at h
  · cases h
  · rename_i ys m2 h2
    cases h
    obtain ⟨e1, e2, _⟩ := uninitialized_copy_n_ok_frame h2
    exact ⟨by rw [e1], e2⟩

/-- A copy assignment that exits by an exception leaves the heap untouched and the
target a well-formed container with the handle it had. -/
theorem operator_assign_thrown {E : Env} {m : Mem T} {a b : socow_vector T} (ha : WF E m a)
    (hb : WF E m b) {t : Bool} {s : Mem T × socow_vector T}
    (h : operator_assign E m a b t = .thrown s) :
    s.1.heap = m.heap ∧ WF E s.1 s.2 ∧ ∀ q, s.2.points_at q = a.points_at q := by
  unfold operator_assign at h
  split at h
  · cases h
  · obtain ⟨na, sa⟩ := a
    obtain ⟨nb, sb⟩ := b
    cases sa with
    | staticBuffer abuf =>
      obtain ⟨hla, hSa⟩ := WF_static.mp ha
      cases sb with
      | dynamicBuffer q =>
        simp only at h
        cases h
      | staticBuffer bbuf =>
        obtain ⟨hlb, hSb⟩ := WF_static.mp hb
        simp only [size] at h
        split at h
        · split at h
          · rename_i m1 h1
            cases h
            have hh := ctor_copy_thrown h1
            exact ⟨hh, (WF_congr _ hh).mpr ha, fun _ => rfl⟩
          · rename_i tmp m1 h1
            obtain ⟨rfl, hh1⟩ := ctor_copy_static_ok h1
            have ht : WF E m1 (⟨nb, .staticBuffer (bbuf.take nb)⟩ : socow_vector T) :=
              WF_static.mpr ⟨by simp [hlb], hSb⟩
            split at h
            · rename_i m2 self2 tmp2 h2
              cases h
              obtain ⟨g1, g2, g3, g4, g5⟩ := swap_thrown ((WF_congr _ hh1).mpr ha) ht h2
              simp only at g1 g2 g3 g4 g5
              have hd : (dtor m2 tmp2).heap = m2.heap := by
                rw [dtor_heap]
                exact drop_storage_of_no_handle _ (fun q => by rw [g5 q]; rfl)
              exact ⟨hd.trans (g1.trans hh1), (WF_congr _ hd).mpr g2, g4⟩
            · cases h
        · rename_i hlt
          have hlt' : na < nb := Nat.lt_of_not_le hlt
          split at h
          · rename_i m1 h1
            cases h
            have hh := (uninitialized_copy_n_thrown h1).1
            exact ⟨hh, (WF_congr _ hh).mpr ha, fun _ => rfl⟩
          · rename_i ys m1 h1
            obtain ⟨e1, hh1, _⟩ := uninitialized_copy_n_ok_frame h1
            have hys : ys.length = nb - na := by
              rw [e1]
              simp [List.length_take, hlb]
            have hpl : (place abuf na ys).length = na + (nb - na) := by
              rw [length_place_grow abuf ys hla, hys]
            split at h
            · rename_i m2 h2
              cases h
              have hh2 := (uninitialized_copy_n_thrown h2).1
              refine ⟨?_, WF_static.mpr ⟨?_, hSa⟩, fun _ => rfl⟩
              · simp only [destroy_n_heap, dtor_heap]
                exact hh2.trans hh1
              · simp [List.length_take, List.length_drop, hpl]
            · rename_i ts m2 h2
              obtain ⟨_, hh2, _⟩ := uninitialized_copy_n_ok_frame h2
              split at h
              · rename_i m3 a3 t3 h3
                cases h
                obtain ⟨g1, g2, g3⟩ := swap_ranges_outcome na na 0 m2 (place abuf na ys) ts _ h3
                simp only [Outcome.state] at g1 g2 g3
                refine ⟨?_, WF_static.mpr ⟨?_, hSa⟩, fun _ => rfl⟩
                · simp only [destroy_n_heap, dtor_heap]
                  exact g1.trans (hh2.trans hh1)
                · simp [List.length_take, List.length_drop, g2, hpl]
              · cases h
    | dynamicBuffer p =>
      cases sb with
      | staticBuffer bbuf =>
        simp only at h
        split at h
        · rename_i m1 h1
          cases h
          have hh := (uninitialized_copy_n_thrown h1).1
          exact ⟨hh, (WF_congr _ hh).mpr ha, fun _ => rfl⟩
        · cases h
      | dynamicBuffer q =>
        simp only [ctor_copy, swap_dynamic_dynamic] at h
        cases h

end Socow
namespace Socow
variable {T : Type}

theorem Aftermath.of_heap_eq {E : Env} {m m' : Mem T} {v v' : socow_vector T}
    (hpos : ∀ q b, m.heap.cell q = some b → 1 ≤ b.cntRef) (hh : m'.heap = m.heap)
    (hv' : WF E m' v') (hp : ∀ q, v'.points_at q = v.points_at q) : Aftermath E m v m' v' := by
  refine ⟨hv', hp, fun q => ?_⟩
  rw [hh]
  exact CellStep.refl _ (fun b hb => hpos q b hb)

/-- A mutator that exits by an exception leaves a well-formed container with the handle
it had; no block is allocated or freed, and only the exclusively owned storage of the
container may hold other elements. -/
theorem mutate_thrown_aftermath {E : Env} {m : Mem T} {v : socow_vector T} (hv : WF E m v)
    (hpos : ∀ q b, m.heap.cell q = some b → 1 ≤ b.cntRef) (c : Mutator T) (hpre : c.pre v)
    (fuel : Nat) {s : Mem T × socow_vector T} (h : mutate E fuel m v c = some (.thrown s)) :
    Aftermath E m v s.1 s.2 := by
  cases c with
  | push_back value =>
    simp only [mutate, push_back, Option.map_eq_some'] at h
    obtain ⟨r, h1, h2⟩ := h
    rcases Outcome.bind_eq_thrown h2 with h3 | ⟨u, s1, _, h4⟩
    · subst h3
      exact insert_thrown_aftermath hv hpos (le_refl _) value fuel h1
    · cases h4
  | pop_back =>
    simp only [mutate, Option.some.injEq] at h
    obtain ⟨h1, h2⟩ := pop_back_thrown hv h
    rw [h1]
    exact Aftermath.of_same hv hpos h2
  | insert pos value =>
    simp only [mutate, Option.map_eq_some'] at h
    obtain ⟨r, h1, h2⟩ := h
    rcases Outcome.bind_eq_thrown h2 with h3 | ⟨u, s1, _, h4⟩
    · subst h3
      exact insert_thrown_aftermath hv hpos hpre value fuel h1
    · cases h4
  | erase_one pos =>
    simp only [mutate, Option.some.injEq] at h
    rcases Outcome.bind_eq_thrown h with h3 | ⟨u, s1, _, h4⟩
    · exact erase_one_thrown_aftermath hv hpos hpre h3
    · cases h4
  | erase first last =>
    simp only [mutate, Option.some.injEq] at h
    rcases Outcome.bind_eq_thrown h with h3 | ⟨u, s1, _, h4⟩
    · exact erase_thrown_aftermath hv hpos hpre.2 h3
    · cases h4
  | clear =>
    simp only [mutate, Option.some.injEq] at h
    exact clear_thrown_aftermath hv hpos h
  | reserve newCapacity =>
    simp only [mutate, Option.some.injEq] at h
    obtain ⟨h1, h2, _⟩ := reserve_thrown h
    rw [h1]
    exact Aftermath.of_same hv hpos h2
  | shrink_to_fit =>
    simp only [mutate, Option.some.injEq] at h
    obtain ⟨h1, h2, _⟩ := shrink_to_fit_thrown h
    rw [h1]
    exact Aftermath.of_same hv hpos h2
  | store i x =>
    simp only [mutate, Option.some.injEq] at h
    obtain ⟨h1, h2⟩ := store_at_thrown h
    rw [h1]
    exact Aftermath.of_same hv hpos h2

/-- A call that exits by an exception preserves the invariant of the program state, and
it changes no heap cell except in the elements of a block that its container owns
exclusively. -/
theorem World.call_thrown {E : Env} {w w' : World T} (hw : w.Inv E) (fuel : Nat)
    (c : Call T) (h : w.call E fuel c = some (.thrown w')) :
    w'.Inv E ∧ ∀ q, ∃ D, CellStep D D (w.mem.heap.cell q) (w'.mem.heap.cell q) := by
  have hpos := hw.pos
  have hrefl : ∀ {m' : Mem T} (D : Bool) (q : Nat), m'.heap = w.mem.heap →
      CellStep D D (w.mem.heap.cell q) (m'.heap.cell q) := by
    intro m' D q hh
    rw [hh]
    exact CellStep.refl D (fun b hb => hpos q b hb)
  have key : ∀ {i : Nat} {v v' : socow_vector T} {m' : Mem T}, w.obj i = some v →
      Aftermath E w.mem v m' v' →
      World.Inv E ⟨m', w.objs.set i (some v')⟩ ∧
        ∀ q, ∃ D, CellStep D D (w.mem.heap.cell q) (m'.heap.cell q) := by
    intro i v v' m' ho hA
    have hi := World.obj_some_lt ho
    obtain ⟨h1, h2, h3⟩ := hA
    refine ⟨hw.replace hi (some v') m' (fun v2 hv2 => by cases hv2; exact h1) ?_,
      fun q => ⟨_, h3 q⟩⟩
    intro q
    rw [World.handle_obj ho hi]
    show CellStep (v.points_at q) (v'.points_at q) _ _
    rw [h2 q]
    exact h3 q
  cases c with
  | construct => simp [World.call] at h
  | copy_construct src =>
    simp only [World.call] at h
    split at h
    · cases h
    · split at h
      · cases h
      · rename_i v ho m' h1
        simp only [Option.some.injEq, Outcome.thrown.injEq] at h
        subst h
        have hh := ctor_copy_thrown h1
        exact ⟨hw.congr hh, fun q => ⟨false, hrefl false q hh⟩⟩
  | destroy i =>
    simp only [World.call] at h
    split at h <;> cases h
  | assign i j =>
    simp only [World.call] at h
    split at h
    · rename_i a b hoi hoj
      split at h
      · cases h
      · rename_i m' a' h1
        simp only [Option.some.injEq, Outcome.thrown.injEq] at h
        subst h
        have ha := hw.1 a (World.obj_mem hoi)
        have hb := hw.1 b (World.obj_mem hoj)
        obtain ⟨g1, g2, g3⟩ := operator_assign_thrown ha hb h1
        exact key hoi (Aftermath.of_heap_eq hpos g1 g2 g3)
    · cases h
  | swap i j =>
    simp only [World.call] at h
    split at h
    · rename_i a b hoi hoj
      split at h
      · cases h
      · rename_i m' a' b' h1
        simp only [Option.some.injEq, Outcome.thrown.injEq] at h
        subst h
        have ha := hw.1 a (World.obj_mem hoi)
        have hb := hw.1 b (World.obj_mem hoj)
        have hij : i ≠ j := by
          intro hij
          simp [hij, swap] at h1
        obtain ⟨g1, g2, g3, g4, g5⟩ := swap_thrown ha hb h1
        simp only at g1 g2 g3 g4 g5
        obtain ⟨k1, k2⟩ := key hoi (Aftermath.of_heap_eq hpos g1 g2 g4)
        have hi := World.obj_some_lt hoi
        obtain ⟨hj, hjb⟩ := World.obj_getElem hoj
        have hj' : j < (w.objs.set i (some a')).length := by simpa using hj
        have hget : (w.objs.set i (some a'))[j] = some b := by
          rw [List.getElem_set]
          simp only [hij, if_false]
          exact hjb
        refine ⟨k1.replace (i := j) hj' (some b') m'
          (fun v2 hv2 => by cases hv2; exact g3) ?_, k2⟩
        intro q
        rw [hget]
        show CellStep (b.points_at q) (b'.points_at q) (m'.heap.cell q) (m'.heap.cell q)
        rw [g5 q]
        exact CellStep.refl _ (fun c hc => k1.pos q c hc)
    · cases h
  | mutate i c =>
    simp only [World.call] at h
    split at h
    · cases h
    · rename_i v ho
      split at h
      · rename_i hpre
        split at h
        · cases h
        · rename_i m' v' h1
          simp only [Option.some.injEq, Outcome.thrown.injEq] at h
          subst h
          have hv := hw.1 v (World.obj_mem ho)
          exact key ho (mutate_thrown_aftermath hv hpos c hpre fuel h1)
        · cases h
      · cases h
  | access i a =>
    simp only [World.call] at h
    split at h
    · cases h
    · rename_i v ho
      split at h
      · cases h
      · rename_i m' v' h1
        simp only [Option.some.injEq, Outcome.thrown.injEq] at h
        subst h
        have hv := hw.1 v (World.obj_mem ho)
        obtain ⟨g1, g2⟩ := access_thrown h1
        simp only at g1 g2
        rw [g1]
        exact key ho (Aftermath.of_same hv hpos g2)
  | access_const i a =>
    simp only [World.call, access_const] at h
    split at h <;> cases h

/-- Every call, whether it returns or exits by an exception, preserves the invariant of
the program state. -/
theorem World.step_Inv_any {E : Env} {w w' : World T} (hw : w.Inv E) (fuel : Nat)
    (c : Call T) (h : w.step E fuel c = some w') : w'.Inv E := by
  simp only [World.step, Option.map_eq_some'] at h
  obtain ⟨o, h1, h2⟩ := h
  cases o with
  | ok u w1 =>
    cases h2
    exact World.call_ok_Inv_any hw fuel c h1
  | thrown w1 =>
    cases h2
    exact (World.call_thrown hw fuel c h1).1

/-- How one call, whether it returns or exits by an exception, changes a heap cell. -/
theorem World.step_cells {E : Env} {w w' : World T} (hw : w.Inv E)
    (fuel : Nat) (c : Call T) (h : w.step E fuel c = some w') (q : Nat) :
    ∃ D A, CellStep D A (w.mem.heap.cell q) (w'.mem.heap.cell q) := by
  simp only [World.step, Option.map_eq_some'] at h
  obtain ⟨o, h1, h2⟩ := h
  cases o with
  | ok u w1 =>
    cases h2
    exact World.call_ok_cells hw fuel c h1 q
  | thrown w1 =>
    cases h2
    obtain ⟨D, hD⟩ := (World.call_thrown hw fuel c h1).2 q
    exact ⟨D, D, hD⟩

theorem World.run_Inv_any {E : Env} (fuel : Nat) (calls : List (Call T)) :
    ∀ {w w' : World T}, w.Inv E → w.run E fuel calls = some w' → w'.Inv E := by
  induction calls with
  | nil =>
    intro w w' hw h
    simp only [World.run, Option.some.injEq] at h
    subst h
    exact hw
  | cons c cs ih =>
    intro w w' hw h
    simp only [World.run] at h
    cases hs : w.step E fuel c with
    | none => simp [hs] at h
    | some w1 =>
      simp only [hs] at h
      exact ih (World.step_Inv_any hw fuel c hs) h

/-- The invariant of the program state holds in every reachable state, whatever the
element type and the allocator do, and also after calls that exit by an exception. -/
theorem Reachable.Inv_any {E : Env} {w : World T} (h : Reachable E w) : w.Inv E := by
  obtain ⟨fuel, calls, hr⟩ := h
  exact World.run_Inv_any fuel calls (World.init_Inv E) hr

end Socow
namespace Socow
variable {T : Type}

/-! ## The elements destroyed when a container releases its block -/

theorem ctor_capacity_destroyed {E : Env} {m m1 : Mem T} {cap : Nat} {t : socow_vector T}
    (h : ctor_capacity E m cap = .ok t m1) : m1.destroyed = m.destroyed := by
  simp only [ctor_capacity, allocate_buffer] at h
  split at h
  · cases h
    rfl
  · split at h
    · cases h
    · rename_i p m2 h2
      cases h
      split at h2
      · cases h2
      · cases h2
        rfl

theorem copy_into_excl_destroyed {E : Env} {m : Mem T} {p : Nat} {b : dynamic_buffer T}
    {n off : Nat} {src : List T} {cnt : Nat} (hc : m.heap.cell p = some b) (hr : b.cntRef = 1)
    {u : Unit} {s : Mem T × socow_vector T}
    (h : copy_into E m ⟨n, .dynamicBuffer p⟩ off src cnt = .ok u s) :
    s.1.destroyed = m.destroyed := by
  simp only [copy_into, data_dynamic_excl E n hc hr, Outcome.bind] at h
  split at h
  · cases h
  · rename_i ys m2 h2
    cases h
    exact (uninitialized_copy_n_ok_frame h2).2.2.2

theorem insert_walk_at_ind (E : Env) (ind : Nat) (s : Mem T × socow_vector T) :
    insert_walk E ind ind s = .ok () s := by
  cases ind with
  | zero => rfl
  | succ i => simp [insert_walk]

theorem insert_in_place_end_destroyed {E : Env} {m : Mem T} {v : socow_vector T}
    (hO : Owned m v) (x : T) {i : Nat} {s : Mem T × socow_vector T}
    (h : insert_in_place E m v (size v) x = .ok i s) : s.1.destroyed = m.destroyed := by
  simp only [insert_in_place, data_owned E hO, Outcome.bind] at h
  split at h
  · cases h
  · rename_i u2 m2 h2
    obtain ⟨hh2, _, hd2⟩ := copy_construct_ok_frame h2
    have hO2 : Owned m2 v := (Owned_congr v hh2).mpr hO
    have hsz : size ({ (write_data m2 v (place (const_data m2 v) (size v) [x])).2 with
          SZ := (write_data m2 v (place (const_data m2 v) (size v) [x])).2.SZ + 1 } :
          socow_vector T) - 1 = size v := by
      simp [size, write_data]
    have hO3 : Owned (write_data m2 v (place (const_data m2 v) (size v) [x])).1
        ({ (write_data m2 v (place (const_data m2 v) (size v) [x])).2 with
          SZ := (write_data m2 v (place (const_data m2 v) (size v) [x])).2.SZ + 1 } :
          socow_vector T) :=
      Owned_set_SZ _ (Owned_put hO2 rfl)
    rw [hsz, insert_walk_at_ind] at h
    simp only [data_owned E hO3] at h
    cases h
    exact hd2

/-- The reallocating branch of `insert` on an exclusively owned, full block, whenever it
returns: the temporary that took the old block over is its last owner, its destructor
frees the block and destroys exactly the `size()` elements it held. -/
theorem insert_realloc_destroyed {E : Env} {m : Mem T} {n p : Nat} {b : dynamic_buffer T}
    (hv : WF E m ⟨n, .dynamicBuffer p⟩) (hc : m.heap.cell p = some b) (hr : b.cntRef = 1)
    {k : Nat} (hk : k ≤ n) (x : T) (fuel : Nat)
    (hb : (exclusive m (⟨n, .dynamicBuffer p⟩ : socow_vector T) &&
      decide (size (⟨n, .dynamicBuffer p⟩ : socow_vector T) <
        capacity E m ⟨n, .dynamicBuffer p⟩)) = false)
    {i : Nat} {s : Mem T × socow_vector T}
    (h : insert E fuel m ⟨n, .dynamicBuffer p⟩ k x = some (.ok i s)) :
    s.1.heap.cell p = none ∧ s.1.destroyed = m.destroyed + n := by
  have h := insert_mono_add x 2 fuel m _ k _ h
  obtain ⟨hcap, hkc⟩ := realloc_capacity hv (Or.inr rfl) (show k ≤ size _ from hk) hb
  have hlen := hv.length_const_data
  have hp : p < m.heap.length := Heap.cell_some_lt hc
  rw [insert] at h
  simp only [hb, Bool.false_eq_true, if_false] at h
  generalize (if size (⟨n, .dynamicBuffer p⟩ : socow_vector T) =
      capacity E m ⟨n, .dynamicBuffer p⟩ then 2 * capacity E m ⟨n, .dynamicBuffer p⟩
      else capacity E m ⟨n, .dynamicBuffer p⟩) = cap at hcap hkc h
  obtain ⟨hct, hco⟩ := ctor_capacity_any (E := E) m hcap
  split at h
  · cases h
  · rename_i tmp m1 h1
    obtain ⟨rfl, hh1⟩ := hco _ _ h1
    have hd1 := ctor_capacity_destroyed h1
    have hc1 : m1.heap.cell m.heap.length = some (dynamic_buffer.mk cap 1 []) := by
      rw [hh1, Heap.cell_append_length]
    have hcd1 : const_data m1 (⟨n, .dynamicBuffer p⟩ : socow_vector T) =
        const_data m ⟨n, .dynamicBuffer p⟩ := const_data_append hv hh1
    obtain ⟨hbt, hbo⟩ := copy_into_excl_any (E := E) 0 0
      (const_data m1 ⟨n, .dynamicBuffer p⟩) k hc1 rfl
    split at h
    · cases h
    · rename_i u2 m2 tmp2 h2
      obtain ⟨ht, hh2⟩ := hbo _ _ h2
      have hd2 := copy_into_excl_destroyed hc1 rfl h2
      simp only at ht hh2 hd2
      subst ht
      rw [hh1, Heap.set_append_length, hcd1] at hh2
      have hlk : (place ([] : List T) 0
          ((const_data m (⟨n, .dynamicBuffer p⟩ : socow_vector T)).take k)).length = k := by
        simp [place, List.length_take, hlen]
        exact hk
      generalize place ([] : List T) 0
        ((const_data m (⟨n, .dynamicBuffer p⟩ : socow_vector T)).take k) = ys2 at hh2 hlk
      have hc2 : m2.heap.cell m.heap.length = some (dynamic_buffer.mk cap 1 ys2) := by
        rw [hh2, Heap.cell_append_length]
      have hO2 : Owned m2 (⟨0 + k, .dynamicBuffer m.heap.length⟩ : socow_vector T) :=
        Owned_dynamic.mpr ⟨_, hc2, rfl⟩
      have hcd2 : const_data m2 (⟨0 + k, .dynamicBuffer m.heap.length⟩ : socow_vector T) = ys2 :=
        const_data_of_cell hc2
      have hnest : insert E (fuel + 1) m2 ⟨0 + k, .dynamicBuffer m.heap.length⟩
          (end_const m2 ⟨0 + k, .dynamicBuffer m.heap.length⟩) x =
          some (insert_in_place E m2 ⟨0 + k, .dynamicBuffer m.heap.length⟩
            (size (⟨0 + k, .dynamicBuffer m.heap.length⟩ : socow_vector T)) x) := by
        rw [insert]
        have hcnd : (exclusive m2 (⟨0 + k, .dynamicBuffer m.heap.length⟩ : socow_vector T) &&
            decide (size (⟨0 + k, .dynamicBuffer m.heap.length⟩ : socow_vector T) <
              capacity E m2 ⟨0 + k, .dynamicBuffer m.heap.length⟩)) = true := by
          rw [hO2.exclusive, capacity_of_cell E hc2]
          simpa [size] using hkc
        simp only [hcnd, if_true, end_const]
      simp only [hnest] at h
      split at h
      · cases h
      · cases h
      · rename_i i3 m3 tmp3 h3
        have h3' := Option.some.inj h3
        obtain ⟨ht, hh3⟩ := insert_in_place_end_ok hO2 (by rw [hcd2, hlk]; simp [size]) x h3'
        have hd3 := insert_in_place_end_destroyed hO2 x h3'
        simp only at ht hh3 hd3
        rw [hcd2, hh2, Heap.put_append_length] at hh3
        have ht' : tmp3 = ⟨0 + k + 1, .dynamicBuffer m.heap.length⟩ := by
          rw [ht]
          rfl
        subst ht'
        have hc3 : m3.heap.cell m.heap.length = some (dynamic_buffer.mk cap 1 (ys2 ++ [x])) := by
          rw [hh3, Heap.cell_append_length]
        obtain ⟨hdt, hdo⟩ := copy_into_excl_any (E := E) (0 + k + 1) (k + 1)
          ((const_data m3 (⟨n, .dynamicBuffer p⟩ : socow_vector T)).drop k)
          (size (⟨n, .dynamicBuffer p⟩ : socow_vector T) - k) hc3 rfl
        split at h
        · cases h
        · rename_i u4 m4 tmp4 h4
          obtain ⟨ht, hh4⟩ := hdo _ _ h4
          have hd4 := copy_into_excl_destroyed hc3 rfl h4
          simp only at ht hh4 hd4
          subst ht
          rw [hh3, Heap.set_append_length] at hh4
          generalize place (ys2 ++ [x]) (k + 1)
            (((const_data m3 (⟨n, .dynamicBuffer p⟩ : socow_vector T)).drop k).take
              (size (⟨n, .dynamicBuffer p⟩ : socow_vector T) - k)) = ys4 at hh4
          have hc4 : m4.heap.cell m.heap.length = some (dynamic_buffer.mk cap 1 ys4) := by
            rw [hh4, Heap.cell_append_length]
          have hc4p : m4.heap.cell p = some b := by
            rw [hh4, Heap.cell_append_lt hp]
            exact hc
          simp only [socow_vector.is_static, Bool.false_eq_true, if_false,
            swap_dynamic_dynamic] at h
          rw [data_dynamic_excl E _ hc4 rfl] at h
          simp only [Option.some.injEq, Outcome.ok.injEq] at h
          obtain ⟨_, hs⟩ := h
          subst hs
          obtain ⟨g1, g2⟩ := (dropDynamicBuffer_cell hc4p n).1 hr
          refine ⟨g1, ?_⟩
          show (dropDynamicBuffer m4 p n).destroyed = _
          rw [g2, hd4, hd3, hd2, hd1]


theorem cell_put_live {m m' : Mem T} {v : socow_vector T} {xs : List T}
    (hh : m'.heap = m.heap.put v xs) {q : Nat} {b : dynamic_buffer T}
    (hc : m.heap.cell q = some b) : m'.heap.cell q ≠ none := by
  rw [hh, Heap.cell_put]
  split <;> simp [hc]

/-- A returning `reserve` that frees the block of its container destroys exactly `size()`
elements. -/
theorem reserve_freed {E : Env} {m : Mem T} {k p n : Nat} {b : dynamic_buffer T}
    (hc : m.heap.cell p = some b) (hr : b.cntRef = 1) {s : Mem T × socow_vector T}
    (h : reserve E m ⟨k, .dynamicBuffer p⟩ n = .ok () s) (hn : s.1.heap.cell p = none) :
    s.1.destroyed = m.destroyed + k := by
  by_cases hg : E.SMALL_SIZE < n ∧ b.capacity < n
  · exact (reserve_dynamic_grow_any hc hg.1 (Or.inl ⟨hr, hg.2⟩) h).2.2.2 hr
  · exfalso
    have h1 : ¬ (E.SMALL_SIZE < n ∧ ((b.cntRef = 1 ∧ b.capacity < n) ∨ (1 < b.cntRef ∧ k < n))) := by
      rintro ⟨a1, ⟨_, a2⟩ | ⟨a3, _⟩⟩
      · exact hg ⟨a1, a2⟩
      · omega
    have h2 : ¬ (n ≤ E.SMALL_SIZE ∧ k ≤ E.SMALL_SIZE ∧ 1 < b.cntRef) := by omega
    rw [reserve_dynamic_same E hc h1 h2] at h
    cases h
    rw [hc] at hn
    cases hn

/-- A returning `shrink_to_fit` that frees the block of its container destroys exactly
`size()` elements. -/
theorem shrink_to_fit_freed {E : Env} {m : Mem T} {k p : Nat} {b : dynamic_buffer T}
    (hc : m.heap.cell p = some b) (hr : b.cntRef = 1) {s : Mem T × socow_vector T}
    (h : shrink_to_fit E m ⟨k, .dynamicBuffer p⟩ = .ok () s) (hn : s.1.heap.cell p = none) :
    s.1.destroyed = m.destroyed + k := by
  simp only [shrink_to_fit, size] at h
  split at h
  · split at h
    · cases h
    · rename_i nb m1 h1
      cases h
      obtain ⟨_, a2, _, a4⟩ := getBufferViaCopy_ok_any h1
      show (dropDynamicBuffer m1 p k).destroyed = _
      rw [((dropDynamicBuffer_cell (cell_after_getBufferViaCopy a2 hc) k).1 hr).2, a4]
  · split at h
    · split at h
      · cases h
      · rename_i ys m1 h1
        cases h
        obtain ⟨_, a2, _, a4⟩ := uninitialized_copy_n_ok_frame h1
        have hc1 : m1.heap.cell p = some b := by rw [a2]; exact hc
        show (dropDynamicBuffer m1 p k).destroyed = _
        rw [((dropDynamicBuffer_cell hc1 k).1 hr).2, a4]
    · cases h
      rw [hc] at hn
      cases hn

/-- A returning copy assignment that frees the block of its target destroys exactly the
`size()` elements the target held. -/
theorem operator_assign_freed {E : Env} {m : Mem T} {k p : Nat} {blk : dynamic_buffer T}
    {b : socow_vector T} (hc : m.heap.cell p = some blk) (hr : blk.cntRef = 1) {t : Bool}
    {s : Mem T × socow_vector T}
    (h : operator_assign E m ⟨k, .dynamicBuffer p⟩ b t = .ok () s)
    (hn : s.1.heap.cell p = none) : s.1.destroyed = m.destroyed + k := by
  unfold operator_assign at h
  split at h
  · cases h
    rw [hc] at hn
    cases hn
  · obtain ⟨nb, sb⟩ := b
    cases sb with
    | staticBuffer bbuf =>
      simp only [size] at h
      split at h
      · cases h
      · rename_i ys m1 h1
        cases h
        obtain ⟨_, a2, _, a4⟩ := uninitialized_copy_n_ok_frame h1
        have hc1 : m1.heap.cell p = some blk := by rw [a2]; exact hc
        show (dropDynamicBuffer m1 p k).destroyed = _
        rw [((dropDynamicBuffer_cell hc1 k).1 hr).2, a4]
    | dynamicBuffer q =>
      simp only [ctor_copy, swap_dynamic_dynamic] at h
      cases h
      simp only [dtor] at hn ⊢
      by_cases hqp : q = p
      · exfalso
        subst hqp
        have hc1 : (m.update q fun c => { c with cntRef := c.cntRef + 1 }).heap.cell q =
            some { blk with cntRef := blk.cntRef + 1 } := by
          rw [Mem.update_heap, Heap.cell_upd]
          simp [hc]
        rw [((dropDynamicBuffer_cell hc1 k).2 (by simp [hr])).1] at hn
        cases hn
      · have hc1 : (m.update q fun c => { c with cntRef := c.cntRef + 1 }).heap.cell p =
            some blk := by
          rw [Mem.update_heap, Heap.cell_upd_ne _ (Ne.symm hqp)]
          exact hc
        rw [((dropDynamicBuffer_cell hc1 k).1 hr).2]
        rfl

/-- A returning mutator that frees the block of its container destroys exactly `size()`
elements: this happens in `reserve`, in `shrink_to_fit` and in the reallocating branch of
`insert`, where the temporary that took the old block over is destroyed. -/
theorem mutate_freed {E : Env} {m : Mem T} {k p : Nat} {b : dynamic_buffer T}
    (hv : WF E m ⟨k, .dynamicBuffer p⟩) (hc : m.heap.cell p = some b) (hr : b.cntRef = 1)
    (c : Mutator T) (hpre : c.pre (⟨k, .dynamicBuffer p⟩ : socow_vector T)) (fuel : Nat)
    {s : Mem T × socow_vector T}
    (h : mutate E fuel m ⟨k, .dynamicBuffer p⟩ c = some (.ok () s))
    (hn : s.1.heap.cell p = none) : s.1.destroyed = m.destroyed + k := by
  have hO : Owned m (⟨k, .dynamicBuffer p⟩ : socow_vector T) := Owned_dynamic.mpr ⟨b, hc, hr⟩
  have hlen := hv.length_const_data
  have key : ∀ {pos : Nat} {x : T} {i : Nat}, pos ≤ k →
      insert E fuel m ⟨k, .dynamicBuffer p⟩ pos x = some (.ok i s) →
      s.1.destroyed = m.destroyed + k := by
    intro pos x i hpos hi
    cases hb : (exclusive m (⟨k, .dynamicBuffer p⟩ : socow_vector T) &&
        decide (size (⟨k, .dynamicBuffer p⟩ : socow_vector T) <
          capacity E m ⟨k, .dynamicBuffer p⟩)) with
    | false => exact (insert_realloc_destroyed hv hc hr hpos x fuel hb hi).2
    | true =>
      exfalso
      cases fuel with
      | zero => simp [insert] at hi
      | succ fuel =>
        rw [insert] at hi
        simp only [hb, if_true, Option.some.injEq] at hi
        obtain ⟨m', e, hh⟩ := insert_in_place_owned E.calm_nothrow hO hlen
          (show pos ≤ size _ from hpos) x
        rw [insert_in_place_calm hi] at e
        cases e
        exact cell_put_live hh hc hn
  cases c with
  | push_back value =>
    simp only [mutate, push_back, Option.map_eq_some'] at h
    obtain ⟨r, h1, h2⟩ := h
    obtain ⟨i, s1, h3, h4⟩ := Outcome.bind_eq_ok h2
    cases h4
    subst h3
    exact key (le_refl k) h1
  | insert pos value =>
    simp only [mutate, Option.map_eq_some'] at h
    obtain ⟨r, h1, h2⟩ := h
    obtain ⟨i, s1, h3, h4⟩ := Outcome.bind_eq_ok h2
    cases h4
    subst h3
    exact key hpre h1
  | pop_back =>
    exfalso
    simp only [mutate, Option.some.injEq] at h
    obtain ⟨m', e, hh⟩ := pop_back_owned E hO
    rw [h] at e
    cases e
    exact cell_put_live hh hc hn
  | erase_one pos =>
    exfalso
    simp only [mutate, Option.some.injEq, erase_one] at h
    obtain ⟨i, s1, h3, h4⟩ := Outcome.bind_eq_ok h
    cases h4
    obtain ⟨m', e, hh⟩ := erase_owned E.calm_nothrow hO hlen (Nat.lt_succ_self pos)
      (show pos + 1 ≤ size _ from hpre)
    rw [erase_calm h3] at e
    cases e
    exact cell_put_live hh hc hn
  | erase first last =>
    exfalso
    simp only [mutate, Option.some.injEq] at h
    obtain ⟨i, s1, h3, h4⟩ := Outcome.bind_eq_ok h
    cases h4
    by_cases hfl : first < last
    · obtain ⟨m', e, hh⟩ := erase_owned E.calm_nothrow hO hlen hfl hpre.2
      rw [erase_calm h3] at e
      cases e
      exact cell_put_live hh hc hn
    · have h0 : last - first = 0 := by omega
      simp only [erase, h0, if_true] at h3
      cases h3
      rw [hc] at hn
      cases hn
  | clear =>
    exfalso
    simp only [mutate, Option.some.injEq, clear, begin_const, end_const] at h
    obtain ⟨i, s1, h3, h4⟩ := Outcome.bind_eq_ok h
    cases h4
    by_cases hfl : 0 < size (⟨k, .dynamicBuffer p⟩ : socow_vector T)
    · obtain ⟨m', e, hh⟩ := erase_owned E.calm_nothrow hO hlen hfl (le_refl _)
      rw [erase_calm h3] at e
      cases e
      exact cell_put_live hh hc hn
    · have h0 : size (⟨k, .dynamicBuffer p⟩ : socow_vector T) - 0 = 0 := by omega
      simp only [erase, h0, if_true] at h3
      cases h3
      rw [hc] at hn
      cases hn
  | reserve newCapacity =>
    simp only [mutate, Option.some.injEq] at h
    exact reserve_freed hc hr h hn
  | shrink_to_fit =>
    simp only [mutate, Option.some.injEq] at h
    exact shrink_to_fit_freed hc hr h hn
  | store i x =>
    exfalso
    simp only [mutate, Option.some.injEq, store_at, access, data_owned E hO, Outcome.bind,
      Outcome.ok.injEq, true_and] at h
    subst h
    exact cell_put_live (m := m) (v := ⟨k, .dynamicBuffer p⟩) rfl hc hn

end Socow
namespace Socow
variable {T : Type}

theorem CellStep.freed {D A : Bool} {b : dynamic_buffer T}
    (h : CellStep D A (some b) none) : D = true ∧ b.cntRef = 1 := by
  simp only [CellStep] at h
  exact ⟨h.1, h.2.2⟩

/-- A returning call that frees a block: the block was the handle of the container the
call was made on, and exactly the `size()` elements of that container were destroyed. -/
theorem World.call_ok_freed {E : Env} {w w' : World T} (hw : w.Inv E) (fuel : Nat)
    (c : Call T) (h : w.call E fuel c = some (.ok () w')) {q : Nat} {b : dynamic_buffer T}
    (hc : w.mem.heap.cell q = some b) (hn : w'.mem.heap.cell q = none) :
    ∃ i v, w.obj i = some v ∧ v.points_at q = true ∧
      w'.mem.destroyed = w.mem.destroyed + size v := by
  have hpos := hw.pos
  cases c with
  | construct =>
    simp only [World.call, Option.some.injEq, Outcome.ok.injEq, true_and] at h
    subst h
    rw [hc] at hn
    cases hn
  | copy_construct src =>
    exfalso
    simp only [World.call] at h
    split at h
    · cases h
    · rename_i v ho
      split at h
      · rename_i v' m' h1
        simp only [Option.some.injEq, Outcome.ok.injEq, true_and] at h
        subst h
        have hv := hw.1 v (World.obj_mem ho)
        obtain ⟨m2, e, hh⟩ := ctor_copy_ok E.calm_nothrow (WF_calm.mpr hv)
        rw [ctor_copy_calm h1] at e
        cases e
        have hcs := cellStep_share hv hpos q
        rw [← hh, hc] at hcs
        simp only at hn
        rw [hn] at hcs
        have := hcs.freed.1
        cases this
      · cases h
  | destroy i =>
    simp only [World.call] at h
    split at h
    · cases h
    · rename_i v ho
      simp only [Option.some.injEq, Outcome.ok.injEq, true_and] at h
      subst h
      have hv := hw.1 v (World.obj_mem ho)
      have hcs := cellStep_drop hv hpos q
      rw [← dtor_heap, hc] at hcs
      simp only at hn
      rw [hn] at hcs
      obtain ⟨hp, hr⟩ := hcs.freed
      refine ⟨i, v, ho, hp, ?_⟩
      obtain ⟨b', hvq, hc', _⟩ := hv.points_at hp
      have hd : dtor w.mem v = dropDynamicBuffer w.mem q v.SZ := by
        rw [hvq]
        rfl
      show (dtor w.mem v).destroyed = _
      rw [hd, ((dropDynamicBuffer_cell hc v.SZ).1 hr).2]
      rfl
  | assign i j =>
    simp only [World.call] at h
    split at h
    · rename_i a b2 hoi hoj
      split at h
      · rename_i u m' a' h1
        simp only [Option.some.injEq, Outcome.ok.injEq, true_and] at h
        subst h
        simp only at hn
        have ha := hw.1 a (World.obj_mem hoi)
        have hb := hw.1 b2 (World.obj_mem hoj)
        by_cases hij : i = j
        · exfalso
          simp only [hij, decide_True, operator_assign, if_true, Outcome.ok.injEq, true_and,
            Prod.mk.injEq] at h1
          rw [← h1.1, hc] at hn
          cases hn
        · simp only [hij, decide_False] at h1
          obtain ⟨m2, e, hh⟩ := operator_assign_ok E.calm_nothrow (WF_calm.mpr ha)
            (WF_calm.mpr hb)
          rw [operator_assign_calm h1] at e
          cases e
          have hcs := cellStep_assign ha hb hpos q
          rw [← hh, hc, hn] at hcs
          obtain ⟨hp, hr⟩ := hcs.freed
          obtain ⟨b', hvq, _⟩ := ha.points_at hp
          refine ⟨i, a, hoi, hp, ?_⟩
          rw [hvq] at h1
          exact operator_assign_freed hc hr h1 hn
      · cases h
    · cases h
  | swap i j =>
    exfalso
    simp only [World.call] at h
    split at h
    · rename_i a b2 hoi hoj
      split at h
      · rename_i u m' a' b' h1
        simp only [Option.some.injEq, Outcome.ok.injEq, true_and] at h
        subst h
        simp only at hn
        have ha := hw.1 a (World.obj_mem hoi)
        have hb := hw.1 b2 (World.obj_mem hoj)
        by_cases hij : i = j
        · simp only [hij, decide_True, swap, if_true, Outcome.ok.injEq, true_and,
            Prod.mk.injEq] at h1
          rw [← h1.1, hc] at hn
          cases hn
        · simp only [hij, decide_False] at h1
          obtain ⟨m2, e, hh⟩ := swap_ok E.calm_nothrow (WF_calm.mpr ha) (WF_calm.mpr hb)
          rw [swap_calm h1] at e
          cases e
          rw [hh, hc] at hn
          cases hn
      · cases h
    · cases h
  | mutate i c =>
    simp only [World.call] at h
    split at h
    · cases h
    · rename_i v ho
      split at h
      · rename_i hpre
        split at h
        · rename_i u m' v' h1
          simp only [Option.some.injEq, Outcome.ok.injEq, true_and] at h
          subst h
          simp only at hn
          have hv := hw.1 v (World.obj_mem ho)
          have he := mutate_ok_Effect E.calm_nothrow (WF_calm.mpr hv) c hpre fuel
            (mutate_calm h1)
          have hcs := he.cellStep (WF_calm.mpr hv) hpos q
          simp only at hcs
          rw [hc, hn] at hcs
          obtain ⟨hp, hr⟩ := hcs.freed
          obtain ⟨b', hvq, _⟩ := hv.points_at hp
          refine ⟨i, v, ho, hp, ?_⟩
          rw [hvq] at h1 hpre hv
          exact mutate_freed hv hc hr c hpre fuel h1 hn
        · cases h
        · cases h
      · cases h
  | access i a =>
    exfalso
    simp only [World.call] at h
    split at h
    · cases h
    · rename_i v ho
      split at h
      · rename_i k m' v' h1
        simp only [Option.some.injEq, Outcome.ok.injEq, true_and] at h
        subst h
        simp only at hn
        have hv := hw.1 v (World.obj_mem ho)
        obtain ⟨m2, v2, e, he, _, _, _, hx⟩ := access_Effect E.calm_nothrow (WF_calm.mpr hv) a
        rw [access_calm h1] at e
        cases e
        have hcs := he.cellStep (WF_calm.mpr hv) hpos q
        rw [hc, hn] at hcs
        obtain ⟨hp, hr⟩ := hcs.freed
        obtain ⟨b', hvq, _⟩ := hv.points_at hp
        have hex : exclusive w.mem v = true := by
          rw [hvq, exclusive_dynamic hc]
          simp [hr]
        obtain ⟨hm, _⟩ := hx hex
        rw [hm, hc] at hn
        cases hn
      · cases h
  | access_const i a =>
    exfalso
    simp only [World.call, access_const] at h
    split at h
    · cases h
    · simp only [Option.some.injEq, Outcome.ok.injEq, true_and] at h
      subst h
      rw [hc] at hn
      cases hn

/-- A call, whether it returns or exits by an exception, frees a live block only as the
release of its last owner: the block was the handle of the container the call was made
on, that container was the only one pointing at it, the block held exactly `size()`
constructed elements, and exactly `size()` elements were destroyed. A call that exits by
an exception frees no block that was live before it. -/
theorem World.step_freed {E : Env} {w w' : World T} (hw : w.Inv E) (fuel : Nat)
    (c : Call T) (h : w.step E fuel c = some w') {q : Nat} {b : dynamic_buffer T}
    (hc : w.mem.heap.cell q = some b) (hn : w'.mem.heap.cell q = none) :
    w.call E fuel c = some (.ok () w') ∧
    ∃ i v, w.obj i = some v ∧ v.points_at q = true ∧ w.refs q = 1 ∧
      b.elements.length = size v ∧ w'.mem.destroyed = w.mem.destroyed + size v := by
  simp only [World.step, Option.map_eq_some'] at h
  obtain ⟨o, h1, h2⟩ := h
  cases o with
  | thrown w1 =>
    exfalso
    cases h2
    obtain ⟨D, hD⟩ := (World.call_thrown hw fuel c h1).2 q
    simp only [Outcome.state] at hn
    rw [hc, hn] at hD
    simp only [CellStep] at hD
    obtain ⟨d1, d2, _⟩ := hD
    rw [d1] at d2
    cases d2
  | ok u w1 =>
    cases h2
    simp only [Outcome.state] at hn
    obtain ⟨i, v, ho, hp, hd⟩ := World.call_ok_freed hw fuel c h1 hc hn
    obtain ⟨D, A, hcs⟩ := World.call_ok_cells hw fuel c h1 q
    rw [hc, hn] at hcs
    have hv := hw.1 v (World.obj_mem ho)
    obtain ⟨b', _, hc', hl, _⟩ := hv.points_at hp
    rw [hc] at hc'
    cases hc'
    refine ⟨h1, i, v, ho, hp, ?_, hl, hd⟩
    rw [← (hw.2 q b hc).1]
    exact hcs.freed.2

end Socow
namespace Socow
variable {T : Type}

/-! ## Blocks inside their allocations -/

theorem Mem.in_bounds_iff {E : Env} {m : Mem T} :
    m.in_bounds E ↔ m.sizes.length = m.heap.length ∧ (∀ B ∈ m.sizes, B < SIZE_MODULUS) ∧
      ∀ p b, m.heap.cell p = some b → block_bytes E b.elements.length ≤ m.bytes p := by
  unfold Mem.in_bounds
  constructor
  · rintro ⟨h1, h0, h2⟩
    exact ⟨h1, h0, fun p b hc => h2 p (Heap.cell_some_lt hc) b hc⟩
  · rintro ⟨h1, h0, h2⟩
    exact ⟨h1, h0, fun p _ b hb => h2 p b hb⟩

theorem Mem.in_bounds.bytes_lt {E : Env} {m : Mem T} (hm : m.in_bounds E) {p : Nat}
    (hp : p < m.heap.length) : m.bytes p < SIZE_MODULUS := by
  obtain ⟨h1, h0, _⟩ := hm
  have hp' : p < m.sizes.length := by rw [h1]; exact hp
  unfold Mem.bytes
  rw [List.getD_eq_getElem _ _ hp']
  exact h0 _ (List.getElem_mem hp')

theorem block_bytes_mono (E : Env) {k n : Nat} (h : k ≤ n) : block_bytes E k ≤ block_bytes E n := by
  unfold block_bytes
  exact Nat.add_le_add_left (Nat.mul_le_mul_left _ h) _

theorem Heap.cell_release_some {h : Heap T} {p q : Nat} {b' : dynamic_buffer T}
    (hc : (h.release p).cell q = some b') :
    ∃ b, h.cell q = some b ∧ b'.elements = b.elements := by
  rw [Heap.cell_release] at hc
  split at hc
  · cases hq : h.cell q with
    | none => simp [hq] at hc
    | some b =>
      simp only [hq, Option.bind] at hc
      split at hc
      · cases hc
      · cases hc
        exact ⟨b, rfl, rfl⟩
  · exact ⟨b', hc, rfl⟩

/-- A memory stays in bounds when no allocation is made and no block gets more
elements. -/
theorem Mem.in_bounds_of_cells {E : Env} {m m' : Mem T} (hm : m.in_bounds E)
    (hs : m'.sizes = m.sizes) (hl : m'.heap.length = m.heap.length)
    (hc : ∀ q b', m'.heap.cell q = some b' →
      ∃ b, m.heap.cell q = some b ∧ b'.elements.length ≤ b.elements.length) :
    m'.in_bounds E := by
  obtain ⟨h1, h0, h2⟩ := Mem.in_bounds_iff.mp hm
  refine Mem.in_bounds_iff.mpr ⟨by rw [hs, hl, h1], by rw [hs]; exact h0, fun q b' hq => ?_⟩
  obtain ⟨b, hb, hle⟩ := hc q b' hq
  have := h2 q b hb
  unfold Mem.bytes at this ⊢
  rw [hs]
  exact Nat.le_trans (block_bytes_mono E hle) this

/-- A memory stays in bounds when one block is allocated whose elements fit the bytes
asked for, and no other block gets more elements. -/
theorem Mem.in_bounds_append {E : Env} {m m' : Mem T} (hm : m.in_bounds E) {B : Nat}
    (hB : B < SIZE_MODULUS)
    (hs : m'.sizes = m.sizes ++ [B]) (hl : m'.heap.length = m.heap.length + 1)
    (hold : ∀ q b', q ≠ m.heap.length → m'.heap.cell q = some b' →
      ∃ b, m.heap.cell q = some b ∧ b'.elements.length ≤ b.elements.length)
    (hnew : ∀ b', m'.heap.cell m.heap.length = some b' → block_bytes E b'.elements.length ≤ B) :
    m'.in_bounds E := by
  obtain ⟨h1, h0, h2⟩ := Mem.in_bounds_iff.mp hm
  refine Mem.in_bounds_iff.mpr ⟨by rw [hs, hl]; simp [h1], ?_, fun q b' hq => ?_⟩
  · intro B' hB'
    rw [hs, List.mem_append] at hB'
    rcases hB' with hB' | hB'
    · exact h0 B' hB'
    · simp only [List.mem_singleton] at hB'
      rw [hB']
      exact hB
  by_cases hql : q = m.heap.length
  · subst hql
    have := hnew b' hq
    unfold Mem.bytes
    rw [hs, ← h1]
    simpa using this
  · obtain ⟨b, hb, hle⟩ := hold q b' hql hq
    have := h2 q b hb
    have hlt : q < m.sizes.length := by
      rw [h1]
      exact Heap.cell_some_lt hb
    unfold Mem.bytes at this ⊢
    rw [hs, List.getD_append _ _ _ _ hlt]
    exact Nat.le_trans (block_bytes_mono E hle) this

theorem Mem.in_bounds_fresh {E : Env} {m m' : Mem T} (hm : m.in_bounds E) {cap n : Nat}
    {xs : List T} {p : Nat}
    (hh : m'.heap = (m.heap ++ [some (dynamic_buffer.mk cap 1 xs)]).release p ∨
      m'.heap = m.heap ++ [some (dynamic_buffer.mk cap 1 xs)])
    (hs : m'.sizes = m.sizes ++ [block_bytes E n]) (hn : block_bytes E n < SIZE_MODULUS)
    (hx : xs.length ≤ n) : m'.in_bounds E := by
  have hcell : ∀ q b', m'.heap.cell q = some b' →
      ∃ b, (m.heap ++ [some (dynamic_buffer.mk cap 1 xs)]).cell q = some b ∧
        b'.elements = b.elements := by
    intro q b' hq
    rcases hh with hh | hh
    · rw [hh] at hq
      exact Heap.cell_release_some hq
    · rw [hh] at hq
      exact ⟨b', hq, rfl⟩
  refine Mem.in_bounds_append hm hn hs ?_ ?_ ?_
  · rcases hh with hh | hh <;> simp [hh]
  · intro q b' hql hq
    obtain ⟨b, hb, he⟩ := hcell q b' hq
    rw [Heap.cell_append, if_neg hql] at hb
    exact ⟨b, hb, by rw [he]⟩
  · intro b' hq
    obtain ⟨b, hb, he⟩ := hcell _ b' hq
    rw [Heap.cell_append_length] at hb
    cases hb
    rw [he]
    exact block_bytes_mono E hx

theorem Mem.in_bounds_release {E : Env} {m m' : Mem T} (hm : m.in_bounds E) {p : Nat}
    (hh : m'.heap = m.heap.release p) (hs : m'.sizes = m.sizes) : m'.in_bounds E := by
  refine Mem.in_bounds_of_cells hm hs (by simp [hh]) ?_
  intro q b' hq
  rw [hh] at hq
  obtain ⟨b, hb, he⟩ := Heap.cell_release_some hq
  exact ⟨b, hb, by rw [he]⟩

/-- A returning `reserve(n)` keeps every block inside its allocation, provided the byte
count of a block of `n` elements does not overflow `size_t`. -/
theorem reserve_in_bounds {E : Env} {m : Mem T} {v : socow_vector T} (hv : WF E m v)
    (hm : m.in_bounds E) {n : Nat} (hn : block_bytes E n < SIZE_MODULUS)
    {s : Mem T × socow_vector T} (h : reserve E m v n = .ok () s) : s.1.in_bounds E := by
  have hmod : (sizeof_dynamic_buffer + E.sizeof_value * n) % SIZE_MODULUS = block_bytes E n :=
    Nat.mod_eq_of_lt hn
  obtain ⟨k, st⟩ := v
  cases st with
  | staticBuffer buf =>
    obtain ⟨hl, hle⟩ := WF_static.mp hv
    by_cases hc : n ≤ E.SMALL_SIZE
    · rw [reserve_static_small E m buf hc] at h
      cases h
      exact hm
    · obtain ⟨_, g2, g3⟩ := reserve_static_grow_any (Nat.lt_of_not_le hc) h
      rw [hmod] at g3
      exact Mem.in_bounds_fresh (p := 0) hm (Or.inr g2) g3 hn
        (by simp [List.length_take]; omega)
  | dynamicBuffer p =>
    obtain ⟨b, hc, hl, hle, hsm, hr⟩ := WF_dynamic.mp hv
    have hcap : capacity E m (⟨k, .dynamicBuffer p⟩ : socow_vector T) = b.capacity :=
      capacity_of_cell E hc
    by_cases hg : E.SMALL_SIZE < n ∧ ((b.cntRef = 1 ∧ b.capacity < n) ∨ (1 < b.cntRef ∧ k < n))
    · obtain ⟨_, g2, g3, _⟩ := reserve_dynamic_grow_any hc hg.1 hg.2 h
      rw [hmod] at g3
      exact Mem.in_bounds_fresh hm (Or.inl g2) g3 hn
        (by simp [List.length_take]; omega)
    · by_cases hi : n ≤ E.SMALL_SIZE ∧ k ≤ E.SMALL_SIZE ∧ 1 < b.cntRef
      · simp only [reserve, Mem.buf_of_cell hc, hcap, size] at h
        have hg' : ¬ (n > E.SMALL_SIZE ∧
            ((b.cntRef = 1 ∧ b.capacity < n) ∨ (b.cntRef > 1 ∧ k < n))) := hg
        have hi' : n ≤ E.SMALL_SIZE ∧ k ≤ E.SMALL_SIZE ∧ b.cntRef > 1 := hi
        rw [if_neg hg', if_pos hi'] at h
        split at h
        · cases h
        · rename_i ys m1 h1
          cases h
          obtain ⟨_, a2, a3, _⟩ := uninitialized_copy_n_ok_frame h1
          exact Mem.in_bounds_release hm (p := p)
            (by rw [dropDynamicBuffer_heap, a2]) (by simp [a3])
      · rw [reserve_dynamic_same E hc hg hi] at h
        cases h
        exact hm

/-- A returning `shrink_to_fit()` keeps every block inside its allocation: the block it
allocates holds the `size()` elements that already lay inside an allocation. -/
theorem shrink_to_fit_in_bounds {E : Env} {m : Mem T} {v : socow_vector T} (hv : WF E m v)
    (hm : m.in_bounds E) {s : Mem T × socow_vector T}
    (h : shrink_to_fit E m v = .ok () s) : s.1.in_bounds E := by
  obtain ⟨k, st⟩ := v
  cases st with
  | staticBuffer buf =>
    simp only [shrink_to_fit] at h
    cases h
    exact hm
  | dynamicBuffer p =>
    obtain ⟨b, hc, hl, hle, hsm, hr⟩ := WF_dynamic.mp hv
    have hn : block_bytes E k < SIZE_MODULUS := by
      have h1 := (Mem.in_bounds_iff.mp hm).2.2 p b hc
      rw [hl] at h1
      exact Nat.lt_of_le_of_lt h1 (hm.bytes_lt (Heap.cell_some_lt hc))
    have hmod : (sizeof_dynamic_buffer + E.sizeof_value * k) % SIZE_MODULUS = block_bytes E k :=
      Nat.mod_eq_of_lt hn
    simp only [shrink_to_fit, size] at h
    split at h
    · split at h
      · cases h
      · rename_i nb m1 h1
        cases h
        obtain ⟨_, a2, a3, _⟩ := getBufferViaCopy_ok_any h1
        rw [hmod] at a3
        exact Mem.in_bounds_fresh hm
          (Or.inl (by rw [dropDynamicBuffer_heap, a2])) (by simpa using a3) hn
          (by simp [List.length_take])
    · split at h
      · split at h
        · cases h
        · rename_i ys m1 h1
          cases h
          obtain ⟨_, a2, a3, _⟩ := uninitialized_copy_n_ok_frame h1
          exact Mem.in_bounds_release hm (p := p)
            (by rw [dropDynamicBuffer_heap, a2]) (by simp [a3])
      · cases h
        exact hm

end Socow
namespace Socow
variable {T : Type}

/-! ## Claims -/

/-- C2 (as stated, refuted): with `SMALL_SIZE = 0` the claim fails on the first
reachable container. After `socow_vector<int, 0> v;` the call `v.insert(v.begin(), 99)`
never returns: the reallocating branch builds a temporary of capacity `2 * 0`, which is
inline again, and `tmp.push_back` re-enters `insert` in the same state, so every bound
on the call depth is exceeded. -/
theorem C2_insert_never_returns_at_zero_inline_capacity :
    ¬ ∃ (fuel : Nat) (w : World Nat),
      World.run (Env.ints 0) fuel (World.init : World Nat)
        [.construct, .mutate 0 (.insert 0 99)] = some w := by
  rintro ⟨fuel, w, hw⟩
  have h := insert_inline_zero (E := Env.ints 0) ⟨fun _ => rfl, fun _ => rfl⟩ rfl (99 : Nat)
    fuel Mem.empty 0 [] 0
  simp [World.run, World.step, World.call, Outcome.state, World.init, World.obj, Mutator.pre, mutate, ctor_default, h] at hw

/-- C2 (amended): insert is order-preserving in every storage state, provided
`SMALL_SIZE >= 1` or the container is heap-backed. For a container in any of the three
storage states (inline, exclusive heap block, shared heap block) holding `xs`, every
`k <= size()` and every value `x`, when no element copy and no allocation throws,
`insert(begin() + k, x)` returns the position `k` and leaves the container holding
`xs[0..k) ++ [x] ++ xs[k..size)` with `size()` increased by one; the in-place branch and
the reallocating branch give the same sequence. -/
theorem C2_insert_order_preserving {E : Env} (hE : E.nothrow) {m : Mem T}
    {v : socow_vector T} (hS : 1 ≤ E.SMALL_SIZE ∨ v.is_static = false) (hv : WF E m v)
    {k : Nat} (hk : k ≤ size v) (x : T) (fuel : Nat) :
    ∃ m' v', insert E (fuel + 2) m v k x = some (.ok k (m', v')) ∧
      contents m' v' = (contents m v).take k ++ [x] ++ (contents m v).drop k ∧
      size v' = size v + 1 ∧ WF E m' v' := by
  obtain ⟨m', v', e, he, _⟩ := insert_Effect hE hS hv hk x fuel
  obtain ⟨h1, _, h3, h4⟩ := he.facts hv
  refine ⟨m', v', e, ?_, ?_, h1⟩
  · rw [h3, hv.contents_eq]
    simp [inserted]
  · rw [h4, length_inserted _ (by rw [hv.length_const_data]; exact hk), hv.length_const_data]

/-- C2 witness: the scenario of the spec, `insert(pos=2, value=99)` on the inline
`[0,1,2,3]` with room (in-place branch), and the same insertion into a heap block that
a second container shares (reallocating branch). -/
theorem C2_insert_order_preserving_witness :
    (WF (Env.ints 8) (Mem.empty : Mem Nat) ⟨4, .staticBuffer [0, 1, 2, 3]⟩ ∧
      ∃ m' v', insert (Env.ints 8) 2 (Mem.empty : Mem Nat) ⟨4, .staticBuffer [0, 1, 2, 3]⟩ 2 99 =
          some (.ok 2 (m', v')) ∧
        contents m' v' = [0, 1, 99, 2, 3] ∧ size v' = 5 ∧ WF (Env.ints 8) m' v') ∧
    (WF (Env.ints 2) (⟨[some ⟨4, 2, [0, 1, 2, 3]⟩], 0, 0, 0, 0, [32]⟩ : Mem Nat) ⟨4, .dynamicBuffer 0⟩ ∧
      ∃ m' v', insert (Env.ints 2) 2 (⟨[some ⟨4, 2, [0, 1, 2, 3]⟩], 0, 0, 0, 0, [32]⟩ : Mem Nat)
          ⟨4, .dynamicBuffer 0⟩ 2 99 = some (.ok 2 (m', v')) ∧
        contents m' v' = [0, 1, 99, 2, 3] ∧ size v' = 5 ∧ WF (Env.ints 2) m' v') :=
  ⟨⟨by decide, C2_insert_order_preserving (E := Env.ints 8) ⟨fun _ => rfl, fun _ => rfl⟩
      (Or.inl (by decide)) (by decide) (by decide) 99 0⟩,
   ⟨by decide, C2_insert_order_preserving (E := Env.ints 2) ⟨fun _ => rfl, fun _ => rfl⟩
      (Or.inl (by decide)) (by decide) (by decide) 99 0⟩⟩

/-- C3: erase removes exactly the given range in every storage state. For a container
in any storage state holding `xs` and `f <= l <= size()`, when no element copy and no
allocation throws, `erase(begin() + f, begin() + l)` returns the position `f` and leaves
the container holding `xs[0..f) ++ xs[l..size)` with `size()` decreased by `l - f`; when
`f == l` neither the container nor the memory changes; and `erase(pos)` is
`erase(pos, pos + 1)`. -/
theorem C3_erase_removes_range {E : Env} (hE : E.nothrow) {m : Mem T} {v : socow_vector T}
    (hv : WF E m v) {f l : Nat} (hfl : f ≤ l) (hl : l ≤ size v) :
    ∃ m' v', erase E m v f l = .ok f (m', v') ∧
      contents m' v' = (contents m v).take f ++ (contents m v).drop l ∧
      size v' = size v - (l - f) ∧ WF E m' v' ∧
      (f = l → m' = m ∧ v' = v) ∧
      erase_one E m v f = erase E m v f (f + 1) := by
  obtain ⟨m', v', e, he, _, _, hsame⟩ := erase_Effect hE hv hfl hl
  obtain ⟨h1, _, h3, h4⟩ := he.facts hv
  refine ⟨m', v', e, ?_, ?_, h1, hsame, rfl⟩
  · rw [h3, hv.contents_eq]
    rfl
  · rw [h4, length_erased _ hfl (by rw [hv.length_const_data]; exact hl), hv.length_const_data]

/-- C3 witness: the scenario of the spec, erasing positions `[2,4)` of `[0,1,2,3,4]`, on
an inline container (in-place branch) and on a shared heap block (copying branch). -/
theorem C3_erase_removes_range_witness :
    (WF (Env.ints 8) (Mem.empty : Mem Nat) ⟨5, .staticBuffer [0, 1, 2, 3, 4]⟩ ∧
      ∃ m' v', erase (Env.ints 8) (Mem.empty : Mem Nat) ⟨5, .staticBuffer [0, 1, 2, 3, 4]⟩ 2 4 =
          .ok 2 (m', v') ∧
        contents m' v' = [0, 1, 4] ∧ size v' = 3 ∧ WF (Env.ints 8) m' v' ∧
        ((2 : Nat) = 4 → m' = Mem.empty ∧ v' = ⟨5, .staticBuffer [0, 1, 2, 3, 4]⟩) ∧
        erase_one (Env.ints 8) (Mem.empty : Mem Nat) ⟨5, .staticBuffer [0, 1, 2, 3, 4]⟩ 2 =
          erase (Env.ints 8) Mem.empty ⟨5, .staticBuffer [0, 1, 2, 3, 4]⟩ 2 3) ∧
    (WF (Env.ints 4) (⟨[some ⟨8, 2, [0, 1, 2, 3, 4]⟩], 0, 0, 0, 0, [48]⟩ : Mem Nat)
        ⟨5, .dynamicBuffer 0⟩ ∧
      ∃ m' v', erase (Env.ints 4) (⟨[some ⟨8, 2, [0, 1, 2, 3, 4]⟩], 0, 0, 0, 0, [48]⟩ : Mem Nat)
          ⟨5, .dynamicBuffer 0⟩ 2 4 = .ok 2 (m', v') ∧
        contents m' v' = [0, 1, 4] ∧ size v' = 3 ∧ WF (Env.ints 4) m' v' ∧
        ((2 : Nat) = 4 → m' = ⟨[some ⟨8, 2, [0, 1, 2, 3, 4]⟩], 0, 0, 0, 0, [48]⟩ ∧
          v' = ⟨5, .dynamicBuffer 0⟩) ∧
        erase_one (Env.ints 4) (⟨[some ⟨8, 2, [0, 1, 2, 3, 4]⟩], 0, 0, 0, 0, [48]⟩ : Mem Nat)
            ⟨5, .dynamicBuffer 0⟩ 2 =
          erase (Env.ints 4) ⟨[some ⟨8, 2, [0, 1, 2, 3, 4]⟩], 0, 0, 0, 0, [48]⟩
            ⟨5, .dynamicBuffer 0⟩ 2 3) :=
  ⟨⟨by decide, C3_erase_removes_range (E := Env.ints 8) ⟨fun _ => rfl, fun _ => rfl⟩
      (by decide) (by decide) (by decide)⟩,
   ⟨by decide, C3_erase_removes_range (E := Env.ints 4) ⟨fun _ => rfl, fun _ => rfl⟩
      (by decide) (by decide) (by decide)⟩⟩

/-- C4: growth doubling. With `SMALL_SIZE >= 1` (sizes are unbounded naturals, so there
is no `size_t` overflow), for a container in any storage state, when no element copy and
no allocation throws, `push_back(x)` returns and leaves the old contents followed by `x`
and `size()` increased by one; if `size() == capacity() == c` before, then afterwards
`capacity() == 2c` and the container is heap-backed; if `size() < capacity()` before,
`capacity()` is unchanged. -/
theorem C4_growth_doubling {E : Env} (hE : E.nothrow) (hS : 1 ≤ E.SMALL_SIZE) {m : Mem T}
    {v : socow_vector T} (hv : WF E m v) (x : T) (fuel : Nat) :
    ∃ m' v', push_back E (fuel + 2) m v x = some (.ok () (m', v')) ∧
      contents m' v' = contents m v ++ [x] ∧ size v' = size v + 1 ∧
      (size v = capacity E m v →
        capacity E m' v' = 2 * capacity E m v ∧ v'.is_static = false) ∧
      (size v < capacity E m v → capacity E m' v' = capacity E m v) := by
  obtain ⟨m', v', e, he, hc, hs⟩ := push_back_Effect hE (Or.inl hS) hv x fuel
  obtain ⟨_, _, h3, h4⟩ := he.facts hv
  refine ⟨m', v', e, ?_, ?_, ?_, ?_⟩
  · rw [h3, hv.contents_eq]
  · rw [h4, List.length_append, hv.length_const_data]
    rfl
  · intro hf
    exact ⟨by rw [hc, if_pos hf], hs hf⟩
  · intro hlt
    rw [hc, if_neg (by omega)]

/-- C4 witness: the scenario of the spec with `SMALL_SIZE = 4`. Pushing 1,2,3,4 gives the
full inline container `[1,2,3,4]`; the fifth push gives size 5, heap-backed, elements
`[1,2,3,4,5]`, capacity 8. -/
theorem C4_growth_doubling_witness :
    World.run (Env.ints 4) 2 (World.init : World Nat)
        [.construct, .mutate 0 (.push_back 1), .mutate 0 (.push_back 2),
          .mutate 0 (.push_back 3), .mutate 0 (.push_back 4)] =
      some ⟨⟨[], 4, 4, 0, 0, []⟩, [some ⟨4, .staticBuffer [1, 2, 3, 4]⟩]⟩ ∧
    ∃ m' v', push_back (Env.ints 4) 2 (⟨[], 4, 4, 0, 0, []⟩ : Mem Nat)
        ⟨4, .staticBuffer [1, 2, 3, 4]⟩ 5 = some (.ok () (m', v')) ∧
      contents m' v' = [1, 2, 3, 4, 5] ∧ size v' = 5 ∧
      capacity (Env.ints 4) m' v' = 8 ∧ v'.is_static = false := by
  refine ⟨by decide, ?_⟩
  obtain ⟨m', v', e, h1, h2, h3, _⟩ :=
    C4_growth_doubling (E := Env.ints 4) ⟨fun _ => rfl, fun _ => rfl⟩ (by decide)
      (m := (⟨[], 4, 4, 0, 0, []⟩ : Mem Nat)) (v := ⟨4, .staticBuffer [1, 2, 3, 4]⟩) (by decide) 5 0
  exact ⟨m', v', e, h1, h2, h3 rfl⟩

end Socow
namespace Socow
variable {T : Type}

/-- C7: swap exchanges the two containers. For two distinct containers `a` and `b` in any
combination of storage states, when no element copy throws, `a.swap(b)` returns; `a` is
then what `b` was (mode, `size()`, handle or inline elements, hence contents and
`capacity()`) and vice versa; the heap is as before, so no block changes its refcount,
capacity or elements; swapping a second time restores both containers; and `a.swap(a)`
changes nothing. -/
theorem C7_swap_exchanges {E : Env} (hE : E.nothrow) {m : Mem T} {a b : socow_vector T}
    (ha : WF E m a) (hb : WF E m b) :
    ∃ m' a' b', swap E m a b false = .ok () (m', a', b') ∧
      a' = b ∧ b' = a ∧ m'.heap = m.heap ∧
      contents m' a' = contents m b ∧ contents m' b' = contents m a ∧
      size a' = size b ∧ size b' = size a ∧
      capacity E m' a' = capacity E m b ∧ capacity E m' b' = capacity E m a ∧
      a'.is_static = b.is_static ∧ b'.is_static = a.is_static ∧
      (∃ m'', swap E m' a' b' false = .ok () (m'', a, b) ∧ m''.heap = m.heap) ∧
      swap E m a a true = .ok () (m, a, a) := by
  obtain ⟨m', e, hh⟩ := swap_ok hE ha hb
  obtain ⟨m'', e', hh'⟩ := swap_ok hE ((WF_congr b hh).mpr hb) ((WF_congr a hh).mpr ha)
  exact ⟨m', b, a, e, rfl, rfl, hh, contents_congr b hh, contents_congr a hh, rfl, rfl,
    capacity_congr E b hh, capacity_congr E a hh, rfl, rfl, ⟨m'', e', by rw [hh', hh]⟩,
    by simp [swap]⟩

/-- C7 witness: an inline `[1,2]` swapped with a heap-backed `[1,2,3,4,5]` whose block a
third container shares (`SMALL_SIZE = 4`). -/
theorem C7_swap_exchanges_witness :
    WF (Env.ints 4) (⟨[some ⟨8, 2, [1, 2, 3, 4, 5]⟩], 0, 0, 0, 0, [48]⟩ : Mem Nat)
      ⟨2, .staticBuffer [1, 2]⟩ ∧
    WF (Env.ints 4) (⟨[some ⟨8, 2, [1, 2, 3, 4, 5]⟩], 0, 0, 0, 0, [48]⟩ : Mem Nat)
      ⟨5, .dynamicBuffer 0⟩ ∧
    ∃ m' a' b', swap (Env.ints 4) (⟨[some ⟨8, 2, [1, 2, 3, 4, 5]⟩], 0, 0, 0, 0, [48]⟩ : Mem Nat)
        ⟨2, .staticBuffer [1, 2]⟩ ⟨5, .dynamicBuffer 0⟩ false = .ok () (m', a', b') ∧
      a' = ⟨5, .dynamicBuffer 0⟩ ∧ b' = ⟨2, .staticBuffer [1, 2]⟩ ∧
      m'.heap = [some ⟨8, 2, [1, 2, 3, 4, 5]⟩] ∧
      contents m' a' = [1, 2, 3, 4, 5] ∧ contents m' b' = [1, 2] ∧
      size a' = 5 ∧ size b' = 2 ∧
      capacity (Env.ints 4) m' a' = 8 ∧ capacity (Env.ints 4) m' b' = 4 ∧
      a'.is_static = false ∧ b'.is_static = true ∧
      (∃ m'', swap (Env.ints 4) m' a' b' false =
          .ok () (m'', ⟨2, .staticBuffer [1, 2]⟩, ⟨5, .dynamicBuffer 0⟩) ∧
        m''.heap = [some ⟨8, 2, [1, 2, 3, 4, 5]⟩]) ∧
      swap (Env.ints 4) (⟨[some ⟨8, 2, [1, 2, 3, 4, 5]⟩], 0, 0, 0, 0, [48]⟩ : Mem Nat)
          ⟨2, .staticBuffer [1, 2]⟩ ⟨2, .staticBuffer [1, 2]⟩ true =
        .ok () (⟨[some ⟨8, 2, [1, 2, 3, 4, 5]⟩], 0, 0, 0, 0, [48]⟩, ⟨2, .staticBuffer [1, 2]⟩,
          ⟨2, .staticBuffer [1, 2]⟩) :=
  ⟨by decide, by decide,
    C7_swap_exchanges (E := Env.ints 4) ⟨fun _ => rfl, fun _ => rfl⟩ (by decide) (by decide)⟩

/-- C8: copy-on-write unsharing. For a container and any of the accessors `data()`,
`operator[]`, `front()`, `back()`, `begin()`, `end()`: (1) if the container is
heap-backed and its block has refcount `r > 1`, then, when no element copy and no
allocation throws, the non-const overload returns and leaves the container with another
block, of refcount 1 and the same capacity, holding the same `size()` elements in the
same order, while the old block keeps its capacity and all its elements and has refcount
`r - 1`; (2) if the container is inline or its refcount is 1, the non-const overload
changes neither the memory nor the container; (3) the const overload changes neither the
memory nor the container. -/
theorem C8_copy_on_write_unsharing {E : Env} {m : Mem T} {v : socow_vector T}
    (hv : WF E m v) (acc : Accessor) :
    (E.nothrow → ∀ p b, v.store = .dynamicBuffer p → m.heap.cell p = some b → 2 ≤ b.cntRef →
      ∃ m' v', access E m v acc = .ok (acc.offset v) (m', v') ∧
        v'.is_static = false ∧ v'.points_at p = false ∧ cntRef m' v' = 1 ∧
        capacity E m' v' = capacity E m v ∧ size v' = size v ∧
        contents m' v' = contents m v ∧
        m'.heap.cell p = some { b with cntRef := b.cntRef - 1 }) ∧
    (exclusive m v = true → access E m v acc = .ok (acc.offset v) (m, v)) ∧
    access_const m v acc = .ok (acc.offset v) (m, v) := by
  refine ⟨?_, ?_, rfl⟩
  · intro hE p b hst hc hr
    obtain ⟨n, st⟩ := v
    simp only at hst
    subst hst
    obtain ⟨b', hc', hl, hle, hsm, _⟩ := WF_dynamic.mp hv
    rw [hc] at hc'
    cases hc'
    have hp := Heap.cell_some_lt hc
    obtain ⟨m', e, hh⟩ := data_shared hE (n := n) hc hr
    have htk : b.elements.take n = b.elements := List.take_of_length_le (by omega)
    rw [htk] at hh
    have hcq : m'.heap.cell m.heap.length = some (dynamic_buffer.mk b.capacity 1 b.elements) := by
      rw [hh, Heap.release_append _ hp]
      have := Heap.cell_append_length (h := m.heap.release p)
        (x := some (dynamic_buffer.mk b.capacity 1 b.elements))
      simpa using this
    have hcp : m'.heap.cell p = some { b with cntRef := b.cntRef - 1 } := by
      rw [hh, Heap.release_append _ hp, Heap.cell_append_lt (by simpa using hp)]
      exact Heap.cell_release_shared hc hr
    refine ⟨m', ⟨n, .dynamicBuffer m.heap.length⟩, ?_, rfl, ?_, cntRef_of_cell hcq, ?_, rfl, ?_,
      hcp⟩
    · simp only [access, e, Outcome.bind]
      cases acc <;> rfl
    · rw [points_at_dynamic]
      simp
      omega
    · rw [capacity_of_cell E hcq, capacity_of_cell E hc]
    · simp only [contents]
      rw [const_data_of_cell hcq, const_data_of_cell hc]
      rfl
  · intro hx
    simp [access, data_exclusive E hx, Outcome.bind]

/-- C8 witness: `operator[](1)` on a heap-backed `[1,2,3,4,5]` whose block has refcount 2
(`SMALL_SIZE = 4`). -/
theorem C8_copy_on_write_unsharing_witness :
    WF (Env.ints 4) (⟨[some ⟨8, 2, [1, 2, 3, 4, 5]⟩], 0, 0, 0, 0, [48]⟩ : Mem Nat)
      ⟨5, .dynamicBuffer 0⟩ ∧
    ∃ m' v', access (Env.ints 4) (⟨[some ⟨8, 2, [1, 2, 3, 4, 5]⟩], 0, 0, 0, 0, [48]⟩ : Mem Nat)
        ⟨5, .dynamicBuffer 0⟩ (.subscript 1) = .ok 1 (m', v') ∧
      v'.is_static = false ∧ v'.points_at 0 = false ∧ cntRef m' v' = 1 ∧
      capacity (Env.ints 4) m' v' = 8 ∧ size v' = 5 ∧ contents m' v' = [1, 2, 3, 4, 5] ∧
      m'.heap.cell 0 = some ⟨8, 1, [1, 2, 3, 4, 5]⟩ :=
  ⟨by decide,
    (C8_copy_on_write_unsharing (E := Env.ints 4)
      (m := (⟨[some ⟨8, 2, [1, 2, 3, 4, 5]⟩], 0, 0, 0, 0, [48]⟩ : Mem Nat))
      (v := ⟨5, .dynamicBuffer 0⟩) (by decide) (.subscript 1)).1
      ⟨fun _ => rfl, fun _ => rfl⟩ 0 ⟨8, 2, [1, 2, 3, 4, 5]⟩ rfl rfl (by decide)⟩

/-- C9: constant-time shared copy. Copy-constructing from a heap-backed container whose
handle is a live block returns, whatever the element type and the allocator do, and
performs no element copy construction and no allocation; the new container has the same
handle (the very same block), the same `size()` and `capacity()`, and the block's
refcount is exactly one greater than before, every other block being untouched.
Copy-constructing from an inline container with `size()` elements, when no element copy
throws, copy-constructs exactly `size()` elements into the new container's own inline
storage, allocates nothing and leaves the heap as it is. -/
theorem C9_copy_construction (E : Env) (m : Mem T) (n : Nat) :
    (∀ p b, m.heap.cell p = some b →
      ∃ m', ctor_copy E m ⟨n, .dynamicBuffer p⟩ = .ok ⟨n, .dynamicBuffer p⟩ m' ∧
        m'.copies = m.copies ∧ m'.constructed = m.constructed ∧ m'.allocs = m.allocs ∧
        m'.heap.length = m.heap.length ∧
        capacity E m' ⟨n, .dynamicBuffer p⟩ = capacity E m ⟨n, .dynamicBuffer p⟩ ∧
        m'.heap.cell p = some { b with cntRef := b.cntRef + 1 } ∧
        (∀ q, q ≠ p → m'.heap.cell q = m.heap.cell q)) ∧
    (∀ buf : List T, buf.length = n → (∀ k, E.copyThrows k = false) →
      ∃ m', ctor_copy E m ⟨n, .staticBuffer buf⟩ = .ok ⟨n, .staticBuffer buf⟩ m' ∧
        m'.copies = m.copies + n ∧ m'.constructed = m.constructed + n ∧
        m'.allocs = m.allocs ∧ m'.heap = m.heap) := by
  constructor
  · intro p b hc
    have hcp : (m.update p fun b => { b with cntRef := b.cntRef + 1 }).heap.cell p =
        some { b with cntRef := b.cntRef + 1 } := by
      rw [Mem.update_heap, Heap.cell_upd]
      simp [hc]
    refine ⟨m.update p (fun b => { b with cntRef := b.cntRef + 1 }), by simp [ctor_copy],
      rfl, rfl, rfl, by simp, ?_, hcp, ?_⟩
    · rw [capacity_of_cell E hcp, capacity_of_cell E hc]
    · intro q hq
      rw [Mem.update_heap, Heap.cell_upd]
      simp [hq]
  · intro buf hl hE
    have htk : buf.take n = buf := List.take_of_length_le (by omega)
    refine ⟨{ m with copies := m.copies + buf.length,
                     constructed := m.constructed + buf.length }, ?_, ?_, ?_, rfl, rfl⟩
    · simp only [ctor_copy, size, uninitialized_copy_n_ok hE, htk]
    · simp [hl]
    · simp [hl]

/-- C9 witness: copying the heap-backed `[1,2,3,4,5]` and the inline `[1,2]`, with an
element type whose every copy construction after the second would throw. -/
theorem C9_copy_construction_witness :
    (∃ m', ctor_copy ⟨4, fun k => decide (2 ≤ k), fun _ => true, true, 4⟩
        (⟨[some ⟨8, 1, [1, 2, 3, 4, 5]⟩], 0, 0, 0, 0, [48]⟩ : Mem Nat) ⟨5, .dynamicBuffer 0⟩ =
          .ok ⟨5, .dynamicBuffer 0⟩ m' ∧
        m'.copies = 0 ∧ m'.constructed = 0 ∧ m'.allocs = 0 ∧ m'.heap.length = 1 ∧
        capacity ⟨4, fun k => decide (2 ≤ k), fun _ => true, true, 4⟩ m' ⟨5, .dynamicBuffer 0⟩ = 8 ∧
        m'.heap.cell 0 = some ⟨8, 2, [1, 2, 3, 4, 5]⟩ ∧
        (∀ q, q ≠ 0 → m'.heap.cell q =
          (⟨[some ⟨8, 1, [1, 2, 3, 4, 5]⟩], 0, 0, 0, 0, [48]⟩ : Mem Nat).heap.cell q)) ∧
    (∃ m', ctor_copy (Env.ints 4)
        (⟨[some ⟨8, 1, [1, 2, 3, 4, 5]⟩], 0, 0, 0, 0, [48]⟩ : Mem Nat) ⟨2, .staticBuffer [1, 2]⟩ =
          .ok ⟨2, .staticBuffer [1, 2]⟩ m' ∧
        m'.copies = 2 ∧ m'.constructed = 2 ∧ m'.allocs = 0 ∧
        m'.heap = [some ⟨8, 1, [1, 2, 3, 4, 5]⟩]) :=
  ⟨(C9_copy_construction ⟨4, fun k => decide (2 ≤ k), fun _ => true, true, 4⟩
      (⟨[some ⟨8, 1, [1, 2, 3, 4, 5]⟩], 0, 0, 0, 0, [48]⟩ : Mem Nat) 5).1 0 ⟨8, 1, [1, 2, 3, 4, 5]⟩ rfl,
   (C9_copy_construction (Env.ints 4)
      (⟨[some ⟨8, 1, [1, 2, 3, 4, 5]⟩], 0, 0, 0, 0, [48]⟩ : Mem Nat) 2).2 [1, 2] rfl (fun _ => rfl)⟩

end Socow
namespace Socow
variable {T : Type}

/-- C10: strong exception guarantee of `reserve` and `shrink_to_fit`. Whatever the
element type and the allocator do, if `reserve(n)` or `shrink_to_fit()` leaves by an
exception, then the container object is the one before the call (same mode, `size()`
and handle), every heap cell is as before -- so its block has the same capacity,
elements and refcount, and the candidate block is freed -- and as many elements were
destroyed during the call as were constructed. -/
theorem C10_reserve_shrink_strong_guarantee (E : Env) (m : Mem T) (v : socow_vector T)
    (n : Nat) (s : Mem T × socow_vector T)
    (h : reserve E m v n = .thrown s ∨ shrink_to_fit E m v = .thrown s) :
    s.2 = v ∧ s.2.is_static = v.is_static ∧ size s.2 = size v ∧
      capacity E s.1 s.2 = capacity E m v ∧ contents s.1 s.2 = contents m v ∧
      cntRef s.1 s.2 = cntRef m v ∧
      (∀ q, s.1.heap.cell q = m.heap.cell q) ∧
      s.1.constructed + m.destroyed = m.constructed + s.1.destroyed := by
  have key : s.2 = v ∧ (∀ q, s.1.heap.cell q = m.heap.cell q) ∧
      s.1.constructed + m.destroyed = m.constructed + s.1.destroyed := by
    cases h with
    | inl h => exact reserve_thrown h
    | inr h => exact shrink_to_fit_thrown h
  obtain ⟨h1, h2, h3⟩ := key
  obtain ⟨h4, h5, h6, _⟩ := observers_of_cells E h2 v
  rw [h1]
  exact ⟨rfl, rfl, rfl, h4, h5, h6, h2, h3⟩

/-- C10 witness: with an element type whose second copy construction throws and
`SMALL_SIZE = 4`: `reserve(10)` on the inline `[1,2,3]` fails after one element was
built in the candidate block, and `shrink_to_fit()` on a heap-backed `[1,2,3]` of
capacity 8 fails after one element was built in the inline storage. -/
theorem C10_reserve_shrink_strong_guarantee_witness :
    (reserve ⟨4, fun k => k == 1, fun _ => false, false, 4⟩ (Mem.empty : Mem Nat)
        ⟨3, .staticBuffer [1, 2, 3]⟩ 10 =
      .thrown (⟨[none], 2, 1, 1, 1, [56]⟩, ⟨3, .staticBuffer [1, 2, 3]⟩) ∧
      contents (⟨[none], 2, 1, 1, 1, [56]⟩ : Mem Nat) ⟨3, .staticBuffer [1, 2, 3]⟩ = [1, 2, 3] ∧
      (∀ q, (⟨[none], 2, 1, 1, 1, [56]⟩ : Mem Nat).heap.cell q = (Mem.empty : Mem Nat).heap.cell q)) ∧
    (shrink_to_fit ⟨4, fun k => k == 1, fun _ => false, false, 4⟩
        (⟨[some ⟨8, 1, [1, 2, 3]⟩], 0, 0, 0, 0, [48]⟩ : Mem Nat) ⟨3, .dynamicBuffer 0⟩ =
      .thrown (⟨[some ⟨8, 1, [1, 2, 3]⟩], 2, 1, 1, 0, [48]⟩, ⟨3, .dynamicBuffer 0⟩) ∧
      capacity ⟨4, fun k => k == 1, fun _ => false, false, 4⟩
        (⟨[some ⟨8, 1, [1, 2, 3]⟩], 2, 1, 1, 0, [48]⟩ : Mem Nat) ⟨3, .dynamicBuffer 0⟩ = 8 ∧
      cntRef (⟨[some ⟨8, 1, [1, 2, 3]⟩], 2, 1, 1, 0, [48]⟩ : Mem Nat) ⟨3, .dynamicBuffer 0⟩ = 1) :=
  ⟨⟨rfl,
    (C10_reserve_shrink_strong_guarantee ⟨4, fun k => k == 1, fun _ => false, false, 4⟩
      (Mem.empty : Mem Nat) ⟨3, .staticBuffer [1, 2, 3]⟩ 10
      (⟨[none], 2, 1, 1, 1, [56]⟩, ⟨3, .staticBuffer [1, 2, 3]⟩) (Or.inl rfl)).2.2.2.2.1,
    (C10_reserve_shrink_strong_guarantee ⟨4, fun k => k == 1, fun _ => false, false, 4⟩
      (Mem.empty : Mem Nat) ⟨3, .staticBuffer [1, 2, 3]⟩ 10
      (⟨[none], 2, 1, 1, 1, [56]⟩, ⟨3, .staticBuffer [1, 2, 3]⟩) (Or.inl rfl)).2.2.2.2.2.2.1⟩,
   ⟨rfl,
    (C10_reserve_shrink_strong_guarantee ⟨4, fun k => k == 1, fun _ => false, false, 4⟩
      (⟨[some ⟨8, 1, [1, 2, 3]⟩], 0, 0, 0, 0, [48]⟩ : Mem Nat) ⟨3, .dynamicBuffer 0⟩ 0
      (⟨[some ⟨8, 1, [1, 2, 3]⟩], 2, 1, 1, 0, [48]⟩, ⟨3, .dynamicBuffer 0⟩) (Or.inr rfl)).2.2.2.1,
    (C10_reserve_shrink_strong_guarantee ⟨4, fun k => k == 1, fun _ => false, false, 4⟩
      (⟨[some ⟨8, 1, [1, 2, 3]⟩], 0, 0, 0, 0, [48]⟩ : Mem Nat) ⟨3, .dynamicBuffer 0⟩ 0
      (⟨[some ⟨8, 1, [1, 2, 3]⟩], 2, 1, 1, 0, [48]⟩, ⟨3, .dynamicBuffer 0⟩) (Or.inr rfl)).2.2.2.2.2.1⟩⟩

end Socow
namespace Socow
variable {T : Type}

/-- C6 (as stated, refuted): the refcount of the source's block is not always increased
by one. With `SMALL_SIZE = 4`, push 1..5 into `b`, copy-construct `a` from `b` (they
share block 0, refcount 2), then `a = b`: the block still has refcount 2, not 3, because
`a` was one of its owners already. -/
theorem C6_assign_between_sharers_keeps_refcount :
    World.run (Env.ints 4) 2 (World.init : World Nat)
        [.construct, .mutate 0 (.push_back 1), .mutate 0 (.push_back 2),
          .mutate 0 (.push_back 3), .mutate 0 (.push_back 4), .mutate 0 (.push_back 5),
          .copy_construct 0] =
      some ⟨⟨[some ⟨8, 2, [1, 2, 3, 4, 5]⟩], 9, 9, 4, 1, [48]⟩,
        [some ⟨5, .dynamicBuffer 0⟩, some ⟨5, .dynamicBuffer 0⟩]⟩ ∧
    operator_assign (Env.ints 4) (⟨[some ⟨8, 2, [1, 2, 3, 4, 5]⟩], 9, 9, 4, 1, [48]⟩ : Mem Nat)
        ⟨5, .dynamicBuffer 0⟩ ⟨5, .dynamicBuffer 0⟩ false =
      .ok () (⟨[some ⟨8, 2, [1, 2, 3, 4, 5]⟩], 9, 9, 4, 1, [48]⟩, ⟨5, .dynamicBuffer 0⟩) ∧
    cntRef (⟨[some ⟨8, 2, [1, 2, 3, 4, 5]⟩], 9, 9, 4, 1, [48]⟩ : Mem Nat) ⟨5, .dynamicBuffer 0⟩ ≠
      cntRef (⟨[some ⟨8, 2, [1, 2, 3, 4, 5]⟩], 9, 9, 4, 1, [48]⟩ : Mem Nat) ⟨5, .dynamicBuffer 0⟩ + 1 := by
  decide

/-- C6 (amended): copy assignment makes the target equal to the source. For two distinct
containers `a` and `b` in any of the mode combinations, when no element copy throws,
`a = b` returns; afterwards `a` has the mode, the `size()` and the contents of `b` (its
handle is `b`'s block when `b` is heap-backed), the contents and `size()` of `b` are
unchanged, and the refcount of `b`'s block is one greater than before if `a` did not
point at that block before the call and unchanged if it did; `a = a` changes
nothing. -/
theorem C6_copy_assignment {E : Env} (hE : E.nothrow) {m : Mem T} {a b : socow_vector T}
    (ha : WF E m a) (hb : WF E m b) :
    ∃ m' a', operator_assign E m a b false = .ok () (m', a') ∧
      a' = b ∧ a'.is_static = b.is_static ∧ size a' = size b ∧
      contents m' a' = contents m b ∧ contents m' b = contents m b ∧ WF E m' b ∧
      (∀ q, b.points_at q = true →
        a'.points_at q = true ∧
        cntRef m' b = if a.points_at q = true then cntRef m b else cntRef m b + 1) ∧
      operator_assign E m a a true = .ok () (m, a) := by
  obtain ⟨m', e, hh⟩ := operator_assign_ok hE ha hb
  have hcell : ∀ q c, b.points_at q = true → m.heap.cell q = some c →
      m'.heap.cell q = some (dynamic_buffer.mk c.capacity
        (if a.points_at q = true then c.cntRef else c.cntRef + 1) c.elements) := by
    intro q c hpb hc
    obtain ⟨c', hbq, hc', _, _, _, hr⟩ := hb.points_at hpb
    rw [hc] at hc'
    cases hc'
    have hsh : (m.heap.share_storage b).cell q = some { c with cntRef := c.cntRef + 1 } := by
      rw [hbq]
      simp [Heap.share_storage, Heap.cell_retain, hc]
    rw [hh, Heap.cell_drop_storage, hsh]
    by_cases hpa : a.points_at q = true
    · simp [hpa]
      omega
    · simp [hpa]
  have hfr := @WF_of_cell T E m m' b hb (by
    intro q c hpb hc
    refine ⟨_, hcell q c hpb hc, rfl, rfl, ?_⟩
    obtain ⟨c', _, hc', _, _, _, hr⟩ := hb.points_at hpb
    rw [hc] at hc'
    cases hc'
    show 1 ≤ (if a.points_at q = true then c.cntRef else c.cntRef + 1)
    split <;> omega)
  refine ⟨m', b, e, rfl, rfl, rfl, hfr.2.2.2, hfr.2.2.2, hfr.1, ?_, by simp [operator_assign]⟩
  intro q hpb
  obtain ⟨c, hbq, hc, _⟩ := hb.points_at hpb
  refine ⟨hpb, ?_⟩
  rw [hbq, cntRef_of_cell (hcell q c hpb hc), cntRef_of_cell hc]

/-- C6 witness: `a = b` for an inline `a = [7,8,9]` and a heap-backed `b = [1,2,3,4,5]`
(`SMALL_SIZE = 4`), and for an `a` that already shares the block of `b`. -/
theorem C6_copy_assignment_witness :
    (WF (Env.ints 4) (⟨[some ⟨8, 1, [1, 2, 3, 4, 5]⟩], 0, 0, 0, 0, [48]⟩ : Mem Nat)
        ⟨3, .staticBuffer [7, 8, 9]⟩ ∧
      WF (Env.ints 4) (⟨[some ⟨8, 1, [1, 2, 3, 4, 5]⟩], 0, 0, 0, 0, [48]⟩ : Mem Nat)
        ⟨5, .dynamicBuffer 0⟩ ∧
      ∃ m' a', operator_assign (Env.ints 4)
          (⟨[some ⟨8, 1, [1, 2, 3, 4, 5]⟩], 0, 0, 0, 0, [48]⟩ : Mem Nat)
          ⟨3, .staticBuffer [7, 8, 9]⟩ ⟨5, .dynamicBuffer 0⟩ false = .ok () (m', a') ∧
        contents m' a' = [1, 2, 3, 4, 5] ∧
        contents m' ⟨5, .dynamicBuffer 0⟩ = [1, 2, 3, 4, 5] ∧
        cntRef m' ⟨5, .dynamicBuffer 0⟩ = 2) ∧
    (∃ m' a', operator_assign (Env.ints 4)
          (⟨[some ⟨8, 2, [1, 2, 3, 4, 5]⟩], 0, 0, 0, 0, [48]⟩ : Mem Nat)
          ⟨5, .dynamicBuffer 0⟩ ⟨5, .dynamicBuffer 0⟩ false = .ok () (m', a') ∧
        contents m' a' = [1, 2, 3, 4, 5] ∧
        cntRef m' ⟨5, .dynamicBuffer 0⟩ = 2) := by
  refine ⟨⟨by decide, by decide, ?_⟩, ?_⟩
  · obtain ⟨m', a', e, _, _, _, h1, h2, _, h3, _⟩ :=
      C6_copy_assignment (E := Env.ints 4) ⟨fun _ => rfl, fun _ => rfl⟩
        (m := (⟨[some ⟨8, 1, [1, 2, 3, 4, 5]⟩], 0, 0, 0, 0, [48]⟩ : Mem Nat))
        (a := ⟨3, .staticBuffer [7, 8, 9]⟩) (b := ⟨5, .dynamicBuffer 0⟩) (by decide) (by decide)
    exact ⟨m', a', e, h1, h2, (h3 0 rfl).2⟩
  · obtain ⟨m', a', e, _, _, _, h1, _, _, h3, _⟩ :=
      C6_copy_assignment (E := Env.ints 4) ⟨fun _ => rfl, fun _ => rfl⟩
        (m := (⟨[some ⟨8, 2, [1, 2, 3, 4, 5]⟩], 0, 0, 0, 0, [48]⟩ : Mem Nat))
        (a := ⟨5, .dynamicBuffer 0⟩) (b := ⟨5, .dynamicBuffer 0⟩) (by decide) (by decide)
    exact ⟨m', a', e, h1, (h3 0 rfl).2⟩

/-- C1: value independence. Let `A` be a heap-backed container and `B` its copy, so that
both point at one block. When no element copy and no allocation throws, every mutator
(`push_back`, `pop_back`, `insert`, `erase`, `clear`, `reserve`, `shrink_to_fit`, a
store through the non-const `operator[]`) called on `B` within its precondition returns,
leaves `B` holding what the mutator makes of the common contents, and leaves the
contents of `A` (and `A` itself, which the call does not receive) as before; and the
same holds with `A` mutated and `B` observed. -/
theorem C1_value_independence {E : Env} (hE : E.nothrow) {m : Mem T} {A : socow_vector T}
    (hA : WF E m A) (hheap : A.is_static = false) (c : Mutator T) (fuel : Nat) :
    ∃ B m1, ctor_copy E m A = .ok B m1 ∧
      contents m1 A = contents m A ∧ contents m1 B = contents m A ∧ size B = size A ∧
      (c.pre B → ∃ m2 B', mutate E (fuel + 2) m1 B c = some (.ok () (m2, B')) ∧
        contents m2 B' = c.result (contents m A) ∧
        contents m2 A = contents m A ∧ WF E m2 A) ∧
      (c.pre A → ∃ m2 A', mutate E (fuel + 2) m1 A c = some (.ok () (m2, A')) ∧
        contents m2 A' = c.result (contents m A) ∧
        contents m2 B = contents m A ∧ WF E m2 B) := by
  obtain ⟨m1, e1, hh1⟩ := ctor_copy_ok hE hA
  obtain ⟨hA1, hcd1, _, hc1⟩ := WF_share hA A hh1
  have hshared : ∀ q b, A.points_at q = true → A.points_at q = true →
      m1.heap.cell q = some b → 2 ≤ b.cntRef := by
    intro q b hp _ hc
    obtain ⟨b0, hAq, hc0, _, _, _, hr⟩ := hA.points_at hp
    rw [hh1, hAq] at hc
    simp [Heap.share_storage, Heap.cell_retain, hc0] at hc
    rw [← hc]
    show 2 ≤ b0.cntRef + 1
    omega
  have main : c.pre A → ∃ m2 A', mutate E (fuel + 2) m1 A c = some (.ok () (m2, A')) ∧
      contents m2 A' = c.result (contents m A) ∧
      contents m2 A = contents m A ∧ WF E m2 A := by
    intro hpre
    obtain ⟨m2, A', e2, he⟩ := mutate_Effect hE (Or.inr hheap) hA1 c hpre fuel
    obtain ⟨_, _, h3, _⟩ := he.facts hA1
    obtain ⟨h5, _, _, h8⟩ := he.frame hA1 hA1 hshared
    refine ⟨m2, A', e2, ?_, ?_, h5⟩
    · rw [h3, hcd1, hA.contents_eq]
    · rw [h8, hc1]
  exact ⟨A, m1, e1, hc1, hc1, rfl, main, main⟩

/-- C1 witness: the scenario of the spec with `SMALL_SIZE = 4`: `A = [1,2,3,4,5]`,
`B = A`, then `B.push_back(6)` gives `B = [1,2,3,4,5,6]` and leaves `A = [1,2,3,4,5]`. -/
theorem C1_value_independence_witness :
    WF (Env.ints 4) (⟨[some ⟨8, 1, [1, 2, 3, 4, 5]⟩], 9, 9, 4, 1, [48]⟩ : Mem Nat)
      ⟨5, .dynamicBuffer 0⟩ ∧
    ∃ B m1, ctor_copy (Env.ints 4) (⟨[some ⟨8, 1, [1, 2, 3, 4, 5]⟩], 9, 9, 4, 1, [48]⟩ : Mem Nat)
        ⟨5, .dynamicBuffer 0⟩ = .ok B m1 ∧
      ∃ m2 B', mutate (Env.ints 4) 2 m1 B (.push_back 6) = some (.ok () (m2, B')) ∧
        contents m2 B' = [1, 2, 3, 4, 5, 6] ∧
        contents m2 ⟨5, .dynamicBuffer 0⟩ = [1, 2, 3, 4, 5] := by
  refine ⟨by decide, ?_⟩
  obtain ⟨B, m1, e1, _, _, _, hB, _⟩ :=
    C1_value_independence (E := Env.ints 4) ⟨fun _ => rfl, fun _ => rfl⟩
      (m := (⟨[some ⟨8, 1, [1, 2, 3, 4, 5]⟩], 9, 9, 4, 1, [48]⟩ : Mem Nat))
      (A := ⟨5, .dynamicBuffer 0⟩) (by decide) rfl (.push_back 6) 0
  obtain ⟨m2, B', e2, h1, h2, _⟩ := hB trivial
  exact ⟨B, m1, e1, m2, B', e2, h1, h2⟩

end Socow
namespace Socow
variable {T : Type}

/-- C5: the size/capacity invariant. In every state reached from the program without
objects by a sequence of public calls (default and copy construction, destruction, copy
assignment, swap, `push_back`, `pop_back` on a non-empty container, `insert` and `erase`
with in-range positions, `clear`, `reserve`, `shrink_to_fit`, stores, mutable and const
element access), each within its precondition, whether it returns or exits by an
exception that the program catches, and whatever the element type and the allocator do,
every live container has `size() <= capacity()`, where `capacity()` is `SMALL_SIZE` for
an inline container and the `capacity` field of its live block for a heap-backed one. -/
theorem C5_size_le_capacity {E : Env} {w : World T} (hr : Reachable E w)
    {v : socow_vector T} (hv : some v ∈ w.objs) :
    size v ≤ capacity E w.mem v ∧
      (v.is_static = true → capacity E w.mem v = E.SMALL_SIZE) ∧
      (∀ p, v.store = .dynamicBuffer p →
        ∃ b, w.mem.heap.cell p = some b ∧ capacity E w.mem v = b.capacity) := by
  have hwf := (Reachable.Inv_any hr).1 v hv
  refine ⟨hwf.size_le_capacity, ?_, ?_⟩
  · intro hs
    obtain ⟨n, st⟩ := v
    cases st with
    | staticBuffer buf => rfl
    | dynamicBuffer p => cases hs
  · intro p hp
    obtain ⟨n, st⟩ := v
    cases hp
    obtain ⟨b, hc, _⟩ := WF_dynamic.mp hwf
    exact ⟨b, hc, capacity_of_cell E hc⟩

/-- C5 witness: with `SMALL_SIZE = 4`, an element type whose `std::swap` copies and
whose fourth copy construction throws, after `push_back(1)`, `push_back(2)` and an
`insert(begin(), 9)` that exits by an exception in its swap walk, the container is the
inline `[1,2,9]` of size 3, which is at most its capacity 4. -/
theorem C5_size_le_capacity_witness :
    Reachable ⟨4, fun k => k == 3, fun _ => false, true, 4⟩
      (⟨⟨[], 4, 3, 0, 0, []⟩, [some ⟨3, .staticBuffer [1, 2, 9]⟩]⟩ : World Nat) ∧
    size (⟨3, .staticBuffer [1, 2, 9]⟩ : socow_vector Nat) ≤
      capacity ⟨4, fun k => k == 3, fun _ => false, true, 4⟩
        (⟨[], 4, 3, 0, 0, []⟩ : Mem Nat) ⟨3, .staticBuffer [1, 2, 9]⟩ :=
  ⟨⟨2, [.construct, .mutate 0 (.push_back 1), .mutate 0 (.push_back 2),
     .mutate 0 (.insert 0 9)], by decide⟩,
   (C5_size_le_capacity (E := ⟨4, fun k => k == 3, fun _ => false, true, 4⟩)
     (w := ⟨⟨[], 4, 3, 0, 0, []⟩, [some ⟨3, .staticBuffer [1, 2, 9]⟩]⟩)
     ⟨2, [.construct, .mutate 0 (.push_back 1), .mutate 0 (.push_back 2),
       .mutate 0 (.insert 0 9)], by decide⟩
     (v := ⟨3, .staticBuffer [1, 2, 9]⟩) (by simp)).1⟩

end Socow
namespace Socow
variable {T : Type}

/-- C13 (as stated, refuted): with `SMALL_SIZE = 4` and `sizeof(value_type) == 4`, after
three `push_back` calls the container is the inline `[1,2,3]` and the memory is in
bounds. Then `reserve(n)` with `n = 2^62 > SMALL_SIZE` computes the byte count
`16 + 4 * 2^62` in `size_t`, which wraps to 16: the call returns with a block whose header
says capacity `2^62` in an allocation of 16 bytes, and the three copied elements, which
end at byte 28, lie past its end. The block is not a buffer of capacity `n` holding the
elements. -/
theorem C13_reserve_inline_byte_count_wraps :
    World.run (Env.ints 4) 2 (World.init : World Nat)
        [.construct, .mutate 0 (.push_back 1), .mutate 0 (.push_back 2),
          .mutate 0 (.push_back 3)] =
      some ⟨⟨[], 3, 3, 0, 0, []⟩, [some ⟨3, .staticBuffer [1, 2, 3]⟩]⟩ ∧
    Mem.in_bounds (Env.ints 4) (⟨[], 3, 3, 0, 0, []⟩ : Mem Nat) ∧
    (Env.ints 4).SMALL_SIZE < 4611686018427387904 ∧
    reserve (Env.ints 4) (⟨[], 3, 3, 0, 0, []⟩ : Mem Nat) ⟨3, .staticBuffer [1, 2, 3]⟩
        4611686018427387904 =
      .ok () (⟨[some ⟨4611686018427387904, 1, [1, 2, 3]⟩], 6, 6, 3, 1, [16]⟩,
        ⟨3, .dynamicBuffer 0⟩) ∧
    Mem.bytes (⟨[some ⟨4611686018427387904, 1, [1, 2, 3]⟩], 6, 6, 3, 1, [16]⟩ : Mem Nat) 0 =
      16 ∧
    block_bytes (Env.ints 4) 3 = 28 ∧
    ¬ Mem.in_bounds (Env.ints 4)
      (⟨[some ⟨4611686018427387904, 1, [1, 2, 3]⟩], 6, 6, 3, 1, [16]⟩ : Mem Nat) := by
  decide

/-- C13 (amended): reserve on an inline container. For an inline container and every
`n`: if `n <= SMALL_SIZE`, `reserve(n)` returns and changes neither the container nor the
memory (it stays inline with capacity `SMALL_SIZE`); if `n > SMALL_SIZE` and the byte
count `sizeof(dynamic_buffer) + sizeof(value_type) * n` does not overflow `size_t`,
`reserve(n)` returns when no element copy and no allocation throws, and whenever it
returns the container is heap-backed, its block has refcount 1 and capacity exactly `n`
and holds the same elements in the same order, with the same `size()`, every block that
was live before being untouched; the block lies in an allocation of exactly that byte
count, and a memory that was in bounds still is. -/
theorem C13_reserve_inline (E : Env) (m : Mem T) (k : Nat) (buf : List T)
    (hv : WF E m ⟨k, .staticBuffer buf⟩) (n : Nat) :
    (n ≤ E.SMALL_SIZE →
      reserve E m ⟨k, .staticBuffer buf⟩ n = .ok () (m, ⟨k, .staticBuffer buf⟩) ∧
      capacity E m ⟨k, .staticBuffer buf⟩ = E.SMALL_SIZE) ∧
    (E.SMALL_SIZE < n → block_bytes E n < SIZE_MODULUS →
      (E.nothrow → ∃ s, reserve E m ⟨k, .staticBuffer buf⟩ n = .ok () s) ∧
      ∀ s, reserve E m ⟨k, .staticBuffer buf⟩ n = .ok () s →
        s.2.is_static = false ∧ cntRef s.1 s.2 = 1 ∧ capacity E s.1 s.2 = n ∧
        const_data s.1 s.2 = buf ∧ contents s.1 s.2 = contents m ⟨k, .staticBuffer buf⟩ ∧
        size s.2 = k ∧ WF E s.1 s.2 ∧
        (∀ q b, m.heap.cell q = some b → s.1.heap.cell q = some b) ∧
        s.1.sizes = m.sizes ++ [block_bytes E n] ∧
        (m.in_bounds E → s.1.in_bounds E)) := by
  obtain ⟨hl, hle⟩ := WF_static.mp hv
  refine ⟨fun hn => ⟨reserve_static_small E m buf hn, rfl⟩, fun hn hno => ⟨?_, ?_⟩⟩
  · intro hE
    obtain ⟨m', e, _⟩ := reserve_static_grow hE hv hn
    exact ⟨_, e⟩
  · intro s hs
    have hsz := (reserve_static_grow_any hn hs).2.2
    rw [show (sizeof_dynamic_buffer + E.sizeof_value * n) % SIZE_MODULUS = block_bytes E n from
      Nat.mod_eq_of_lt hno] at hsz
    have hib := fun hm => reserve_in_bounds hv hm hno hs
    obtain ⟨m', e, hh⟩ := reserve_static_grow E.calm_nothrow (WF_calm.mpr hv) hn
    rw [reserve_calm hs] at e
    cases e
    obtain ⟨h1, h2, h3, h4, h5⟩ := fresh_after_static hv hh hn (by omega)
    rw [hl] at h1 h2 h3 h4 h5
    refine ⟨rfl, h5, h4, h3, ?_, rfl, h1, ?_, hsz, hib⟩
    · rw [h2]
      simp [contents, const_data, size, ← hl]
    · intro q b hc
      show m'.heap.cell q = some b
      rw [hh, Heap.cell_append_lt (Heap.cell_some_lt hc)]
      exact hc

/-- C13 witness: with `SMALL_SIZE = 4` and `sizeof(value_type) == 4`, `reserve(8)` on the
inline `[1,2,3]` gives a heap-backed container with a private block of capacity 8 holding
`[1,2,3]` in an allocation of 48 bytes, and `reserve(3)` changes nothing. -/
theorem C13_reserve_inline_witness :
    WF (Env.ints 4) (Mem.empty : Mem Nat) ⟨3, .staticBuffer [1, 2, 3]⟩ ∧
    reserve (Env.ints 4) (Mem.empty : Mem Nat) ⟨3, .staticBuffer [1, 2, 3]⟩ 3 =
      .ok () (Mem.empty, ⟨3, .staticBuffer [1, 2, 3]⟩) ∧
    block_bytes (Env.ints 4) 8 < SIZE_MODULUS ∧
    reserve (Env.ints 4) (Mem.empty : Mem Nat) ⟨3, .staticBuffer [1, 2, 3]⟩ 8 =
      .ok () (⟨[some ⟨8, 1, [1, 2, 3]⟩], 3, 3, 3, 1, [48]⟩, ⟨3, .dynamicBuffer 0⟩) ∧
    capacity (Env.ints 4) (⟨[some ⟨8, 1, [1, 2, 3]⟩], 3, 3, 3, 1, [48]⟩ : Mem Nat)
      ⟨3, .dynamicBuffer 0⟩ = 8 ∧
    cntRef (⟨[some ⟨8, 1, [1, 2, 3]⟩], 3, 3, 3, 1, [48]⟩ : Mem Nat) ⟨3, .dynamicBuffer 0⟩ = 1 ∧
    Mem.in_bounds (Env.ints 4) (⟨[some ⟨8, 1, [1, 2, 3]⟩], 3, 3, 3, 1, [48]⟩ : Mem Nat) :=
  ⟨by decide,
   ((C13_reserve_inline (Env.ints 4) (Mem.empty : Mem Nat) 3 [1, 2, 3]
      (by decide) 3).1 (by decide)).1,
   by decide,
   rfl,
   (((C13_reserve_inline (Env.ints 4) (Mem.empty : Mem Nat) 3 [1, 2, 3]
      (by decide) 8).2 (by decide) (by decide)).2
        (⟨[some ⟨8, 1, [1, 2, 3]⟩], 3, 3, 3, 1, [48]⟩, ⟨3, .dynamicBuffer 0⟩) rfl).2.2.1,
   (((C13_reserve_inline (Env.ints 4) (Mem.empty : Mem Nat) 3 [1, 2, 3]
      (by decide) 8).2 (by decide) (by decide)).2
        (⟨[some ⟨8, 1, [1, 2, 3]⟩], 3, 3, 3, 1, [48]⟩, ⟨3, .dynamicBuffer 0⟩) rfl).2.1,
   (((C13_reserve_inline (Env.ints 4) (Mem.empty : Mem Nat) 3 [1, 2, 3]
      (by decide) 8).2 (by decide) (by decide)).2
        (⟨[some ⟨8, 1, [1, 2, 3]⟩], 3, 3, 3, 1, [48]⟩, ⟨3, .dynamicBuffer 0⟩) rfl).2.2.2.2.2.2.2.2.2
        (by decide)⟩

end Socow
namespace Socow
variable {T : Type}

/-- C14 (as stated, refuted): with `SMALL_SIZE = 4` and `sizeof(value_type) == 4`, push
1..5 into `a`, pop three times (`a` is heap-backed with size 2 and capacity 8) and
copy-construct `b` from `a` (the block has refcount 2). Then `b.reserve(3)` has
`size() < n` on a shared block, but `b` ends inline with capacity 4, not heap-backed with
capacity 3; and `b.reserve(1)`, which is none of the two growing cases, does not leave
the storage unchanged either: `b` ends inline. Moreover `b.reserve(2^62)` computes the
byte count `16 + 4 * 2^62` in `size_t`, which wraps to 16: the new block says capacity
`2^62` in an allocation of 16 bytes, and the two copied elements, which end at byte 24,
lie past its end, in a memory that was in bounds before the call. -/
theorem C14_shared_reserve_within_inline_capacity_goes_inline :
    World.run (Env.ints 4) 2 (World.init : World Nat)
        [.construct, .mutate 0 (.push_back 1), .mutate 0 (.push_back 2),
          .mutate 0 (.push_back 3), .mutate 0 (.push_back 4), .mutate 0 (.push_back 5),
          .mutate 0 .pop_back, .mutate 0 .pop_back, .mutate 0 .pop_back, .copy_construct 0] =
      some ⟨⟨[some ⟨8, 2, [1, 2]⟩], 9, 9, 7, 1, [48]⟩,
        [some ⟨2, .dynamicBuffer 0⟩, some ⟨2, .dynamicBuffer 0⟩]⟩ ∧
    reserve (Env.ints 4) (⟨[some ⟨8, 2, [1, 2]⟩], 9, 9, 7, 1, [48]⟩ : Mem Nat) ⟨2, .dynamicBuffer 0⟩ 3 =
      .ok () (⟨[some ⟨8, 1, [1, 2]⟩], 11, 11, 7, 1, [48]⟩, ⟨2, .staticBuffer [1, 2]⟩) ∧
    (⟨2, .staticBuffer [1, 2]⟩ : socow_vector Nat).is_static = true ∧
    capacity (Env.ints 4) (⟨[some ⟨8, 1, [1, 2]⟩], 11, 11, 7, 1, [48]⟩ : Mem Nat)
      ⟨2, .staticBuffer [1, 2]⟩ ≠ 3 ∧
    reserve (Env.ints 4) (⟨[some ⟨8, 2, [1, 2]⟩], 9, 9, 7, 1, [48]⟩ : Mem Nat) ⟨2, .dynamicBuffer 0⟩ 1 =
      .ok () (⟨[some ⟨8, 1, [1, 2]⟩], 11, 11, 7, 1, [48]⟩, ⟨2, .staticBuffer [1, 2]⟩) ∧
    Mem.in_bounds (Env.ints 4) (⟨[some ⟨8, 2, [1, 2]⟩], 9, 9, 7, 1, [48]⟩ : Mem Nat) ∧
    reserve (Env.ints 4) (⟨[some ⟨8, 2, [1, 2]⟩], 9, 9, 7, 1, [48]⟩ : Mem Nat) ⟨2, .dynamicBuffer 0⟩
        4611686018427387904 =
      .ok () (⟨[some ⟨8, 1, [1, 2]⟩, some ⟨4611686018427387904, 1, [1, 2]⟩], 11, 11, 7, 2,
        [48, 16]⟩, ⟨2, .dynamicBuffer 1⟩) ∧
    block_bytes (Env.ints 4) 2 = 24 ∧
    ¬ Mem.in_bounds (Env.ints 4)
      (⟨[some ⟨8, 1, [1, 2]⟩, some ⟨4611686018427387904, 1, [1, 2]⟩], 11, 11, 7, 2,
        [48, 16]⟩ : Mem Nat) := by
  decide

/-- C14 (amended): reserve on a heap-backed container. For a heap-backed container
and every `n`: (1) if `n > SMALL_SIZE` and either the block is exclusively owned
(refcount 1) with `capacity() < n` or it is shared (refcount above 1) with `size() < n`,
then, provided the byte count `sizeof(dynamic_buffer) + sizeof(value_type) * n` does not
overflow `size_t`, `reserve(n)` returns when no element copy and no allocation throws,
and whenever it returns the container is heap-backed with an exclusively owned block of
capacity exactly `n` holding the same elements, in an allocation of exactly that byte
count, and a memory that was in bounds still is; (2) if `n <= SMALL_SIZE`,
`size() <= SMALL_SIZE` and the block is shared, then `reserve(n)` returns when no element
copy throws, and whenever it returns the container is inline, holding the same elements,
and the block it left has one reference less; (3) in every case that meets neither the
condition of (1) nor the condition of (2), `reserve(n)` returns and changes neither the
container nor the memory. -/
theorem C14_reserve_heap (E : Env) (m : Mem T) (k p : Nat) (b : dynamic_buffer T)
    (hv : WF E m ⟨k, .dynamicBuffer p⟩) (hc : m.heap.cell p = some b) (n : Nat) :
    (E.SMALL_SIZE < n → block_bytes E n < SIZE_MODULUS →
      ((cntRef m ⟨k, .dynamicBuffer p⟩ = 1 ∧ capacity E m ⟨k, .dynamicBuffer p⟩ < n) ∨
       (1 < cntRef m ⟨k, .dynamicBuffer p⟩ ∧ size (⟨k, .dynamicBuffer p⟩ : socow_vector T) < n)) →
      (E.nothrow → ∃ s, reserve E m ⟨k, .dynamicBuffer p⟩ n = .ok () s) ∧
      ∀ s, reserve E m ⟨k, .dynamicBuffer p⟩ n = .ok () s →
        s.2.is_static = false ∧ cntRef s.1 s.2 = 1 ∧ capacity E s.1 s.2 = n ∧
        contents s.1 s.2 = contents m ⟨k, .dynamicBuffer p⟩ ∧ size s.2 = k ∧ WF E s.1 s.2 ∧
        s.1.sizes = m.sizes ++ [block_bytes E n] ∧ (m.in_bounds E → s.1.in_bounds E)) ∧
    (n ≤ E.SMALL_SIZE → k ≤ E.SMALL_SIZE → 1 < cntRef m ⟨k, .dynamicBuffer p⟩ →
      (E.nothrow → ∃ s, reserve E m ⟨k, .dynamicBuffer p⟩ n = .ok () s) ∧
      ∀ s, reserve E m ⟨k, .dynamicBuffer p⟩ n = .ok () s →
        s.2.is_static = true ∧ capacity E s.1 s.2 = E.SMALL_SIZE ∧
        contents s.1 s.2 = contents m ⟨k, .dynamicBuffer p⟩ ∧ size s.2 = k ∧ WF E s.1 s.2 ∧
        s.1.heap.cell p = some { b with cntRef := b.cntRef - 1 }) ∧
    (¬ (E.SMALL_SIZE < n ∧
        ((cntRef m ⟨k, .dynamicBuffer p⟩ = 1 ∧ capacity E m ⟨k, .dynamicBuffer p⟩ < n) ∨
         (1 < cntRef m ⟨k, .dynamicBuffer p⟩ ∧
           size (⟨k, .dynamicBuffer p⟩ : socow_vector T) < n))) →
      ¬ (n ≤ E.SMALL_SIZE ∧ k ≤ E.SMALL_SIZE ∧ 1 < cntRef m ⟨k, .dynamicBuffer p⟩) →
      reserve E m ⟨k, .dynamicBuffer p⟩ n = .ok () (m, ⟨k, .dynamicBuffer p⟩)) := by
  obtain ⟨b', hc', hl, hle, hsm, hr⟩ := WF_dynamic.mp hv
  rw [hc] at hc'
  cases hc'
  have hcn : cntRef m (⟨k, .dynamicBuffer p⟩ : socow_vector T) = b.cntRef := cntRef_of_cell hc
  have hcap : capacity E m (⟨k, .dynamicBuffer p⟩ : socow_vector T) = b.capacity :=
    capacity_of_cell E hc
  have hcont : contents m (⟨k, .dynamicBuffer p⟩ : socow_vector T) = b.elements := by
    simp only [contents, const_data_of_cell hc, size]
    exact List.take_of_length_le (by omega)
  rw [hcn, hcap, hcont]
  have hsz : size (⟨k, .dynamicBuffer p⟩ : socow_vector T) = k := rfl
  rw [hsz]
  refine ⟨fun hn hno hcond => ⟨?_, ?_⟩, fun hn hk hsh => ⟨?_, ?_⟩, fun h1 h2 => ?_⟩
  · intro hE
    obtain ⟨m', e, _⟩ := reserve_dynamic_grow hE hv hc hn hcond
    exact ⟨_, e⟩
  · intro s hs
    have hsz := (reserve_dynamic_grow_any hc hn hcond hs).2.2.1
    rw [show (sizeof_dynamic_buffer + E.sizeof_value * n) % SIZE_MODULUS = block_bytes E n from
      Nat.mod_eq_of_lt hno] at hsz
    have hib := fun hm => reserve_in_bounds hv hm hno hs
    obtain ⟨m', e, hh⟩ := reserve_dynamic_grow E.calm_nothrow (WF_calm.mpr hv) hc hn hcond
    rw [reserve_calm hs] at e
    cases e
    obtain ⟨h1, h2, h3, h4, h5⟩ := fresh_after_release hv hh hn (by omega)
    rw [hl] at h1 h2 h3 h4 h5
    exact ⟨rfl, h5, h4, h2, rfl, h1, hsz, hib⟩
  · intro hE
    obtain ⟨m', e, _⟩ := reserve_dynamic_inline hE hv hc hn hk hsh
    exact ⟨_, e⟩
  · intro s hs
    obtain ⟨m', e, hh⟩ := reserve_dynamic_inline E.calm_nothrow (WF_calm.mpr hv) hc hn hk hsh
    rw [reserve_calm hs] at e
    cases e
    refine ⟨rfl, rfl, ?_, rfl, WF_static.mpr ⟨hl, hk⟩, ?_⟩
    · simp only [contents, const_data, size]
      exact List.take_of_length_le (by omega)
    · show m'.heap.cell p = _
      rw [hh]
      exact Heap.cell_release_shared hc (by omega)
  · exact reserve_dynamic_same E hc h1 h2

/-- C14 witness: with `SMALL_SIZE = 4`, on a heap-backed `[1,2,3]` of capacity 8:
`reserve(12)` with refcount 1 gives a private block of capacity 12; `reserve(2)` with
refcount 2 gives the inline `[1,2,3]`; `reserve(6)` with refcount 1 changes nothing. -/
theorem C14_reserve_heap_witness :
    (WF (Env.ints 4) (⟨[some ⟨8, 1, [1, 2, 3]⟩], 0, 0, 0, 0, [48]⟩ : Mem Nat) ⟨3, .dynamicBuffer 0⟩ ∧
      reserve (Env.ints 4) (⟨[some ⟨8, 1, [1, 2, 3]⟩], 0, 0, 0, 0, [48]⟩ : Mem Nat)
          ⟨3, .dynamicBuffer 0⟩ 12 =
        .ok () (⟨[none, some ⟨12, 1, [1, 2, 3]⟩], 3, 3, 3, 1, [48, 64]⟩, ⟨3, .dynamicBuffer 1⟩) ∧
      capacity (Env.ints 4) (⟨[none, some ⟨12, 1, [1, 2, 3]⟩], 3, 3, 3, 1, [48, 64]⟩ : Mem Nat)
        ⟨3, .dynamicBuffer 1⟩ = 12) ∧
    (WF (Env.ints 4) (⟨[some ⟨8, 2, [1, 2, 3]⟩], 0, 0, 0, 0, [48]⟩ : Mem Nat) ⟨3, .dynamicBuffer 0⟩ ∧
      reserve (Env.ints 4) (⟨[some ⟨8, 2, [1, 2, 3]⟩], 0, 0, 0, 0, [48]⟩ : Mem Nat)
          ⟨3, .dynamicBuffer 0⟩ 2 =
        .ok () (⟨[some ⟨8, 1, [1, 2, 3]⟩], 3, 3, 0, 0, [48]⟩, ⟨3, .staticBuffer [1, 2, 3]⟩) ∧
      (⟨[some ⟨8, 1, [1, 2, 3]⟩], 3, 3, 0, 0, [48]⟩ : Mem Nat).heap.cell 0 =
        some ⟨8, 1, [1, 2, 3]⟩) ∧
    reserve (Env.ints 4) (⟨[some ⟨8, 1, [1, 2, 3]⟩], 0, 0, 0, 0, [48]⟩ : Mem Nat)
        ⟨3, .dynamicBuffer 0⟩ 6 =
      .ok () (⟨[some ⟨8, 1, [1, 2, 3]⟩], 0, 0, 0, 0, [48]⟩, ⟨3, .dynamicBuffer 0⟩) :=
  ⟨⟨by decide, rfl,
     (((C14_reserve_heap (Env.ints 4) (⟨[some ⟨8, 1, [1, 2, 3]⟩], 0, 0, 0, 0, [48]⟩ : Mem Nat) 3 0
        ⟨8, 1, [1, 2, 3]⟩ (by decide) rfl 12).1 (by decide) (by decide) (by decide)).2
        (⟨[none, some ⟨12, 1, [1, 2, 3]⟩], 3, 3, 3, 1, [48, 64]⟩, ⟨3, .dynamicBuffer 1⟩) rfl).2.2.1⟩,
   ⟨by decide, rfl,
     (((C14_reserve_heap (Env.ints 4) (⟨[some ⟨8, 2, [1, 2, 3]⟩], 0, 0, 0, 0, [48]⟩ : Mem Nat) 3 0
        ⟨8, 2, [1, 2, 3]⟩ (by decide) rfl 2).2.1 (by decide) (by decide) (by decide)).2
        (⟨[some ⟨8, 1, [1, 2, 3]⟩], 3, 3, 0, 0, [48]⟩, ⟨3, .staticBuffer [1, 2, 3]⟩) rfl).2.2.2.2.2⟩,
   (C14_reserve_heap (Env.ints 4) (⟨[some ⟨8, 1, [1, 2, 3]⟩], 0, 0, 0, 0, [48]⟩ : Mem Nat) 3 0
      ⟨8, 1, [1, 2, 3]⟩ (by decide) rfl 6).2.2 (by decide) (by decide)⟩

end Socow
namespace Socow
variable {T : Type}

/-- C19 (as stated, refuted): with `SMALL_SIZE = 4` and `sizeof(value_type) == 4`, push
1..5 into `a` and copy-construct `b` from `a`: both point at block 0, of capacity 8 and
refcount 2, and the memory is in bounds. Then `b.reserve(2^62)` returns, and `capacity()`
of `b` reads `2^62` from the header of its new block; but the byte count `16 + 4 * 2^62`
was computed in `size_t` and wrapped to 16, so the block lies in an allocation of 16
bytes and the five copied elements, which end at byte 36, were written past its end. -/
theorem C19_reserve_byte_count_wraps :
    World.run (Env.ints 4) 2 (World.init : World Nat)
        [.construct, .mutate 0 (.push_back 1), .mutate 0 (.push_back 2),
          .mutate 0 (.push_back 3), .mutate 0 (.push_back 4), .mutate 0 (.push_back 5),
          .copy_construct 0] =
      some ⟨⟨[some ⟨8, 2, [1, 2, 3, 4, 5]⟩], 9, 9, 4, 1, [48]⟩,
        [some ⟨5, .dynamicBuffer 0⟩, some ⟨5, .dynamicBuffer 0⟩]⟩ ∧
    Mem.in_bounds (Env.ints 4) (⟨[some ⟨8, 2, [1, 2, 3, 4, 5]⟩], 9, 9, 4, 1, [48]⟩ : Mem Nat) ∧
    reserve (Env.ints 4) (⟨[some ⟨8, 2, [1, 2, 3, 4, 5]⟩], 9, 9, 4, 1, [48]⟩ : Mem Nat)
        ⟨5, .dynamicBuffer 0⟩ 4611686018427387904 =
      .ok () (⟨[some ⟨8, 1, [1, 2, 3, 4, 5]⟩,
          some ⟨4611686018427387904, 1, [1, 2, 3, 4, 5]⟩], 14, 14, 4, 2, [48, 16]⟩,
        ⟨5, .dynamicBuffer 1⟩) ∧
    capacity (Env.ints 4) (⟨[some ⟨8, 1, [1, 2, 3, 4, 5]⟩,
          some ⟨4611686018427387904, 1, [1, 2, 3, 4, 5]⟩], 14, 14, 4, 2, [48, 16]⟩ : Mem Nat)
        ⟨5, .dynamicBuffer 1⟩ = 4611686018427387904 ∧
    Mem.bytes (⟨[some ⟨8, 1, [1, 2, 3, 4, 5]⟩,
          some ⟨4611686018427387904, 1, [1, 2, 3, 4, 5]⟩], 14, 14, 4, 2, [48, 16]⟩ : Mem Nat)
        1 = 16 ∧
    block_bytes (Env.ints 4) 5 = 36 ∧
    ¬ Mem.in_bounds (Env.ints 4) (⟨[some ⟨8, 1, [1, 2, 3, 4, 5]⟩,
          some ⟨4611686018427387904, 1, [1, 2, 3, 4, 5]⟩], 14, 14, 4, 2, [48, 16]⟩ : Mem Nat) := by
  decide

/-- C19 (amended): the postcondition of reserve. For a container in any storage state
and every `n` for which the byte count `sizeof(dynamic_buffer) + sizeof(value_type) * n`
does not overflow `size_t`, `reserve(n)` returns when no element copy and no allocation
throws, and whenever it returns, whatever the element type and the allocator do
elsewhere, `capacity() >= n` afterwards, the contents and `size()` are unchanged, and a
memory that was in bounds still is. -/
theorem C19_reserve_postcondition {E : Env} {m : Mem T} {v : socow_vector T}
    (hv : WF E m v) (n : Nat) (hno : block_bytes E n < SIZE_MODULUS) :
    (E.nothrow → ∃ s, reserve E m v n = .ok () s) ∧
    ∀ s, reserve E m v n = .ok () s →
      n ≤ capacity E s.1 s.2 ∧ contents s.1 s.2 = contents m v ∧ size s.2 = size v ∧
        WF E s.1 s.2 ∧ (m.in_bounds E → s.1.in_bounds E) := by
  constructor
  · intro hE
    obtain ⟨m', v', e, _⟩ := reserve_Effect hE hv n
    exact ⟨_, e⟩
  · intro s hs
    have hib := fun hm => reserve_in_bounds hv hm hno hs
    obtain ⟨m', v', e, he, hcap⟩ := reserve_Effect E.calm_nothrow (WF_calm.mpr hv) n
    rw [reserve_calm hs] at e
    cases e
    obtain ⟨h1, _, h3, h4⟩ := he.facts (WF_calm.mpr hv)
    refine ⟨hcap, ?_, ?_, h1, hib⟩
    · rw [h3, hv.contents_eq]
    · rw [h4, hv.length_const_data]

/-- C19 witness: with `SMALL_SIZE = 4` and `sizeof(value_type) == 4`, `reserve(5)` on a
heap-backed `[1,2,3]` of capacity 8 whose block a second container shares gives capacity
5 and the same contents, in an allocation of 36 bytes. -/
theorem C19_reserve_postcondition_witness :
    WF (Env.ints 4) (⟨[some ⟨8, 2, [1, 2, 3]⟩], 0, 0, 0, 0, [48]⟩ : Mem Nat) ⟨3, .dynamicBuffer 0⟩ ∧
    block_bytes (Env.ints 4) 5 < SIZE_MODULUS ∧
    reserve (Env.ints 4) (⟨[some ⟨8, 2, [1, 2, 3]⟩], 0, 0, 0, 0, [48]⟩ : Mem Nat)
        ⟨3, .dynamicBuffer 0⟩ 5 =
      .ok () (⟨[some ⟨8, 1, [1, 2, 3]⟩, some ⟨5, 1, [1, 2, 3]⟩], 3, 3, 0, 1, [48, 36]⟩,
        ⟨3, .dynamicBuffer 1⟩) ∧
    5 ≤ capacity (Env.ints 4)
      (⟨[some ⟨8, 1, [1, 2, 3]⟩, some ⟨5, 1, [1, 2, 3]⟩], 3, 3, 0, 1, [48, 36]⟩ : Mem Nat)
      ⟨3, .dynamicBuffer 1⟩ ∧
    contents (⟨[some ⟨8, 1, [1, 2, 3]⟩, some ⟨5, 1, [1, 2, 3]⟩], 3, 3, 0, 1, [48, 36]⟩ : Mem Nat)
      ⟨3, .dynamicBuffer 1⟩ = [1, 2, 3] ∧
    Mem.in_bounds (Env.ints 4)
      (⟨[some ⟨8, 1, [1, 2, 3]⟩, some ⟨5, 1, [1, 2, 3]⟩], 3, 3, 0, 1, [48, 36]⟩ : Mem Nat) :=
  ⟨by decide, by decide, rfl,
   ((C19_reserve_postcondition (E := Env.ints 4)
      (m := (⟨[some ⟨8, 2, [1, 2, 3]⟩], 0, 0, 0, 0, [48]⟩ : Mem Nat)) (v := ⟨3, .dynamicBuffer 0⟩)
      (by decide) 5 (by decide)).2
      (⟨[some ⟨8, 1, [1, 2, 3]⟩, some ⟨5, 1, [1, 2, 3]⟩], 3, 3, 0, 1, [48, 36]⟩, ⟨3, .dynamicBuffer 1⟩)
      rfl).1,
   ((C19_reserve_postcondition (E := Env.ints 4)
      (m := (⟨[some ⟨8, 2, [1, 2, 3]⟩], 0, 0, 0, 0, [48]⟩ : Mem Nat)) (v := ⟨3, .dynamicBuffer 0⟩)
      (by decide) 5 (by decide)).2
      (⟨[some ⟨8, 1, [1, 2, 3]⟩, some ⟨5, 1, [1, 2, 3]⟩], 3, 3, 0, 1, [48, 36]⟩, ⟨3, .dynamicBuffer 1⟩)
      rfl).2.1,
   ((C19_reserve_postcondition (E := Env.ints 4)
      (m := (⟨[some ⟨8, 2, [1, 2, 3]⟩], 0, 0, 0, 0, [48]⟩ : Mem Nat)) (v := ⟨3, .dynamicBuffer 0⟩)
      (by decide) 5 (by decide)).2
      (⟨[some ⟨8, 1, [1, 2, 3]⟩, some ⟨5, 1, [1, 2, 3]⟩], 3, 3, 0, 1, [48, 36]⟩, ⟨3, .dynamicBuffer 1⟩)
      rfl).2.2.2.2 (by decide)⟩

/-- C12 (as stated, refuted): with `SMALL_SIZE = 4` and `sizeof(value_type) == 4`, after
five `push_back` calls the container is heap-backed, holding `[1,2,3,4,5]` in a block of
capacity 8, and the memory is in bounds. Then `reserve(2^62)` computes the byte count
`16 + 4 * 2^62` in `size_t`, which wraps to 16: the five elements are copied into a block
that lies in an allocation of 16 bytes, past its end (they end at byte 36), and it is
from that block that `shrink_to_fit()` then copies them again. -/
theorem C12_round_trip_byte_count_wraps :
    World.run (Env.ints 4) 2 (World.init : World Nat)
        [.construct, .mutate 0 (.push_back 1), .mutate 0 (.push_back 2),
          .mutate 0 (.push_back 3), .mutate 0 (.push_back 4), .mutate 0 (.push_back 5)] =
      some ⟨⟨[some ⟨8, 1, [1, 2, 3, 4, 5]⟩], 9, 9, 4, 1, [48]⟩,
        [some ⟨5, .dynamicBuffer 0⟩]⟩ ∧
    Mem.in_bounds (Env.ints 4) (⟨[some ⟨8, 1, [1, 2, 3, 4, 5]⟩], 9, 9, 4, 1, [48]⟩ : Mem Nat) ∧
    reserve (Env.ints 4) (⟨[some ⟨8, 1, [1, 2, 3, 4, 5]⟩], 9, 9, 4, 1, [48]⟩ : Mem Nat)
        ⟨5, .dynamicBuffer 0⟩ 4611686018427387904 =
      .ok () (⟨[none, some ⟨4611686018427387904, 1, [1, 2, 3, 4, 5]⟩], 14, 14, 9, 2,
        [48, 16]⟩, ⟨5, .dynamicBuffer 1⟩) ∧
    block_bytes (Env.ints 4) 5 = 36 ∧
    ¬ Mem.in_bounds (Env.ints 4)
      (⟨[none, some ⟨4611686018427387904, 1, [1, 2, 3, 4, 5]⟩], 14, 14, 9, 2,
        [48, 16]⟩ : Mem Nat) ∧
    shrink_to_fit (Env.ints 4)
        (⟨[none, some ⟨4611686018427387904, 1, [1, 2, 3, 4, 5]⟩], 14, 14, 9, 2,
          [48, 16]⟩ : Mem Nat) ⟨5, .dynamicBuffer 1⟩ =
      .ok () (⟨[none, none, some ⟨5, 1, [1, 2, 3, 4, 5]⟩], 19, 19, 14, 3, [48, 16, 36]⟩,
        ⟨5, .dynamicBuffer 2⟩) := by
  decide

/-- C12 (amended): the round trip of reserve and shrink_to_fit. For a container in any
storage state and every `n` for which the byte count
`sizeof(dynamic_buffer) + sizeof(value_type) * n` does not overflow `size_t`,
`reserve(n)` followed by `shrink_to_fit()` returns when no element copy and no allocation
throws, and whenever both return the contents and `size()` are those before the two
calls and `capacity()` is the least value that fits `size()`: `SMALL_SIZE`, with the
container inline, if `size() <= SMALL_SIZE`, and exactly `size()`, with the container
heap-backed, otherwise; and a memory that was in bounds is in bounds after each of the
two calls. -/
theorem C12_reserve_shrink_round_trip {E : Env} {m : Mem T} {v : socow_vector T}
    (hv : WF E m v) (n : Nat) (hno : block_bytes E n < SIZE_MODULUS) :
    (E.nothrow → ∃ s1 s2, reserve E m v n = .ok () s1 ∧
      shrink_to_fit E s1.1 s1.2 = .ok () s2) ∧
    ∀ s1 s2, reserve E m v n = .ok () s1 → shrink_to_fit E s1.1 s1.2 = .ok () s2 →
      contents s2.1 s2.2 = contents m v ∧ size s2.2 = size v ∧
      capacity E s2.1 s2.2 = (if size v ≤ E.SMALL_SIZE then E.SMALL_SIZE else size v) ∧
      (s2.2.is_static = true ↔ size v ≤ E.SMALL_SIZE) ∧
      (m.in_bounds E → s1.1.in_bounds E ∧ s2.1.in_bounds E) := by
  have key : ∀ (F : Env), F.nothrow → WF F m v →
      ∃ s1 s2, reserve F m v n = .ok () s1 ∧ shrink_to_fit F s1.1 s1.2 = .ok () s2 ∧
        WF F s1.1 s1.2 ∧
        contents s2.1 s2.2 = contents m v ∧ size s2.2 = size v ∧
        capacity F s2.1 s2.2 = (if size v ≤ F.SMALL_SIZE then F.SMALL_SIZE else size v) ∧
        (s2.2.is_static = true ↔ size v ≤ F.SMALL_SIZE) := by
    intro F hF hvF
    obtain ⟨m1, v1, e1, he1, _⟩ := reserve_Effect hF hvF n
    obtain ⟨hv1, hd1, hc1, hs1⟩ := he1.facts hvF
    obtain ⟨m2, v2, e2, he2, hcap, hst⟩ := shrink_to_fit_Effect hF hv1
    obtain ⟨_, _, hc2, hs2⟩ := he2.facts hv1
    have hsz : size v1 = size v := by rw [hs1, hvF.length_const_data]
    refine ⟨(m1, v1), (m2, v2), e1, e2, hv1, ?_, ?_, ?_, ?_⟩
    · rw [hc2, hd1, hvF.contents_eq]
    · rw [hs2, hd1, hvF.length_const_data]
    · rw [hcap, hsz]
    · rw [hst, hsz]
  constructor
  · intro hE
    obtain ⟨s1, s2, e1, e2, _⟩ := key E hE hv
    exact ⟨s1, s2, e1, e2⟩
  · intro s1 s2 h1 h2
    obtain ⟨t1, t2, e1, e2, hv1, h⟩ := key E.calm E.calm_nothrow (WF_calm.mpr hv)
    rw [reserve_calm h1] at e1
    cases e1
    rw [shrink_to_fit_calm h2] at e2
    cases e2
    obtain ⟨a1, a2, a3, a4⟩ := h
    refine ⟨a1, a2, a3, a4, fun hm => ?_⟩
    have hb1 := reserve_in_bounds hv hm hno h1
    exact ⟨hb1, shrink_to_fit_in_bounds (WF_calm.mp hv1) hb1 h2⟩

/-- C12 witness: the scenario of the spec with `SMALL_SIZE = 4`. The inline `[1,2,3]`
after `reserve(8)` is heap-backed with size 3 and capacity 8; `shrink_to_fit()` brings it
back to inline storage with capacity 4 and the same elements. -/
theorem C12_reserve_shrink_round_trip_witness :
    WF (Env.ints 4) (Mem.empty : Mem Nat) ⟨3, .staticBuffer [1, 2, 3]⟩ ∧
    block_bytes (Env.ints 4) 8 < SIZE_MODULUS ∧
    reserve (Env.ints 4) (Mem.empty : Mem Nat) ⟨3, .staticBuffer [1, 2, 3]⟩ 8 =
      .ok () (⟨[some ⟨8, 1, [1, 2, 3]⟩], 3, 3, 3, 1, [48]⟩, ⟨3, .dynamicBuffer 0⟩) ∧
    shrink_to_fit (Env.ints 4) (⟨[some ⟨8, 1, [1, 2, 3]⟩], 3, 3, 3, 1, [48]⟩ : Mem Nat)
        ⟨3, .dynamicBuffer 0⟩ =
      .ok () (⟨[none], 6, 6, 6, 1, [48]⟩, ⟨3, .staticBuffer [1, 2, 3]⟩) ∧
    contents (⟨[none], 6, 6, 6, 1, [48]⟩ : Mem Nat) ⟨3, .staticBuffer [1, 2, 3]⟩ = [1, 2, 3] ∧
    capacity (Env.ints 4) (⟨[none], 6, 6, 6, 1, [48]⟩ : Mem Nat) ⟨3, .staticBuffer [1, 2, 3]⟩ = 4 :=
  ⟨by decide, by decide, rfl, rfl,
   ((C12_reserve_shrink_round_trip (E := Env.ints 4) (m := (Mem.empty : Mem Nat))
      (v := ⟨3, .staticBuffer [1, 2, 3]⟩) (by decide) 8 (by decide)).2
      (⟨[some ⟨8, 1, [1, 2, 3]⟩], 3, 3, 3, 1, [48]⟩, ⟨3, .dynamicBuffer 0⟩)
      (⟨[none], 6, 6, 6, 1, [48]⟩, ⟨3, .staticBuffer [1, 2, 3]⟩) rfl rfl).1,
   ((C12_reserve_shrink_round_trip (E := Env.ints 4) (m := (Mem.empty : Mem Nat))
      (v := ⟨3, .staticBuffer [1, 2, 3]⟩) (by decide) 8 (by decide)).2
      (⟨[some ⟨8, 1, [1, 2, 3]⟩], 3, 3, 3, 1, [48]⟩, ⟨3, .dynamicBuffer 0⟩)
      (⟨[none], 6, 6, 6, 1, [48]⟩, ⟨3, .staticBuffer [1, 2, 3]⟩) rfl rfl).2.2.1⟩

end Socow
namespace Socow
variable {T : Type}

/-- C15: pop_back removes exactly the last element. For a non-empty container holding
`xs`, `pop_back()` returns when no element copy and no allocation throws (always, if
the container is inline or its block has refcount 1), and whenever it returns the
container holds `xs` without its last element, `size()` is one less and `capacity()` and
the mode are unchanged. If the container was exclusive it keeps its storage (the same
block, or the inline storage); if its block was shared with refcount `r > 1`, it ends
with another block, of refcount 1 and the same capacity, and the old block keeps its
capacity and all its elements and has refcount `r - 1`. -/
theorem C15_pop_back {E : Env} {m : Mem T} {v : socow_vector T} (hv : WF E m v)
    (hn : 0 < size v) :
    (E.nothrow ∨ exclusive m v = true → ∃ s, pop_back E m v = .ok () s) ∧
    ∀ s, pop_back E m v = .ok () s →
      contents s.1 s.2 = (contents m v).take (size v - 1) ∧ size s.2 = size v - 1 ∧
      capacity E s.1 s.2 = capacity E m v ∧ s.2.is_static = v.is_static ∧ WF E s.1 s.2 ∧
      (exclusive m v = true → ∀ q, s.2.points_at q = v.points_at q) ∧
      (∀ p b, v.store = .dynamicBuffer p → m.heap.cell p = some b → 2 ≤ b.cntRef →
        s.2.points_at p = false ∧ cntRef s.1 s.2 = 1 ∧
        s.1.heap.cell p = some { b with cntRef := b.cntRef - 1 }) := by
  have hl := hv.length_const_data
  constructor
  · intro h
    by_cases hx : exclusive m v = true
    · obtain ⟨m', e, _⟩ := pop_back_owned E (hv.Owned_of_exclusive hx)
      exact ⟨_, e⟩
    · cases h with
      | inl hE =>
        obtain ⟨m', v', e, _⟩ := pop_back_Effect hE hv hn
        exact ⟨_, e⟩
      | inr h => exact absurd h hx
  · intro s hs
    obtain ⟨m', v', e, he, hcap, hst⟩ := pop_back_Effect E.calm_nothrow (WF_calm.mpr hv) hn
    rw [pop_back_calm hs] at e
    cases e
    obtain ⟨h1, _, h3, h4⟩ := he.facts (WF_calm.mpr hv)
    refine ⟨?_, ?_, hcap, hst, h1, ?_, ?_⟩
    · rw [h3, hv.contents_eq]
    · rw [h4, List.length_take, hl]
      omega
    · intro hx q
      obtain ⟨m2, e2, _⟩ := pop_back_owned E (hv.Owned_of_exclusive hx)
      rw [hs] at e2
      cases e2
      obtain ⟨k, st⟩ := v
      cases st <;> rfl
    · intro p b hst hc hr
      obtain ⟨k, st⟩ := v
      simp only at hst
      subst hst
      obtain ⟨m2, e2, hh⟩ := pop_back_shared E.calm_nothrow (n := k) hc hr
      rw [pop_back_calm hs] at e2
      cases e2
      have hp := Heap.cell_some_lt hc
      have hcq : m'.heap.cell m.heap.length =
          some (dynamic_buffer.mk b.capacity 1 (b.elements.take (k - 1))) := by
        rw [hh, Heap.release_append _ hp]
        have := Heap.cell_append_length (h := m.heap.release p)
          (x := some (dynamic_buffer.mk b.capacity 1 (b.elements.take (k - 1))))
        simpa using this
      refine ⟨?_, cntRef_of_cell hcq, ?_⟩
      · rw [points_at_dynamic]
        simp
        omega
      · show m'.heap.cell p = _
        rw [hh, Heap.release_append _ hp, Heap.cell_append_lt (by simpa using hp)]
        exact Heap.cell_release_shared hc hr

/-- C15 witness: with `SMALL_SIZE = 4`, `pop_back()` on a heap-backed `[1,2,3,4,5]`
whose block of capacity 8 has refcount 2 gives `[1,2,3,4]` in a private block of capacity
8, and the old block keeps `[1,2,3,4,5]` with refcount 1. -/
theorem C15_pop_back_witness :
    WF (Env.ints 4) (⟨[some ⟨8, 2, [1, 2, 3, 4, 5]⟩], 9, 9, 4, 1, [48]⟩ : Mem Nat)
      ⟨5, .dynamicBuffer 0⟩ ∧
    pop_back (Env.ints 4) (⟨[some ⟨8, 2, [1, 2, 3, 4, 5]⟩], 9, 9, 4, 1, [48]⟩ : Mem Nat)
        ⟨5, .dynamicBuffer 0⟩ =
      .ok () (⟨[some ⟨8, 1, [1, 2, 3, 4, 5]⟩, some ⟨8, 1, [1, 2, 3, 4]⟩], 13, 13, 4, 2, [48, 48]⟩,
        ⟨4, .dynamicBuffer 1⟩) ∧
    contents (⟨[some ⟨8, 1, [1, 2, 3, 4, 5]⟩, some ⟨8, 1, [1, 2, 3, 4]⟩], 13, 13, 4, 2, [48, 48]⟩ : Mem Nat)
      ⟨4, .dynamicBuffer 1⟩ = [1, 2, 3, 4] ∧
    capacity (Env.ints 4)
      (⟨[some ⟨8, 1, [1, 2, 3, 4, 5]⟩, some ⟨8, 1, [1, 2, 3, 4]⟩], 13, 13, 4, 2, [48, 48]⟩ : Mem Nat)
      ⟨4, .dynamicBuffer 1⟩ = 8 :=
  ⟨by decide, rfl,
   ((C15_pop_back (E := Env.ints 4)
      (m := (⟨[some ⟨8, 2, [1, 2, 3, 4, 5]⟩], 9, 9, 4, 1, [48]⟩ : Mem Nat))
      (v := ⟨5, .dynamicBuffer 0⟩) (by decide) (by decide)).2
      (⟨[some ⟨8, 1, [1, 2, 3, 4, 5]⟩, some ⟨8, 1, [1, 2, 3, 4]⟩], 13, 13, 4, 2, [48, 48]⟩,
        ⟨4, .dynamicBuffer 1⟩) rfl).1,
   ((C15_pop_back (E := Env.ints 4)
      (m := (⟨[some ⟨8, 2, [1, 2, 3, 4, 5]⟩], 9, 9, 4, 1, [48]⟩ : Mem Nat))
      (v := ⟨5, .dynamicBuffer 0⟩) (by decide) (by decide)).2
      (⟨[some ⟨8, 1, [1, 2, 3, 4, 5]⟩, some ⟨8, 1, [1, 2, 3, 4]⟩], 13, 13, 4, 2, [48, 48]⟩,
        ⟨4, .dynamicBuffer 1⟩) rfl).2.2.1⟩

/-- C18: heap blocks are larger than the inline storage. In every reachable state,
whatever the element type and the allocator do and whether the calls returned or exited
by an exception that the program caught, the block of a live heap-backed container has a
capacity strictly greater than `SMALL_SIZE`, so a heap-backed container with
`size() == capacity()` has `size() > SMALL_SIZE`; and the private constructor that takes
a capacity makes an inline container whenever the capacity asked for is at most
`SMALL_SIZE`. -/
theorem C18_heap_capacity_above_inline {E : Env} {w : World T} (hr : Reachable E w)
    {v : socow_vector T} (hv : some v ∈ w.objs) (hheap : v.is_static = false) :
    E.SMALL_SIZE < capacity E w.mem v ∧
      (size v = capacity E w.mem v → E.SMALL_SIZE < size v) ∧
      ∀ (m : Mem T) (cap : Nat), cap ≤ E.SMALL_SIZE →
        ctor_capacity E m cap = .ok ⟨0, .staticBuffer []⟩ m := by
  have hwf := (Reachable.Inv_any hr).1 v hv
  obtain ⟨n, st⟩ := v
  cases st with
  | staticBuffer buf => cases hheap
  | dynamicBuffer p =>
    obtain ⟨b, hc, _, _, hsm, _⟩ := WF_dynamic.mp hwf
    have hcap := capacity_of_cell E (n := n) hc
    refine ⟨by rw [hcap]; exact hsm, ?_, ?_⟩
    · intro h
      rw [h, hcap]
      exact hsm
    · intro m cap hle
      simp [ctor_capacity, hle]

/-- C18 witness: with `SMALL_SIZE = 2` and an element type whose sixth copy construction
throws, after three `push_back` calls, a copy and a `pop_back()` on the copy that exits
by an exception while it unshares (the candidate block is freed again), the copy still
points at the shared block of capacity four. -/
theorem C18_heap_capacity_above_inline_witness :
    Reachable ⟨2, fun k => k == 5, fun _ => false, false, 4⟩
      (⟨⟨[some ⟨4, 2, [1, 2, 3]⟩, none], 6, 5, 2, 2, [32, 32]⟩,
        [some ⟨3, .dynamicBuffer 0⟩, some ⟨3, .dynamicBuffer 0⟩]⟩ : World Nat) ∧
    (2 : Nat) < capacity ⟨2, fun k => k == 5, fun _ => false, false, 4⟩
        (⟨[some ⟨4, 2, [1, 2, 3]⟩, none], 6, 5, 2, 2, [32, 32]⟩ : Mem Nat)
        ⟨3, .dynamicBuffer 0⟩ :=
  ⟨⟨2, [.construct, .mutate 0 (.push_back 1), .mutate 0 (.push_back 2),
     .mutate 0 (.push_back 3), .copy_construct 0, .mutate 1 .pop_back], by decide⟩,
   (C18_heap_capacity_above_inline (E := ⟨2, fun k => k == 5, fun _ => false, false, 4⟩)
     (w := ⟨⟨[some ⟨4, 2, [1, 2, 3]⟩, none], 6, 5, 2, 2, [32, 32]⟩,
        [some ⟨3, .dynamicBuffer 0⟩, some ⟨3, .dynamicBuffer 0⟩]⟩)
     ⟨2, [.construct, .mutate 0 (.push_back 1), .mutate 0 (.push_back 2),
       .mutate 0 (.push_back 3), .copy_construct 0, .mutate 1 .pop_back], by decide⟩
     (v := ⟨3, .dynamicBuffer 0⟩) (by simp) rfl).1⟩

end Socow
namespace Socow
variable {T : Type}

/-- C16: the reference-count invariant. In every state of a collection of containers
reached by construction, copy construction, destruction, copy assignment, swap and the
mutating and accessing calls, whatever the element type and the allocator do and whether
the calls returned or exited by an exception that the program caught: (1) the refcount of
every live block is the number of live containers whose handle is that block, and it is
at least 1; (2) no live container has a freed (or never allocated) block as its handle;
(3) after any further call, returning or not, a block that was live is freed exactly
when no live container points at it any more, and a block is freed only by a call that
returns, made on a container that pointed at the block and was the only one to do so:
the block held exactly `size()` constructed elements of that container, and exactly
`size()` elements were destroyed by the call, be it the destructor, `operator=`,
`reserve`, `shrink_to_fit`, or `insert` and `push_back`, whose temporary takes the old
block over and releases it; (4) a live container pointing at a block has as many
elements in it as its `size()`, and its destructor frees the block and destroys exactly
`size()` elements when it is the only container pointing at the block, and otherwise
only decrements the refcount and destroys nothing. -/
theorem C16_refcount_invariant {E : Env} {w : World T} (hr : Reachable E w) :
    (∀ q b, w.mem.heap.cell q = some b → b.cntRef = w.refs q ∧ 1 ≤ b.cntRef) ∧
    (∀ q, w.mem.heap.cell q = none → w.refs q = 0) ∧
    (∀ fuel c w', w.step E fuel c = some w' → ∀ q b, w.mem.heap.cell q = some b →
      (w'.mem.heap.cell q = none ↔ w'.refs q = 0) ∧
      (w'.mem.heap.cell q = none →
        w.call E fuel c = some (.ok () w') ∧
        ∃ i v, w.obj i = some v ∧ v.points_at q = true ∧ w.refs q = 1 ∧
          b.elements.length = size v ∧ w'.mem.destroyed = w.mem.destroyed + size v)) ∧
    (∀ i v q b, w.obj i = some v → v.points_at q = true → w.mem.heap.cell q = some b →
      b.elements.length = size v ∧
      (w.refs q = 1 → (dtor w.mem v).heap.cell q = none ∧
        (dtor w.mem v).destroyed = w.mem.destroyed + size v) ∧
      (2 ≤ w.refs q →
        (dtor w.mem v).heap.cell q = some { b with cntRef := b.cntRef - 1 } ∧
        (dtor w.mem v).destroyed = w.mem.destroyed)) := by
  have hw := Reachable.Inv_any hr
  refine ⟨hw.2, fun q hc => hw.no_dangling hc, ?_, ?_⟩
  · intro fuel c w' hs q b hc
    have hw' := World.step_Inv_any hw fuel c hs
    refine ⟨⟨fun h => hw'.no_dangling h, ?_⟩, fun hnone => World.step_freed hw fuel c hs hc hnone⟩
    intro h0
    cases hc' : w'.mem.heap.cell q with
    | none => rfl
    | some b' =>
      obtain ⟨h1, h2⟩ := hw'.2 q b' hc'
      omega
  · intro i v q b ho hp hc
    have hv := hw.1 v (World.obj_mem ho)
    obtain ⟨b', hvq, hc', hl, _⟩ := hv.points_at hp
    rw [hc] at hc'
    cases hc'
    have hrefs := (hw.2 q b hc).1
    have hd : dtor w.mem v = dropDynamicBuffer w.mem q v.SZ := by
      rw [hvq]
      rfl
    obtain ⟨d1, d2⟩ := dropDynamicBuffer_cell hc v.SZ
    rw [hd]
    exact ⟨hl, fun h1 => d1 (by omega), fun h2 => d2 (by omega)⟩

/-- C16 witness: with `SMALL_SIZE = 2` and an element type whose sixth copy construction
throws, after three `push_back` calls on `a`, the copy construction of `b` from `a` and a
`b.pop_back()` that exits by an exception while it unshares, the shared block has
refcount 2 and two containers point at it; `a.reserve(8)` then leaves the block to `b`
with refcount 1, and `b.reserve(8)` frees it: the call returns, `b` was the only
container pointing at the block, and the three elements of `b` are destroyed. -/
theorem C16_refcount_invariant_witness :
    Reachable ⟨2, fun k => k == 5, fun _ => false, false, 4⟩
      (⟨⟨[some ⟨4, 2, [1, 2, 3]⟩, none], 6, 5, 2, 2, [32, 32]⟩,
        [some ⟨3, .dynamicBuffer 0⟩, some ⟨3, .dynamicBuffer 0⟩]⟩ : World Nat) ∧
    ((2 : Nat) = World.refs (⟨⟨[some ⟨4, 2, [1, 2, 3]⟩, none], 6, 5, 2, 2, [32, 32]⟩,
        [some ⟨3, .dynamicBuffer 0⟩, some ⟨3, .dynamicBuffer 0⟩]⟩ : World Nat) 0 ∧ 1 ≤ 2) ∧
    Reachable ⟨2, fun k => k == 5, fun _ => false, false, 4⟩
      (⟨⟨[some ⟨4, 1, [1, 2, 3]⟩, none, some ⟨8, 1, [1, 2, 3]⟩], 9, 8, 2, 3, [32, 32, 48]⟩,
        [some ⟨3, .dynamicBuffer 2⟩, some ⟨3, .dynamicBuffer 0⟩]⟩ : World Nat) ∧
    World.step ⟨2, fun k => k == 5, fun _ => false, false, 4⟩ 2
        (⟨⟨[some ⟨4, 1, [1, 2, 3]⟩, none, some ⟨8, 1, [1, 2, 3]⟩], 9, 8, 2, 3, [32, 32, 48]⟩,
          [some ⟨3, .dynamicBuffer 2⟩, some ⟨3, .dynamicBuffer 0⟩]⟩ : World Nat)
        (.mutate 1 (.reserve 8)) =
      some ⟨⟨[none, none, some ⟨8, 1, [1, 2, 3]⟩, some ⟨8, 1, [1, 2, 3]⟩], 12, 11, 5, 4,
          [32, 32, 48, 48]⟩,
        [some ⟨3, .dynamicBuffer 2⟩, some ⟨3, .dynamicBuffer 3⟩]⟩ ∧
    ∃ i v,
      World.obj (⟨⟨[some ⟨4, 1, [1, 2, 3]⟩, none, some ⟨8, 1, [1, 2, 3]⟩], 9, 8, 2, 3,
          [32, 32, 48]⟩,
        [some ⟨3, .dynamicBuffer 2⟩, some ⟨3, .dynamicBuffer 0⟩]⟩ : World Nat) i = some v ∧
      v.points_at 0 = true ∧
      World.refs (⟨⟨[some ⟨4, 1, [1, 2, 3]⟩, none, some ⟨8, 1, [1, 2, 3]⟩], 9, 8, 2, 3,
          [32, 32, 48]⟩,
        [some ⟨3, .dynamicBuffer 2⟩, some ⟨3, .dynamicBuffer 0⟩]⟩ : World Nat) 0 = 1 ∧
      3 = size v ∧ 5 = 2 + size v :=
  ⟨⟨2, [.construct, .mutate 0 (.push_back 1), .mutate 0 (.push_back 2),
     .mutate 0 (.push_back 3), .copy_construct 0, .mutate 1 .pop_back], by decide⟩,
   (C16_refcount_invariant (E := ⟨2, fun k => k == 5, fun _ => false, false, 4⟩)
     (w := ⟨⟨[some ⟨4, 2, [1, 2, 3]⟩, none], 6, 5, 2, 2, [32, 32]⟩,
        [some ⟨3, .dynamicBuffer 0⟩, some ⟨3, .dynamicBuffer 0⟩]⟩)
     ⟨2, [.construct, .mutate 0 (.push_back 1), .mutate 0 (.push_back 2),
       .mutate 0 (.push_back 3), .copy_construct 0, .mutate 1 .pop_back], by decide⟩).1 0
     ⟨4, 2, [1, 2, 3]⟩ rfl,
   ⟨2, [.construct, .mutate 0 (.push_back 1), .mutate 0 (.push_back 2),
     .mutate 0 (.push_back 3), .copy_construct 0, .mutate 1 .pop_back,
     .mutate 0 (.reserve 8)], by decide⟩,
   by decide,
   (((C16_refcount_invariant (E := ⟨2, fun k => k == 5, fun _ => false, false, 4⟩)
     (w := ⟨⟨[some ⟨4, 1, [1, 2, 3]⟩, none, some ⟨8, 1, [1, 2, 3]⟩], 9, 8, 2, 3,
          [32, 32, 48]⟩,
        [some ⟨3, .dynamicBuffer 2⟩, some ⟨3, .dynamicBuffer 0⟩]⟩)
     ⟨2, [.construct, .mutate 0 (.push_back 1), .mutate 0 (.push_back 2),
       .mutate 0 (.push_back 3), .copy_construct 0, .mutate 1 .pop_back,
       .mutate 0 (.reserve 8)], by decide⟩).2.2.1 2 (.mutate 1 (.reserve 8))
     ⟨⟨[none, none, some ⟨8, 1, [1, 2, 3]⟩, some ⟨8, 1, [1, 2, 3]⟩], 12, 11, 5, 4,
          [32, 32, 48, 48]⟩,
        [some ⟨3, .dynamicBuffer 2⟩, some ⟨3, .dynamicBuffer 3⟩]⟩ (by decide) 0
     ⟨4, 1, [1, 2, 3]⟩ rfl).2 rfl).2⟩

end Socow
namespace Socow
variable {T : Type}

/-- C20: termination of insert. With `SMALL_SIZE >= 1`, for a container in any storage
state, every in-range position and every value, whatever the element type and the
allocator do: `insert` and `push_back` come to an end (by return or by exception) with
at most one nested call of `insert`; a container with exclusively owned storage and room
inserts in place, with no nested call; in the reallocating branch the temporary is, at
the nested call made by `tmp.push_back`, exclusively owned and of size `ind`, which is
strictly less than its capacity, so that the nested call takes the in-place branch; and
`clear` returns, leaving an empty container, when no element copy and no allocation
throws. -/
theorem C20_insert_terminates {E : Env} (hS : 1 ≤ E.SMALL_SIZE) {m : Mem T}
    {v : socow_vector T} (hv : WF E m v) {k : Nat} (hk : k ≤ size v) (x : T) :
    (∃ r, insert E 2 m v k x = some r) ∧
    (∃ r, push_back E 2 m v x = some r) ∧
    ((exclusive m v && decide (size v < capacity E m v)) = true →
      insert E 1 m v k x = some (insert_in_place E m v k x)) ∧
    ((exclusive m v && decide (size v < capacity E m v)) = false →
      ∀ tmp m1 u m2 tmp2,
        ctor_capacity E m
          (if size v = capacity E m v then 2 * capacity E m v else capacity E m v) =
          .ok tmp m1 →
        copy_into E m1 tmp 0 (const_data m1 v) k = .ok u (m2, tmp2) →
        exclusive m2 { tmp2 with SZ := tmp2.SZ + k } = true ∧
        size ({ tmp2 with SZ := tmp2.SZ + k } : socow_vector T) = k ∧
        k < capacity E m2 { tmp2 with SZ := tmp2.SZ + k } ∧
        insert E 1 m2 { tmp2 with SZ := tmp2.SZ + k }
            (end_const m2 { tmp2 with SZ := tmp2.SZ + k }) x =
          some (insert_in_place E m2 { tmp2 with SZ := tmp2.SZ + k } k x)) ∧
    (E.nothrow → ∃ m' v', clear E m v = .ok () (m', v') ∧ size v' = 0) := by
  refine ⟨insert_total_any hv (Or.inl hS) hk x 0, ?_, ?_, ?_, ?_⟩
  · obtain ⟨r, e⟩ := insert_total_any hv (Or.inl hS) (le_refl (size v)) x 0
    refine ⟨r.bind fun _ s => .ok () s, ?_⟩
    simp only [push_back, end_const, e, Option.map_some']
  · intro hb
    rw [insert]
    simp only [hb, if_true]
  · intro hb tmp m1 u m2 tmp2 h1 h2
    exact insert_nested_in_place hv (Or.inl hS) hk x hb h1 h2 0
  · intro hE
    obtain ⟨m', v', e, he, _⟩ := clear_Effect hE hv
    exact ⟨m', v', e, by rw [(he.facts hv).2.2.2]; rfl⟩

/-- C20 witness: with `SMALL_SIZE = 2`, `insert` at position 1 into the full inline
`[1,2]` comes to an end with one nested call, and gives `[1,9,2]`. -/
theorem C20_insert_terminates_witness :
    WF (Env.ints 2) (⟨[], 2, 2, 0, 0, []⟩ : Mem Nat) ⟨2, .staticBuffer [1, 2]⟩ ∧
    insert (Env.ints 2) 2 (⟨[], 2, 2, 0, 0, []⟩ : Mem Nat) ⟨2, .staticBuffer [1, 2]⟩ 1 9 =
      some (.ok 1 (⟨[some ⟨4, 1, [1, 9, 2]⟩], 5, 5, 2, 1, [32]⟩, ⟨3, .dynamicBuffer 0⟩)) ∧
    ∃ r, insert (Env.ints 2) 2 (⟨[], 2, 2, 0, 0, []⟩ : Mem Nat) ⟨2, .staticBuffer [1, 2]⟩ 1 9 =
      some r :=
  ⟨by decide, by decide,
   (C20_insert_terminates (E := Env.ints 2) (by decide) (m := (⟨[], 2, 2, 0, 0, []⟩ : Mem Nat))
     (v := ⟨2, .staticBuffer [1, 2]⟩) (by decide) (k := 1) (by decide) 9).1⟩

end Socow
namespace Socow
variable {T : Type}

/-- C17 (the code at the failing input): with `SMALL_SIZE = 4`, push 1..5 into `a` and
copy-construct `b` from `a`, so that both point at block 0 with refcount 2. The
positions are taken from a const view of `b`: the const `begin()` returns the position 0
and changes nothing. Then `b.erase(cb.begin() + 1, cb.begin() + 1)` returns the position
1 and leaves the memory and `b` as they were: `b` is not exclusively owned, the
position it returned lies in the block that `a` shares, and a store of 99 through it
changes the contents of `a` to `[1,99,3,4,5]`. When the positions are taken from the
non-const `begin()` of `b` instead, that call unshares `b` before `erase` runs, and
`erase` returns with `b` exclusively owned; and an erase of the non-empty range `[1,2)`
with positions from the const view does leave `b` exclusively owned. -/
theorem C17_erase_empty_range_returns_into_shared_block :
    World.run (Env.ints 4) 2 (World.init : World Nat)
        [.construct, .mutate 0 (.push_back 1), .mutate 0 (.push_back 2),
          .mutate 0 (.push_back 3), .mutate 0 (.push_back 4), .mutate 0 (.push_back 5),
          .copy_construct 0] =
      some ⟨⟨[some ⟨8, 2, [1, 2, 3, 4, 5]⟩], 9, 9, 4, 1, [48]⟩,
        [some ⟨5, .dynamicBuffer 0⟩, some ⟨5, .dynamicBuffer 0⟩]⟩ ∧
    access_const (⟨[some ⟨8, 2, [1, 2, 3, 4, 5]⟩], 9, 9, 4, 1, [48]⟩ : Mem Nat)
        ⟨5, .dynamicBuffer 0⟩ .begin =
      .ok 0 (⟨[some ⟨8, 2, [1, 2, 3, 4, 5]⟩], 9, 9, 4, 1, [48]⟩, ⟨5, .dynamicBuffer 0⟩) ∧
    erase (Env.ints 4) (⟨[some ⟨8, 2, [1, 2, 3, 4, 5]⟩], 9, 9, 4, 1, [48]⟩ : Mem Nat)
        ⟨5, .dynamicBuffer 0⟩ (0 + 1) (0 + 1) =
      .ok 1 (⟨[some ⟨8, 2, [1, 2, 3, 4, 5]⟩], 9, 9, 4, 1, [48]⟩, ⟨5, .dynamicBuffer 0⟩) ∧
    World.run (Env.ints 4) 2 (World.init : World Nat)
        [.construct, .mutate 0 (.push_back 1), .mutate 0 (.push_back 2),
          .mutate 0 (.push_back 3), .mutate 0 (.push_back 4), .mutate 0 (.push_back 5),
          .copy_construct 0, .access_const 1 .begin, .mutate 1 (.erase 1 1)] =
      some ⟨⟨[some ⟨8, 2, [1, 2, 3, 4, 5]⟩], 9, 9, 4, 1, [48]⟩,
        [some ⟨5, .dynamicBuffer 0⟩, some ⟨5, .dynamicBuffer 0⟩]⟩ ∧
    exclusive (⟨[some ⟨8, 2, [1, 2, 3, 4, 5]⟩], 9, 9, 4, 1, [48]⟩ : Mem Nat)
      ⟨5, .dynamicBuffer 0⟩ = false ∧
    cntRef (⟨[some ⟨8, 2, [1, 2, 3, 4, 5]⟩], 9, 9, 4, 1, [48]⟩ : Mem Nat) ⟨5, .dynamicBuffer 0⟩ = 2 ∧
    contents
      (write_data (⟨[some ⟨8, 2, [1, 2, 3, 4, 5]⟩], 9, 9, 4, 1, [48]⟩ : Mem Nat) ⟨5, .dynamicBuffer 0⟩
        ((const_data (⟨[some ⟨8, 2, [1, 2, 3, 4, 5]⟩], 9, 9, 4, 1, [48]⟩ : Mem Nat)
          ⟨5, .dynamicBuffer 0⟩).set 1 99)).1
      ⟨5, .dynamicBuffer 0⟩ = [1, 99, 3, 4, 5] ∧
    access (Env.ints 4) (⟨[some ⟨8, 2, [1, 2, 3, 4, 5]⟩], 9, 9, 4, 1, [48]⟩ : Mem Nat)
        ⟨5, .dynamicBuffer 0⟩ .begin =
      .ok 0 (⟨[some ⟨8, 1, [1, 2, 3, 4, 5]⟩, some ⟨8, 1, [1, 2, 3, 4, 5]⟩], 14, 14, 4, 2,
        [48, 48]⟩, ⟨5, .dynamicBuffer 1⟩) ∧
    erase (Env.ints 4)
        (⟨[some ⟨8, 1, [1, 2, 3, 4, 5]⟩, some ⟨8, 1, [1, 2, 3, 4, 5]⟩], 14, 14, 4, 2,
          [48, 48]⟩ : Mem Nat) ⟨5, .dynamicBuffer 1⟩ (0 + 1) (0 + 1) =
      .ok 1 (⟨[some ⟨8, 1, [1, 2, 3, 4, 5]⟩, some ⟨8, 1, [1, 2, 3, 4, 5]⟩], 14, 14, 4, 2,
        [48, 48]⟩, ⟨5, .dynamicBuffer 1⟩) ∧
    exclusive
      (⟨[some ⟨8, 1, [1, 2, 3, 4, 5]⟩, some ⟨8, 1, [1, 2, 3, 4, 5]⟩], 14, 14, 4, 2,
        [48, 48]⟩ : Mem Nat) ⟨5, .dynamicBuffer 1⟩ = true ∧
    erase (Env.ints 4) (⟨[some ⟨8, 2, [1, 2, 3, 4, 5]⟩], 9, 9, 4, 1, [48]⟩ : Mem Nat)
        ⟨5, .dynamicBuffer 0⟩ (0 + 1) (0 + 2) =
      .ok 1 (⟨[some ⟨8, 1, [1, 2, 3, 4, 5]⟩, some ⟨8, 1, [1, 3, 4, 5]⟩], 13, 13, 4, 2, [48, 48]⟩,
        ⟨4, .dynamicBuffer 1⟩) ∧
    exclusive
      (⟨[some ⟨8, 1, [1, 2, 3, 4, 5]⟩, some ⟨8, 1, [1, 3, 4, 5]⟩], 13, 13, 4, 2, [48, 48]⟩ : Mem Nat)
      ⟨4, .dynamicBuffer 1⟩ = true := by
  decide

end Socow
namespace Socow
variable {T : Type}

/-- C11 (the code at the failing input): with `SMALL_SIZE = 4` and an element type that
has no move operations, so that `std::swap` copy-constructs its temporary, and whose
fourth copy construction throws: after `push_back(1)` and `push_back(2)` the container is
the inline `[1,2]`; then `insert(begin(), 9)` takes the in-place branch, constructs 9 at
the end (third copy), increments the size, and the first `std::swap` of the walk throws
(fourth copy). The call exits by the exception and the program goes on with a container
of size 3 holding `[1,2,9]`, not with the container as it was before the call. The
reallocating branch of the same function does roll back: with `SMALL_SIZE = 2` the same
two `push_back` calls fill the inline storage, `insert(begin() + 1, 9)` reallocates, the
fourth copy construction throws while 9 is built in the temporary, and the container is
the inline `[1,2]` as before. -/
theorem C11_in_place_insert_not_rolled_back :
    World.run ⟨4, fun k => k == 3, fun _ => false, true, 4⟩ 2 (World.init : World Nat)
        [.construct, .mutate 0 (.push_back 1), .mutate 0 (.push_back 2)] =
      some ⟨⟨[], 2, 2, 0, 0, []⟩, [some ⟨2, .staticBuffer [1, 2]⟩]⟩ ∧
    insert ⟨4, fun k => k == 3, fun _ => false, true, 4⟩ 2 (⟨[], 2, 2, 0, 0, []⟩ : Mem Nat)
        ⟨2, .staticBuffer [1, 2]⟩ 0 9 =
      some (.thrown (⟨[], 4, 3, 0, 0, []⟩, ⟨3, .staticBuffer [1, 2, 9]⟩)) ∧
    World.call ⟨4, fun k => k == 3, fun _ => false, true, 4⟩ 2
        (⟨⟨[], 2, 2, 0, 0, []⟩, [some ⟨2, .staticBuffer [1, 2]⟩]⟩ : World Nat)
        (.mutate 0 (.insert 0 9)) =
      some (.thrown ⟨⟨[], 4, 3, 0, 0, []⟩, [some ⟨3, .staticBuffer [1, 2, 9]⟩]⟩) ∧
    World.run ⟨4, fun k => k == 3, fun _ => false, true, 4⟩ 2 (World.init : World Nat)
        [.construct, .mutate 0 (.push_back 1), .mutate 0 (.push_back 2),
          .mutate 0 (.insert 0 9)] =
      some ⟨⟨[], 4, 3, 0, 0, []⟩, [some ⟨3, .staticBuffer [1, 2, 9]⟩]⟩ ∧
    size (⟨3, .staticBuffer [1, 2, 9]⟩ : socow_vector Nat) ≠
      size (⟨2, .staticBuffer [1, 2]⟩ : socow_vector Nat) ∧
    contents (⟨[], 4, 3, 0, 0, []⟩ : Mem Nat) ⟨3, .staticBuffer [1, 2, 9]⟩ ≠
      contents (⟨[], 2, 2, 0, 0, []⟩ : Mem Nat) ⟨2, .staticBuffer [1, 2]⟩ ∧
    World.run ⟨2, fun k => k == 3, fun _ => false, true, 4⟩ 2 (World.init : World Nat)
        [.construct, .mutate 0 (.push_back 1), .mutate 0 (.push_back 2)] =
      some ⟨⟨[], 2, 2, 0, 0, []⟩, [some ⟨2, .staticBuffer [1, 2]⟩]⟩ ∧
    insert ⟨2, fun k => k == 3, fun _ => false, true, 4⟩ 2 (⟨[], 2, 2, 0, 0, []⟩ : Mem Nat)
        ⟨2, .staticBuffer [1, 2]⟩ 1 9 =
      some (.thrown (⟨[none], 4, 3, 1, 1, [32]⟩, ⟨2, .staticBuffer [1, 2]⟩)) := by
  decide

/-- Where `insert` does give the strong exception guarantee. For a container in any
storage state, every in-range position and every value, whatever the element type and
the allocator do: (1) an `insert` that exits by an exception leaves the container object
(mode, `size()`, handle or inline elements), its `capacity()`, its element values, the
refcount of its block and every heap cell exactly as before the call, whenever the
exception comes from the reallocating branch, or from the construction of the new
element in the in-place branch, or the position is `end()`, or `std::swap` of the
element type does not call the copy constructor; (2) an `insert` whose run without
exceptions makes the copy constructions numbered `m.copies`, ..., and one of those
throws, does exit by an exception. A throw of `std::swap` during the swap walk of the
in-place branch is not covered. -/
theorem insert_strong_guarantee_outside_walk {E : Env} {m : Mem T} {v : socow_vector T}
    (hv : WF E m v) {k : Nat} (hk : k ≤ size v) (x : T) :
    (∀ fuel s, insert E fuel m v k x = some (.thrown s) →
      (E.swapCopies = false ∨ k = size v ∨ E.copyThrows m.copies = true ∨
        (exclusive m v && decide (size v < capacity E m v)) = false) →
      s.2 = v ∧ size s.2 = size v ∧ capacity E s.1 s.2 = capacity E m v ∧
        contents s.1 s.2 = contents m v ∧ cntRef s.1 s.2 = cntRef m v ∧
        ∀ q, s.1.heap.cell q = m.heap.cell q) ∧
    (∀ fuel0 i s0 j, insert E.calm fuel0 m v k x = some (.ok i s0) →
      m.copies ≤ j → j < s0.1.copies → E.copyThrows j = true →
      ∀ fuel, ∃ s, insert E (fuel + 2) m v k x = some (.thrown s)) := by
  constructor
  · intro fuel s h hw
    obtain ⟨h1, h2⟩ := insert_thrown_any hv hk x fuel hw h
    obtain ⟨h4, h5, h6, _⟩ := observers_of_cells E h2 v
    rw [h1]
    exact ⟨rfl, rfl, h4, h5, h6, h2⟩
  · intro fuel0 i s0 j h0 hj1 hj2 hj fuel
    exact insert_fails hv hk x fuel fuel0 h0 hj1 hj2 hj

/-- An instance of the guarantee outside the swap walk: with `SMALL_SIZE = 2`, an element type whose `std::swap` copies and
whose fourth copy construction throws, `insert(begin() + 1, 9)` on the full inline
`[1,2]` (two copies made so far) takes the reallocating branch, copies one element into
the temporary and fails while constructing 9 in it; the temporary's block is freed and
the container is the inline `[1,2]` as before. -/
theorem insert_strong_guarantee_outside_walk_example :
    WF ⟨2, fun k => k == 3, fun _ => false, true, 4⟩ (⟨[], 2, 2, 0, 0, []⟩ : Mem Nat)
      ⟨2, .staticBuffer [1, 2]⟩ ∧
    insert ⟨2, fun k => k == 3, fun _ => false, true, 4⟩ 2 (⟨[], 2, 2, 0, 0, []⟩ : Mem Nat)
        ⟨2, .staticBuffer [1, 2]⟩ 1 9 =
      some (.thrown (⟨[none], 4, 3, 1, 1, [32]⟩, ⟨2, .staticBuffer [1, 2]⟩)) ∧
    contents (⟨[none], 4, 3, 1, 1, [32]⟩ : Mem Nat) ⟨2, .staticBuffer [1, 2]⟩ = [1, 2] ∧
    (∀ q, (⟨[none], 4, 3, 1, 1, [32]⟩ : Mem Nat).heap.cell q =
      (⟨[], 2, 2, 0, 0, []⟩ : Mem Nat).heap.cell q) ∧
    ∃ s, insert ⟨2, fun k => k == 3, fun _ => false, true, 4⟩ 2 (⟨[], 2, 2, 0, 0, []⟩ : Mem Nat)
        ⟨2, .staticBuffer [1, 2]⟩ 1 9 = some (.thrown s) :=
  ⟨by decide, by decide,
   ((insert_strong_guarantee_outside_walk (E := ⟨2, fun k => k == 3, fun _ => false, true, 4⟩)
      (m := (⟨[], 2, 2, 0, 0, []⟩ : Mem Nat)) (v := ⟨2, .staticBuffer [1, 2]⟩) (by decide)
      (k := 1) (by decide) 9).1 2 (⟨[none], 4, 3, 1, 1, [32]⟩, ⟨2, .staticBuffer [1, 2]⟩)
      (by decide) (Or.inr (Or.inr (Or.inr (by decide))))).2.2.2.1,
   ((insert_strong_guarantee_outside_walk (E := ⟨2, fun k => k == 3, fun _ => false, true, 4⟩)
      (m := (⟨[], 2, 2, 0, 0, []⟩ : Mem Nat)) (v := ⟨2, .staticBuffer [1, 2]⟩) (by decide)
      (k := 1) (by decide) 9).1 2 (⟨[none], 4, 3, 1, 1, [32]⟩, ⟨2, .staticBuffer [1, 2]⟩)
      (by decide) (Or.inr (Or.inr (Or.inr (by decide))))).2.2.2.2.2,
   (insert_strong_guarantee_outside_walk (E := ⟨2, fun k => k == 3, fun _ => false, true, 4⟩)
      (m := (⟨[], 2, 2, 0, 0, []⟩ : Mem Nat)) (v := ⟨2, .staticBuffer [1, 2]⟩) (by decide)
      (k := 1) (by decide) 9).2 2 1
      (⟨[some ⟨4, 1, [1, 9, 2]⟩], 5, 5, 2, 1, [32]⟩, ⟨3, .dynamicBuffer 0⟩) 3 (by decide)
      (by decide) (by decide) rfl 0⟩

end Socow
